import Mathlib

/-!
# dag-layout: a shallow embedding of `src/index.js`

Objects of the JavaScript class `VirtualNode` are identified by the index at
which they were allocated; every field of the class becomes one map from
object index to field value (`Heap`).  Functions of the source that mutate
objects become functions that take a heap and return the updated heap.

* a `while` loop becomes a recursive function with an explicit step budget:
  `Res.timeout` is returned when the budget is used up, and the theorems
  show that a finite budget always suffices;
* a JavaScript exception (thrown explicitly, or a `TypeError` of the
  runtime when `undefined` is dereferenced) becomes `Res.throw`;
* `undefined` field values become `none`.
-/

namespace DagLayout

/-! ## Results of running a function of the source -/

/-- Outcome of running a function of the source: a normal return, a thrown
exception, or an exhausted step budget. -/
inductive Res (α : Type) where
  | ok (a : α) : Res α
  | throw (msg : String) : Res α
  | timeout : Res α
  deriving Repr, DecidableEq

/-- Sequencing of two computations; exceptions and timeouts propagate. -/
def Res.bind {α β : Type} (x : Res α) (f : α → Res β) : Res β :=
  match x with
  | .ok a => f a
  | .throw m => .throw m
  | .timeout => .timeout

instance : Monad Res where
  pure := Res.ok
  bind := Res.bind

/-! ## The object heap -/

/-- Pointwise update of a field map. -/
def upd {α : Type} (f : Nat → α) (a : Nat) (v : α) : Nat → α :=
  fun b => if b = a then v else f b

/-- The fields of all `VirtualNode` objects, one map per field of the class
(`data` and `layoutId` carry no behaviour of the pipeline and are left out).
`size` is the number of objects allocated so far. -/
structure Heap where
  flow : Nat → Option Int
  flowTop : Nat → Option Int
  flowBottom : Nat → Option Int
  orth : Nat → Option ℚ
  groupIndex : Nat → Option Nat
  virtual : Nat → Bool
  predecessors : Nat → List Nat
  successors : Nat → List Nat
  realPredecessors : Nat → List Nat
  realSuccessors : Nat → List Nat
  size : Nat

/-- The heap before any object is allocated. -/
def Heap.empty : Heap where
  flow := fun _ => none
  flowTop := fun _ => none
  flowBottom := fun _ => none
  orth := fun _ => none
  groupIndex := fun _ => none
  virtual := fun _ => false
  predecessors := fun _ => []
  successors := fun _ => []
  realPredecessors := fun _ => []
  realSuccessors := fun _ => []
  size := 0

/-- The constructor `new VirtualNode(data, flow)`: the new object gets the
next free index; `virtual` is `flow !== undefined`. -/
def Heap.alloc (h : Heap) (flow : Option Int) : Heap × Nat :=
  ({ h with
      flow := upd h.flow h.size flow
      flowTop := upd h.flowTop h.size none
      flowBottom := upd h.flowBottom h.size none
      orth := upd h.orth h.size none
      groupIndex := upd h.groupIndex h.size none
      virtual := upd h.virtual h.size flow.isSome
      predecessors := upd h.predecessors h.size []
      successors := upd h.successors h.size []
      realPredecessors := upd h.realPredecessors h.size []
      realSuccessors := upd h.realSuccessors h.size []
      size := h.size + 1 }, h.size)

/-- The method `this.addSuccessor(otherNode)`. -/
def addSuccessor (h : Heap) (this otherNode : Nat) : Heap :=
  let h1 := { h with predecessors := upd h.predecessors otherNode (h.predecessors otherNode ++ [this]) }
  { h1 with successors := upd h1.successors this (h1.successors this ++ [otherNode]) }

/-- The method `this.removeSuccessor(otherNode)`. -/
def removeSuccessor (h : Heap) (this otherNode : Nat) : Heap :=
  let h1 := { h with
    predecessors := upd h.predecessors otherNode
      ((h.predecessors otherNode).filter (fun item => decide (item ≠ this))) }
  { h1 with
    successors := upd h1.successors this
      ((h1.successors this).filter (fun item => decide (item ≠ otherNode))) }

/-! ## The `Graph` class: node and edge store -/

/-- The fields `nodes` and `edges` of a `Graph`, as association lists in
insertion order, and the heap holding the node objects. -/
structure Graph where
  nodes : List (String × Nat)
  edges : List (String × List String)
  heap : Heap

/-- The graph made by `new Graph()`. -/
def Graph.empty : Graph := { nodes := [], edges := [], heap := Heap.empty }

/-- Property lookup `obj[key]`. -/
def lookup {β : Type} (key : String) : List (String × β) → Option β
  | [] => none
  | (k, v) :: rest => if k = key then some v else lookup key rest

/-- Property assignment `obj[key] = value`. -/
def assign {β : Type} (key : String) (value : β) : List (String × β) → List (String × β)
  | [] => [(key, value)]
  | (k, v) :: rest => if k = key then (k, value) :: rest else (k, v) :: assign key value rest

/-- `Object.values(this.nodes)` for keys enumerated in insertion order. -/
def Graph.values (g : Graph) : List Nat := g.nodes.map Prod.snd

/-- The method `addNode(nodeData)`, where `id` is `nodeData[this.nodeIdProp]`. -/
def Graph.addNode (g : Graph) (id : String) : Res (Graph × Nat) :=
  match lookup id g.nodes with
  | some _ => .throw ("Duplicate Node ID " ++ id)
  | none =>
    let (h, node) := g.heap.alloc none
    .ok ({ g with nodes := assign id node g.nodes, heap := h }, node)

/-- The method `addEdge(predecessorId, successorId)`. -/
def Graph.addEdge (g : Graph) (predecessorId successorId : String) : Res Graph :=
  match lookup predecessorId g.nodes, lookup successorId g.nodes with
  | none, _ => .throw ("Predecessor not found, ID " ++ predecessorId)
  | some _, none => .throw ("Successor not found, ID " ++ successorId)
  | some predecessor, some successor =>
    .ok { g with
      heap := addSuccessor g.heap predecessor successor
      edges := assign predecessorId
        ((lookup predecessorId g.edges).getD [] ++ [successorId]) g.edges }

/-- The method `removeEdge(predecessorId, successorId)`. -/
def Graph.removeEdge (g : Graph) (predecessorId successorId : String) : Res Graph :=
  match lookup predecessorId g.nodes, lookup successorId g.nodes with
  | none, _ => .throw ("Predecessor not found, ID " ++ predecessorId)
  | some _, none => .throw ("Successor not found, ID " ++ successorId)
  | some predecessor, some successor =>
    .ok { g with
      heap := removeSuccessor g.heap predecessor successor
      edges := assign predecessorId
        (((lookup predecessorId g.edges).getD []).filter (fun item => decide (item ≠ successorId)))
        g.edges }

/-- One call made by a client of the `Graph` class before `layout`. -/
inductive Op where
  | addNode (id : String) : Op
  | addEdge (predecessorId successorId : String) : Op
  | removeEdge (predecessorId successorId : String) : Op

/-- Run one call; a call that throws leaves the graph as it was. -/
def Graph.step (g : Graph) : Op → Graph
  | .addNode id => match g.addNode id with
    | .ok (g', _) => g'
    | _ => g
  | .addEdge p s => match g.addEdge p s with
    | .ok g' => g'
    | _ => g
  | .removeEdge p s => match g.removeEdge p s with
    | .ok g' => g'
    | _ => g

/-- The graph reached from `new Graph()` by a sequence of calls. -/
def Graph.build (ops : List Op) : Graph := ops.foldl Graph.step Graph.empty

/-! ## `removeCycles` -/

/-- The statement `a.splice(a.indexOf(x), 1)`: the first occurrence of `x` is
removed; when `x` is absent `indexOf` is `-1` and the last element goes. -/
def spliceOut (a : List Nat) (x : Nat) : List Nat :=
  if x ∈ a then a.erase x else a.dropLast

/-- The loop of `removeCycles`; `unmarkedNodes` and `cyclicEdges` are its two
local variables. -/
def removeCyclesLoop : Nat → Heap → List Nat → List Nat → List (Nat × Nat) →
    Res (Heap × List (Nat × Nat))
  | 0, _, _, _, _ => .timeout
  | fuel + 1, h, nodes, unmarkedNodes, cyclicEdges =>
    if unmarkedNodes.length > 0 then
      let newMarkedNodes := unmarkedNodes.filter (fun n =>
        !(h.predecessors n).any (fun s => decide (s ∈ unmarkedNodes)) ||
        !(h.successors n).any (fun s => decide (s ∈ unmarkedNodes)))
      if newMarkedNodes.length = 0 then
        let possibleCyclicEdges :=
          (nodes.filter (fun node => decide (node ∈ unmarkedNodes))).flatMap (fun node =>
            ((h.predecessors node).filter (fun p => decide (p ∈ unmarkedNodes))).map
              (fun p => (p, node)))
        match possibleCyclicEdges.head? with
        | none => .throw "TypeError: possibleCyclicEdges[0] is undefined"
        | some e =>
          removeCyclesLoop fuel (removeSuccessor h e.1 e.2) nodes unmarkedNodes
            (cyclicEdges ++ [e])
      else
        removeCyclesLoop fuel h nodes (newMarkedNodes.foldl spliceOut unmarkedNodes) cyclicEdges
    else
      .ok (h, cyclicEdges)

/-- The function `removeCycles(nodes)`: returns the heap with the severed
adjacency and the list of removed edges. -/
def removeCycles (fuel : Nat) (h : Heap) (nodes : List Nat) : Res (Heap × List (Nat × Nat)) :=
  removeCyclesLoop fuel h nodes nodes []

/-! ## Well-formed adjacency -/

/-- The directed edge relation read off the `successors` lists. -/
def Heap.edge (h : Heap) (a b : Nat) : Prop := b ∈ h.successors a

/-- No non-empty walk along `successors` returns to its start. -/
def Heap.Acyclic (h : Heap) : Prop := ∀ n, ¬ Relation.TransGen h.edge n n

/-- Adjacency is stored on both ends: `b` is a successor of `a` exactly when
`a` is a predecessor of `b`. -/
def Heap.Symmetric (h : Heap) : Prop := ∀ a b, b ∈ h.successors a ↔ a ∈ h.predecessors b

/-- Every edge joins two nodes of the list. -/
def Heap.ClosedOn (h : Heap) (nodes : List Nat) : Prop :=
  ∀ a b, b ∈ h.successors a → a ∈ nodes ∧ b ∈ nodes

/-- Two heaps agree on every field except the adjacency lists. -/
structure AdjFrame (h h' : Heap) : Prop where
  flow : h'.flow = h.flow
  flowTop : h'.flowTop = h.flowTop
  flowBottom : h'.flowBottom = h.flowBottom
  orth : h'.orth = h.orth
  groupIndex : h'.groupIndex = h.groupIndex
  virtual : h'.virtual = h.virtual
  realPredecessors : h'.realPredecessors = h.realPredecessors
  realSuccessors : h'.realSuccessors = h.realSuccessors
  size : h'.size = h.size

/-- What a graph made by `addNode`, `addEdge` and `removeEdge` looks like
before the first `layout`: distinct node objects, symmetric adjacency among
them, and the layout fields still unset. -/
structure Fresh (h : Heap) (nodes : List Nat) : Prop where
  nodup : nodes.Nodup
  bound : ∀ a ∈ nodes, a < h.size
  closed : h.ClosedOn nodes
  sym : h.Symmetric
  groupIndex : ∀ a, h.groupIndex a = none
  virtual : ∀ a, h.virtual a = false
  flow : ∀ a, h.flow a = none

/-- Number of stored successor entries over a list of nodes. -/
def edgeCount (h : Heap) (nodes : List Nat) : Nat :=
  (nodes.map (fun a => (h.successors a).length)).sum

/-- Loop invariant of `removeCycles`, relative to the heap `h0` on entry. -/
structure RemoveCyclesInv (h0 : Heap) (nodes : List Nat) (h : Heap) (unmarkedNodes : List Nat)
    (cyclicEdges : List (Nat × Nat)) : Prop where
  sym : h.Symmetric
  closed : h.ClosedOn nodes
  nodup : unmarkedNodes.Nodup
  sub : ∀ a ∈ unmarkedNodes, a ∈ nodes
  cyc : ∀ a, Relation.TransGen h.edge a a → a ∈ unmarkedNodes
  succ_eq : ∀ a, h.successors a =
    (h0.successors a).filter (fun b => decide ((a, b) ∉ cyclicEdges))
  pred_eq : ∀ b, h.predecessors b =
    (h0.predecessors b).filter (fun a => decide ((a, b) ∉ cyclicEdges))
  frame : AdjFrame h0 h
  removed : ∀ e ∈ cyclicEdges, e.2 ∈ h0.successors e.1

/-! ## `groupNodes` -/

/-- The inner loop of `groupNodes` over `nodeQueue`; `group` is
`nodeGroups[nodeGroupIndex]`. -/
def groupNodesQueue : Nat → Heap → Nat → List Nat → List Nat → Res (Heap × List Nat)
  | 0, _, _, _, _ => .timeout
  | fuel + 1, h, nodeGroupIndex, nodeQueue, group =>
    match nodeQueue with
    | [] => .ok (h, group)
    | currentNode :: rest =>
      if h.groupIndex currentNode = none then
        groupNodesQueue fuel
          { h with groupIndex := upd h.groupIndex currentNode (some nodeGroupIndex) }
          nodeGroupIndex
          (rest ++ (h.predecessors currentNode ++ h.successors currentNode))
          (group ++ [currentNode])
      else
        groupNodesQueue fuel h nodeGroupIndex rest group

/-- The outer loop of `groupNodes`.  `nodeGroupIndex` always equals the length
of `nodeGroups`, so the assignment `nodeGroups[nodeGroupIndex] = …` appends. -/
def groupNodesLoop : Nat → Heap → List Nat → Nat → List (List Nat) →
    Res (Heap × List (List Nat))
  | 0, _, _, _, _ => .timeout
  | fuel + 1, h, nodes, nodeGroupIndex, nodeGroups =>
    match nodes with
    | [] => .ok (h, nodeGroups)
    | first :: _ =>
      match groupNodesQueue fuel h nodeGroupIndex [first] [] with
      | .ok (h', group) =>
        groupNodesLoop fuel h' (nodes.filter (fun node => h'.groupIndex node = none))
          (nodeGroupIndex + 1) (nodeGroups ++ [group])
      | .throw msg => .throw msg
      | .timeout => .timeout

/-- The function `groupNodes(nodes)`. -/
def groupNodes (fuel : Nat) (h : Heap) (nodes : List Nat) : Res (Heap × List (List Nat)) :=
  groupNodesLoop fuel h nodes 0 []

/-- The links `groupNodes` follows from a node: its predecessors and its
successors. -/
def Heap.linked (h : Heap) (a b : Nat) : Prop := b ∈ h.predecessors a ∨ b ∈ h.successors a

/-- Two nodes are joined by a path that ignores edge direction. -/
def Heap.Connected (h : Heap) : Nat → Nat → Prop := Relation.ReflTransGen h.linked

/-- Number of nodes of `all` whose `groupIndex` is still undefined. -/
def ungrouped (gi : Nat → Option Nat) (all : List Nat) : Nat :=
  (all.filter (fun n => gi n = none)).length

/-- Invariant of the inner loop of `groupNodes` for the group with index `idx`
started at `first`; `gis` is the `groupIndex` map when the loop is entered. -/
structure QueueInv (h0 : Heap) (all : List Nat) (idx first : Nat) (gis : Nat → Option Nat)
    (gi : Nat → Option Nat) (queue group : List Nat) : Prop where
  gi_eq : ∀ n, gi n = if n ∈ group then some idx else gis n
  unv : ∀ n ∈ group, gis n = none
  nodup : group.Nodup
  frontier : ∀ n ∈ group, ∀ m, h0.linked n m → gi m ≠ none ∨ m ∈ queue
  connQ : ∀ n ∈ queue, h0.Connected first n
  connG : ∀ n ∈ group, h0.Connected first n
  subQ : ∀ n ∈ queue, n ∈ all
  subG : ∀ n ∈ group, n ∈ all
  start : first ∈ queue ∨ first ∈ group
  fresh : gis first = none

/-- Invariant of the outer loop of `groupNodes` over the node list `all`. -/
structure GroupInv (h0 : Heap) (all : List Nat) (gi : Nat → Option Nat) (nodes : List Nat)
    (idx : Nat) (groups : List (List Nat)) : Prop where
  len : groups.length = idx
  rest : nodes = all.filter (fun n => gi n = none)
  mem : ∀ i n, n ∈ all → ((∃ g, groups[i]? = some g ∧ n ∈ g) ↔ gi n = some i)
  closed : ∀ n m, n ∈ all → gi n ≠ none → h0.linked n m → gi m = gi n
  conn : ∀ n m i, n ∈ all → m ∈ all → gi n = some i → gi m = some i → h0.Connected n m
  nodup : ∀ g ∈ groups, g.Nodup
  nonempty : ∀ g ∈ groups, g ≠ []
  sub : ∀ g ∈ groups, ∀ n ∈ g, n ∈ all

/-! ## `topoSortNodes` and `calculateFlow` -/

/-- The property names passed as `relProp`. -/
inductive RelProp where
  | predecessors : RelProp
  | successors : RelProp
  deriving DecidableEq, Repr

/-- The property names passed as `orderProp`. -/
inductive OrderProp where
  | flowTop : OrderProp
  | flowBottom : OrderProp
  deriving DecidableEq, Repr

/-- The property read `n[relProp]`. -/
def Heap.rel (h : Heap) : RelProp → Nat → List Nat
  | .predecessors => h.predecessors
  | .successors => h.successors

/-- The property write `n[orderProp] = value`. -/
def Heap.setOrder (h : Heap) (orderProp : OrderProp) (n : Nat) (value : Int) : Heap :=
  match orderProp with
  | .flowTop => { h with flowTop := upd h.flowTop n (some value) }
  | .flowBottom => { h with flowBottom := upd h.flowBottom n (some value) }

/-- The property read `n[orderProp]`. -/
def Heap.order (h : Heap) : OrderProp → Nat → Option Int
  | .flowTop => h.flowTop
  | .flowBottom => h.flowBottom

/-- The loop of `topoSortNodes`, with its local variables `flow` and
`unmarkedNodes`. -/
def topoSortNodesLoop : Nat → Heap → RelProp → OrderProp → Nat → List Nat → Res (Heap × Nat)
  | 0, _, _, _, _, _ => .timeout
  | fuel + 1, h, relProp, orderProp, flow, unmarkedNodes =>
    if unmarkedNodes.length > 0 then
      let newMarkedNodes := unmarkedNodes.filter (fun n =>
        !(h.rel relProp n).any (fun p => decide (p ∈ unmarkedNodes)))
      if newMarkedNodes.length = 0 then
        .throw "Cycle detected in graph during flow calculation!"
      else
        let marked := newMarkedNodes.foldl
          (fun (s : Heap × List Nat) newMarkedNode =>
            (s.1.setOrder orderProp newMarkedNode flow, spliceOut s.2 newMarkedNode))
          (h, unmarkedNodes)
        topoSortNodesLoop fuel marked.1 relProp orderProp (flow + 1) marked.2
    else
      .ok (h, flow)

/-- The function `topoSortNodes(nodes, relProp, orderProp)`. -/
def topoSortNodes (fuel : Nat) (h : Heap) (nodes : List Nat) (relProp : RelProp)
    (orderProp : OrderProp) : Res (Heap × Nat) :=
  topoSortNodesLoop fuel h relProp orderProp 0 nodes

/-- `Math.floor(x / 2)` for an integer `x`. -/
def floorHalf (x : Int) : Int := x / 2

/-- `Math.ceil(x / 2)` for an integer `x`. -/
def ceilHalf (x : Int) : Int := -((-x) / 2)

/-- The body of the `for` loop of `calculateFlow` for one node; an
arithmetic result that is `NaN` because an operand is `undefined` is `none`. -/
def calculateFlowNode (alignNodes : String) (maxFlow : Nat) (h : Heap) (node : Nat) : Heap :=
  if alignNodes = "start" then
    { h with flow := upd h.flow node (h.flowTop node), flowTop := upd h.flowTop node none }
  else if alignNodes = "end" then
    { h with
      flow := upd h.flow node ((h.flowBottom node).map (fun b => (maxFlow : Int) - 1 - b))
      flowBottom := upd h.flowBottom node none }
  else if alignNodes = "center-start" then
    { h with
      flow := upd h.flow node
        ((h.flowTop node).bind (fun t => (h.flowBottom node).map (fun b =>
          floorHalf (t + (maxFlow : Int) - 1 - b))))
      flowTop := upd h.flowTop node none
      flowBottom := upd h.flowBottom node none }
  else if alignNodes = "center-end" then
    { h with
      flow := upd h.flow node
        ((h.flowTop node).bind (fun t => (h.flowBottom node).map (fun b =>
          ceilHalf (t + (maxFlow : Int) - 1 - b))))
      flowTop := upd h.flowTop node none
      flowBottom := upd h.flowBottom node none }
  else h

/-- The function `calculateFlow(nodes, alignNodes)`. -/
def calculateFlow (fuel : Nat) (h : Heap) (nodes : List Nat) (alignNodes : String) :
    Res (Heap × Nat) :=
  (if alignNodes ∈ ["start", "center-start", "center-end"] then
      topoSortNodes fuel h nodes .predecessors .flowTop
    else .ok (h, 0)).bind fun (h1, maxFlow1) =>
  (if alignNodes ∈ ["end", "center-end", "center-start"] then
      topoSortNodes fuel h1 nodes .successors .flowBottom
    else .ok (h1, maxFlow1)).bind fun (h2, maxFlow) =>
  .ok (nodes.foldl (calculateFlowNode alignNodes maxFlow) h2, maxFlow)

/-- A walk with `k` steps along a relation. -/
inductive Walk (r : Nat → Nat → Prop) : Nat → Nat → Nat → Prop where
  | refl (a : Nat) : Walk r a a 0
  | tail {a b c : Nat} {k : Nat} : Walk r a b k → r b c → Walk r a c (k + 1)

/-- `k` is the greatest number of steps of a walk along `r` that ends at `n`. -/
def LongestTo (r : Nat → Nat → Prop) (n k : Nat) : Prop :=
  (∃ a, Walk r a n k) ∧ ∀ a k', Walk r a n k' → k' ≤ k

/-- The heap with the whole map of one order property replaced. -/
def Heap.withOrder (h : Heap) (orderProp : OrderProp) (f : Nat → Option Int) : Heap :=
  match orderProp with
  | .flowTop => { h with flowTop := f }
  | .flowBottom => { h with flowBottom := f }

/-- The relation "`p` is listed in `n[relProp]`". -/
def Heap.listed (h : Heap) (relProp : RelProp) (p n : Nat) : Prop := p ∈ h.rel relProp n

/-- Loop invariant of `topoSortNodes` over the node list `all`: `ord` is the
current map of the order property, `ord0` the one on entry. -/
structure TopoInv (r : Nat → Nat → Prop) (all : List Nat) (ord0 : Nat → Option Int)
    (flow : Nat) (unmarkedNodes : List Nat) (ord : Nat → Option Int) : Prop where
  nodup : unmarkedNodes.Nodup
  sub : ∀ n ∈ unmarkedNodes, n ∈ all
  marked : ∀ n ∈ all, n ∉ unmarkedNodes →
    ∃ d : Nat, ord n = some (d : Int) ∧ d < flow ∧ LongestTo r n d
  unmarked : ∀ n ∈ unmarkedNodes, ∃ a, Walk r a n flow
  outside : ∀ n, n ∉ all → ord n = ord0 n
  last : flow = 0 ∨ ∃ n ∈ all, n ∉ unmarkedNodes ∧ LongestTo r n (flow - 1)

/-- Two heaps agree on every field except `flow`, `flowTop` and `flowBottom`. -/
structure FlowFrame (h h' : Heap) : Prop where
  orth : h'.orth = h.orth
  groupIndex : h'.groupIndex = h.groupIndex
  virtual : h'.virtual = h.virtual
  predecessors : h'.predecessors = h.predecessors
  successors : h'.successors = h.successors
  realPredecessors : h'.realPredecessors = h.realPredecessors
  realSuccessors : h'.realSuccessors = h.realSuccessors
  size : h'.size = h.size

/-- The rank `calculateFlow` computes for one node from its two directional
ranks, per alignment mode. -/
def flowValue (alignNodes : String) (maxFlow : Nat) (flowTop flowBottom : Option Int) :
    Option Int :=
  if alignNodes = "start" then flowTop
  else if alignNodes = "end" then flowBottom.map (fun b => (maxFlow : Int) - 1 - b)
  else if alignNodes = "center-start" then
    flowTop.bind (fun t => flowBottom.map (fun b => floorHalf (t + (maxFlow : Int) - 1 - b)))
  else
    flowTop.bind (fun t => flowBottom.map (fun b => ceilHalf (t + (maxFlow : Int) - 1 - b)))

/-- The four values of the option `alignNodes`. -/
def alignNodeValues : List String := ["start", "center-start", "center-end", "end"]

/-- A group as `groupNodes` hands it to the next stages: distinct nodes,
symmetric adjacency that stays inside the group, and no cycle. -/
structure AcyclicGroup (h : Heap) (group : List Nat) : Prop where
  nodup : group.Nodup
  sym : h.Symmetric
  acyclic : h.Acyclic
  closedPred : ∀ n ∈ group, ∀ p ∈ h.predecessors n, p ∈ group
  closedSucc : ∀ n ∈ group, ∀ s ∈ h.successors n, s ∈ group

/-! ## `addVirtualNodes` -/

/-- The two arrays `addVirtualNodes` builds and the merger rewrites. -/
structure Layers where
  layeredNodes : List (List Nat)
  layeredEdges : List (List (Nat × Nat))
  deriving Repr, DecidableEq

/-- A left fold whose step may throw. -/
def Res.foldl {σ α : Type} (f : σ → α → Res σ) : σ → List α → Res σ
  | s, [] => .ok s
  | s, a :: rest => (f s a).bind (fun s' => Res.foldl f s' rest)

/-- The read `a[i]` of an array of arrays that is then spread or filtered:
an index that is `undefined`, negative or past the end makes the use of the
result throw a `TypeError`. -/
def layerAt {α : Type} (a : List (List α)) (i : Option Int) : Res (List α) :=
  match i with
  | none => .throw "TypeError: undefined is not iterable"
  | some k =>
    if 0 ≤ k ∧ k.toNat < a.length then .ok (a.getD k.toNat [])
    else .throw "TypeError: undefined is not iterable"

/-- The statement `a[i] = value` after `a[i]` has been read successfully. -/
def setLayer {α : Type} (a : List (List α)) (i : Option Int) (value : List α) : List (List α) :=
  match i with
  | none => a
  | some k => a.set k.toNat value

/-- The statement `a[i] = [...a[i], x]`. -/
def pushAt {α : Type} (a : List (List α)) (i : Option Int) (x : α) : Res (List (List α)) :=
  (layerAt a i).bind fun layer => .ok (setLayer a i (layer ++ [x]))

/-- The first four statements of the innermost loop body of `addVirtualNodes`:
`new VirtualNode(null, i)` and the assignments of `realPredecessors`,
`realSuccessors` and `groupIndex`. -/
def allocIntermediate (h : Heap) (i : Int) (node successor : Nat) : Heap × Nat :=
  let h1 := (h.alloc (some i)).1
  let intermediate := (h.alloc (some i)).2
  let h2 := { h1 with realPredecessors := upd h1.realPredecessors intermediate [node] }
  let h3 := { h2 with realSuccessors := upd h2.realSuccessors intermediate [successor] }
  ({ h3 with groupIndex := upd h3.groupIndex intermediate (h3.groupIndex node) }, intermediate)

/-- The innermost `for` loop of `addVirtualNodes`, run `count` times from
index `i`; returns the last value of the variable `predecessor`. -/
def addVirtualChain : Nat → Int → Nat → Nat → Nat → Heap → Layers → Res (Heap × Layers × Nat)
  | 0, _, _, _, predecessor, h, ls => .ok (h, ls, predecessor)
  | count + 1, i, node, successor, predecessor, h, ls =>
    let h' := (allocIntermediate h i node successor).1
    let intermediate := (allocIntermediate h i node successor).2
    (pushAt ls.layeredNodes (some i) intermediate).bind fun layeredNodes =>
    (pushAt ls.layeredEdges (h'.flow predecessor) (predecessor, intermediate)).bind
      fun layeredEdges =>
    addVirtualChain count (i + 1) node successor intermediate h'
      { layeredNodes := layeredNodes, layeredEdges := layeredEdges }

/-- How often the innermost loop `for (i = nodeFlow + 1; i < successor.flow; i++)`
runs; a comparison with `undefined` is false. -/
def chainCount (nodeFlow : Int) (successorFlow : Option Int) : Nat :=
  match successorFlow with
  | none => 0
  | some sf => (sf - (nodeFlow + 1)).toNat

/-- The body of the loop over `node.successors` in `addVirtualNodes`. -/
def addVirtualEdge (node : Nat) (nodeFlow : Int) (s : Heap × Layers) (successor : Nat) :
    Res (Heap × Layers) :=
  (addVirtualChain (chainCount nodeFlow (s.1.flow successor)) (nodeFlow + 1) node successor
    node s.1 s.2).bind fun r =>
  (pushAt r.2.1.layeredEdges (r.1.flow r.2.2) (r.2.2, successor)).bind fun layeredEdges =>
  .ok (r.1, { r.2.1 with layeredEdges := layeredEdges })

/-- The body of the loop over `nodes` in `addVirtualNodes`. -/
def addVirtualNode (s : Heap × Layers) (node : Nat) : Res (Heap × Layers) :=
  (pushAt s.2.layeredNodes (s.1.flow node) node).bind fun layeredNodes =>
  match s.1.flow node with
  | none => .throw "TypeError: undefined is not iterable"
  | some nodeFlow =>
    Res.foldl (addVirtualEdge node nodeFlow) (s.1, { s.2 with layeredNodes := layeredNodes })
      (s.1.successors node)

/-- The function `addVirtualNodes(nodes, maxLength)`; `Array(maxLength - 1)`
throws a `RangeError` when `maxLength` is 0. -/
def addVirtualNodes (h : Heap) (nodes : List Nat) (maxLength : Nat) : Res (Heap × Layers) :=
  if maxLength = 0 then .throw "RangeError: Invalid array length"
  else
    Res.foldl addVirtualNode
      (h, { layeredNodes := List.replicate maxLength [],
            layeredEdges := List.replicate (maxLength - 1) [] }) nodes

/-! ## Merging virtual nodes -/

/-- The function `nodeRelEquals(a1, a2)`. -/
def nodeRelEquals (a1 a2 : List Nat) : Bool :=
  decide (a1.length = a2.length) && a1.all (fun item => decide (item ∈ a2))

/-- The array expression `a.filter(filterDuplicates)`: an element is kept where
its index is the index of its first occurrence. -/
def filterDuplicates (a : List Nat) : List Nat :=
  (a.enum.filter (fun iv => decide (a.indexOf iv.2 = iv.1))).map Prod.snd

/-- The result object `{ node, group, pre }` of the search for a merge. -/
structure Mergable where
  node : Nat
  group : List Nat
  pre : Bool
  deriving Repr, DecidableEq

/-- The function `getNextMergableVirtualNodeGroup(layeredNodes, pre)`;
`none` is `null`. -/
def getNextMergableVirtualNodeGroup (h : Heap) (layeredNodes : List (List Nat)) (pre : Bool) :
    Option Mergable :=
  let relProp := if pre then h.realPredecessors else h.realSuccessors
  let maxLength := layeredNodes.length
  (List.range maxLength).findSome? fun i =>
    let virtualNodes :=
      (layeredNodes.getD (if pre then i else maxLength - i - 1) []).filter (fun node => h.virtual node)
    virtualNodes.findSome? fun node =>
      let group := virtualNodes.filter
        (fun otherNode => decide (otherNode ≠ node) && nodeRelEquals (relProp node) (relProp otherNode))
      if group.length > 0 then some { node := node, group := group, pre := pre } else none

/-- The body of the loop over `group` in `mergeNextVirtualNodeGroup`. -/
def mergeReplaced (node : Nat) (flow : Option Int) (pre : Bool) (s : Heap × Layers)
    (replacedNode : Nat) : Res (Heap × Layers) :=
  let flowBefore := flow.map (fun f => f - 1)
  (layerAt s.2.layeredNodes flow).bind fun nodeLayer =>
  let layeredNodes := setLayer s.2.layeredNodes flow
    (nodeLayer.filter (fun item => decide (item ≠ replacedNode)))
  (if pre then
      (layerAt s.2.layeredEdges flow).bind fun edgesOut =>
        .ok ((edgesOut.filter (fun edge => decide (edge.1 = replacedNode))).map
          (fun edge => (node, edge.2)))
    else
      (layerAt s.2.layeredEdges flowBefore).bind fun edgesIn =>
        .ok ((edgesIn.filter (fun edge => decide (edge.2 = replacedNode))).map
          (fun edge => (edge.1, node)))).bind fun newEdges =>
  (layerAt s.2.layeredEdges flowBefore).bind fun edgesIn =>
  let layeredEdges1 := setLayer s.2.layeredEdges flowBefore
    (edgesIn.filter (fun edge => decide (edge.2 ≠ replacedNode)))
  (layerAt layeredEdges1 flow).bind fun edgesOut =>
  let layeredEdges2 := setLayer layeredEdges1 flow
    (edgesOut.filter (fun edge => decide (edge.1 ≠ replacedNode)))
  if pre then
    let merged := filterDuplicates (s.1.realSuccessors node ++ s.1.realSuccessors replacedNode)
    let h' := { s.1 with realSuccessors := upd s.1.realSuccessors node merged }
    (layerAt layeredEdges2 flow).bind fun edgesOut2 =>
    .ok (h', { layeredNodes := layeredNodes,
               layeredEdges := setLayer layeredEdges2 flow (edgesOut2 ++ newEdges) })
  else
    let merged :=
      filterDuplicates (s.1.realPredecessors node ++ s.1.realPredecessors replacedNode)
    let h' := { s.1 with realPredecessors := upd s.1.realPredecessors node merged }
    (layerAt layeredEdges2 flowBefore).bind fun edgesIn2 =>
    .ok (h', { layeredNodes := layeredNodes,
               layeredEdges := setLayer layeredEdges2 flowBefore (edgesIn2 ++ newEdges) })

/-- The function `mergeNextVirtualNodeGroup(layeredNodes, layeredEdges,
mergeVirtualNodes)`; the returned option is `none` for `false`. -/
def mergeNextVirtualNodeGroup (h : Heap) (ls : Layers) (mergeVirtualNodes : String) :
    Res (Heap × Layers × Option String) :=
  let res := match getNextMergableVirtualNodeGroup h ls.layeredNodes
      (decide ("start" = mergeVirtualNodes)) with
    | some r => some r
    | none => getNextMergableVirtualNodeGroup h ls.layeredNodes (decide ("end" = mergeVirtualNodes))
  match res with
  | none => .ok (h, ls, none)
  | some r =>
    (Res.foldl (mergeReplaced r.node (h.flow r.node) r.pre) (h, ls) r.group).bind fun s =>
    .ok (s.1, s.2, some mergeVirtualNodes)

/-- Truthiness of the variable `mergeVirtualNodes` (`none` is `false`). -/
def truthy : Option String → Bool
  | none => false
  | some s => decide (s ≠ "")

/-- The loop `while (mergeVirtualNodes) { mergeVirtualNodes = mergeNextVirtualNodeGroup(…) }`
of `Graph.layout`; returns the final value of the variable too. -/
def mergeLoop : Nat → Heap → Layers → Option String → Res (Heap × Layers × Option String)
  | 0, _, _, _ => .timeout
  | fuel + 1, h, ls, mergeVirtualNodes =>
    match mergeVirtualNodes with
    | none => .ok (h, ls, none)
    | some s =>
      if truthy (some s) then
        (mergeNextVirtualNodeGroup h ls s).bind fun r => mergeLoop fuel r.1 r.2.1 r.2.2
      else .ok (h, ls, some s)

/-- The heap `h'` has all objects of `h`, with every field as in `h`. -/
structure HeapExt (h h' : Heap) : Prop where
  size : h.size ≤ h'.size
  flow : ∀ x, x < h.size → h'.flow x = h.flow x
  groupIndex : ∀ x, x < h.size → h'.groupIndex x = h.groupIndex x
  virtual : ∀ x, x < h.size → h'.virtual x = h.virtual x
  predecessors : ∀ x, x < h.size → h'.predecessors x = h.predecessors x
  successors : ∀ x, x < h.size → h'.successors x = h.successors x
  realPredecessors : ∀ x, x < h.size → h'.realPredecessors x = h.realPredecessors x
  realSuccessors : ∀ x, x < h.size → h'.realSuccessors x = h.realSuccessors x

/-- Every entry of the layers `ls` is still in `ls'`, layer by layer. -/
structure LayersLe (ls ls' : Layers) : Prop where
  nodes : ∀ i x, x ∈ ls.layeredNodes.getD i [] → x ∈ ls'.layeredNodes.getD i []
  edges : ∀ i e, e ∈ ls.layeredEdges.getD i [] → e ∈ ls'.layeredEdges.getD i []

/-- The layers have the shape for `maxLength` ranks and every entry sits in
the layer of its rank: a node of `layeredNodes[i]` has `flow = i`, a pair
of `layeredEdges[i]` goes from `flow = i` to `flow = i + 1`. -/
structure Ranked (maxLength : Nat) (h : Heap) (ls : Layers) : Prop where
  lenN : ls.layeredNodes.length = maxLength
  lenE : ls.layeredEdges.length = maxLength - 1
  nodes : ∀ i x, x ∈ ls.layeredNodes.getD i [] → h.flow x = some (i : Int) ∧ x < h.size
  edges : ∀ i p s, (p, s) ∈ ls.layeredEdges.getD i [] →
    h.flow p = some (i : Int) ∧ h.flow s = some ((i : Int) + 1) ∧ p < h.size ∧ s < h.size

/-- The nodes `xs` sit on consecutive ranks from `f` on, each in the layer
of its rank. -/
def OnRanks (h : Heap) (ls : Layers) : Int → List Nat → Prop
  | _, [] => True
  | f, w :: rest =>
    (h.flow w = some f ∧ 0 ≤ f ∧ w ∈ ls.layeredNodes.getD f.toNat []) ∧ OnRanks h ls (f + 1) rest

/-- Each node of `xs` is joined to the next by a pair of `layeredEdges`, the
first pair in layer `f`. -/
def Linked (ls : Layers) : Int → List Nat → Prop
  | _, [] => True
  | _, [_] => True
  | f, a :: b :: rest =>
    (0 ≤ f ∧ (a, b) ∈ ls.layeredEdges.getD f.toNat []) ∧ Linked ls (f + 1) (b :: rest)

/-- The virtual node `w` stands for the real edge `u → v`. -/
def Routes (h : Heap) (gi : Option Nat) (u v w : Nat) : Prop :=
  h.virtual w = true ∧ h.realPredecessors w = [u] ∧ h.realSuccessors w = [v] ∧
    h.groupIndex w = gi

/-- The virtual nodes made for one occurrence of an edge `source → target`. -/
structure EdgeChain where
  source : Nat
  target : Nat
  chain : List Nat
  deriving Repr, DecidableEq

/-- The chain `c` is as `addVirtualNodes` has to make it for its edge, whose
ranks are read in the heap `h0` on entry: with `k` the rank difference it has
`max (k - 1) 0` nodes, one on each rank strictly between the two ends and in
the layer of that rank; source, chain and target are joined in this order by
pairs of `layeredEdges`; and every node of the chain is virtual, has the
source as its only real predecessor, the target as its only real successor
and the group index of the source. -/
def ChainOK (h0 h : Heap) (ls : Layers) (c : EdgeChain) : Prop :=
  ∃ fu fv : Int, h0.flow c.source = some fu ∧ h0.flow c.target = some fv ∧
    c.chain.length = (fv - fu - 1).toNat ∧
    OnRanks h ls (fu + 1) c.chain ∧
    Linked ls fu (c.source :: c.chain ++ [c.target]) ∧
    ∀ w ∈ c.chain, Routes h (h0.groupIndex c.source) c.source c.target w

/-- What `addVirtualNodes` expects of its input: the nodes are existing real
nodes with a rank below `maxLength`, and every edge leads to a node of the
list with a strictly higher rank. -/
structure RankedGroup (h : Heap) (nodes : List Nat) (maxLength : Nat) : Prop where
  bound : ∀ n ∈ nodes, n < h.size
  real : ∀ n ∈ nodes, h.virtual n = false
  flow : ∀ n ∈ nodes, ∃ f : Int, h.flow n = some f ∧ 0 ≤ f ∧ f < maxLength
  edge : ∀ n ∈ nodes, ∀ s ∈ h.successors n, s ∈ nodes ∧
    ∀ f g : Int, h.flow n = some f → h.flow s = some g → f < g

/-- The pairs of neighbours of a list, in order. -/
def pairs (xs : List Nat) : List (Nat × Nat) := xs.zip xs.tail

/-- Every entry of `ls'` is an entry of `ls`, or a node for which `N` holds,
or a pair for which `E` holds. -/
structure LayersNew (ls ls' : Layers) (N : Nat → Prop) (E : Nat × Nat → Prop) : Prop where
  nodes : ∀ i x, x ∈ ls'.layeredNodes.getD i [] → x ∈ ls.layeredNodes.getD i [] ∨ N x
  edges : ∀ i e, e ∈ ls'.layeredEdges.getD i [] → e ∈ ls.layeredEdges.getD i [] ∨ E e

/-! ## `factorialLimited` -/

/-- The `while` loop of `factorialLimited` with its variables `j`, `res` and
`splitRes`; the division `res /= j` is exact, `res` being `j!`. -/
def factorialLimitedSplit (n threshold : Nat) : Nat → Nat → Nat → Nat × Nat × Nat
  | 0, res, splitRes => (0, res, splitRes)
  | j + 1, res, splitRes =>
    if splitRes > threshold ∧ j + 1 > 1 then
      factorialLimitedSplit n threshold j (res / (j + 1)) (res / (j + 1) * (n - j + 1))
    else (j + 1, res, splitRes)

/-- The `for` loop of `factorialLimited` over the remaining values of `i`. -/
def factorialLimitedFrom (n threshold : Nat) : List Nat → Nat → Nat × Nat
  | [], res => (res, n)
  | i :: rest, res =>
    if res * i > threshold then
      let r := factorialLimitedSplit n threshold i (res * i) (res * i)
      if r.1 = 1 then (1, 1) else (r.2.2, r.1)
    else factorialLimitedFrom n threshold rest (res * i)

/-- The function `factorialLimited(n, threshold)` on natural numbers; the
loop variable `i` runs from 2 to `n`. -/
def factorialLimited (n threshold : Nat) : Nat × Nat :=
  factorialLimitedFrom n threshold (List.range' 2 (n - 1)) 1

/-- Number of orderings the search enumerates when it permutes a window of
`j` positions of a layer of width `n`: `j!` for each of the `n - j + 1`
places of the window. -/
def windowPerms (n j : Nat) : Nat := j.factorial * (n - j + 1)

/-! ## The metric functions

An edge is given by the two ordinals `[from.orth, to.orth]` that the metric
functions destructure from it; ordinals are rational numbers. -/

/-- The test `(e1From - e2From) * (e1To - e2To) < 0` of `totalCrossings`. -/
def crosses (e1 e2 : ℚ × ℚ) : Bool := decide ((e1.1 - e2.1) * (e1.2 - e2.2) < 0)

/-- The inner `for` loop of `totalCrossings` over the edges after `edges[i]`. -/
def totalCrossingsInner (crossings : ℚ) (e1 : ℚ × ℚ) : List (ℚ × ℚ) → Nat → Nat
  | [], res => res
  | e2 :: rest, res =>
    if (res : ℚ) < crossings then
      totalCrossingsInner crossings e1 rest (if crosses e1 e2 then res + 1 else res)
    else res

/-- The outer `for` loop of `totalCrossings`. -/
def totalCrossingsOuter (crossings : ℚ) : List (ℚ × ℚ) → Nat → Nat
  | [], res => res
  | e1 :: rest, res =>
    if (res : ℚ) < crossings then
      totalCrossingsOuter crossings rest (totalCrossingsInner crossings e1 rest res)
    else res

/-- The function `totalCrossings(edges, crossings)`. -/
def totalCrossings (edges : List (ℚ × ℚ)) (crossings : ℚ) : Nat :=
  totalCrossingsOuter crossings edges 0

/-- The expression `edgeTo > edgeFrom ? edgeTo - edgeFrom : edgeFrom - edgeTo`. -/
def edgeLength (e : ℚ × ℚ) : ℚ := if e.2 > e.1 then e.2 - e.1 else e.1 - e.2

/-- The `for` loop of `totalDistance`. -/
def totalDistanceLoop (distance : ℚ) : List (ℚ × ℚ) → ℚ → ℚ
  | [], res => res
  | e :: rest, res =>
    if res < distance then totalDistanceLoop distance rest (res + edgeLength e) else res

/-- The function `totalDistance(edges, distance)`. -/
def totalDistance (edges : List (ℚ × ℚ)) (distance : ℚ) : ℚ :=
  totalDistanceLoop distance edges 0

/-- The constant `Number.MAX_VALUE`, `(2^53 - 1) * 2^971`. -/
def maxValue : ℚ := (2 ^ 53 - 1) * 2 ^ 971

/-- Brute-force reference for the crossing count: the number of pairs of an
edge `i` and a later edge `j` with `(from_i - from_j) * (to_i - to_j) < 0`. -/
def crossingsRef : List (ℚ × ℚ) → Nat
  | [] => 0
  | e :: rest => rest.countP (fun e2 => crosses e e2) + crossingsRef rest

/-- Brute-force reference for the distance: the sum of `|to_i - from_i|`. -/
def distanceRef (edges : List (ℚ × ℚ)) : ℚ := (edges.map (fun e => |e.2 - e.1|)).sum

/-! ## Option validation

A threshold is `none` when `isNaN` holds of it and an integer otherwise. On
integers the double product `thresholdEvaluate * thresholdLayer` compares with
`Number.MAX_SAFE_INTEGER` as the exact product does: the doubles up to `2^53`
are exact and rounding is monotone. -/

/-- The constant `Number.MAX_SAFE_INTEGER`. -/
def maxSafeInteger : Int := 2 ^ 53 - 1

/-- The array `metricsValues` of `validate`. -/
def metricsValues : List String := ["crossings", "distance"]

/-- The function `validate(thresholdEvaluate, thresholdLayer, alignNodes, metrics)`. -/
def validate (thresholdEvaluate thresholdLayer : Option Int) (alignNodes metrics : String) :
    Res Unit :=
  match thresholdEvaluate with
  | none => .throw "thresholdEvaluate has to be a positive number"
  | some te =>
    if te < 1 then .throw "thresholdEvaluate has to be a positive number"
    else
      match thresholdLayer with
      | none => .throw "thresholdLayer has to be a positive number"
      | some tl =>
        if tl < 1 then .throw "thresholdLayer has to be a positive number"
        else if te < tl then .throw "thresholdEvaluate has to be >= thresholdLayer"
        else if te * tl > maxSafeInteger then
          .throw "thresholdEvaluate * thresholdLayer has to be < Number.MAX_SAFE_INTEGER"
        else if ¬ alignNodeValues.contains alignNodes then
          .throw ("alignNodes has to be one of following values: " ++
            ",".intercalate alignNodeValues)
        else if ¬ metricsValues.contains metrics then
          .throw ("metrics has to be one of following values: " ++
            ",".intercalate metricsValues)
        else .ok ()

/-! ## Structural comparison

`Array.prototype.sort()` without a comparator orders strings by code units;
`jsSort` orders them by `String`'s lexicographic order, which is the same
order on strings of the basic multilingual plane. -/

/-- Insertion of `s` into a sorted list, before the first larger element. -/
def jsInsert (s : String) : List String → List String
  | [] => [s]
  | t :: rest => if s < t then s :: t :: rest else t :: jsInsert s rest

/-- The method `Array.prototype.sort()` on an array of strings. -/
def jsSort (l : List String) : List String := l.foldl (fun acc s => jsInsert s acc) []

/-- The callback of `edgeIds.sort().every(...)` in `equals` iterated over the
sorted keys: it sorts the successor lists it compares in place, in
`otherGraph.edges` first and then in `this.edges`. -/
def equalsEvery : List String → List String → List (String × List String) →
    List (String × List String) → Bool × List (String × List String) × List (String × List String)
  | [], _, edges, otherEdges => (true, edges, otherEdges)
  | _ :: _, [], edges, otherEdges => (false, edges, otherEdges)
  | pre :: rest, otherPre :: otherRest, edges, otherEdges =>
    if pre ≠ otherPre then (false, edges, otherEdges)
    else
      let sucs := (lookup pre edges).getD []
      let otherSucs := (lookup otherPre otherEdges).getD []
      if sucs.length ≠ otherSucs.length then (false, edges, otherEdges)
      else
        let otherEdges := assign otherPre (jsSort otherSucs) otherEdges
        let edges := assign pre (jsSort sucs) edges
        if jsSort sucs = jsSort otherSucs then equalsEvery rest otherRest edges otherEdges
        else (false, edges, otherEdges)

/-- The method `equals(otherGraph)`, which returns its result together with
`this` and `otherGraph` as the in-place sorts leave them. -/
def Graph.equals (g : Graph) (otherGraph : Option Graph) : Bool × Graph × Option Graph :=
  match otherGraph with
  | none => (false, g, none)
  | some o =>
    let nodeIds := g.nodes.map Prod.fst
    let otherNodeIds := o.nodes.map Prod.fst
    if nodeIds.length ≠ otherNodeIds.length then (false, g, some o)
    else if jsSort nodeIds ≠ jsSort otherNodeIds then (false, g, some o)
    else
      let edgeIds := g.edges.map Prod.fst
      let otherEdgeIds := o.edges.map Prod.fst
      if edgeIds.length ≠ otherEdgeIds.length then (false, g, some o)
      else
        let (res, edges, otherEdges) :=
          equalsEvery (jsSort edgeIds) (jsSort otherEdgeIds) g.edges o.edges
        (res, { g with edges := edges }, some { o with edges := otherEdges })

/-- The multiset of `(predecessor id, successor id)` edges recorded in
`this.edges`, as a list. -/
def Graph.edgePairs (g : Graph) : List (String × String) :=
  g.edges.flatMap (fun e => e.2.map (fun s => (e.1, s)))

/-! ## The heuristic order and `nextPermutation`

Numbers are exact: an ordinal is a rational number, and an ordinal that was
never assigned (`undefined`, which arithmetic turns into `NaN`) is `none`. -/

/-- The sum `predecessors.reduce((sum, obj) => sum + obj.orth, 0)`; `none` is `NaN`. -/
def orthSum (h : Heap) : List Nat → Option ℚ → Option ℚ
  | [], sum => sum
  | obj :: rest, sum =>
    orthSum h rest (match sum, h.orth obj with
      | some s, some o => some (s + o)
      | _, _ => none)

/-- The function `predecessorAverage(node)`; `none` is `NaN`. -/
def predecessorAverage (h : Heap) (node : Nat) : Option ℚ :=
  let predecessors := h.predecessors node
  let l := predecessors.length
  if l = 0 then some (1 / 2) else (orthSum h predecessors (some 0)).map (fun s => s / l)

/-- The comparator `predecessorAverageSort(n1, n2)`; a `NaN` result counts as
`0`, as `Array.prototype.sort` treats it. -/
def predecessorAverageSort (h : Heap) (n1 n2 : Nat) : ℚ :=
  match predecessorAverage h n1, predecessorAverage h n2 with
  | some av, some av2 =>
    if av - av2 = 0 then
      (1 / 2 - av) *
        (((h.predecessors n1).length : ℚ) + (h.successors n1).length -
          (h.predecessors n2).length - (h.successors n2).length)
    else av - av2
  | _, _ => 0

/-- Insertion of `x` into a sorted list behind every element it does not
precede. -/
def sortInsert (cmp : Nat → Nat → ℚ) (x : Nat) : List Nat → List Nat
  | [] => [x]
  | y :: rest => if cmp x y < 0 then x :: y :: rest else y :: sortInsert cmp x rest

/-- The method `Array.prototype.sort(cmp)`, which is stable: the result of a
stable sort does not depend on the algorithm when `cmp` is consistent. -/
def sortBy (cmp : Nat → Nat → ℚ) (l : List Nat) : List Nat :=
  l.foldl (fun acc x => sortInsert cmp x acc) []

/-- The statement `layer.forEach((item, idx) => (item.orth = (idx + 0.5) / width))`
from index `idx` on. -/
def assignOrth (width : Nat) : List Nat → Nat → Heap → Heap
  | [], _, h => h
  | item :: rest, idx, h =>
    assignOrth width rest (idx + 1) { h with orth := upd h.orth item (some ((idx + 1 / 2) / width)) }

/-- The method `Array.prototype.slice(a, b)`. -/
def jsSlice {α : Type} (l : List α) (a b : Int) : List α :=
  let len : Int := l.length
  let k := if a < 0 then max (len + a) 0 else min a len
  let e := if b < 0 then max (len + b) 0 else min b len
  (l.drop k.toNat).take (e - k).toNat

/-- The ordinals `[from.orth, to.orth]` of a list of edges, when all are assigned. -/
def edgeOrths (h : Heap) : List (Nat × Nat) → Option (List (ℚ × ℚ))
  | [] => some []
  | e :: rest =>
    match h.orth e.1, h.orth e.2, edgeOrths h rest with
    | some a, some b, some os => some ((a, b) :: os)
    | _, _, _ => none

/-- The call `metricsFunction(usedEdges[i], bound)` of `findBestPermutation`,
with `metricsFunction` chosen by `metricsMethod`. A missing `usedEdges[i]`
throws the `TypeError` of reading `undefined.length`; an edge without an
ordinal would make the result `NaN`, which is not modelled: the call stops. -/
def metricsFunction (metricsMethod : String) (h : Heap) (edges : Option (List (Nat × Nat)))
    (bound : ℚ) : Res ℚ :=
  match edges with
  | none => .throw "TypeError: Cannot read properties of undefined (reading 'length')"
  | some es =>
    match edgeOrths h es with
    | none => .throw "NaN"
    | some os =>
      .ok (if metricsMethod = "crossings" then (totalCrossings os bound : ℚ)
        else totalDistance os bound)

/-- The three statements of `nextPermutation` that exchange `layer[si].orth`
and `layer[oi].orth`. -/
def swapOrth (h : Heap) (layer : List Nat) (si oi : Nat) : Res Heap :=
  match layer[si]?, layer[oi]? with
  | some a, some b => .ok { h with orth := upd (upd h.orth a (h.orth b)) b (h.orth a) }
  | _, _ => .throw "TypeError: Cannot read properties of undefined (reading 'orth')"

/-- The second loop of `nextPermutation`, `layer[i].orth = (i + 0.5) / width`
for the indices `i` of the list. -/
def resetOrth (layer : List Nat) : List Nat → Heap → Res Heap
  | [], h => .ok h
  | i :: rest, h =>
    match layer[i]? with
    | some a =>
      resetOrth layer rest { h with orth := upd h.orth a (some ((i + 1 / 2) / layer.length)) }
    | none => .throw "TypeError: Cannot set properties of undefined (setting 'orth')"

/-- The first loop of `nextPermutation` from index `i` with `k` indices left,
followed by the rest of the function: the heap, `permState` and the returned
`permShift`. -/
def nextPermutationFrom (layer : List Nat) (permShift : Nat) :
    Nat → Nat → Heap → List Nat → Res (Heap × List Nat × Nat)
  | 0, _, h, permState =>
    (resetOrth layer (List.range' permShift permState.length) h).bind fun h' =>
    .ok (h', permState, (permShift + 1) % (layer.length - permState.length + 1))
  | k + 1, i, h, permState =>
    let p := permState.getD i 0
    if p < i then
      let oi := if i % 2 = 0 then permShift else p + permShift
      let si := i + permShift
      (swapOrth h layer si oi).bind fun h' =>
      .ok (h', permState.set i (p + 1), permShift)
    else nextPermutationFrom layer permShift k (i + 1) h (permState.set i 0)

/-- The function `nextPermutation(layer, permState, permShift)`. -/
def nextPermutation (h : Heap) (layer : List Nat) (permState : List Nat) (permShift : Nat) :
    Res (Heap × List Nat × Nat) :=
  nextPermutationFrom layer permShift (permState.length - 1) 1 h permState

/-! ## `findBestPermutation` -/

/-- The assignment `a[i] = v` to an array; indices skipped by it are holes,
which `reduce` never reads and which are filled with `hole` here. -/
def arraySet {α : Type} (a : List α) (i : Nat) (v hole : α) : List α :=
  if i < a.length then a.set i v else a ++ List.replicate (i - a.length) hole ++ [v]

/-- The constants of one call of `findBestPermutation` once its first loop
has run. -/
structure Block where
  calculatedLayers : Nat
  usedNodes : List (List Nat)
  usedEdges : List (List (Nat × Nat))
  permCounterOverflow : List Nat
  totalPerms : Nat
  start : Nat
  symmetry : Bool
  thresholdEvaluate : Int
  metricsMethod : String

/-- The variables of `findBestPermutation` that its loops update, with the heap
and the caller's array `metrics`. The array `permCounter` is only ever
incremented and is left out. -/
structure Search where
  h : Heap
  metrics : List ℚ
  usedMetrics : List ℚ
  permState : List (List Nat)
  permShift : List Nat
  bestResult : List (List (Option ℚ))
  bestMetrics : ℚ

/-- One round of the first loop of `findBestPermutation`; the state carries
`totalPerms` and the array `permCounterOverflow` of its prefix products. A
missing `permsLayer[l]` makes `totalPerms` `NaN`, for which the search loop
does not run, as for `0`. -/
def findInitStep (metricsMethod : String) (usedNodes : List (List Nat))
    (usedEdges : List (List (Nat × Nat))) (permsLayer permWidthsLayer : List Nat) (start : Nat)
    (symmetry : Bool) (s : Search × Nat × List Nat) (i : Nat) : Res (Search × Nat × List Nat) :=
  let l := i + start
  (if symmetry = true ∧ i = 0 then .ok 0
    else metricsFunction metricsMethod s.1.h usedEdges[i]? maxValue).bind fun um =>
  match usedNodes[i]? with
  | none => .throw "TypeError: Cannot read properties of undefined (reading 'map')"
  | some nodeLayer =>
    let totalPerms := s.2.1 * permsLayer.getD l 0
    .ok ({ s.1 with
            metrics := arraySet s.1.metrics l um 0
            usedMetrics := s.1.usedMetrics ++ [um]
            bestMetrics := s.1.bestMetrics + um
            bestResult := s.1.bestResult ++ [nodeLayer.map s.1.h.orth]
            permShift := s.1.permShift ++ [0]
            permState := s.1.permState ++ [List.replicate (permWidthsLayer.getD l 1) 0] },
          totalPerms, s.2.2 ++ [totalPerms])

/-- The test `nodeLayer[0].orth > nodeLayer[1].orth`. -/
def firstAboveSecond (h : Heap) (nodeLayer : List Nat) : Res Bool :=
  match nodeLayer[0]?, nodeLayer[1]? with
  | some a, some b =>
    .ok (match h.orth a, h.orth b with
      | some x, some y => decide (x > y)
      | _, _ => false)
  | _, _ => .throw "TypeError: Cannot read properties of undefined (reading 'orth')"

/-- The body of the inner loop of the search for layer `i` after the
assignment of `currentPermCounterOverflow`: the state and `metricsLeft`. -/
def searchLayer (b : Block) (p i : Nat) (s : Search) (metricsLeft : ℚ) : Res (Search × ℚ) :=
  if p % b.permCounterOverflow.getD i 0 = 0 then
    (nextPermutation s.h (b.usedNodes.getD i []) (s.permState.getD i [])
      (s.permShift.getD i 0)).bind fun r =>
    if b.symmetry = false ∨ i ≠ 0 then
      (metricsFunction b.metricsMethod r.1 b.usedEdges[i]? metricsLeft).bind fun metricsUsed =>
      .ok ({ s with h := r.1, permState := s.permState.set i r.2.1,
                    permShift := s.permShift.set i r.2.2,
                    usedMetrics := s.usedMetrics.set i metricsUsed }, metricsLeft - metricsUsed)
    else
      (firstAboveSecond r.1 (b.usedNodes.getD i [])).bind fun above =>
      .ok ({ s with h := r.1, permState := s.permState.set i r.2.1,
                    permShift := s.permShift.set i r.2.2 }, if above then 0 else metricsLeft)
  else .ok (s, metricsLeft - s.usedMetrics.getD i 0)

/-- The inner loop `for (let i = 0; 0 < metricsLeft && i < calculatedLayers; i++)`
of the search from index `i` with `k` layers left; returns `metricsLeft` and
`currentPermCounterOverflow` too. -/
def searchLayers (b : Block) (p : Nat) :
    Nat → Nat → Search → ℚ → Nat → Res (Search × ℚ × Nat)
  | 0, _, s, metricsLeft, current => .ok (s, metricsLeft, current)
  | k + 1, i, s, metricsLeft, current =>
    if 0 < metricsLeft then
      (searchLayer b p i s metricsLeft).bind fun r =>
      searchLayers b p k (i + 1) r.1 r.2 (b.permCounterOverflow.getD i 0)
    else .ok (s, metricsLeft, current)

/-- The loop `metrics[i + start] = usedMetrics[i]` from index `i` on. -/
def writeMetrics (start : Nat) : List ℚ → Nat → List ℚ → List ℚ
  | [], _, metrics => metrics
  | um :: rest, i, metrics => writeMetrics start rest (i + 1) (arraySet metrics (i + start) um 0)

/-- The body of `if (metricsLeft > 0)` up to the test of `bestMetrics`; the
array `usedNodes` has `calculatedLayers` entries once the first loop has run. -/
def recordBest (b : Block) (s : Search) (metricsLeft : ℚ) : Search :=
  { s with
    bestMetrics := s.bestMetrics - metricsLeft
    metrics := writeMetrics b.start s.usedMetrics 0 s.metrics
    bestResult := b.usedNodes.map (fun nodeLayer => nodeLayer.map s.h.orth) }

/-- The value of `pInc` at the end of a round of the search loop. -/
def nextIncrement (totalPerms p current : Nat) : Nat :=
  if (totalPerms - p) % current = 0 then current else (totalPerms - p) % current

/-- The search loop of `findBestPermutation` over `p`, returning
`permsExecuted` with the final state. -/
def searchLoop (b : Block) : Nat → Search → Nat → Nat → Res (Search × Nat)
  | 0, _, _, _ => .timeout
  | fuel + 1, s, p, permsExecuted =>
    if (permsExecuted : Int) < b.thresholdEvaluate ∧ p < b.totalPerms then
      (searchLayers b p b.calculatedLayers 0 s s.bestMetrics 1).bind fun r =>
      if r.2.1 > 0 then
        if (recordBest b r.1 r.2.1).bestMetrics = 0 then
          .ok (recordBest b r.1 r.2.1, permsExecuted + 1)
        else
          searchLoop b fuel (recordBest b r.1 r.2.1)
            (p + nextIncrement b.totalPerms p r.2.2) (permsExecuted + 1)
      else searchLoop b fuel r.1 (p + nextIncrement b.totalPerms p r.2.2) (permsExecuted + 1)
    else .ok (s, permsExecuted)

/-- The inner loop `nodeLayer[j].orth = bestResultLayer[j]` of the write-back. -/
def writeBackLayer : List Nat → List (Option ℚ) → Heap → Heap
  | [], _, h => h
  | n :: ns, [], h => writeBackLayer ns [] { h with orth := upd h.orth n none }
  | n :: ns, v :: vs, h => writeBackLayer ns vs { h with orth := upd h.orth n v }

/-- The final loop of `findBestPermutation`, which writes `bestResult` back. -/
def writeBack : List (List Nat) → List (List (Option ℚ)) → Heap → Heap
  | [], _, h => h
  | nodeLayer :: rest, [], h => writeBack rest [] (writeBackLayer nodeLayer [] h)
  | nodeLayer :: rest, best :: bests, h => writeBack rest bests (writeBackLayer nodeLayer best h)

/-- The function `findBestPermutation(nodes, edges, metrics, permsLayer,
permWidthsLayer, start, end, symmetry, thresholdEvaluate, metricsMethod)`:
the heap, the array `metrics` and the returned `permsExecuted`. -/
def findBestPermutation (fuel : Nat) (h : Heap) (nodes : List (List Nat))
    (edges : List (List (Nat × Nat))) (metrics : List ℚ) (permsLayer permWidthsLayer : List Nat)
    (start end_ : Nat) (symmetry : Bool) (thresholdEvaluate : Int) (metricsMethod : String) :
    Res (Heap × List ℚ × Nat) :=
  if start = end_ ∨ (start + 1 = end_ ∧ symmetry = true) then .ok (h, metrics, 1)
  else if end_ < start then .throw "RangeError: Invalid array length"
  else
    let calculatedLayers := end_ - start
    let usedNodes := jsSlice nodes start end_
    let usedEdges := jsSlice edges ((start : Int) - 1) ((end_ : Int) - 1)
    (Res.foldl
      (findInitStep metricsMethod usedNodes usedEdges permsLayer permWidthsLayer start symmetry)
      ({ h := h, metrics := metrics, usedMetrics := [], permState := [], permShift := [],
         bestResult := [], bestMetrics := 0 }, 1, [])
      (List.range calculatedLayers)).bind fun r =>
    if r.1.bestMetrics = 0 then .ok (h, r.1.metrics, 1)
    else
      let b : Block :=
        { calculatedLayers := calculatedLayers, usedNodes := usedNodes, usedEdges := usedEdges,
          permCounterOverflow := r.2.2.map (fun prefixPerms => r.2.1 / prefixPerms),
          totalPerms := r.2.1, start := start, symmetry := symmetry,
          thresholdEvaluate := thresholdEvaluate, metricsMethod := metricsMethod }
      (searchLoop b fuel r.1 1 1).bind fun t =>
      .ok (writeBack usedNodes t.1.bestResult t.1.h, t.1.metrics, t.2)

/-! ## `Graph.layout` -/

/-- The fields of a `Graph` object that `layout` derives; a `VirtualEdge` is
the triple of its `predecessor`, `successor` and `cyclic`. The field
`layoutId` of the node `virtualNodes[i]` is `i`. -/
structure Derived where
  virtualNodes : List Nat
  virtualEdges : List (Nat × Nat × Bool)
  maxWidth : List Nat
  maxLength : List Nat
  metricsValue : List ℚ
  groupCount : Nat

/-- The derived fields as the constructor of `Graph` sets them. -/
def Derived.empty : Derived :=
  { virtualNodes := [], virtualEdges := [], maxWidth := [], maxLength := [],
    metricsValue := [], groupCount := 0 }

/-- The options object of `layout` without `previous` and `debug`; a threshold
is `none` when `isNaN` holds of it, `mergeVirtualNodes` is `none` when it
is `false`. -/
structure Options where
  metrics : String
  thresholdEvaluate : Option Int
  thresholdLayer : Option Int
  alignNodes : String
  mergeVirtualNodes : Option String

/-- The default values of the options of `layout`. -/
def Options.default : Options :=
  { metrics := "crossings", thresholdEvaluate := some 500000, thresholdLayer := some 21000,
    alignNodes := "start", mergeVirtualNodes := some "start" }

/-- The variables of the loop of `layout` over the layers of a group. -/
structure Sweep where
  h : Heap
  layeredNodes : List (List Nat)
  layeredMetrics : List ℚ
  start : Nat
  symmetry : Bool
  permutations : ℚ

/-- The body of the loop `for (let i = 0; i < maxLength; i++)` of `layout`
that orders layer `i` and refines the blocks. -/
def layoutLayer (fuel : Nat) (layeredEdges : List (List (Nat × Nat)))
    (permsLayer permWidthsLayer : List Nat) (maxLength : Nat) (thresholdEvaluate : Int)
    (metrics : String) (s : Sweep) (i : Nat) : Res Sweep :=
  let ni := i + 1
  let layer := sortBy (predecessorAverageSort s.h) (s.layeredNodes.getD i [])
  let h1 := assignOrth layer.length layer 0 s.h
  let layeredNodes := s.layeredNodes.set i layer
  let permsThisLayer := permsLayer.getD i 0
  if permsThisLayer = 1 then
    .ok { s with h := h1, layeredNodes := layeredNodes, start := ni, symmetry := true,
                 permutations := 1 / 2 }
  else
    let permutations := s.permutations * permsThisLayer
    let cutoffSymmetry : Bool := decide (permsThisLayer = 2)
    let permsNextLayer := permsLayer[ni]?
    let dependencyBreak : Bool :=
      decide (ni = maxLength) || decide (permsNextLayer = some 1) || cutoffSymmetry
    let exceeds : ℚ → Bool := fun permutations =>
      match permsNextLayer with
      | some next => decide (permutations * next > thresholdEvaluate)
      | none => false
    if dependencyBreak || exceeds permutations then
      (findBestPermutation fuel h1 layeredNodes layeredEdges s.layeredMetrics permsLayer
        permWidthsLayer s.start ni s.symmetry thresholdEvaluate metrics).bind fun r =>
      (if (r.2.2 : Int) ≥ thresholdEvaluate then
        if dependencyBreak || exceeds permsThisLayer then
          (findBestPermutation fuel r.1 layeredNodes layeredEdges r.2.1 permsLayer
            permWidthsLayer i ni false thresholdEvaluate metrics).bind fun r2 =>
          .ok { h := r2.1, layeredNodes := layeredNodes, layeredMetrics := r2.2.1, start := i,
                symmetry := false, permutations := r2.2.2 }
        else
          .ok { h := r.1, layeredNodes := layeredNodes, layeredMetrics := r.2.1, start := i,
                symmetry := false, permutations := permsThisLayer }
      else
        .ok { h := r.1, layeredNodes := layeredNodes, layeredMetrics := r.2.1, start := s.start,
              symmetry := s.symmetry, permutations := r.2.2 }).bind fun s1 =>
      .ok (if cutoffSymmetry then { s1 with start := ni, symmetry := false, permutations := 1 }
        else s1)
    else
      .ok { s with h := h1, layeredNodes := layeredNodes, permutations := permutations }

/-- The variables that the loop of `layout` over the groups carries from one
group to the next: the heap, the parameter `mergeVirtualNodes`, which the
merge loop overwrites, and the derived fields of `this`. -/
structure GroupState where
  h : Heap
  mergeVirtualNodes : Option String
  derived : Derived

/-- The body of the loop `for (let g = 0; g < groupCount; g++)` of `layout`. -/
def layoutGroup (fuel : Nat) (alignNodes metrics : String) (thresholdEvaluate thresholdLayer : Int)
    (s : GroupState) (gn : Nat × List Nat) : Res GroupState :=
  let g := gn.1
  let nodeGroup := gn.2
  (calculateFlow fuel s.h nodeGroup alignNodes).bind fun (h1, maxLength) =>
  (addVirtualNodes h1 nodeGroup maxLength).bind fun (h2, ls) =>
  (mergeLoop fuel h2 ls s.mergeVirtualNodes).bind fun (h3, ls3, mergeVirtualNodes) =>
  let widths := (List.range maxLength).map (fun i => (ls3.layeredNodes.getD i []).length)
  let permsLayer := widths.map (fun width => (factorialLimited width thresholdLayer.toNat).1)
  let permWidthsLayer := widths.map (fun width => (factorialLimited width thresholdLayer.toNat).2)
  let maxWidth := widths.foldl (fun maxWidth width => if maxWidth > width then maxWidth else width) 0
  (Res.foldl
    (layoutLayer fuel ls3.layeredEdges permsLayer permWidthsLayer maxLength thresholdEvaluate
      metrics)
    { h := h3, layeredNodes := ls3.layeredNodes, layeredMetrics := List.replicate maxLength 0,
      start := 0, symmetry := true, permutations := 1 / 2 }
    (List.range maxLength)).bind fun sw =>
  .ok { h := sw.h, mergeVirtualNodes := mergeVirtualNodes,
        derived := { s.derived with
          maxWidth := arraySet s.derived.maxWidth g maxWidth 0
          maxLength := arraySet s.derived.maxLength g maxLength 0
          metricsValue := arraySet s.derived.metricsValue g (sw.layeredMetrics.foldl (· + ·) 0) 0
          virtualNodes := s.derived.virtualNodes ++ sw.layeredNodes.flatten
          virtualEdges := s.derived.virtualEdges ++
            ls3.layeredEdges.flatten.map (fun edge => (edge.1, edge.2, false)) } }

/-- The elements of an array paired with their indices. -/
def indexed {α : Type} (l : List α) : List (Nat × α) := (List.range l.length).zip l

/-- The part of `layout` after the call of `validate`, for thresholds that
are numbers. -/
def Graph.layoutCompute (fuel : Nat) (g : Graph) (d : Derived) (alignNodes metrics : String)
    (thresholdEvaluate thresholdLayer : Int) (mergeVirtualNodes : Option String) :
    Res (Graph × Derived) :=
  let nodes := g.values
  (removeCycles fuel g.heap nodes).bind fun (h1, cyclicEdges) =>
  (groupNodes fuel h1 nodes).bind fun (h2, nodeGroups) =>
  (Res.foldl (layoutGroup fuel alignNodes metrics thresholdEvaluate thresholdLayer)
    { h := h2, mergeVirtualNodes := mergeVirtualNodes, derived := d }
    (indexed nodeGroups)).bind fun s =>
  .ok ({ g with heap := s.h },
    { s.derived with
      virtualEdges := s.derived.virtualEdges ++
        cyclicEdges.map (fun edge => (edge.1, edge.2, true))
      groupCount := nodeGroups.length })

/-- The method `layout(options)` on `this`, given as the graph `g` with its
derived fields `d`: the state of `this` and of `previous` after the call.
On the reuse path the nodes of `previous.virtualNodes` stand for their
copies too, which differ from them in `data` only. An error thrown by
`validate` leaves the state that `equals` has left. -/
def Graph.layout (fuel : Nat) (g : Graph) (d : Derived) (previous : Option (Graph × Derived))
    (o : Options) : Res ((Graph × Derived) × Option (Graph × Derived)) :=
  let r := g.equals (previous.map Prod.fst)
  match r.1, previous, r.2.2 with
  | true, some p, some pg =>
    .ok ((r.2.1,
      { d with virtualNodes := p.2.virtualNodes, virtualEdges := p.2.virtualEdges,
               maxWidth := p.2.maxWidth, maxLength := p.2.maxLength,
               groupCount := p.2.groupCount }), some (pg, p.2))
  | _, _, _ =>
    (validate o.thresholdEvaluate o.thresholdLayer o.alignNodes o.metrics).bind fun _ =>
    match o.thresholdEvaluate, o.thresholdLayer with
    | some thresholdEvaluate, some thresholdLayer =>
      (r.2.1.layoutCompute fuel d o.alignNodes o.metrics thresholdEvaluate thresholdLayer
        o.mergeVirtualNodes).bind fun t =>
      .ok (t, match previous, r.2.2 with
        | some p, some pg => some (pg, p.2)
        | _, _ => none)
    | _, _ => .throw "thresholdEvaluate has to be a positive number"

/-- The value `f a` of a result `a`; exceptions and timeouts stay. -/
def Res.map {α β : Type} (f : α → β) : Res α → Res β
  | .ok a => .ok (f a)
  | .throw m => .throw m
  | .timeout => .timeout

/-- The call `graph.layout(options)` on a graph freshly built by `ops`. -/
def layoutOf (fuel : Nat) (ops : List Op) (o : Options) :
    Res ((Graph × Derived) × Option (Graph × Derived)) :=
  (Graph.build ops).layout fuel Derived.empty none o

/-- A virtual node with its `flow`, `realPredecessors` and `realSuccessors`. -/
structure VirtualInfo where
  node : Nat
  flow : Option Int
  realPredecessors : List Nat
  realSuccessors : List Nat
  deriving DecidableEq

/-- The virtual nodes among `nodes` with their fields. -/
def virtualSummary (h : Heap) (nodes : List Nat) : List VirtualInfo :=
  (nodes.filter h.virtual).map
    (fun n => { node := n, flow := h.flow n, realPredecessors := h.realPredecessors n,
                realSuccessors := h.realSuccessors n })

/-- The size of the permutation space of the block of the layers `start`
to `end - 1`: the product of their entries of `permsLayer`, which
`findBestPermutation` computes as `totalPerms`. -/
def blockPerms (permsLayer : List Nat) (start end_ : Nat) : Nat :=
  ((List.range (end_ - start)).map (fun i => permsLayer.getD (i + start) 0)).prod

/-- Two layers of two nodes with the ordinals `1/4` and `3/4` each. -/
def twoByTwo : Heap :=
  { Heap.empty with orth := fun n => if n % 2 = 0 then some (1 / 4) else some (3 / 4) }

/-! ## Graphs reached by the mutating operations -/

/-- The graphs a client can reach from `new Graph()` with `addNode`, `addEdge`,
`removeEdge` and the `removeCycles` step of `layout` (run on the values of
`nodes` in any enumeration order), in any order and number. -/
inductive Reachable : Graph → Prop where
  | empty : Reachable Graph.empty
  | step (g : Graph) (op : Op) : Reachable g → Reachable (g.step op)
  | cycles (g : Graph) (nodes : List Nat) (fuel : Nat) (h' : Heap)
      (cyclicEdges : List (Nat × Nat)) :
      Reachable g → nodes.Perm g.values →
      removeCycles fuel g.heap nodes = .ok (h', cyclicEdges) →
      Reachable { g with heap := h' }

/-- Invariant of the mutating operations: every adjacency entry is stored as
often on one end as on the other, objects not yet allocated have no
adjacency, and the nodes of the graph are allocated objects. -/
structure Balanced (g : Graph) : Prop where
  count : ∀ a b, (g.heap.successors a).count b = (g.heap.predecessors b).count a
  tidy : ∀ x, g.heap.size ≤ x → g.heap.successors x = [] ∧ g.heap.predecessors x = []
  bound : ∀ v ∈ g.values, v < g.heap.size

/-! ## The exact metric of a layer of edges -/

/-- The chosen metric of a list of edges evaluated in full on the ordinals of
the heap: the count of inverted pairs for `"crossings"` and the sum of the
absolute ordinal differences otherwise (`0` when an ordinal is missing). -/
def metricValue (metricsMethod : String) (h : Heap) (edges : List (Nat × Nat)) : ℚ :=
  match edgeOrths h edges with
  | some os => if metricsMethod = "crossings" then (crossingsRef os : ℚ) else distanceRef os
  | none => 0

/-- The sum of the exact metric over the edge layers `edges[start - 1]` to
`edges[end - 2]` of the block of the layers `start` to `end - 1`. -/
def blockMetric (metricsMethod : String) (h : Heap) (edges : List (List (Nat × Nat)))
    (start end_ : Nat) : ℚ :=
  ((List.range (end_ - start)).map
    (fun i => metricValue metricsMethod h (edges.getD (start - 1 + i) []))).sum

/-! ## Invariants of the search of `findBestPermutation` without symmetry -/

/-- The exact metric of edge layer `i` of the block on the heap `h`. -/
def Block.metricAt (b : Block) (h : Heap) (i : Nat) : ℚ :=
  metricValue b.metricsMethod h (b.usedEdges.getD i [])

/-- The sum of the exact metrics of the edge layers of the block. -/
def Block.metricSum (b : Block) (h : Heap) : ℚ :=
  ((List.range b.calculatedLayers).map (b.metricAt h)).sum

/-- A block of `calculatedLayers` pairwise disjoint layers searched without
symmetry: each edge of edge layer `i` ends in layer `i` and starts outside
the block or in layer `i - 1`, and every `permCounterOverflow[i]` is a
positive divisor of `totalPerms` and of the entries before it. -/
structure BlockOK (b : Block) : Prop where
  lenNodes : b.usedNodes.length = b.calculatedLayers
  lenEdges : b.usedEdges.length = b.calculatedLayers
  symmetry : b.symmetry = false
  overflowPos : ∀ i, i < b.calculatedLayers → 0 < b.permCounterOverflow.getD i 0
  overflowTotal : ∀ i, i < b.calculatedLayers → b.permCounterOverflow.getD i 0 ∣ b.totalPerms
  chain : ∀ i j, i ≤ j → j < b.calculatedLayers →
    b.permCounterOverflow.getD j 0 ∣ b.permCounterOverflow.getD i 0
  edgeTo : ∀ i, i < b.calculatedLayers → ∀ e ∈ b.usedEdges.getD i [],
    e.2 ∈ b.usedNodes.getD i []
  edgeFrom : ∀ i, i < b.calculatedLayers → ∀ e ∈ b.usedEdges.getD i [],
    ∀ j, j < b.calculatedLayers → j + 1 ≠ i → e.1 ∉ b.usedNodes.getD j []
  disjoint : ∀ i j, i < b.calculatedLayers → j < b.calculatedLayers → i ≠ j →
    ∀ n ∈ b.usedNodes.getD i [], n ∉ b.usedNodes.getD j []

/-- The state of the search fits the block that was entered on the heap `h0`:
the arrays have one entry per layer, each window lies within its layer, the
endpoints of the edges have ordinals and no ordinal outside the block has
changed. -/
structure SearchOK (b : Block) (h0 : Heap) (s : Search) : Prop where
  lenMetrics : s.usedMetrics.length = b.calculatedLayers
  lenState : s.permState.length = b.calculatedLayers
  lenShift : s.permShift.length = b.calculatedLayers
  window : ∀ i, i < b.calculatedLayers →
    (s.permState.getD i []).length + s.permShift.getD i 0 ≤ (b.usedNodes.getD i []).length
  defined : ∀ i, i < b.calculatedLayers → ∀ n ∈ b.usedNodes.getD i [], (s.h.orth n).isSome
  definedFrom : ∀ i, i < b.calculatedLayers → ∀ e ∈ b.usedEdges.getD i [],
    (s.h.orth e.1).isSome
  frame : ∀ n, (∀ i, i < b.calculatedLayers → n ∉ b.usedNodes.getD i []) →
    s.h.orth n = h0.orth n

/-- The entry `usedMetrics[j]` is the exact metric of edge layer `j` on the
current ordinals. -/
def Search.Exact (b : Block) (s : Search) (j : Nat) : Prop :=
  s.usedMetrics.getD j 0 = b.metricAt s.h j

/-- The record of the best ordering: `bestResult` holds the ordinals of a heap
`hb` that differs from the heap on entry within the block only, `metrics`
and `bestMetrics` are its exact metrics, and it is no worse than the entry. -/
def BestOK (b : Block) (h0 : Heap) (s : Search) : Prop :=
  ∃ hb : Heap, s.bestResult = b.usedNodes.map (fun nodeLayer => nodeLayer.map hb.orth) ∧
    (∀ n, (∀ i, i < b.calculatedLayers → n ∉ b.usedNodes.getD i []) → hb.orth n = h0.orth n) ∧
    s.bestMetrics = b.metricSum hb ∧
    (∀ i, i < b.calculatedLayers → s.metrics.getD (i + b.start) 0 = b.metricAt hb i) ∧
    b.metricSum hb ≤ b.metricSum h0

/-- The sum of the entries `usedMetrics[0]` to `usedMetrics[i - 1]`. -/
def Search.usedSum (s : Search) (i : Nat) : ℚ :=
  ((List.range i).map (fun j => s.usedMetrics.getD j 0)).sum

/-! ## Weakly-connected components -/

/-- A system of representatives of the weakly-connected components of the
graph on `nodes`: nodes of the graph, no two of them joined by a path that
ignores edge direction, and every node joined to one of them. -/
def Representatives (h : Heap) (nodes reps : List Nat) : Prop :=
  (∀ r ∈ reps, r ∈ nodes) ∧ reps.Pairwise (fun a b => ¬ h.Connected a b) ∧
    ∀ n ∈ nodes, ∃ r ∈ reps, h.Connected r n

/-- The graph on `nodes` has `k` weakly-connected components: it has a system
of representatives of length `k`, and every such system has length `k`. -/
def ComponentCount (h : Heap) (nodes : List Nat) (k : Nat) : Prop :=
  (∃ reps, Representatives h nodes reps ∧ reps.length = k) ∧
    ∀ reps, Representatives h nodes reps → reps.length = k

/-! ## Invariants of the merge steps -/

/-- Every virtual node of the layers lies strictly between the first and the
last rank. -/
def VirtualInside (maxLength : Nat) (h : Heap) (ls : Layers) : Prop :=
  ∀ i x, x ∈ ls.layeredNodes.getD i [] → h.virtual x = true → 1 ≤ i ∧ i + 2 ≤ maxLength

/-- One call of `mergeNextVirtualNodeGroup`, with any value of the option
`mergeVirtualNodes`, takes the heap and the layers `s` to `s'`. -/
def MergeStep (s s' : Heap × Layers) : Prop :=
  ∃ (mergeVirtualNodes : String) (r : Option String),
    mergeNextVirtualNodeGroup s.1 s.2 mergeVirtualNodes = .ok (s'.1, s'.2, r)

/-! ## An oriented view of the layers, for the merge steps -/

/-- The layers and the real-endpoint lists of a state, seen from the side
whose lists a merge compares (the `A` side): `lay i x` says that `x` is in
`layeredNodes[i]`, `adj z x` that `z` is joined to `x` by a pair of
`layeredEdges` and lies one layer nearer to the `A` side, `A x a` and `B x b`
that `a` and `b` are in the compared and in the other real-endpoint list of
`x`, `link a b` that the graph has the edge between the real nodes `a` and
`b`, `lt i j` that layer `i` is nearer to the `A` side than layer `j`, and
`next i j` that `j` is the layer after `i` going away from the `A` side. -/
structure Net where
  lay : Nat → Nat → Prop
  adj : Nat → Nat → Prop
  virt : Nat → Prop
  A : Nat → Nat → Prop
  B : Nat → Nat → Prop
  link : Nat → Nat → Prop
  lt : Nat → Nat → Prop
  next : Nat → Nat → Prop

/-- The same state seen from the other side. -/
def Net.flip (n : Net) : Net where
  lay := n.lay
  adj := fun z x => n.adj x z
  virt := n.virt
  A := n.B
  B := n.A
  link := fun a b => n.link b a
  lt := fun i j => n.lt j i
  next := fun i j => n.next j i

/-- The view of the heap and layers `s` for a search with the flag `pre`. -/
def net (pre : Bool) (s : Heap × Layers) : Net where
  lay := fun i x => x ∈ s.2.layeredNodes.getD i []
  adj := fun z x => ∃ i, (if pre then (z, x) else (x, z)) ∈ s.2.layeredEdges.getD i []
  virt := fun x => s.1.virtual x = true
  A := fun x a => a ∈ (if pre then s.1.realPredecessors x else s.1.realSuccessors x)
  B := fun x b => b ∈ (if pre then s.1.realSuccessors x else s.1.realPredecessors x)
  link := fun a b => if pre then b ∈ s.1.successors a else a ∈ s.1.successors b
  lt := fun i j => if pre then i < j else j < i
  next := fun i j => if pre then j = i + 1 else i = j + 1

/-- The node `w` is virtual and stands for the real edge between `a` and `b`. -/
def Net.Carry (n : Net) (a b w : Nat) : Prop := n.virt w ∧ n.A w a ∧ n.B w b

/-- The layers are well formed: a node is in one layer only and a pair joins
nodes of neighbouring layers. -/
structure Net.Layered (n : Net) : Prop where
  lay_fun : ∀ i j x, n.lay i x → n.lay j x → i = j
  adj_lay : ∀ z x, n.adj z x → ∃ i j, n.lay i z ∧ n.lay j x ∧ n.next i j
  lt_irrefl : ∀ i, ¬ n.lt i i
  next_lt : ∀ i j, n.next i j → n.lt i j
  next_left : ∀ i i' j, n.next i j → n.next i' j → i = i'
  next_right : ∀ i j j', n.next i j → n.next i j' → j = j'

/-- Every virtual node of the layers stands for real edges only, and every
real edge it stands for, as every real edge between nodes of the layers, is
continued by a pair of `layeredEdges` on both sides. -/
structure Net.Routed (n : Net) : Prop where
  someA : ∀ i x, n.lay i x → n.virt x → ∃ a, n.A x a
  someB : ∀ i x, n.lay i x → n.virt x → ∃ b, n.B x b
  pair : ∀ i x a b, n.lay i x → n.virt x → n.A x a → n.B x b →
    n.link a b ∧ ¬ n.virt a ∧ ¬ n.virt b ∧ (∃ j, n.lay j a ∧ n.lt j i) ∧ ∃ k, n.lay k b ∧ n.lt i k
  witA : ∀ i x a b, n.lay i x → n.virt x → n.A x a → n.B x b →
    ∃ z, n.adj z x ∧ (z = a ∨ n.Carry a b z)
  witB : ∀ i x a b, n.lay i x → n.virt x → n.A x a → n.B x b →
    ∃ w, n.adj x w ∧ (w = b ∨ n.Carry a b w)
  realA : ∀ i j a b, n.lay i a → n.lay j b → ¬ n.virt a → ¬ n.virt b → n.link a b →
    ∃ w, n.adj a w ∧ (w = b ∨ n.Carry a b w)
  realB : ∀ i j a b, n.lay i a → n.lay j b → ¬ n.virt a → ¬ n.virt b → n.link a b →
    ∃ z, n.adj z b ∧ (z = a ∨ n.Carry a b z)

/-- Along a pair between virtual nodes the compared list of the node nearer
to the `A` side holds those entries of the other node's list that lie before
it. -/
def Net.Narrows (n : Net) : Prop :=
  ∀ z x, n.adj z x → n.virt z → n.virt x →
    ∀ a, n.A z a ↔ (n.A x a ∧ ∃ j k, n.lay j a ∧ n.lay k z ∧ n.lt j k)

/-- Every compared list of a virtual node of the layers has one entry. -/
def Net.Single (n : Net) : Prop :=
  ∀ i x a a', n.lay i x → n.virt x → n.A x a → n.A x a' → a = a'

/-- Along a pair between virtual nodes the other list of the node nearer to
the `A` side holds every entry of the other node's list. -/
def Net.Widens (n : Net) : Prop :=
  ∀ z x, n.adj z x → n.virt z → n.virt x → ∀ b, n.B x b → n.B z b

/-- No two virtual nodes of one layer share an entry of their `B` lists. -/
def Net.Apart (n : Net) : Prop :=
  ∀ i x y b, n.lay i x → n.lay i y → n.virt x → n.virt y → n.B x b → n.B y b → x = y

/-- No layer before layer `i` has two virtual nodes with the same compared
entries. -/
def Net.ExhaustedTo (n : Net) (i : Nat) : Prop :=
  ∀ j z z', n.lt j i → n.lay j z → n.lay j z' → n.virt z → n.virt z' →
    (∀ a, n.A z a ↔ n.A z' a) → z = z'

/-- No layer has two virtual nodes with the same compared entries. -/
def Net.Exhausted (n : Net) : Prop :=
  ∀ j z z', n.lay j z → n.lay j z' → n.virt z → n.virt z' → (∀ a, n.A z a ↔ n.A z' a) → z = z'

/-- The view `m` is what the body of the merge loop makes of the view `n`
when it replaces `y` by `x`. -/
structure Net.Merged (n m : Net) (x y : Nat) : Prop where
  lay : ∀ j w, m.lay j w ↔ (n.lay j w ∧ w ≠ y)
  adj : ∀ z w, m.adj z w ↔ ((n.adj z w ∧ z ≠ y ∧ w ≠ y) ∨ (z = x ∧ n.adj y w))
  virt : m.virt = n.virt
  A : m.A = n.A
  B : ∀ w b, m.B w b ↔ (n.B w b ∨ (w = x ∧ n.B y b))
  link : m.link = n.link
  lt : m.lt = n.lt
  next : m.next = n.next

/-- The state of the first phase of merging, in which the side compared
first is being merged. -/
structure Net.First (n : Net) : Prop where
  layered : n.Layered
  routed : n.Routed
  narrows : n.Narrows
  single : n.Single
  widens : n.Widens

/-- The state of the second phase of merging, in which the side compared
first has nothing left to merge. -/
structure Net.Second (n : Net) : Prop where
  layered : n.Layered
  routed : n.Routed
  narrows : n.Narrows
  apart : n.Apart

/-- What the merge steps keep of the layers besides the routes: every entry
sits in the layer of its rank, the virtual nodes lie strictly between the
first and the last rank, and the real-endpoint lists of the virtual nodes of
the layers have no entry twice. -/
structure MergeOK (maxLength : Nat) (s : Heap × Layers) : Prop where
  ranked : Ranked maxLength s.1 s.2
  inside : VirtualInside maxLength s.1 s.2
  nodupPre : ∀ i x, x ∈ s.2.layeredNodes.getD i [] → s.1.virtual x = true →
    (s.1.realPredecessors x).Nodup
  nodupSuc : ∀ i x, x ∈ s.2.layeredNodes.getD i [] → s.1.virtual x = true →
    (s.1.realSuccessors x).Nodup

/-- The state between two merge steps when the side with the flag `first` is
searched first: either that side is still being merged, or it has nothing
left to merge and the other side is being merged. -/
def MergeInv (first : Bool) (maxLength : Nat) (s : Heap × Layers) : Prop :=
  MergeOK maxLength s ∧ ((net first s).First ∨ (net (!first) s).Second)

/-- One call of `mergeNextVirtualNodeGroup` with the given value of the
option `mergeVirtualNodes` takes the heap and the layers `s` to `s'`. -/
def MergeStepFor (mergeVirtualNodes : String) (s s' : Heap × Layers) : Prop :=
  ∃ r : Option String,
    mergeNextVirtualNodeGroup s.1 s.2 mergeVirtualNodes = .ok (s'.1, s'.2, r)

/-- The nodes `xs` are the inner nodes of a path of pairs of `layeredEdges`
from `u` to `v`; each of them is virtual and has `u` in its
`realPredecessors` and `v` in its `realSuccessors`. -/
def RoutePath (s : Heap × Layers) (u v : Nat) (xs : List Nat) : Prop :=
  (∀ x ∈ xs, s.1.virtual x = true ∧ u ∈ s.1.realPredecessors x ∧ v ∈ s.1.realSuccessors x) ∧
  List.Chain' (fun a b => ∃ i, (a, b) ∈ s.2.layeredEdges.getD i []) (u :: (xs ++ [v]))

/-! ## The orderings that `nextPermutation` runs through -/

/-- The exchanges of positions that the calls of `nextPermutation` have made
since index `i` of `permState` was last set to zero, when `permState[i]` is
`d` and all lower entries are zero, as a permutation of the positions
(composed in the order of the calls); `prev` is the permutation made by a
full run of the lower indices. -/
def blockPerm (i : Nat) (prev : Equiv.Perm Nat) : Nat → Equiv.Perm Nat
  | 0 => 1
  | d + 1 => blockPerm i prev d * prev * Equiv.swap (if i % 2 = 0 then 0 else d) i

/-- The permutation of the positions made by a full run of the indices
`1 .. i` of `permState`, from all zero until every entry `l` is `l`. -/
def fullPerm : Nat → Equiv.Perm Nat
  | 0 => 1
  | i + 1 => blockPerm (i + 1) (fullPerm i) (i + 1) * fullPerm i

/-- The permutation of the positions made by the calls of `nextPermutation`
that lead from all zero to the entries `1 .. i` of `permState`. -/
def statePerm (permState : List Nat) : Nat → Equiv.Perm Nat
  | 0 => 1
  | i + 1 => blockPerm (i + 1) (fullPerm i) (permState.getD (i + 1) 0) * statePerm permState i

/-- The number of calls of `nextPermutation` that lead from all zero to the
first `j` entries of `permState`: the entries are the digits of this number,
entry `l` with the weight `l!`. -/
def stateRank (permState : List Nat) : Nat → Nat
  | 0 => 0
  | j + 1 => stateRank permState j + permState.getD j 0 * Nat.factorial j

/-- The function `nextPermutation` called `count` times, each call with the
permutation state and the shift that the call before has left. -/
def permRun (layer : List Nat) : Nat → Heap → List Nat → Nat → Res (Heap × List Nat × Nat)
  | 0, h, permState, permShift => .ok (h, permState, permShift)
  | count + 1, h, permState, permShift =>
    (permRun layer count h permState permShift).bind fun r =>
      nextPermutation r.1 layer r.2.1 r.2.2

/-- The ordinal `(i + 0.5) / width` of position `i`. -/
def evenOrth (width i : Nat) : ℚ := ((i : ℚ) + 1 / 2) / width

/-- What a full run of the indices `1 .. i` makes of the positions when `i`
is odd and at least 3. -/
def oddFull (i p : Nat) : Nat :=
  if p = 0 then i - 2 else if p = 1 then i - 1 else if p ≤ i - 2 then p - 1
  else if p = i - 1 then i else if p = i then 0 else p

/-- What the exchanges of an odd index `i ≥ 3` make of the positions until
`permState[i]` is `d`. -/
def oddBlock (i d p : Nat) : Nat :=
  if p = 0 then (if d % 2 = 1 then i else 0)
  else if p = i - 1 then
    (if d = 0 then i - 1 else if d = i then i - 2 else if d % 2 = 1 then 0 else i)
  else if p = i then (if d = 0 then i else if d = 1 then i - 1 else if d = i then 0 else d - 1)
  else if p = 1 then (if d ≤ 1 then 1 else i - 1)
  else if p ≤ i - 2 then (if d ≤ p then p else p - 1)
  else p

/-- The position whose first ordinal is at position `i` when `permState[i]`
is `d`, for an even index `i ≥ 4`. -/
def evenLast (i d : Nat) : Nat :=
  if d = 0 then i else if d ≤ i - 3 then i - 2 - d else if d = i - 2 then i - 2
  else if d = i - 1 then i - 1 else 0

/-- The ordinals of the nodes of a layer, by position. -/
def orths (h : Heap) (layer : List Nat) : List (Option ℚ) := layer.map h.orth

/-- The ordinals `(i + 0.5) / width` of the positions `i` of a layer. -/
def evenOrths (width : Nat) : List (Option ℚ) :=
  (List.range width).map fun i => some (evenOrth width i)

/-- The ordinals of the layer are those of the positions, ordered in the
window of `j` positions from `permShift` on by the permutation `order`. -/
def OrthAt (layer : List Nat) (permShift j : Nat) (order : Equiv.Perm Nat) (h : Heap) : Prop :=
  ∀ p x, layer[p]? = some x →
    h.orth x = some (evenOrth layer.length
      (if permShift ≤ p ∧ p < permShift + j then permShift + order (p - permShift) else p))

/-- What holds of the heap and of `permState` between two calls of
`nextPermutation` on the window of `j` positions from `permShift`: `permState`
has `j` digits, digit `l` is at most `l`, and the ordinals are those of the
order `statePerm permState (j - 1)`. -/
def PermInv (layer : List Nat) (permShift j : Nat) (h : Heap) (permState : List Nat) : Prop :=
  permState.length = j ∧ (∀ l, permState.getD l 0 ≤ l) ∧
    OrthAt layer permShift j (statePerm permState (j - 1)) h

/-! ## Termination of `layout` -/

/-- The call `f fuel` of a function with a step budget gives the same outcome
for every budget from some bound on, this outcome is a return or an
exception, and what is returned satisfies `P`. -/
def SettlesWith {α : Type} (f : Nat → Res α) (P : α → Prop) : Prop :=
  ∃ (bound : Nat) (r : Res α), r ≠ .timeout ∧ (∀ fuel, bound ≤ fuel → f fuel = r) ∧
    ∀ a, r = .ok a → P a

/-- The call `f fuel` of a function with a step budget returns the same value
for every budget from some bound on, and this value satisfies `P`. -/
def ReturnsWith {α : Type} (f : Nat → Res α) (P : α → Prop) : Prop :=
  ∃ (bound : Nat) (a : α), (∀ fuel, bound ≤ fuel → f fuel = .ok a) ∧ P a

/-- The heaps agree on the number of objects and on the fields `virtual`,
`predecessors` and `successors`. -/
def SameShape (h h' : Heap) : Prop :=
  h'.size = h.size ∧ h'.virtual = h.virtual ∧ h'.predecessors = h.predecessors ∧
    h'.successors = h.successors

/-- The number of entries of `layeredNodes`. -/
def layersSize (layeredNodes : List (List Nat)) : Nat := (layeredNodes.map List.length).sum

/-- What the loop of `layout` over the groups keeps of the heap `h0` that
`groupNodes` has returned: the objects of `h0` are still there and are
virtual or not as they were, and the adjacency lists are those of `h0`. -/
structure LayoutFrame (h0 h : Heap) : Prop where
  size : h0.size ≤ h.size
  virtual : ∀ x, x < h0.size → h.virtual x = h0.virtual x
  predecessors : h.predecessors = h0.predecessors
  successors : h.successors = h0.successors

/-! ## Example graphs -/

/-- The diamond `A → B`, `A → C`, `B → D`, `C → D`. -/
def diamond : Graph :=
  Graph.build [.addNode "A", .addNode "B", .addNode "C", .addNode "D",
    .addEdge "A" "B", .addEdge "A" "C", .addEdge "B" "D", .addEdge "C" "D"]

/-- The triangle `A → B`, `B → C`, `A → C`. -/
def triangle : Graph :=
  Graph.build [.addNode "A", .addNode "B", .addNode "C",
    .addEdge "A" "B", .addEdge "B" "C", .addEdge "A" "C"]

/-- The triangle with the ranks `calculateFlow` gives it: `A = 0`, `B = 1`,
`C = 2`. -/
def triangleRanked : Heap := { triangle.heap with flow := fun n => some (n : Int) }

/-- The graph with the 2-cycles `b1 ⇄ b2` and `a1 ⇄ a2` and the edge
`a1 → b1` that joins them; the nodes are added in the order
`b1, b2, a1, a2`. -/
def bridgeOps : List Op :=
  [.addNode "b1", .addNode "b2", .addNode "a1", .addNode "a2", .addEdge "a1" "b1",
    .addEdge "b1" "b2", .addEdge "b2" "b1", .addEdge "a1" "a2", .addEdge "a2" "a1"]

/-! # Theorems -/

/-! ## Field maps and adjacency updates -/

@[simp] theorem upd_same {α : Type} (f : Nat → α) (a : Nat) (v : α) : upd f a v a = v := by
  simp [upd]

theorem upd_ne {α : Type} (f : Nat → α) {a b : Nat} (v : α) (hne : b ≠ a) :
    upd f a v b = f b := by
  simp [upd, hne]

theorem removeSuccessor_successors (h : Heap) (p n a : Nat) :
    (removeSuccessor h p n).successors a =
      if a = p then (h.successors p).filter (fun item => decide (item ≠ n)) else h.successors a := by
  simp only [removeSuccessor, upd]

theorem removeSuccessor_predecessors (h : Heap) (p n b : Nat) :
    (removeSuccessor h p n).predecessors b =
      if b = n then (h.predecessors n).filter (fun item => decide (item ≠ p)) else h.predecessors b := by
  simp only [removeSuccessor, upd]

theorem mem_removeSuccessor_successors (h : Heap) (p n a b : Nat) :
    b ∈ (removeSuccessor h p n).successors a ↔ b ∈ h.successors a ∧ ¬ (a = p ∧ b = n) := by
  rw [removeSuccessor_successors]
  split
  · subst_vars; simp
  · simp_all

theorem mem_removeSuccessor_predecessors (h : Heap) (p n a b : Nat) :
    a ∈ (removeSuccessor h p n).predecessors b ↔ a ∈ h.predecessors b ∧ ¬ (a = p ∧ b = n) := by
  rw [removeSuccessor_predecessors]
  split
  · subst_vars; simp
  · simp_all

theorem removeSuccessor_frame (h : Heap) (p n : Nat) : AdjFrame h (removeSuccessor h p n) := by
  constructor <;> rfl

theorem AdjFrame.reflAdj (h : Heap) : AdjFrame h h := by
  constructor <;> rfl

theorem AdjFrame.transAdj {h1 h2 h3 : Heap} (a : AdjFrame h1 h2) (b : AdjFrame h2 h3) :
    AdjFrame h1 h3 := by
  constructor
  · rw [b.flow, a.flow]
  · rw [b.flowTop, a.flowTop]
  · rw [b.flowBottom, a.flowBottom]
  · rw [b.orth, a.orth]
  · rw [b.groupIndex, a.groupIndex]
  · rw [b.virtual, a.virtual]
  · rw [b.realPredecessors, a.realPredecessors]
  · rw [b.realSuccessors, a.realSuccessors]
  · rw [b.size, a.size]

theorem Symmetric.afterRemove {h : Heap} (hs : h.Symmetric) (p n : Nat) :
    (removeSuccessor h p n).Symmetric := by
  intro a b
  rw [mem_removeSuccessor_successors, mem_removeSuccessor_predecessors, hs a b]

/-! ## Removing a batch of marked nodes -/

theorem foldl_spliceOut_spec : ∀ (m u : List Nat), u.Nodup → m.Nodup → (∀ x ∈ m, x ∈ u) →
    (m.foldl spliceOut u).Nodup ∧ (∀ x, x ∈ m.foldl spliceOut u ↔ x ∈ u ∧ x ∉ m) ∧
      (m.foldl spliceOut u).length + m.length = u.length
  | [], u, hu, _, _ => by simp [hu]
  | a :: m, u, hu, hm, hsub => by
    have ha : a ∈ u := hsub a (List.mem_cons_self _ _)
    have hm' := List.nodup_cons.mp hm
    have hstep : spliceOut u a = u.erase a := by simp [spliceOut, ha]
    have hsub' : ∀ x ∈ m, x ∈ u.erase a := by
      intro x hx
      have hxa : x ≠ a := fun e => hm'.1 (e ▸ hx)
      exact (List.mem_erase_of_ne hxa).mpr (hsub x (List.mem_cons_of_mem _ hx))
    obtain ⟨h1, h2, h3⟩ := foldl_spliceOut_spec m (u.erase a) (hu.erase a) hm'.2 hsub'
    simp only [List.foldl_cons, hstep]
    refine ⟨h1, ?_, ?_⟩
    · intro x
      rw [h2 x, hu.mem_erase_iff, List.mem_cons]
      tauto
    · have hl := List.length_erase_of_mem ha
      have hpos : 0 < u.length := List.length_pos_of_mem ha
      simp only [List.length_cons]
      omega

theorem edgeCount_removeSuccessor_lt (h : Heap) (nodes : List Nat) (p n : Nat)
    (hp : p ∈ nodes) (hn : n ∈ h.successors p) :
    edgeCount (removeSuccessor h p n) nodes < edgeCount h nodes := by
  unfold edgeCount
  apply List.sum_lt_sum
  · intro a _
    rw [removeSuccessor_successors]
    split
    · subst_vars; exact List.length_filter_le _ _
    · exact le_refl _
  · refine ⟨p, hp, ?_⟩
    rw [removeSuccessor_successors, if_pos rfl]
    apply List.length_filter_lt_length_iff_exists.mpr
    exact ⟨n, hn, by simp⟩

theorem RemoveCyclesInv.onEntry {h : Heap} {nodes : List Nat} (hn : nodes.Nodup)
    (hs : h.Symmetric) (hc : h.ClosedOn nodes) : RemoveCyclesInv h nodes h nodes [] where
  sym := hs
  closed := hc
  nodup := hn
  sub := fun _ ha => ha
  cyc := by
    intro a ha
    obtain ⟨b, hab, _⟩ := Relation.TransGen.head'_iff.mp ha
    exact (hc a b hab).1
  succ_eq := by intro a; simp
  pred_eq := by intro a; simp
  frame := AdjFrame.reflAdj h
  removed := by intro e he; simp at he

theorem RemoveCyclesInv.sever {h0 h : Heap} {nodes u : List Nat} {ce : List (Nat × Nat)}
    (inv : RemoveCyclesInv h0 nodes h u ce) (e : Nat × Nat) (he : e.1 ∈ h.predecessors e.2) :
    RemoveCyclesInv h0 nodes (removeSuccessor h e.1 e.2) u (ce ++ [e]) where
  sym := Symmetric.afterRemove inv.sym _ _
  closed := by
    intro a b hab
    exact inv.closed a b ((mem_removeSuccessor_successors _ _ _ _ _).mp hab).1
  nodup := inv.nodup
  sub := inv.sub
  cyc := by
    intro a ha
    apply inv.cyc
    refine Relation.TransGen.mono ?_ ha
    intro x y hxy
    exact ((mem_removeSuccessor_successors _ _ _ _ _).mp hxy).1
  succ_eq := by
    intro a
    rw [removeSuccessor_successors]
    split
    · subst_vars
      rw [inv.succ_eq, List.filter_filter]
      apply List.filter_congr
      intro b _
      rcases e with ⟨p, n⟩
      simp [Prod.ext_iff]
      exact Bool.and_comm _ _
    · rename_i hne
      rw [inv.succ_eq]
      apply List.filter_congr
      intro b _
      rcases e with ⟨p, n⟩
      simp [Prod.ext_iff]
      intro _
      exact Or.inl hne
  pred_eq := by
    intro b
    rw [removeSuccessor_predecessors]
    split
    · subst_vars
      rw [inv.pred_eq, List.filter_filter]
      apply List.filter_congr
      intro a _
      rcases e with ⟨p, n⟩
      simp [Prod.ext_iff]
      exact Bool.and_comm _ _
    · rename_i hne
      rw [inv.pred_eq]
      apply List.filter_congr
      intro a _
      rcases e with ⟨p, n⟩
      simp [Prod.ext_iff]
      intro _
      exact Or.inr hne
  frame := inv.frame.transAdj (removeSuccessor_frame h _ _)
  removed := by
    intro x hx
    rcases List.mem_append.mp hx with hx | hx
    · exact inv.removed x hx
    · have hxe : x = e := by simpa using hx
      subst hxe
      have h1 : x.2 ∈ h.successors x.1 := (inv.sym _ _).mpr he
      rw [inv.succ_eq] at h1
      exact (List.mem_filter.mp h1).1

/-- The nodes `removeCycles` marks in one round. -/
theorem RemoveCyclesInv.mark {h0 h : Heap} {nodes u : List Nat} {ce : List (Nat × Nat)}
    (inv : RemoveCyclesInv h0 nodes h u ce) (m : List Nat)
    (hm : m = u.filter (fun n =>
        !(h.predecessors n).any (fun s => decide (s ∈ u)) ||
        !(h.successors n).any (fun s => decide (s ∈ u)))) :
    RemoveCyclesInv h0 nodes h (m.foldl spliceOut u) ce ∧
      (m.foldl spliceOut u).length + m.length = u.length := by
  have hmn : m.Nodup := hm ▸ inv.nodup.filter _
  have hms : ∀ x ∈ m, x ∈ u := by
    intro x hx
    rw [hm] at hx
    exact (List.mem_filter.mp hx).1
  obtain ⟨h1, h2, h3⟩ := foldl_spliceOut_spec m u inv.nodup hmn hms
  refine ⟨?_, h3⟩
  exact {
    sym := inv.sym
    closed := inv.closed
    nodup := h1
    sub := fun a ha => inv.sub a ((h2 a).mp ha).1
    cyc := by
      intro a ha
      rw [h2]
      refine ⟨inv.cyc a ha, ?_⟩
      intro ham
      rw [hm] at ham
      have hp := (List.mem_filter.mp ham).2
      obtain ⟨s, has, hsa⟩ := Relation.TransGen.head'_iff.mp ha
      obtain ⟨p, hap, hpa⟩ := Relation.TransGen.tail'_iff.mp ha
      have hs : s ∈ u := inv.cyc s (Relation.TransGen.tail' hsa has)
      have hpu : p ∈ u := inv.cyc p (Relation.TransGen.head' hpa hap)
      have hpp : p ∈ h.predecessors a := (inv.sym p a).mp hpa
      have e1 : (h.predecessors a).any (fun s => decide (s ∈ u)) = true :=
        List.any_eq_true.mpr ⟨p, hpp, by simpa using hpu⟩
      have e2 : (h.successors a).any (fun s => decide (s ∈ u)) = true :=
        List.any_eq_true.mpr ⟨s, has, by simpa using hs⟩
      rw [e1, e2] at hp
      exact absurd hp (by decide)
    succ_eq := inv.succ_eq
    pred_eq := inv.pred_eq
    frame := inv.frame
    removed := inv.removed }

/-- When no node can be marked, the first candidate edge exists and is an
edge between two unmarked nodes. -/
theorem RemoveCyclesInv.candidate {h0 h : Heap} {nodes u : List Nat} {ce : List (Nat × Nat)}
    (inv : RemoveCyclesInv h0 nodes h u ce) (hu : u ≠ [])
    (hm : u.filter (fun n =>
        !(h.predecessors n).any (fun s => decide (s ∈ u)) ||
        !(h.successors n).any (fun s => decide (s ∈ u))) = []) :
    ∃ e, ((nodes.filter (fun node => decide (node ∈ u))).flatMap (fun node =>
            ((h.predecessors node).filter (fun p => decide (p ∈ u))).map
              (fun p => (p, node)))).head? = some e ∧
      e.1 ∈ h.predecessors e.2 ∧ e.1 ∈ nodes := by
  obtain ⟨x, hx⟩ := List.exists_mem_of_ne_nil u hu
  have hxp := List.filter_eq_nil_iff.mp hm x hx
  have hany : (h.predecessors x).any (fun s => decide (s ∈ u)) = true := by
    by_contra hc
    simp only [Bool.not_eq_true] at hc
    rw [hc] at hxp
    simp at hxp
  obtain ⟨p, hp, hpu⟩ := List.any_eq_true.mp hany
  have hpu' : p ∈ u := by simpa using hpu
  have hmem : (p, x) ∈ (nodes.filter (fun node => decide (node ∈ u))).flatMap (fun node =>
            ((h.predecessors node).filter (fun p => decide (p ∈ u))).map
              (fun p => (p, node))) := by
    rw [List.mem_flatMap]
    refine ⟨x, List.mem_filter.mpr ⟨inv.sub x hx, by simpa using hx⟩, ?_⟩
    exact List.mem_map.mpr ⟨p, List.mem_filter.mpr ⟨hp, by simpa using hpu'⟩, rfl⟩
  generalize hl : (nodes.filter (fun node => decide (node ∈ u))).flatMap (fun node =>
            ((h.predecessors node).filter (fun p => decide (p ∈ u))).map
              (fun p => (p, node))) = l at hmem
  cases l with
  | nil => simp at hmem
  | cons e t =>
    refine ⟨e, rfl, ?_⟩
    have he : e ∈ (nodes.filter (fun node => decide (node ∈ u))).flatMap (fun node =>
            ((h.predecessors node).filter (fun p => decide (p ∈ u))).map
              (fun p => (p, node))) := by rw [hl]; exact List.mem_cons_self _ _
    rw [List.mem_flatMap] at he
    obtain ⟨node, _, he2⟩ := he
    obtain ⟨q, hq, rfl⟩ := List.mem_map.mp he2
    have hq' := (List.mem_filter.mp hq).1
    exact ⟨hq', (inv.closed q node ((inv.sym q node).mpr hq')).1⟩

theorem removeCyclesLoop_ok (h0 : Heap) (nodes : List Nat) :
    ∀ (m : Nat) (h : Heap) (u : List Nat) (ce : List (Nat × Nat)),
      RemoveCyclesInv h0 nodes h u ce → u.length + edgeCount h nodes ≤ m →
      ∀ fuel, m < fuel → ∃ h' ce', removeCyclesLoop fuel h nodes u ce = .ok (h', ce') ∧
        RemoveCyclesInv h0 nodes h' [] ce' := by
  intro m
  induction m with
  | zero =>
    intro h u ce inv hle fuel hf
    obtain ⟨f, rfl⟩ : ∃ f, fuel = f + 1 := ⟨fuel - 1, by omega⟩
    have hu : u = [] := List.eq_nil_of_length_eq_zero (by omega)
    subst hu
    exact ⟨h, ce, by simp [removeCyclesLoop], inv⟩
  | succ m ih =>
    intro h u ce inv hle fuel hf
    obtain ⟨f, rfl⟩ : ∃ f, fuel = f + 1 := ⟨fuel - 1, by omega⟩
    by_cases hu : u = []
    · subst hu
      exact ⟨h, ce, by simp [removeCyclesLoop], inv⟩
    · have hpos : u.length > 0 := List.length_pos.mpr hu
      rw [removeCyclesLoop, if_pos hpos]
      simp only []
      split
      · rename_i hnil
        have hnil' := List.eq_nil_of_length_eq_zero hnil
        obtain ⟨e, he, hep, hen⟩ := inv.candidate hu hnil'
        rw [he]
        simp only []
        apply ih _ _ _ (inv.sever e hep) _ f (by omega)
        have hlt := edgeCount_removeSuccessor_lt h nodes e.1 e.2 hen ((inv.sym _ _).mpr hep)
        omega
      · rename_i hne
        obtain ⟨inv', hlen⟩ := inv.mark _ rfl
        apply ih _ _ _ inv' _ f (by omega)
        have : 0 < (u.filter (fun n =>
          !(h.predecessors n).any (fun s => decide (s ∈ u)) ||
          !(h.successors n).any (fun s => decide (s ∈ u)))).length :=
            Nat.pos_of_ne_zero hne
        omega

/-! ## Graphs made by the mutators are well formed -/

theorem lookup_some_mem {β : Type} (key : String) :
    ∀ (l : List (String × β)) (v : β), lookup key l = some v → v ∈ l.map Prod.snd
  | [], _, hl => by simp [lookup] at hl
  | (k, w) :: rest, v, hl => by
    simp only [lookup] at hl
    split at hl
    · simp only [Option.some.injEq] at hl
      subst hl
      simp
    · have := lookup_some_mem key rest v hl
      simp only [List.map_cons, List.mem_cons]
      exact Or.inr this

theorem assign_of_lookup_none {β : Type} (key : String) (v : β) :
    ∀ (l : List (String × β)), lookup key l = none → assign key v l = l ++ [(key, v)]
  | [], _ => rfl
  | (k, w) :: rest, hl => by
    simp only [lookup] at hl
    split at hl
    · simp at hl
    · rename_i hne
      simp only [assign, if_neg hne, List.cons_append, assign_of_lookup_none key v rest hl]

theorem addSuccessor_successors (h : Heap) (p s a : Nat) :
    (addSuccessor h p s).successors a = if a = p then h.successors p ++ [s] else h.successors a := by
  simp only [addSuccessor, upd]

theorem addSuccessor_predecessors (h : Heap) (p s b : Nat) :
    (addSuccessor h p s).predecessors b =
      if b = s then h.predecessors s ++ [p] else h.predecessors b := by
  simp only [addSuccessor, upd]

theorem Fresh.ofEmpty : Fresh Heap.empty [] where
  nodup := List.nodup_nil
  bound := by intro a ha; simp at ha
  closed := by intro a b hab; simp [Heap.empty] at hab
  sym := by intro a b; simp [Heap.empty]
  groupIndex := fun _ => rfl
  virtual := fun _ => rfl
  flow := fun _ => rfl

theorem Fresh.alloc {h : Heap} {nodes : List Nat} (hf : Fresh h nodes) :
    Fresh (h.alloc none).1 (nodes ++ [h.size]) where
  nodup := by
    rw [List.nodup_append]
    refine ⟨hf.nodup, List.nodup_singleton _, ?_⟩
    intro a ha hb
    have := hf.bound a ha
    simp at hb
    omega
  bound := by
    intro a ha
    simp only [Heap.alloc]
    rcases List.mem_append.mp ha with ha | ha
    · have := hf.bound a ha
      omega
    · simp at ha
      omega
  closed := by
    intro a b hab
    simp only [Heap.alloc, upd] at hab
    split at hab
    · simp at hab
    · have := hf.closed a b hab
      exact ⟨List.mem_append_left _ this.1, List.mem_append_left _ this.2⟩
  sym := by
    intro a b
    simp only [Heap.alloc, upd]
    by_cases ha : a = h.size <;> by_cases hb : b = h.size
    · simp [ha, hb]
    · simp only [ha, hb, if_true, if_false, List.not_mem_nil, false_iff]
      intro hc
      have := (hf.closed _ _ ((hf.sym _ _).mpr hc)).1
      have := hf.bound _ this
      omega
    · simp only [ha, hb, if_true, if_false, List.not_mem_nil, iff_false]
      intro hc
      have := (hf.closed _ _ hc).2
      have := hf.bound _ this
      omega
    · simp only [ha, hb, if_false]
      exact hf.sym a b
  groupIndex := by
    intro a
    simp only [Heap.alloc, upd]
    split
    · rfl
    · exact hf.groupIndex a
  virtual := by
    intro a
    simp only [Heap.alloc, upd]
    split
    · rfl
    · exact hf.virtual a
  flow := by
    intro a
    simp only [Heap.alloc, upd]
    split
    · rfl
    · exact hf.flow a

theorem Fresh.addSuccessor {h : Heap} {nodes : List Nat} (hf : Fresh h nodes) {p s : Nat}
    (hp : p ∈ nodes) (hs : s ∈ nodes) : Fresh (addSuccessor h p s) nodes where
  nodup := hf.nodup
  bound := hf.bound
  closed := by
    intro a b hab
    rw [addSuccessor_successors] at hab
    split at hab
    · subst_vars
      rcases List.mem_append.mp hab with hab | hab
      · exact hf.closed _ _ hab
      · simp at hab
        subst hab
        exact ⟨hp, hs⟩
    · exact hf.closed _ _ hab
  sym := by
    intro a b
    rw [addSuccessor_successors, addSuccessor_predecessors]
    have := hf.sym a b
    by_cases ha : a = p <;> by_cases hb : b = s <;> simp_all
  groupIndex := hf.groupIndex
  virtual := hf.virtual
  flow := hf.flow

theorem Fresh.afterRemoveSuccessor {h : Heap} {nodes : List Nat} (hf : Fresh h nodes) (p s : Nat) :
    Fresh (removeSuccessor h p s) nodes where
  nodup := hf.nodup
  bound := hf.bound
  closed := by
    intro a b hab
    exact hf.closed a b ((mem_removeSuccessor_successors _ _ _ _ _).mp hab).1
  sym := Symmetric.afterRemove hf.sym _ _
  groupIndex := hf.groupIndex
  virtual := hf.virtual
  flow := hf.flow

theorem Fresh.step {g : Graph} (hf : Fresh g.heap g.values) (op : Op) :
    Fresh (g.step op).heap (g.step op).values := by
  cases op with
  | addNode id =>
    simp only [Graph.step, Graph.addNode]
    cases hl : lookup id g.nodes with
    | some v => exact hf
    | none =>
      simp only [Graph.values, assign_of_lookup_none id _ g.nodes hl, List.map_append,
        List.map_cons, List.map_nil]
      exact hf.alloc
  | addEdge p s =>
    simp only [Graph.step, Graph.addEdge]
    cases hp : lookup p g.nodes with
    | none => exact hf
    | some pv =>
      cases hs : lookup s g.nodes with
      | none => exact hf
      | some sv =>
        exact hf.addSuccessor (lookup_some_mem p _ _ hp) (lookup_some_mem s _ _ hs)
  | removeEdge p s =>
    simp only [Graph.step, Graph.removeEdge]
    cases hp : lookup p g.nodes with
    | none => exact hf
    | some pv =>
      cases hs : lookup s g.nodes with
      | none => exact hf
      | some sv => exact hf.afterRemoveSuccessor _ _

theorem Fresh.foldl_step : ∀ (ops : List Op) (g : Graph), Fresh g.heap g.values →
    Fresh (ops.foldl Graph.step g).heap (ops.foldl Graph.step g).values
  | [], _, hf => hf
  | op :: ops, g, hf => Fresh.foldl_step ops (g.step op) (hf.step op)

theorem Fresh.build (ops : List Op) : Fresh (Graph.build ops).heap (Graph.build ops).values :=
  Fresh.foldl_step ops Graph.empty Fresh.ofEmpty

theorem Fresh.ofPerm {h : Heap} {nodes nodes' : List Nat} (hf : Fresh h nodes)
    (hp : nodes'.Perm nodes) : Fresh h nodes' where
  nodup := hp.nodup_iff.mpr hf.nodup
  bound := fun a ha => hf.bound a (hp.mem_iff.mp ha)
  closed := by
    intro a b hab
    have := hf.closed a b hab
    exact ⟨hp.mem_iff.mpr this.1, hp.mem_iff.mpr this.2⟩
  sym := hf.sym
  groupIndex := hf.groupIndex
  virtual := hf.virtual
  flow := hf.flow

/-- A larger step budget does not change a result already returned. -/
theorem removeCyclesLoop_mono (nodes : List Nat) (r : Heap × List (Nat × Nat)) :
    ∀ (fuel : Nat) (h : Heap) (u : List Nat) (ce : List (Nat × Nat)),
      removeCyclesLoop fuel h nodes u ce = .ok r →
      ∀ fuel', fuel ≤ fuel' → removeCyclesLoop fuel' h nodes u ce = .ok r := by
  intro fuel
  induction fuel with
  | zero => intro h u ce hr; simp [removeCyclesLoop] at hr
  | succ f ih =>
    intro h u ce hr fuel' hle
    obtain ⟨f', rfl⟩ : ∃ f', fuel' = f' + 1 := ⟨fuel' - 1, by omega⟩
    have hle' : f ≤ f' := by omega
    rw [removeCyclesLoop] at hr ⊢
    split
    · rename_i hpos
      rw [if_pos hpos] at hr
      simp only [] at hr ⊢
      split
      · rename_i hz
        rw [if_pos hz] at hr
        split
        · rename_i hn
          rw [hn] at hr
          exact hr
        · rename_i e hn
          rw [hn] at hr
          exact ih _ _ _ hr f' hle'
      · rename_i hz
        rw [if_neg hz] at hr
        exact ih _ _ _ hr f' hle'
    · rename_i hpos
      rw [if_neg hpos] at hr
      exact hr

/-- What `removeCycles` does on any well-formed adjacency: with any budget
above a bound it returns, and the invariant holds with nothing left unmarked. -/
theorem removeCycles_ok {h : Heap} {nodes : List Nat} (hn : nodes.Nodup) (hs : h.Symmetric)
    (hc : h.ClosedOn nodes) :
    ∃ h' ce, (∀ fuel, nodes.length + edgeCount h nodes < fuel →
        removeCycles fuel h nodes = .ok (h', ce)) ∧ RemoveCyclesInv h nodes h' [] ce := by
  obtain ⟨h', ce', he, hinv⟩ := removeCyclesLoop_ok h nodes (nodes.length + edgeCount h nodes)
    h nodes [] (RemoveCyclesInv.onEntry hn hs hc) (le_refl _) _ (Nat.lt_succ_self _)
  exact ⟨h', ce', fun fuel hf => removeCyclesLoop_mono nodes _ _ _ _ _ he fuel hf, hinv⟩

theorem RemoveCyclesInv.acyclic {h0 h : Heap} {nodes : List Nat} {ce : List (Nat × Nat)}
    (inv : RemoveCyclesInv h0 nodes h [] ce) : h.Acyclic := by
  intro n hn
  have := inv.cyc n hn
  simp at this

/-- C1: for every graph built with `addNode`/`addEdge`/`removeEdge` (self-loops,
2-cycles and duplicate edges included) and every enumeration order of its
nodes, `removeCycles` returns once the step budget exceeds a bound; the
adjacency it leaves is acyclic, and its successor lists are the original
ones with exactly the returned pairs removed, each returned pair being an
edge of the original graph. -/
theorem removeCycles_acyclic (ops : List Op) (nodes : List Nat)
    (hperm : nodes.Perm (Graph.build ops).values) :
    ∃ (bound : Nat) (h' : Heap) (cyclicEdges : List (Nat × Nat)),
      (∀ fuel, bound ≤ fuel →
        removeCycles fuel (Graph.build ops).heap nodes = .ok (h', cyclicEdges)) ∧
      h'.Acyclic ∧
      (∀ a, h'.successors a = ((Graph.build ops).heap.successors a).filter
        (fun b => decide ((a, b) ∉ cyclicEdges))) ∧
      (∀ e ∈ cyclicEdges, e.2 ∈ (Graph.build ops).heap.successors e.1) := by
  have hf := (Fresh.build ops).ofPerm hperm
  obtain ⟨h', ce, hrun, inv⟩ := removeCycles_ok hf.nodup hf.sym hf.closed
  exact ⟨_, h', ce, fun fuel hle => hrun fuel (Nat.lt_of_succ_le hle), inv.acyclic,
    inv.succ_eq, inv.removed⟩

/-- C1 at the 3-cycle `a → b → c → a` with a self-loop on `a` and the edge
`a → b` stored twice. -/
theorem removeCycles_acyclic_witness :
    ∃ (bound : Nat) (h' : Heap) (cyclicEdges : List (Nat × Nat)),
      (∀ fuel, bound ≤ fuel →
        removeCycles fuel (Graph.build [.addNode "a", .addNode "b", .addNode "c",
          .addEdge "a" "b", .addEdge "b" "c", .addEdge "c" "a", .addEdge "a" "a",
          .addEdge "a" "b"]).heap [0, 1, 2] = .ok (h', cyclicEdges)) ∧
      h'.Acyclic ∧
      (∀ a, h'.successors a = ((Graph.build [.addNode "a", .addNode "b", .addNode "c",
          .addEdge "a" "b", .addEdge "b" "c", .addEdge "c" "a", .addEdge "a" "a",
          .addEdge "a" "b"]).heap.successors a).filter
        (fun b => decide ((a, b) ∉ cyclicEdges))) ∧
      (∀ e ∈ cyclicEdges, e.2 ∈ (Graph.build [.addNode "a", .addNode "b", .addNode "c",
          .addEdge "a" "b", .addEdge "b" "c", .addEdge "c" "a", .addEdge "a" "a",
          .addEdge "a" "b"]).heap.successors e.1) :=
  removeCycles_acyclic _ [0, 1, 2] (by decide)

/-! ## `groupNodes`: the traversal of one group -/

theorem Heap.linked_symm {h : Heap} (hs : h.Symmetric) {a b : Nat} (hl : h.linked a b) :
    h.linked b a := by
  rcases hl with hl | hl
  · exact Or.inr ((hs b a).mpr hl)
  · exact Or.inl ((hs a b).mp hl)

theorem Heap.Connected.symm {h : Heap} (hs : h.Symmetric) {a b : Nat} (hc : h.Connected a b) :
    h.Connected b a := by
  induction hc with
  | refl => exact Relation.ReflTransGen.refl
  | tail _ hbc ih => exact Relation.ReflTransGen.head (Heap.linked_symm hs hbc) ih

theorem Heap.linked_mem {h : Heap} {all : List Nat} (hs : h.Symmetric) (hc : h.ClosedOn all)
    {a b : Nat} (hl : h.linked a b) : a ∈ all ∧ b ∈ all := by
  rcases hl with hl | hl
  · have := hc b a ((hs b a).mpr hl)
    exact ⟨this.2, this.1⟩
  · exact hc a b hl

theorem ungrouped_upd_lt (gi : Nat → Option Nat) (all : List Nat) (c idx : Nat)
    (hc : c ∈ all) (hgi : gi c = none) :
    ungrouped (upd gi c (some idx)) all < ungrouped gi all := by
  unfold ungrouped
  induction all with
  | nil => simp at hc
  | cons a t ih =>
    by_cases hac : a = c
    · subst hac
      have hle : (t.filter (fun n => decide (upd gi a (some idx) n = none))).length ≤
          (t.filter (fun n => decide (gi n = none))).length := by
        apply List.Sublist.length_le
        apply List.monotone_filter_right
        intro n hn
        simp only [decide_eq_true_eq] at hn ⊢
        unfold upd at hn
        split at hn
        · simp at hn
        · exact hn
      have e1 : decide (upd gi a (some idx) a = none) = false := by simp
      have e2 : decide (gi a = none) = true := by simp [hgi]
      rw [List.filter_cons, List.filter_cons, e1, e2]
      simp only [Bool.false_eq_true, if_false, if_true, List.length_cons]
      omega
    · have hc' : c ∈ t := by
        rcases List.mem_cons.mp hc with h | h
        · exact absurd h.symm hac
        · exact h
      have := ih hc'
      simp only [List.filter_cons, upd_ne gi (some idx) hac]
      split
      · simp only [List.length_cons]; omega
      · omega

theorem QueueInv.skip {h0 : Heap} {all : List Nat} {idx first : Nat} {gis gi : Nat → Option Nat}
    {c : Nat} {rest group : List Nat} (inv : QueueInv h0 all idx first gis gi (c :: rest) group)
    (hc : gi c ≠ none) : QueueInv h0 all idx first gis gi rest group where
  gi_eq := inv.gi_eq
  unv := inv.unv
  nodup := inv.nodup
  frontier := by
    intro n hn m hl
    rcases inv.frontier n hn m hl with h | h
    · exact Or.inl h
    · rcases List.mem_cons.mp h with h | h
      · exact Or.inl (h ▸ hc)
      · exact Or.inr h
  connQ := fun n hn => inv.connQ n (List.mem_cons_of_mem _ hn)
  connG := inv.connG
  subQ := fun n hn => inv.subQ n (List.mem_cons_of_mem _ hn)
  subG := inv.subG
  fresh := inv.fresh
  start := by
    rcases inv.start with h | h
    · rcases List.mem_cons.mp h with h | h
      · subst h
        have h1 := inv.gi_eq first
        split at h1
        · rename_i hg; exact Or.inr hg
        · rw [inv.fresh] at h1
          exact absurd h1 hc
      · exact Or.inl h
    · exact Or.inr h

theorem QueueInv.visit {h0 : Heap} {all : List Nat} {idx first : Nat} {gis gi : Nat → Option Nat}
    {c : Nat} {rest group : List Nat} (hs : h0.Symmetric) (hcl : h0.ClosedOn all)
    (inv : QueueInv h0 all idx first gis gi (c :: rest) group) (hc : gi c = none) :
    QueueInv h0 all idx first gis (upd gi c (some idx))
      (rest ++ (h0.predecessors c ++ h0.successors c)) (group ++ [c]) := by
  have hcg : c ∉ group ∧ gis c = none := by
    have h1 := inv.gi_eq c
    rw [hc] at h1
    split at h1
    · simp at h1
    · rename_i hg; exact ⟨hg, h1.symm⟩
  have hlink : ∀ m, h0.linked c m ↔ m ∈ h0.predecessors c ++ h0.successors c := by
    intro m; simp [Heap.linked]
  exact {
    gi_eq := by
      intro n
      by_cases hn : n = c
      · subst hn; simp
      · rw [upd_ne gi _ hn, inv.gi_eq n]
        simp [hn]
    unv := by
      intro n hn
      rcases List.mem_append.mp hn with hn | hn
      · exact inv.unv n hn
      · simp at hn; subst hn; exact hcg.2
    nodup := by
      rw [List.nodup_append]
      refine ⟨inv.nodup, List.nodup_singleton _, ?_⟩
      intro a ha hb
      simp at hb
      subst hb
      exact hcg.1 ha
    frontier := by
      intro n hn m hl
      rcases List.mem_append.mp hn with hn | hn
      · rcases inv.frontier n hn m hl with h | h
        · left
          by_cases hm : m = c
          · subst hm; simp
          · rw [upd_ne gi _ hm]; exact h
        · rcases List.mem_cons.mp h with h | h
          · left; subst h; simp
          · right; exact List.mem_append_left _ h
      · simp at hn
        subst hn
        right
        exact List.mem_append_right _ ((hlink m).mp hl)
    connQ := by
      intro n hn
      rcases List.mem_append.mp hn with hn | hn
      · exact inv.connQ n (List.mem_cons_of_mem _ hn)
      · exact Relation.ReflTransGen.tail (inv.connQ c (List.mem_cons_self _ _))
          ((hlink n).mpr hn)
    connG := by
      intro n hn
      rcases List.mem_append.mp hn with hn | hn
      · exact inv.connG n hn
      · simp at hn; subst hn; exact inv.connQ n (List.mem_cons_self _ _)
    subQ := by
      intro n hn
      rcases List.mem_append.mp hn with hn | hn
      · exact inv.subQ n (List.mem_cons_of_mem _ hn)
      · exact (Heap.linked_mem hs hcl ((hlink n).mpr hn)).2
    subG := by
      intro n hn
      rcases List.mem_append.mp hn with hn | hn
      · exact inv.subG n hn
      · simp at hn; subst hn; exact inv.subQ n (List.mem_cons_self _ _)
    start := by
      rcases inv.start with h | h
      · rcases List.mem_cons.mp h with h | h
        · right; subst h; simp
        · left; exact List.mem_append_left _ h
      · right; exact List.mem_append_left _ h
    fresh := inv.fresh }

/-- The inner loop of `groupNodes` returns for every large enough budget, and
its invariant then holds with an empty queue. -/
theorem groupNodesQueue_ok (h0 : Heap) (all : List Nat) (idx first : Nat)
    (gis : Nat → Option Nat) (hs : h0.Symmetric) (hcl : h0.ClosedOn all) :
    ∀ (k : Nat) (queue : List Nat) (gi : Nat → Option Nat) (group : List Nat),
      QueueInv h0 all idx first gis gi queue group → ungrouped gi all ≤ k →
      ∃ (bound : Nat) (gi' : Nat → Option Nat) (group' : List Nat),
        (∀ fuel, bound ≤ fuel →
          groupNodesQueue fuel { h0 with groupIndex := gi } idx queue group =
            .ok ({ h0 with groupIndex := gi' }, group')) ∧
        QueueInv h0 all idx first gis gi' [] group' ∧ ungrouped gi' all ≤ ungrouped gi all := by
  intro k
  induction k with
  | zero =>
    intro queue
    induction queue with
    | nil =>
      intro gi group inv _
      refine ⟨1, gi, group, ?_, inv, le_refl _⟩
      intro fuel hf
      obtain ⟨f, rfl⟩ : ∃ f, fuel = f + 1 := ⟨fuel - 1, by omega⟩
      simp [groupNodesQueue]
    | cons c rest ihq =>
      intro gi group inv hk
      have hc : gi c ≠ none := by
        intro hc
        have := ungrouped_upd_lt gi all c idx (inv.subQ c (List.mem_cons_self _ _)) hc
        omega
      obtain ⟨b, gi', group', hrun, hinv, hle⟩ := ihq gi group (inv.skip hc) hk
      refine ⟨b + 1, gi', group', ?_, hinv, hle⟩
      intro fuel hf
      obtain ⟨f, rfl⟩ : ∃ f, fuel = f + 1 := ⟨fuel - 1, by omega⟩
      rw [groupNodesQueue]
      simp only [hc, if_false]
      exact hrun f (by omega)
  | succ k ih =>
    intro queue
    induction queue with
    | nil =>
      intro gi group inv _
      refine ⟨1, gi, group, ?_, inv, le_refl _⟩
      intro fuel hf
      obtain ⟨f, rfl⟩ : ∃ f, fuel = f + 1 := ⟨fuel - 1, by omega⟩
      simp [groupNodesQueue]
    | cons c rest ihq =>
      intro gi group inv hk
      by_cases hc : gi c = none
      · have hlt := ungrouped_upd_lt gi all c idx (inv.subQ c (List.mem_cons_self _ _)) hc
        obtain ⟨b, gi', group', hrun, hinv, hle⟩ :=
          ih _ (upd gi c (some idx)) _ (inv.visit hs hcl hc) (by omega)
        refine ⟨b + 1, gi', group', ?_, hinv, by omega⟩
        intro fuel hf
        obtain ⟨f, rfl⟩ : ∃ f, fuel = f + 1 := ⟨fuel - 1, by omega⟩
        rw [groupNodesQueue]
        simp only [hc, if_true]
        exact hrun f (by omega)
      · obtain ⟨b, gi', group', hrun, hinv, hle⟩ := ihq gi group (inv.skip hc) hk
        refine ⟨b + 1, gi', group', ?_, hinv, hle⟩
        intro fuel hf
        obtain ⟨f, rfl⟩ : ∃ f, fuel = f + 1 := ⟨fuel - 1, by omega⟩
        rw [groupNodesQueue]
        simp only [hc, if_false]
        exact hrun f (by omega)

/-! ## `groupNodes`: the loop over groups -/

theorem ungrouped_lt (gi gi' : Nat → Option Nat) (all : List Nat) (c : Nat)
    (hmono : ∀ n, gi' n = none → gi n = none) (hc : c ∈ all) (hgi : gi c = none)
    (hgi' : gi' c ≠ none) : ungrouped gi' all < ungrouped gi all := by
  unfold ungrouped
  induction all with
  | nil => simp at hc
  | cons a t ih =>
    have hle : (t.filter (fun n => decide (gi' n = none))).length ≤
        (t.filter (fun n => decide (gi n = none))).length := by
      apply List.Sublist.length_le
      apply List.monotone_filter_right
      intro n hn
      simp only [decide_eq_true_eq] at hn ⊢
      exact hmono n hn
    by_cases hac : a = c
    · subst hac
      have e1 : decide (gi' a = none) = false := by simp [hgi']
      have e2 : decide (gi a = none) = true := by simp [hgi]
      rw [List.filter_cons, List.filter_cons, e1, e2]
      simp only [Bool.false_eq_true, if_false, if_true, List.length_cons]
      omega
    · have hc' : c ∈ t := by
        rcases List.mem_cons.mp hc with h | h
        · exact absurd h.symm hac
        · exact h
      have := ih hc'
      rw [List.filter_cons, List.filter_cons]
      by_cases h1 : gi' a = none
      · have h2 := hmono a h1
        simp only [h1, h2, decide_True, if_true, List.length_cons]
        omega
      · by_cases h2 : gi a = none
        · simp only [h1, h2, decide_True, decide_False, if_true, List.length_cons]
          simp only [Bool.false_eq_true, if_false]
          omega
        · simp only [h1, h2, decide_False]
          simp only [Bool.false_eq_true, if_false]
          omega

theorem GroupInv.onEntryGroups {h0 : Heap} {all : List Nat} {gi : Nat → Option Nat}
    (hgi : ∀ n ∈ all, gi n = none) : GroupInv h0 all gi all 0 [] where
  len := rfl
  rest := by
    symm
    apply List.filter_eq_self.mpr
    intro n hn
    simp [hgi n hn]
  mem := by intro i n hn; simp [hgi n hn]
  closed := by intro n m hn hg; exact absurd (hgi n hn) hg
  conn := by intro n m i hn _ hg; simp [hgi n hn] at hg
  nodup := by intro g hg; simp at hg
  nonempty := by intro g hg; simp at hg
  sub := by intro g hg; simp at hg

theorem GroupInv.queueInit {h0 : Heap} {all : List Nat} {gi : Nat → Option Nat}
    {first : Nat} {t : List Nat} {idx : Nat} {groups : List (List Nat)}
    (inv : GroupInv h0 all gi (first :: t) idx groups) :
    QueueInv h0 all idx first gi gi [first] [] ∧ first ∈ all ∧ gi first = none := by
  have hf : first ∈ all.filter (fun n => decide (gi n = none)) := by
    rw [← inv.rest]; exact List.mem_cons_self _ _
  have hfa := (List.mem_filter.mp hf).1
  have hfn : gi first = none := by simpa using (List.mem_filter.mp hf).2
  refine ⟨?_, hfa, hfn⟩
  exact {
    gi_eq := by intro n; simp
    unv := by intro n hn; simp at hn
    nodup := List.nodup_nil
    frontier := by intro n hn; simp at hn
    connQ := by
      intro n hn
      simp at hn
      subst hn
      exact Relation.ReflTransGen.refl
    connG := by intro n hn; simp at hn
    subQ := by intro n hn; simp at hn; subst hn; exact hfa
    subG := by intro n hn; simp at hn
    start := Or.inl (List.mem_cons_self _ _)
    fresh := hfn }

theorem GroupInv.next {h0 : Heap} {all : List Nat} {gi gi' : Nat → Option Nat}
    {first : Nat} {t group' : List Nat} {idx : Nat} {groups : List (List Nat)}
    (hs : h0.Symmetric) (hcl : h0.ClosedOn all)
    (inv : GroupInv h0 all gi (first :: t) idx groups)
    (q : QueueInv h0 all idx first gi gi' [] group') :
    GroupInv h0 all gi' ((first :: t).filter (fun node => decide (gi' node = none)))
      (idx + 1) (groups ++ [group']) := by
  have hfresh : ∀ n ∈ all, gi n ≠ some idx := by
    intro n hna hn
    obtain ⟨g, hg, _⟩ := (inv.mem idx n hna).mpr hn
    have : groups[idx]? = none := List.getElem?_eq_none (by rw [inv.len])
    rw [this] at hg
    simp at hg
  have hg_iff : ∀ n ∈ all, (n ∈ group' ↔ gi' n = some idx) := by
    intro n hna
    constructor
    · intro hn; rw [q.gi_eq n, if_pos hn]
    · intro hn
      by_contra hng
      rw [q.gi_eq n, if_neg hng] at hn
      exact hfresh n hna hn
  have hin : ∀ n, n ∈ group' → gi' n = some idx := by
    intro n hn; rw [q.gi_eq n, if_pos hn]
  have hout : ∀ n, n ∉ group' → gi' n = gi n := by
    intro n hn; rw [q.gi_eq n, if_neg hn]
  have hmono : ∀ n, gi' n = none → gi n = none := by
    intro n hn
    by_cases hg : n ∈ group'
    · rw [hin n hg] at hn; simp at hn
    · rw [← hout n hg]; exact hn
  have hfirst : first ∈ group' := by
    rcases q.start with h | h
    · simp at h
    · exact h
  exact {
    len := by simp [inv.len]
    rest := by
      rw [inv.rest, List.filter_filter]
      apply List.filter_congr
      intro n _
      by_cases h1 : gi' n = none
      · simp [h1, hmono n h1]
      · simp [h1]
    mem := by
      intro i n hna
      rcases Nat.lt_trichotomy i idx with hi | hi | hi
      · rw [List.getElem?_append_left (by rw [inv.len]; exact hi), inv.mem i n hna]
        by_cases hg : n ∈ group'
        · rw [hin n hg, q.unv n hg]
          simp
          omega
        · rw [hout n hg]
      · subst hi
        have : (groups ++ [group'])[i]? = some group' := by
          rw [List.getElem?_append_right (by rw [inv.len]), inv.len]
          simp
        rw [this]
        simp only [Option.some.injEq, exists_eq_left']
        exact hg_iff n hna
      · have : (groups ++ [group'])[i]? = none := by
          apply List.getElem?_eq_none
          simp [inv.len]
          omega
        rw [this]
        simp only [reduceCtorEq, false_and, exists_false, false_iff]
        intro hn
        have hng : n ∉ group' := by
          intro hg
          rw [hin n hg] at hn
          simp at hn
          omega
        rw [hout n hng] at hn
        obtain ⟨g, hg, _⟩ := (inv.mem i n hna).mpr hn
        have : groups[i]? = none := List.getElem?_eq_none (by rw [inv.len]; omega)
        rw [this] at hg
        simp at hg
    closed := by
      intro n m hna hn hl
      have hma : m ∈ all := (Heap.linked_mem hs hcl hl).2
      by_cases hg : n ∈ group'
      · rcases q.frontier n hg m hl with h | h
        · by_cases hmg : m ∈ group'
          · rw [hin n hg, hin m hmg]
          · rw [hout m hmg] at h
            have := inv.closed m n hma h (Heap.linked_symm hs hl)
            rw [q.unv n hg] at this
            exact absurd this.symm h
        · simp at h
      · rw [hout n hg] at hn ⊢
        have hm := inv.closed n m hna hn hl
        have hmg : m ∉ group' := by
          intro hmg
          rw [q.unv m hmg] at hm
          exact hn hm.symm
        rw [hout m hmg, hm]
    conn := by
      intro n m i hna hma hn hm
      by_cases hi : i = idx
      · subst hi
        have h1 := q.connG n ((hg_iff n hna).mpr hn)
        have h2 := q.connG m ((hg_iff m hma).mpr hm)
        exact Relation.ReflTransGen.trans (Heap.Connected.symm hs h1) h2
      · have hng : n ∉ group' := by
          intro hg
          rw [hin n hg] at hn
          simp at hn
          exact hi hn.symm
        have hmg : m ∉ group' := by
          intro hg
          rw [hin m hg] at hm
          simp at hm
          exact hi hm.symm
        rw [hout n hng] at hn
        rw [hout m hmg] at hm
        exact inv.conn n m i hna hma hn hm
    nodup := by
      intro g hg
      rcases List.mem_append.mp hg with hg | hg
      · exact inv.nodup g hg
      · simp at hg; subst hg; exact q.nodup
    nonempty := by
      intro g hg
      rcases List.mem_append.mp hg with hg | hg
      · exact inv.nonempty g hg
      · simp at hg; subst hg; exact List.ne_nil_of_mem hfirst
    sub := by
      intro g hg
      rcases List.mem_append.mp hg with hg | hg
      · exact inv.sub g hg
      · simp at hg; subst hg; exact q.subG }

theorem groupNodesLoop_ok (h0 : Heap) (all : List Nat) (hs : h0.Symmetric)
    (hcl : h0.ClosedOn all) :
    ∀ (k : Nat) (gi : Nat → Option Nat) (nodes : List Nat) (idx : Nat)
      (groups : List (List Nat)),
      GroupInv h0 all gi nodes idx groups → ungrouped gi all ≤ k →
      ∃ (bound : Nat) (gi' : Nat → Option Nat) (groups' : List (List Nat)),
        (∀ fuel, bound ≤ fuel →
          groupNodesLoop fuel { h0 with groupIndex := gi } nodes idx groups =
            .ok ({ h0 with groupIndex := gi' }, groups')) ∧
        GroupInv h0 all gi' [] groups'.length groups' := by
  intro k
  induction k with
  | zero =>
    intro gi nodes idx groups inv hk
    cases nodes with
    | nil =>
      refine ⟨1, gi, groups, ?_, inv.len ▸ inv⟩
      intro fuel hf
      obtain ⟨f, rfl⟩ : ∃ f, fuel = f + 1 := ⟨fuel - 1, by omega⟩
      simp [groupNodesLoop]
    | cons first t =>
      obtain ⟨_, hfa, hfn⟩ := inv.queueInit
      have := ungrouped_upd_lt gi all first idx hfa hfn
      omega
  | succ k ih =>
    intro gi nodes idx groups inv hk
    cases nodes with
    | nil =>
      refine ⟨1, gi, groups, ?_, inv.len ▸ inv⟩
      intro fuel hf
      obtain ⟨f, rfl⟩ : ∃ f, fuel = f + 1 := ⟨fuel - 1, by omega⟩
      simp [groupNodesLoop]
    | cons first t =>
      obtain ⟨qinit, hfa, hfn⟩ := inv.queueInit
      obtain ⟨b1, gi1, group1, hrun1, q1, _⟩ :=
        groupNodesQueue_ok h0 all idx first gi hs hcl _ [first] gi [] qinit (le_refl _)
      have hfirst : first ∈ group1 := by
        rcases q1.start with h | h
        · simp at h
        · exact h
      have hg1 : gi1 first ≠ none := by
        rw [q1.gi_eq first, if_pos hfirst]; simp
      have hmono : ∀ n, gi1 n = none → gi n = none := by
        intro n hn
        rw [q1.gi_eq n] at hn
        split at hn
        · simp at hn
        · exact hn
      have hlt := ungrouped_lt gi gi1 all first hmono hfa hfn hg1
      obtain ⟨b2, gi2, groups2, hrun2, inv2⟩ :=
        ih gi1 _ (idx + 1) (groups ++ [group1]) (inv.next hs hcl q1) (by omega)
      refine ⟨max b1 b2 + 1, gi2, groups2, ?_, inv2⟩
      intro fuel hf
      obtain ⟨f, rfl⟩ : ∃ f, fuel = f + 1 := ⟨fuel - 1, by omega⟩
      rw [groupNodesLoop]
      rw [hrun1 f (by omega)]
      exact hrun2 f (by omega)

/-- What `groupNodes` does on symmetric adjacency over distinct, still
ungrouped nodes. -/
theorem groupNodes_ok {h : Heap} {nodes : List Nat} (hs : h.Symmetric)
    (hcl : h.ClosedOn nodes) (hgi : ∀ n ∈ nodes, h.groupIndex n = none) :
    ∃ (bound : Nat) (gi' : Nat → Option Nat) (groups : List (List Nat)),
      (∀ fuel, bound ≤ fuel →
        groupNodes fuel h nodes = .ok ({ h with groupIndex := gi' }, groups)) ∧
      GroupInv h nodes gi' [] groups.length groups := by
  obtain ⟨b, gi', groups, hrun, inv⟩ := groupNodesLoop_ok h nodes hs hcl _ h.groupIndex nodes 0 []
    (GroupInv.onEntryGroups hgi) (le_refl _)
  exact ⟨b, gi', groups, hrun, inv⟩

/-! ## `groupNodes`: what the final invariant says -/

theorem GroupInv.index_of_mem {h0 : Heap} {all : List Nat} {gi : Nat → Option Nat}
    {nodes : List Nat} {idx : Nat} {groups : List (List Nat)}
    (inv : GroupInv h0 all gi nodes idx groups) {i : Nat} {g : List Nat} {a : Nat}
    (hg : groups[i]? = some g) (ha : a ∈ g) : gi a = some i := by
  have hgm : g ∈ groups := List.mem_iff_getElem?.mpr ⟨i, hg⟩
  exact (inv.mem i a (inv.sub g hgm a ha)).mp ⟨g, hg, ha⟩

theorem GroupInv.connected_index {h0 : Heap} {all : List Nat} {gi : Nat → Option Nat}
    {nodes : List Nat} {idx : Nat} {groups : List (List Nat)}
    (hs : h0.Symmetric) (hcl : h0.ClosedOn all)
    (inv : GroupInv h0 all gi nodes idx groups) {a b : Nat} (ha : a ∈ all)
    (hga : gi a ≠ none) (hc : h0.Connected a b) : gi b = gi a ∧ b ∈ all := by
  induction hc with
  | refl => exact ⟨rfl, ha⟩
  | @tail x y _ hl ih =>
    have hy := (Heap.linked_mem hs hcl hl).2
    have := inv.closed x y ih.2 (by rw [ih.1]; exact hga) hl
    exact ⟨this.trans ih.1, hy⟩

theorem GroupInv.pairwise_disjoint {h0 : Heap} {all : List Nat} {gi : Nat → Option Nat}
    {nodes : List Nat} {idx : Nat} {groups : List (List Nat)}
    (inv : GroupInv h0 all gi nodes idx groups) : groups.Pairwise List.Disjoint := by
  rw [List.pairwise_iff_getElem]
  intro i j hi hj hij a ha hb
  have h1 := inv.index_of_mem (List.getElem?_eq_getElem hi) ha
  have h2 := inv.index_of_mem (List.getElem?_eq_getElem hj) hb
  rw [h1] at h2
  simp at h2
  omega

theorem GroupInv.flattenPerm {h0 : Heap} {all : List Nat} {gi : Nat → Option Nat}
    {idx : Nat} {groups : List (List Nat)} (hn : all.Nodup)
    (inv : GroupInv h0 all gi [] idx groups) : groups.flatten.Perm all := by
  have hnd : groups.flatten.Nodup :=
    List.nodup_flatten.mpr ⟨inv.nodup, inv.pairwise_disjoint⟩
  rw [List.perm_ext_iff_of_nodup hnd hn]
  intro a
  rw [List.mem_flatten]
  constructor
  · rintro ⟨g, hg, ha⟩
    exact inv.sub g hg a ha
  · intro ha
    have hne : gi a ≠ none := by
      intro hc
      have : a ∈ all.filter (fun n => decide (gi n = none)) :=
        List.mem_filter.mpr ⟨ha, by simpa using hc⟩
      rw [← inv.rest] at this
      simp at this
    obtain ⟨i, hi⟩ := Option.ne_none_iff_exists'.mp hne
    obtain ⟨g, hg, hag⟩ := (inv.mem i a ha).mpr hi
    exact ⟨g, List.mem_iff_getElem?.mpr ⟨i, hg⟩, hag⟩

/-- C4: on a list of distinct nodes with symmetric adjacency among them and
`groupIndex` undefined, `groupNodes` returns for every budget above a bound;
the groups are non-empty and pairwise disjoint, together they hold every
input node exactly once, two nodes are in the same group exactly when a path
ignoring edge direction joins them, every node's `groupIndex` is the index
of its group, and no other field of any node changes. -/
theorem groupNodes_partition (h : Heap) (nodes : List Nat) (hn : nodes.Nodup)
    (hs : h.Symmetric) (hcl : h.ClosedOn nodes) (hgi : ∀ n ∈ nodes, h.groupIndex n = none) :
    ∃ (bound : Nat) (gi' : Nat → Option Nat) (groups : List (List Nat)),
      (∀ fuel, bound ≤ fuel →
        groupNodes fuel h nodes = .ok ({ h with groupIndex := gi' }, groups)) ∧
      (∀ g ∈ groups, g ≠ []) ∧
      groups.Pairwise List.Disjoint ∧
      groups.flatten.Perm nodes ∧
      (∀ (i j : Nat) (g1 g2 : List Nat) (a b : Nat),
        groups[i]? = some g1 → groups[j]? = some g2 → a ∈ g1 → b ∈ g2 →
        (i = j ↔ h.Connected a b)) ∧
      (∀ (i : Nat) (g : List Nat) (a : Nat), groups[i]? = some g → a ∈ g → gi' a = some i) := by
  obtain ⟨bound, gi', groups, hrun, inv⟩ := groupNodes_ok hs hcl hgi
  refine ⟨bound, gi', groups, hrun, inv.nonempty, inv.pairwise_disjoint, inv.flattenPerm hn, ?_, ?_⟩
  · intro i j gi gj a b hgi hgj ha hb
    have h1 := inv.index_of_mem hgi ha
    have h2 := inv.index_of_mem hgj hb
    have haa : a ∈ nodes := inv.sub gi (List.mem_iff_getElem?.mpr ⟨i, hgi⟩) a ha
    have hba : b ∈ nodes := inv.sub gj (List.mem_iff_getElem?.mpr ⟨j, hgj⟩) b hb
    constructor
    · intro hij
      subst hij
      exact inv.conn a b i haa hba h1 h2
    · intro hc
      have := (inv.connected_index hs hcl haa (by rw [h1]; simp) hc).1
      rw [h1, h2] at this
      simpa using this.symm
  · intro i g a hg ha
    exact inv.index_of_mem hg ha

/-- C4 at the graph `a → b`, `c` (two groups). -/
theorem groupNodes_partition_witness :
    ∃ (bound : Nat) (gi' : Nat → Option Nat) (groups : List (List Nat)),
      (∀ fuel, bound ≤ fuel →
        groupNodes fuel (Graph.build [.addNode "a", .addNode "b", .addNode "c",
          .addEdge "a" "b"]).heap [0, 1, 2] =
          .ok ({ (Graph.build [.addNode "a", .addNode "b", .addNode "c",
            .addEdge "a" "b"]).heap with groupIndex := gi' }, groups)) ∧
      (∀ g ∈ groups, g ≠ []) ∧
      groups.Pairwise List.Disjoint ∧
      groups.flatten.Perm [0, 1, 2] ∧
      (∀ (i j : Nat) (g1 g2 : List Nat) (a b : Nat),
        groups[i]? = some g1 → groups[j]? = some g2 → a ∈ g1 → b ∈ g2 →
        (i = j ↔ (Graph.build [.addNode "a", .addNode "b", .addNode "c",
          .addEdge "a" "b"]).heap.Connected a b)) ∧
      (∀ (i : Nat) (g : List Nat) (a : Nat), groups[i]? = some g → a ∈ g → gi' a = some i) :=
  groupNodes_partition _ [0, 1, 2] (by decide)
    (Fresh.build [.addNode "a", .addNode "b", .addNode "c", .addEdge "a" "b"]).sym
    (Fresh.build [.addNode "a", .addNode "b", .addNode "c", .addEdge "a" "b"]).closed
    (fun n _ => (Fresh.build [.addNode "a", .addNode "b", .addNode "c",
      .addEdge "a" "b"]).groupIndex n)

/-! ## `topoSortNodes` -/

theorem Walk.head {r : Nat → Nat → Prop} {a b c : Nat} {k : Nat} (hab : r a b)
    (hw : Walk r b c k) : Walk r a c (k + 1) := by
  induction hw with
  | refl => exact Walk.tail (Walk.refl a) hab
  | tail _ hbc ih => exact Walk.tail ih hbc

theorem Walk.transGen {r : Nat → Nat → Prop} {a b : Nat} {k : Nat} (hw : Walk r a b (k + 1)) :
    Relation.TransGen r a b := by
  generalize hk : k + 1 = m at hw
  induction hw generalizing k with
  | refl => omega
  | @tail b c j hw' hbc ih =>
    cases j with
    | zero =>
      cases hw'
      exact Relation.TransGen.single hbc
    | succ j => exact Relation.TransGen.tail (ih rfl) hbc

/-- In a list of nodes without cycles some node has none of its listed
nodes in the list. -/
theorem exists_unlisted (r : Nat → Nat → Prop) (hac : ∀ n, ¬ Relation.TransGen r n n)
    (u : List Nat) (hu : u ≠ []) : ∃ m ∈ u, ∀ p, r p m → p ∉ u := by
  let r' : {x // x ∈ u} → {x // x ∈ u} → Prop := fun a b => Relation.TransGen r a.1 b.1
  haveI : IsTrans _ r' := ⟨fun a b c hab hbc => Relation.TransGen.trans hab hbc⟩
  haveI : IsIrrefl _ r' := ⟨fun a ha => hac a.1 ha⟩
  have hwf : WellFounded r' := Finite.wellFounded_of_trans_of_irrefl r'
  obtain ⟨x, hx⟩ := List.exists_mem_of_ne_nil u hu
  obtain ⟨m, _, hm⟩ := hwf.has_min Set.univ ⟨⟨x, hx⟩, Set.mem_univ _⟩
  refine ⟨m.1, m.2, ?_⟩
  intro p hp hpu
  exact hm ⟨p, hpu⟩ (Set.mem_univ _) (Relation.TransGen.single hp)

theorem Heap.setOrder_withOrder (h0 : Heap) (o : OrderProp) (f : Nat → Option Int) (x : Nat)
    (v : Int) : (h0.withOrder o f).setOrder o x v = h0.withOrder o (upd f x (some v)) := by
  cases o <;> rfl

theorem Heap.withOrder_rel (h0 : Heap) (o : OrderProp) (f : Nat → Option Int) (rp : RelProp) :
    (h0.withOrder o f).rel rp = h0.rel rp := by
  cases o <;> cases rp <;> rfl

theorem Heap.withOrder_order (h0 : Heap) (o : OrderProp) (f : Nat → Option Int) :
    (h0.withOrder o f).order o = f := by
  cases o <;> rfl

theorem Heap.withOrder_self (h0 : Heap) (o : OrderProp) : h0.withOrder o (h0.order o) = h0 := by
  cases o <;> rfl

theorem foldl_mark (o : OrderProp) (flow : Int) :
    ∀ (m : List Nat) (h : Heap) (u : List Nat),
      m.foldl (fun (s : Heap × List Nat) x => (s.1.setOrder o x flow, spliceOut s.2 x)) (h, u) =
        (m.foldl (fun h x => h.setOrder o x flow) h, m.foldl spliceOut u)
  | [], _, _ => rfl
  | x :: m, h, u => by
    simp only [List.foldl_cons]
    exact foldl_mark o flow m _ _

theorem foldl_setOrder (h0 : Heap) (o : OrderProp) (flow : Int) :
    ∀ (m : List Nat) (f : Nat → Option Int),
      m.foldl (fun h x => h.setOrder o x flow) (h0.withOrder o f) =
        h0.withOrder o (fun n => if n ∈ m then some flow else f n)
  | [], f => by simp
  | x :: m, f => by
    simp only [List.foldl_cons, Heap.setOrder_withOrder]
    rw [foldl_setOrder h0 o flow m]
    congr 1
    funext n
    by_cases hm : n ∈ m
    · simp [hm]
    · by_cases hx : n = x
      · subst hx; simp [hm]
      · simp [hm, hx, upd_ne f _ hx]

theorem TopoInv.atRoundZero (r : Nat → Nat → Prop) {all : List Nat} (hn : all.Nodup)
    (ord0 : Nat → Option Int) : TopoInv r all ord0 0 all ord0 where
  nodup := hn
  sub := fun _ h => h
  marked := fun _ hn hnn => absurd hn hnn
  unmarked := fun _ _ => ⟨_, Walk.refl _⟩
  outside := fun _ _ => rfl
  last := Or.inl rfl

theorem TopoInv.round {r : Nat → Nat → Prop} {all : List Nat} {ord0 ord : Nat → Option Int}
    {flow : Nat} {u : List Nat} (hcl : ∀ n ∈ all, ∀ p, r p n → p ∈ all)
    (inv : TopoInv r all ord0 flow u ord) (m : List Nat)
    (hm : ∀ n, n ∈ m ↔ n ∈ u ∧ ∀ p, r p n → p ∉ u) (hmn : m.Nodup) (hne : m ≠ []) :
    TopoInv r all ord0 (flow + 1) (m.foldl spliceOut u)
      (fun n => if n ∈ m then some (flow : Int) else ord n) ∧
      (m.foldl spliceOut u).length < u.length := by
  have hms : ∀ x ∈ m, x ∈ u := fun x hx => ((hm x).mp hx).1
  obtain ⟨h1, h2, h3⟩ := foldl_spliceOut_spec m u inv.nodup hmn hms
  have hlong : ∀ n ∈ m, LongestTo r n flow := by
    intro n hn
    obtain ⟨hnu, hnp⟩ := (hm n).mp hn
    refine ⟨inv.unmarked n hnu, ?_⟩
    intro a k' hw
    cases hw with
    | refl => omega
    | @tail p _ k'' hw' hpn =>
      have hpa := hcl n (inv.sub n hnu) p hpn
      obtain ⟨d, _, hd, hl⟩ := inv.marked p hpa (hnp p hpn)
      have := hl.2 a k'' hw'
      omega
  refine ⟨?_, ?_⟩
  · exact {
      nodup := h1
      sub := fun n hn => inv.sub n ((h2 n).mp hn).1
      marked := by
        intro n hna hnu
        by_cases hnm : n ∈ m
        · exact ⟨flow, by simp [hnm], by omega, hlong n hnm⟩
        · have hnu' : n ∉ u := fun hc => hnu ((h2 n).mpr ⟨hc, hnm⟩)
          obtain ⟨d, hd1, hd2, hd3⟩ := inv.marked n hna hnu'
          exact ⟨d, by simp [hnm, hd1], by omega, hd3⟩
      unmarked := by
        intro n hn
        obtain ⟨hnu, hnm⟩ := (h2 n).mp hn
        have : ¬ ∀ p, r p n → p ∉ u := fun hc => hnm ((hm n).mpr ⟨hnu, hc⟩)
        push_neg at this
        obtain ⟨p, hpn, hpu⟩ := this
        obtain ⟨a, hw⟩ := inv.unmarked p hpu
        exact ⟨a, Walk.tail hw hpn⟩
      outside := by
        intro n hn
        have hnm : n ∉ m := fun hc => hn (inv.sub n (hms n hc))
        simp only [hnm, if_false]
        exact inv.outside n hn
      last := by
        right
        obtain ⟨x, hx⟩ := List.exists_mem_of_ne_nil m hne
        refine ⟨x, inv.sub x (hms x hx), ?_, ?_⟩
        · intro hc
          exact ((h2 x).mp hc).2 hx
        · simpa using hlong x hx }
  · have : 0 < m.length := List.length_pos.mpr hne
    omega

theorem topoSortNodesLoop_ok (h0 : Heap) (rp : RelProp) (o : OrderProp) (all : List Nat)
    (ord0 : Nat → Option Int)
    (hac : ∀ n, ¬ Relation.TransGen (h0.listed rp) n n)
    (hcl : ∀ n ∈ all, ∀ p, h0.listed rp p n → p ∈ all) :
    ∀ (k flow : Nat) (u : List Nat) (ord : Nat → Option Int),
      TopoInv (h0.listed rp) all ord0 flow u ord → u.length ≤ k →
      ∃ (ord' : Nat → Option Int) (layerCount : Nat),
        (∀ fuel, k < fuel → topoSortNodesLoop fuel (h0.withOrder o ord) rp o flow u =
          .ok (h0.withOrder o ord', layerCount)) ∧
        TopoInv (h0.listed rp) all ord0 layerCount [] ord' := by
  intro k
  induction k with
  | zero =>
    intro flow u ord inv hk
    have hu : u = [] := List.eq_nil_of_length_eq_zero (by omega)
    subst hu
    refine ⟨ord, flow, ?_, inv⟩
    intro fuel hf
    obtain ⟨f, rfl⟩ : ∃ f, fuel = f + 1 := ⟨fuel - 1, by omega⟩
    simp [topoSortNodesLoop]
  | succ k ih =>
    intro flow u ord inv hk
    by_cases hu : u = []
    · subst hu
      refine ⟨ord, flow, ?_, inv⟩
      intro fuel hf
      obtain ⟨f, rfl⟩ : ∃ f, fuel = f + 1 := ⟨fuel - 1, by omega⟩
      simp [topoSortNodesLoop]
    · have hpos : u.length > 0 := List.length_pos.mpr hu
      have hmem : ∀ n, n ∈ u.filter (fun n =>
          !((h0.withOrder o ord).rel rp n).any (fun p => decide (p ∈ u))) ↔
          n ∈ u ∧ ∀ p, h0.listed rp p n → p ∉ u := by
        intro n
        rw [List.mem_filter, Heap.withOrder_rel]
        simp only [Bool.not_eq_true', List.any_eq_false, decide_eq_true_eq, Heap.listed]
      have hne : u.filter (fun n =>
          !((h0.withOrder o ord).rel rp n).any (fun p => decide (p ∈ u))) ≠ [] := by
        obtain ⟨m, hmu, hmp⟩ := exists_unlisted (h0.listed rp) hac u hu
        exact List.ne_nil_of_mem ((hmem m).mpr ⟨hmu, hmp⟩)
      obtain ⟨inv', hlt⟩ := inv.round hcl _ hmem (inv.nodup.filter _) hne
      obtain ⟨ord', L, hrun, hfin⟩ := ih (flow + 1) _ _ inv' (by omega)
      refine ⟨ord', L, ?_, hfin⟩
      intro fuel hf
      obtain ⟨f, rfl⟩ : ∃ f, fuel = f + 1 := ⟨fuel - 1, by omega⟩
      rw [topoSortNodesLoop, if_pos hpos]
      simp only []
      rw [if_neg (fun hc => hne (List.eq_nil_of_length_eq_zero hc))]
      rw [foldl_mark, foldl_setOrder]
      exact hrun f (by omega)

/-- What `topoSortNodes` does on a list of distinct nodes that is closed under
the listed relation and has no cycle. -/
theorem topoSortNodes_ok (h0 : Heap) (rp : RelProp) (o : OrderProp) (all : List Nat)
    (hn : all.Nodup)
    (hac : ∀ n, ¬ Relation.TransGen (h0.listed rp) n n)
    (hcl : ∀ n ∈ all, ∀ p, h0.listed rp p n → p ∈ all) :
    ∃ (ord' : Nat → Option Int) (layerCount : Nat),
      (∀ fuel, all.length < fuel →
        topoSortNodes fuel h0 all rp o = .ok (h0.withOrder o ord', layerCount)) ∧
      TopoInv (h0.listed rp) all (h0.order o) layerCount [] ord' := by
  have := topoSortNodesLoop_ok h0 rp o all (h0.order o) hac hcl all.length 0
    all (h0.order o) (TopoInv.atRoundZero _ hn _) (le_refl _)
  rw [Heap.withOrder_self] at this
  exact this

/-! ## `calculateFlow` -/

theorem FlowFrame.reflFlow (h : Heap) : FlowFrame h h := by constructor <;> rfl

theorem FlowFrame.transFlow {h1 h2 h3 : Heap} (a : FlowFrame h1 h2) (b : FlowFrame h2 h3) :
    FlowFrame h1 h3 := by
  constructor
  · rw [b.orth, a.orth]
  · rw [b.groupIndex, a.groupIndex]
  · rw [b.virtual, a.virtual]
  · rw [b.predecessors, a.predecessors]
  · rw [b.successors, a.successors]
  · rw [b.realPredecessors, a.realPredecessors]
  · rw [b.realSuccessors, a.realSuccessors]
  · rw [b.size, a.size]

theorem FlowFrame.frameWithOrder (h : Heap) (o : OrderProp) (f : Nat → Option Int) :
    FlowFrame h (h.withOrder o f) := by
  cases o <;> constructor <;> rfl

theorem calculateFlowNode_spec (alignNodes : String) (hal : alignNodes ∈ alignNodeValues)
    (maxFlow : Nat) (h : Heap) (x : Nat) :
    FlowFrame h (calculateFlowNode alignNodes maxFlow h x) ∧
    (calculateFlowNode alignNodes maxFlow h x).flow x =
      flowValue alignNodes maxFlow (h.flowTop x) (h.flowBottom x) ∧
    (∀ n, n ≠ x → (calculateFlowNode alignNodes maxFlow h x).flow n = h.flow n ∧
      (calculateFlowNode alignNodes maxFlow h x).flowTop n = h.flowTop n ∧
      (calculateFlowNode alignNodes maxFlow h x).flowBottom n = h.flowBottom n) := by
  simp only [alignNodeValues, List.mem_cons, List.mem_singleton, List.not_mem_nil, or_false] at hal
  rcases hal with rfl | rfl | rfl | rfl
  · refine ⟨by constructor <;> rfl, by simp [calculateFlowNode, flowValue], ?_⟩
    intro n hn
    simp [calculateFlowNode, upd_ne _ _ hn]
  · refine ⟨by constructor <;> rfl, by simp [calculateFlowNode, flowValue], ?_⟩
    intro n hn
    simp [calculateFlowNode, upd_ne _ _ hn]
  · refine ⟨by constructor <;> rfl, by simp [calculateFlowNode, flowValue], ?_⟩
    intro n hn
    simp [calculateFlowNode, upd_ne _ _ hn]
  · refine ⟨by constructor <;> rfl, by simp [calculateFlowNode, flowValue], ?_⟩
    intro n hn
    simp [calculateFlowNode, upd_ne _ _ hn]

theorem foldl_calculateFlowNode (alignNodes : String) (hal : alignNodes ∈ alignNodeValues)
    (maxFlow : Nat) : ∀ (nodes : List Nat) (h : Heap), nodes.Nodup →
      FlowFrame h (nodes.foldl (calculateFlowNode alignNodes maxFlow) h) ∧
      (∀ n ∈ nodes, (nodes.foldl (calculateFlowNode alignNodes maxFlow) h).flow n =
        flowValue alignNodes maxFlow (h.flowTop n) (h.flowBottom n)) ∧
      (∀ n, n ∉ nodes →
        (nodes.foldl (calculateFlowNode alignNodes maxFlow) h).flow n = h.flow n ∧
        (nodes.foldl (calculateFlowNode alignNodes maxFlow) h).flowTop n = h.flowTop n ∧
        (nodes.foldl (calculateFlowNode alignNodes maxFlow) h).flowBottom n = h.flowBottom n)
  | [], h, _ => ⟨FlowFrame.reflFlow h, by simp, by simp⟩
  | x :: rest, h, hn => by
    obtain ⟨hx, hr⟩ := List.nodup_cons.mp hn
    obtain ⟨f1, v1, o1⟩ := calculateFlowNode_spec alignNodes hal maxFlow h x
    obtain ⟨f2, v2, o2⟩ := foldl_calculateFlowNode alignNodes hal maxFlow rest
      (calculateFlowNode alignNodes maxFlow h x) hr
    simp only [List.foldl_cons]
    refine ⟨f1.transFlow f2, ?_, ?_⟩
    · intro n hn'
      rcases List.mem_cons.mp hn' with rfl | hnr
      · rw [(o2 n hx).1, v1]
      · have hne : n ≠ x := fun e => hx (e ▸ hnr)
        rw [v2 n hnr, (o1 n hne).2.1, (o1 n hne).2.2]
    · intro n hn'
      have hne : n ≠ x := fun e => hn' (e ▸ List.mem_cons_self _ _)
      have hnr : n ∉ rest := fun e => hn' (List.mem_cons_of_mem _ e)
      obtain ⟨a1, a2, a3⟩ := o2 n hnr
      obtain ⟨b1, b2, b3⟩ := o1 n hne
      exact ⟨a1.trans b1, a2.trans b2, a3.trans b3⟩

theorem Walk.reverse {r r' : Nat → Nat → Prop} (hr : ∀ x y, r x y → r' y x) {a b : Nat}
    {k : Nat} (hw : Walk r a b k) : Walk r' b a k := by
  induction hw with
  | refl => exact Walk.refl _
  | tail _ hbc ih => exact Walk.head (hr _ _ hbc) ih

theorem Walk.mem_of_closed {r : Nat → Nat → Prop} {all : List Nat}
    (hcl : ∀ n ∈ all, ∀ p, r p n → p ∈ all) {a b : Nat} {k : Nat} (hw : Walk r a b k)
    (hb : b ∈ all) : a ∈ all := by
  induction hw with
  | refl => exact hb
  | tail _ hbc ih => exact ih (hcl _ hb _ hbc)

theorem LongestTo.unique {r : Nat → Nat → Prop} {n k k' : Nat} (h1 : LongestTo r n k)
    (h2 : LongestTo r n k') : k = k' := by
  obtain ⟨a, ha⟩ := h1.1
  obtain ⟨b, hb⟩ := h2.1
  have := h1.2 b k' hb
  have := h2.2 a k ha
  omega

theorem AcyclicGroup.acyclic_listed {h : Heap} {group : List Nat} (hg : AcyclicGroup h group)
    (rp : RelProp) : ∀ n, ¬ Relation.TransGen (h.listed rp) n n := by
  intro n hn
  cases rp with
  | predecessors =>
    apply hg.acyclic n
    refine Relation.TransGen.mono ?_ hn
    intro a b hab
    exact (hg.sym a b).mpr hab
  | successors =>
    apply hg.acyclic n
    have : Relation.TransGen (Function.swap h.edge) n n := by
      refine Relation.TransGen.mono ?_ hn
      intro a b hab
      exact hab
    exact Relation.transGen_swap.mp this

theorem AcyclicGroup.closed_listed {h : Heap} {group : List Nat} (hg : AcyclicGroup h group)
    (rp : RelProp) : ∀ n ∈ group, ∀ p, h.listed rp p n → p ∈ group := by
  cases rp with
  | predecessors => exact fun n hn p hp => hg.closedPred n hn p hp
  | successors => exact fun n hn p hp => hg.closedSucc n hn p hp

theorem AcyclicGroup.groupWithOrder {h : Heap} {group : List Nat} (hg : AcyclicGroup h group)
    (o : OrderProp) (f : Nat → Option Int) : AcyclicGroup (h.withOrder o f) group := by
  cases o <;> exact ⟨hg.nodup, hg.sym, hg.acyclic, hg.closedPred, hg.closedSucc⟩

/-- The ranks of the two directions: what both runs of `topoSortNodes` return
on an acyclic group, for any starting values of the order properties. -/
theorem topoSortNodes_ranks {h : Heap} {group : List Nat} (hg : AcyclicGroup h group)
    (rp : RelProp) (o : OrderProp) :
    ∃ (ord : Nat → Option Int) (layerCount : Nat) (rank : Nat → Nat),
      (∀ fuel, group.length < fuel →
        topoSortNodes fuel h group rp o = .ok (h.withOrder o ord, layerCount)) ∧
      (∀ n ∈ group, ord n = some (rank n : Int) ∧ rank n < layerCount ∧
        LongestTo (h.listed rp) n (rank n)) ∧
      (∀ n, n ∉ group → ord n = h.order o n) ∧
      (group = [] → layerCount = 0) ∧
      (group ≠ [] → ∃ n ∈ group, rank n + 1 = layerCount) := by
  obtain ⟨ord, L, hrun, inv⟩ := topoSortNodes_ok h rp o group hg.nodup (hg.acyclic_listed rp)
    (hg.closed_listed rp)
  refine ⟨ord, L, fun n => ((ord n).getD 0).toNat, hrun, ?_, inv.outside, ?_, ?_⟩
  · intro n hn
    obtain ⟨d, hd1, hd2, hd3⟩ := inv.marked n hn (by simp)
    simp only [hd1, Option.getD_some, Int.toNat_ofNat]
    exact ⟨trivial, hd2, hd3⟩
  · intro he
    rcases inv.last with h0 | ⟨n, hn, _⟩
    · exact h0
    · rw [he] at hn; simp at hn
  · intro hne
    rcases inv.last with h0 | ⟨n, hn, _, hl⟩
    · obtain ⟨x, hx⟩ := List.exists_mem_of_ne_nil group hne
      obtain ⟨d, _, hd2, _⟩ := inv.marked x hx (by simp)
      omega
    · obtain ⟨d, hd1, hd2, hd3⟩ := inv.marked n hn (by simp)
      refine ⟨n, hn, ?_⟩
      simp only [hd1, Option.getD_some, Int.toNat_ofNat]
      have := hd3.unique hl
      omega

/-- Both directions give the same layer count. -/
theorem layerCount_eq {h : Heap} {group : List Nat} (hg : AcyclicGroup h group)
    {top bot : Nat → Nat} {l1 l2 : Nat}
    (ht : ∀ n ∈ group, top n < l1 ∧ LongestTo (h.listed .predecessors) n (top n))
    (hb : ∀ n ∈ group, bot n < l2 ∧ LongestTo (h.listed .successors) n (bot n))
    (ht1 : group ≠ [] → ∃ n ∈ group, top n + 1 = l1)
    (hb1 : group ≠ [] → ∃ n ∈ group, bot n + 1 = l2)
    (hne : group ≠ []) : l1 = l2 := by
  obtain ⟨n, hn, hnl⟩ := ht1 hne
  obtain ⟨m, hm, hml⟩ := hb1 hne
  have h1 : l1 ≤ l2 := by
    obtain ⟨a, hw⟩ := (ht n hn).2.1
    have ha : a ∈ group := hw.mem_of_closed (hg.closed_listed .predecessors) hn
    have hw' : Walk (h.listed .successors) n a (top n) :=
      hw.reverse (fun x y hxy => (hg.sym x y).mpr hxy)
    have := (hb a ha).2.2 n _ hw'
    have := (hb a ha).1
    omega
  have h2 : l2 ≤ l1 := by
    obtain ⟨a, hw⟩ := (hb m hm).2.1
    have ha : a ∈ group := hw.mem_of_closed (hg.closed_listed .successors) hm
    have hw' : Walk (h.listed .predecessors) m a (bot m) :=
      hw.reverse (fun x y hxy => (hg.sym y x).mp hxy)
    have := (ht a ha).2.2 m _ hw'
    have := (ht a ha).1
    omega
  omega

/-- What `calculateFlow` returns on an acyclic group, in terms of the ranks of
the two directions. -/
theorem calculateFlow_ranks {h : Heap} {group : List Nat} (hg : AcyclicGroup h group)
    (hne : group ≠ []) (alignNodes : String) (hal : alignNodes ∈ alignNodeValues) :
    ∃ (layerCount : Nat) (h' : Heap) (top bot : Nat → Nat),
      (∀ fuel, group.length < fuel →
        calculateFlow fuel h group alignNodes = .ok (h', layerCount)) ∧
      (∃ ordT, (∀ fuel, group.length < fuel → topoSortNodes fuel h group .predecessors .flowTop =
          .ok (h.withOrder .flowTop ordT, layerCount)) ∧
        ∀ n ∈ group, ordT n = some (top n : Int)) ∧
      (∃ ordB, (∀ fuel, group.length < fuel → topoSortNodes fuel h group .successors .flowBottom =
          .ok (h.withOrder .flowBottom ordB, layerCount)) ∧
        ∀ n ∈ group, ordB n = some (bot n : Int)) ∧
      FlowFrame h h' ∧
      (∀ n ∈ group, top n < layerCount ∧ LongestTo (h.listed .predecessors) n (top n)) ∧
      (∀ n ∈ group, bot n < layerCount ∧ LongestTo (h.listed .successors) n (bot n)) ∧
      (∃ n ∈ group, top n + 1 = layerCount) ∧
      (∃ n ∈ group, bot n + 1 = layerCount) ∧
      (∀ n ∈ group, h'.flow n =
        flowValue alignNodes layerCount (some (top n : Int)) (some (bot n : Int))) ∧
      (∀ n, n ∉ group → h'.flow n = h.flow n) := by
  obtain ⟨ordT, l1, top, runT, factT, _, _, lastT⟩ :=
    topoSortNodes_ranks hg .predecessors .flowTop
  obtain ⟨ordB, l2, bot, runB, factB, _, _, lastB⟩ :=
    topoSortNodes_ranks hg .successors .flowBottom
  obtain ⟨ordB1, l3, bot1, runB1, factB1, _, _, lastB1⟩ :=
    topoSortNodes_ranks (hg.groupWithOrder .flowTop ordT) .successors .flowBottom
  have e12 : l1 = l2 := layerCount_eq hg (fun n hn => ⟨(factT n hn).2.1, (factT n hn).2.2⟩)
    (fun n hn => ⟨(factB n hn).2.1, (factB n hn).2.2⟩) lastT lastB hne
  have e13 : l1 = l3 := layerCount_eq hg (fun n hn => ⟨(factT n hn).2.1, (factT n hn).2.2⟩)
    (fun n hn => ⟨(factB1 n hn).2.1, (factB1 n hn).2.2⟩) lastT lastB1 hne
  subst e12
  subst e13
  have eb : ∀ n ∈ group, ordB1 n = some (bot n : Int) := by
    intro n hn
    have h1 : LongestTo (h.listed .successors) n (bot1 n) := (factB1 n hn).2.2
    have := h1.unique (factB n hn).2.2
    rw [(factB1 n hn).1, this]
  simp only [alignNodeValues, List.mem_cons, List.mem_singleton, List.not_mem_nil,
    or_false] at hal
  have rest : ∀ (h2 : Heap), FlowFrame h h2 → (∀ n, n ∉ group → h2.flow n = h.flow n) →
      (∀ n ∈ group, flowValue alignNodes l1 (h2.flowTop n) (h2.flowBottom n) =
        flowValue alignNodes l1 (some (top n : Int)) (some (bot n : Int))) →
      (∀ fuel, group.length < fuel → calculateFlow fuel h group alignNodes =
        .ok (group.foldl (calculateFlowNode alignNodes l1) h2, l1)) →
      ∃ (layerCount : Nat) (h' : Heap) (top bot : Nat → Nat),
      (∀ fuel, group.length < fuel →
        calculateFlow fuel h group alignNodes = .ok (h', layerCount)) ∧
      (∃ ordT, (∀ fuel, group.length < fuel → topoSortNodes fuel h group .predecessors .flowTop =
          .ok (h.withOrder .flowTop ordT, layerCount)) ∧
        ∀ n ∈ group, ordT n = some (top n : Int)) ∧
      (∃ ordB, (∀ fuel, group.length < fuel → topoSortNodes fuel h group .successors .flowBottom =
          .ok (h.withOrder .flowBottom ordB, layerCount)) ∧
        ∀ n ∈ group, ordB n = some (bot n : Int)) ∧
      FlowFrame h h' ∧
      (∀ n ∈ group, top n < layerCount ∧ LongestTo (h.listed .predecessors) n (top n)) ∧
      (∀ n ∈ group, bot n < layerCount ∧ LongestTo (h.listed .successors) n (bot n)) ∧
      (∃ n ∈ group, top n + 1 = layerCount) ∧
      (∃ n ∈ group, bot n + 1 = layerCount) ∧
      (∀ n ∈ group, h'.flow n =
        flowValue alignNodes layerCount (some (top n : Int)) (some (bot n : Int))) ∧
      (∀ n, n ∉ group → h'.flow n = h.flow n) := by
    intro h2 hframe hout hval hrun
    have hal' : alignNodes ∈ alignNodeValues := by
      simp only [alignNodeValues, List.mem_cons, List.mem_singleton, List.not_mem_nil, or_false]
      exact hal
    obtain ⟨f, v, o⟩ := foldl_calculateFlowNode alignNodes hal' l1 group h2 hg.nodup
    refine ⟨l1, _, top, bot, hrun, ⟨ordT, runT, fun n hn => (factT n hn).1⟩,
      ⟨ordB, runB, fun n hn => (factB n hn).1⟩, hframe.transFlow f,
      fun n hn => ⟨(factT n hn).2.1, (factT n hn).2.2⟩,
      fun n hn => ⟨(factB n hn).2.1, (factB n hn).2.2⟩, lastT hne, lastB hne, ?_, ?_⟩
    · intro n hn
      rw [v n hn, hval n hn]
    · intro n hn
      rw [(o n hn).1, hout n hn]
  rcases hal with rfl | rfl | rfl | rfl
  · -- start
    apply rest (h.withOrder .flowTop ordT) (FlowFrame.frameWithOrder _ _ _) (fun _ _ => rfl)
    · intro n hn
      have : (h.withOrder .flowTop ordT).flowTop n = some (top n : Int) := (factT n hn).1
      rw [this]
      simp [flowValue]
    · intro fuel hf
      simp only [calculateFlow]
      rw [if_pos (by decide), runT fuel hf]
      simp only [Res.bind]
      rw [if_neg (by decide)]
  · -- center-start
    apply rest ((h.withOrder .flowTop ordT).withOrder .flowBottom ordB1)
      ((FlowFrame.frameWithOrder _ _ _).transFlow (FlowFrame.frameWithOrder _ _ _)) (fun _ _ => rfl)
    · intro n hn
      have h1 : ((h.withOrder .flowTop ordT).withOrder .flowBottom ordB1).flowTop n =
        some (top n : Int) := (factT n hn).1
      have h2 : ((h.withOrder .flowTop ordT).withOrder .flowBottom ordB1).flowBottom n =
        some (bot n : Int) := eb n hn
      rw [h1, h2]
    · intro fuel hf
      simp only [calculateFlow]
      rw [if_pos (by decide), runT fuel hf]
      simp only [Res.bind]
      rw [if_pos (by decide), runB1 fuel hf]
  · -- center-end
    apply rest ((h.withOrder .flowTop ordT).withOrder .flowBottom ordB1)
      ((FlowFrame.frameWithOrder _ _ _).transFlow (FlowFrame.frameWithOrder _ _ _)) (fun _ _ => rfl)
    · intro n hn
      have h1 : ((h.withOrder .flowTop ordT).withOrder .flowBottom ordB1).flowTop n =
        some (top n : Int) := (factT n hn).1
      have h2 : ((h.withOrder .flowTop ordT).withOrder .flowBottom ordB1).flowBottom n =
        some (bot n : Int) := eb n hn
      rw [h1, h2]
    · intro fuel hf
      simp only [calculateFlow]
      rw [if_pos (by decide), runT fuel hf]
      simp only [Res.bind]
      rw [if_pos (by decide), runB1 fuel hf]
  · -- end
    apply rest (h.withOrder .flowBottom ordB) (FlowFrame.frameWithOrder _ _ _) (fun _ _ => rfl)
    · intro n hn
      have : (h.withOrder .flowBottom ordB).flowBottom n = some (bot n : Int) := (factB n hn).1
      rw [this]
      simp [flowValue]
    · intro fuel hf
      simp only [calculateFlow]
      rw [if_neg (by decide)]
      simp only [Res.bind]
      rw [if_pos (by decide), runB fuel hf]

theorem floorHalf_eq (x : Int) : floorHalf x = ⌊(x : ℚ) / 2⌋ := by
  have := Rat.floor_intCast_div_natCast x 2
  simp only [Nat.cast_ofNat] at this
  rw [this]
  rfl

theorem ceilHalf_eq (x : Int) : ceilHalf x = ⌈(x : ℚ) / 2⌉ := by
  have h1 : ⌈(x : ℚ) / 2⌉ = -⌊-((x : ℚ) / 2)⌋ := by rw [Int.floor_neg, neg_neg]
  have h2 : -((x : ℚ) / 2) = ((-x : Int) : ℚ) / 2 := by push_cast; ring
  rw [h1, h2, ← floorHalf_eq]
  rfl

theorem flowValue_some (alignNodes : String) (hal : alignNodes ∈ alignNodeValues)
    (l t b : Nat) (ht : t < l) (hb : b < l) :
    ∃ f : Int, flowValue alignNodes l (some (t : Int)) (some (b : Int)) = some f ∧
      0 ≤ f ∧ f ≤ (l : Int) - 1 := by
  simp only [alignNodeValues, List.mem_cons, List.mem_singleton, List.not_mem_nil,
    or_false] at hal
  rcases hal with rfl | rfl | rfl | rfl
  · exact ⟨t, by simp [flowValue], by omega, by omega⟩
  · refine ⟨floorHalf (t + (l : Int) - 1 - b), by simp [flowValue], ?_, ?_⟩ <;>
      (unfold floorHalf; omega)
  · refine ⟨ceilHalf (t + (l : Int) - 1 - b), by simp [flowValue], ?_, ?_⟩ <;>
      (unfold ceilHalf; omega)
  · exact ⟨(l : Int) - 1 - b, by simp [flowValue], by omega, by omega⟩

theorem flowValue_lt (alignNodes : String) (hal : alignNodes ∈ alignNodeValues)
    (l tp bp ts bs : Nat) (ht : tp < ts) (hb : bs < bp) (fp fs : Int)
    (hp : flowValue alignNodes l (some (tp : Int)) (some (bp : Int)) = some fp)
    (hs : flowValue alignNodes l (some (ts : Int)) (some (bs : Int)) = some fs) : fp < fs := by
  simp only [alignNodeValues, List.mem_cons, List.mem_singleton, List.not_mem_nil,
    or_false] at hal
  rcases hal with rfl | rfl | rfl | rfl
  · simp [flowValue] at hp hs; omega
  · simp [flowValue, floorHalf] at hp hs; omega
  · simp [flowValue, ceilHalf] at hp hs; omega
  · simp [flowValue] at hp hs; omega

/-- Along a retained edge both directional ranks move strictly. -/
theorem ranks_edge {h : Heap} {group : List Nat} (hg : AcyclicGroup h group)
    {top bot : Nat → Nat}
    (ht : ∀ n ∈ group, LongestTo (h.listed .predecessors) n (top n))
    (hb : ∀ n ∈ group, LongestTo (h.listed .successors) n (bot n))
    {p s : Nat} (hp : p ∈ group) (hs : s ∈ h.successors p) :
    s ∈ group ∧ top p < top s ∧ bot s < bot p := by
  have hsg := hg.closedSucc p hp s hs
  refine ⟨hsg, ?_, ?_⟩
  · obtain ⟨a, hw⟩ := (ht p hp).1
    have := (ht s hsg).2 a _ (Walk.tail hw ((hg.sym p s).mp hs))
    omega
  · obtain ⟨a, hw⟩ := (hb s hsg).1
    have hw' : Walk (h.listed .successors) a p (bot s + 1) := Walk.tail hw hs
    have := (hb p hp).2 a _ hw'
    omega

theorem LongestTo.zero_of_unlisted {r : Nat → Nat → Prop} {n k : Nat} (hl : LongestTo r n k)
    (hn : ∀ p, ¬ r p n) : k = 0 := by
  obtain ⟨a, hw⟩ := hl.1
  cases hw with
  | refl => rfl
  | tail _ hbc => exact absurd hbc (hn _)

/-- A fresh graph whose edges all go from a smaller to a larger object index
is an acyclic group. -/
theorem AcyclicGroup.of_increasing {h : Heap} {nodes : List Nat} (hf : Fresh h nodes)
    (hinc : ∀ a ∈ nodes, ∀ b ∈ h.successors a, a < b) : AcyclicGroup h nodes where
  nodup := hf.nodup
  sym := hf.sym
  acyclic := by
    have hlt : ∀ a b, Relation.TransGen h.edge a b → a < b := by
      intro a b hab
      induction hab with
      | single hab => exact hinc _ (hf.closed _ _ hab).1 _ hab
      | tail _ hbc ih => exact lt_trans ih (hinc _ (hf.closed _ _ hbc).1 _ hbc)
    intro n hn
    exact absurd (hlt n n hn) (lt_irrefl n)
  closedPred := fun n _ p hp => (hf.closed p n ((hf.sym p n).mpr hp)).1
  closedSucc := fun n _ s hs => (hf.closed n s hs).2

/-- C5: on a non-empty acyclic group, `topoSortNodes` over `predecessors`
gives every node the length of the longest predecessor chain ending at it
(0 without predecessors) and returns one more than the longest such length
in the group; over `successors` it gives the longest successor chain length
and returns the same count.  `calculateFlow` returns that count and sets
`flow` to the top-down rank (`start`), to `layerCount - 1 -` bottom-up rank
(`end`), to the floor (`center-start`) or the ceiling (`center-end`) of the
average of these two; in every mode `0 ≤ flow ≤ layerCount - 1` and `flow`
grows strictly along every edge. -/
theorem calculateFlow_spec (h : Heap) (group : List Nat) (hg : AcyclicGroup h group)
    (hne : group ≠ []) (alignNodes : String) (hal : alignNodes ∈ alignNodeValues) :
    ∃ (layerCount : Nat) (h' : Heap) (top bottom : Nat → Nat),
      (∃ ordT, (∀ fuel, group.length < fuel →
          topoSortNodes fuel h group .predecessors .flowTop =
            .ok (h.withOrder .flowTop ordT, layerCount)) ∧
        ∀ n ∈ group, ordT n = some (top n : Int)) ∧
      (∃ ordB, (∀ fuel, group.length < fuel →
          topoSortNodes fuel h group .successors .flowBottom =
            .ok (h.withOrder .flowBottom ordB, layerCount)) ∧
        ∀ n ∈ group, ordB n = some (bottom n : Int)) ∧
      (∀ n ∈ group, LongestTo (fun p m => p ∈ h.predecessors m) n (top n) ∧
        (h.predecessors n = [] → top n = 0) ∧ top n + 1 ≤ layerCount) ∧
      (∀ n ∈ group, LongestTo (fun s m => s ∈ h.successors m) n (bottom n) ∧
        (h.successors n = [] → bottom n = 0) ∧ bottom n + 1 ≤ layerCount) ∧
      (∃ n ∈ group, top n + 1 = layerCount) ∧
      (∃ n ∈ group, bottom n + 1 = layerCount) ∧
      (∀ fuel, group.length < fuel →
        calculateFlow fuel h group alignNodes = .ok (h', layerCount)) ∧
      (alignNodes = "start" → ∀ n ∈ group, h'.flow n = some (top n : Int)) ∧
      (alignNodes = "end" → ∀ n ∈ group,
        h'.flow n = some ((layerCount : Int) - 1 - (bottom n : Int))) ∧
      (alignNodes = "center-start" → ∀ n ∈ group, h'.flow n =
        some ⌊(((top n : Int) + ((layerCount : Int) - 1 - (bottom n : Int)) : Int) : ℚ) / 2⌋) ∧
      (alignNodes = "center-end" → ∀ n ∈ group, h'.flow n =
        some ⌈(((top n : Int) + ((layerCount : Int) - 1 - (bottom n : Int)) : Int) : ℚ) / 2⌉) ∧
      (∀ n ∈ group, ∃ f : Int, h'.flow n = some f ∧ 0 ≤ f ∧ f ≤ (layerCount : Int) - 1) ∧
      (∀ p ∈ group, ∀ s ∈ h.successors p, ∃ fp fs : Int,
        h'.flow p = some fp ∧ h'.flow s = some fs ∧ fp < fs) := by
  obtain ⟨l, h', top, bot, hrun, hT, hB, _, ft, fb, lt, lb, hflow, _⟩ :=
    calculateFlow_ranks hg hne alignNodes hal
  refine ⟨l, h', top, bot, hT, hB, ?_, ?_, lt, lb, hrun, ?_, ?_, ?_, ?_, ?_, ?_⟩
  · intro n hn
    refine ⟨(ft n hn).2, ?_, (ft n hn).1⟩
    intro hp
    apply (ft n hn).2.zero_of_unlisted
    intro p hc
    have : p ∈ h.predecessors n := hc
    rw [hp] at this
    simp at this
  · intro n hn
    refine ⟨(fb n hn).2, ?_, (fb n hn).1⟩
    intro hp
    apply (fb n hn).2.zero_of_unlisted
    intro p hc
    have : p ∈ h.successors n := hc
    rw [hp] at this
    simp at this
  · rintro rfl n hn
    rw [hflow n hn]
    simp [flowValue]
  · rintro rfl n hn
    rw [hflow n hn]
    simp [flowValue]
  · rintro rfl n hn
    rw [hflow n hn, ← floorHalf_eq]
    simp only [flowValue, Option.some_bind, Option.map_some']
    rw [if_neg (by decide), if_neg (by decide), if_pos (by decide)]
    congr 2
    ring
  · rintro rfl n hn
    rw [hflow n hn, ← ceilHalf_eq]
    simp only [flowValue, Option.some_bind, Option.map_some']
    rw [if_neg (by decide), if_neg (by decide), if_neg (by decide)]
    congr 2
    ring
  · intro n hn
    rw [hflow n hn]
    exact flowValue_some alignNodes hal l _ _ (ft n hn).1 (fb n hn).1
  · intro p hp s hs
    obtain ⟨hsg, h1, h2⟩ := ranks_edge hg (fun n hn => (ft n hn).2) (fun n hn => (fb n hn).2) hp hs
    obtain ⟨fp, hfp, _⟩ := flowValue_some alignNodes hal l _ _ (ft p hp).1 (fb p hp).1
    obtain ⟨fs, hfs, _⟩ := flowValue_some alignNodes hal l _ _ (ft s hsg).1 (fb s hsg).1
    refine ⟨fp, fs, by rw [hflow p hp, hfp], by rw [hflow s hsg, hfs], ?_⟩
    exact flowValue_lt alignNodes hal l _ _ _ _ h1 h2 fp fs hfp hfs

/-- C5 at the diamond `A → B`, `A → C`, `B → D`, `C → D` with `center-end`. -/
theorem calculateFlow_spec_witness :
    AcyclicGroup diamond.heap [0, 1, 2, 3] ∧ [0, 1, 2, 3] ≠ [] ∧
    "center-end" ∈ alignNodeValues ∧
    ∃ (layerCount : Nat) (h' : Heap),
      (∀ fuel, 4 < fuel →
        calculateFlow fuel diamond.heap [0, 1, 2, 3] "center-end" = .ok (h', layerCount)) ∧
      (∀ n ∈ [0, 1, 2, 3], ∃ f : Int, h'.flow n = some f ∧ 0 ≤ f ∧ f ≤ (layerCount : Int) - 1) ∧
      (∀ p ∈ [0, 1, 2, 3], ∀ s ∈ diamond.heap.successors p, ∃ fp fs : Int,
        h'.flow p = some fp ∧ h'.flow s = some fs ∧ fp < fs) := by
  have hg : AcyclicGroup diamond.heap [0, 1, 2, 3] :=
    AcyclicGroup.of_increasing ((Fresh.build _).ofPerm (by decide)) (by decide)
  refine ⟨hg, by decide, by decide, ?_⟩
  obtain ⟨l, h', _, _, _, _, _, _, _, _, hrun, _, _, _, _, hb, hm⟩ :=
    calculateFlow_spec diamond.heap [0, 1, 2, 3] hg (by decide) "center-end" (by decide)
  exact ⟨l, h', hrun, hb, hm⟩

/-! ## `addVirtualNodes`: layer updates -/

theorem getD_set {α : Type} (a : List (List α)) (j : Nat) (v : List α) (i : Nat) :
    (a.set j v).getD i [] = if i = j ∧ j < a.length then v else a.getD i [] := by
  simp only [List.getD_eq_getElem?_getD, List.getElem?_set]
  by_cases hij : j = i
  · subst hij
    by_cases hj : j < a.length
    · simp [hj]
    · simp [hj]
      rw [List.getElem?_eq_none (by omega)]
      rfl
  · have : ¬ (i = j ∧ j < a.length) := fun h => hij h.1.symm
    simp [hij, this]

theorem pushAt_ok {α : Type} (a : List (List α)) (k : Int) (x : α) (h0 : 0 ≤ k)
    (hk : k.toNat < a.length) :
    pushAt a (some k) x = .ok (a.set k.toNat (a.getD k.toNat [] ++ [x])) := by
  simp [pushAt, layerAt, setLayer, h0, hk, Res.bind]

theorem mem_getD_push {α : Type} (a : List (List α)) (j : Nat) (x y : α) (i : Nat)
    (hj : j < a.length) :
    y ∈ (a.set j (a.getD j [] ++ [x])).getD i [] ↔ y ∈ a.getD i [] ∨ (i = j ∧ y = x) := by
  rw [getD_set]
  by_cases hij : i = j
  · subst hij
    simp [hj]
  · simp [hij]

theorem LayersLe.reflLayers (ls : Layers) : LayersLe ls ls := ⟨fun _ _ h => h, fun _ _ h => h⟩

theorem LayersLe.transLayers {a b c : Layers} (h1 : LayersLe a b) (h2 : LayersLe b c) :
    LayersLe a c :=
  ⟨fun i x h => h2.nodes i x (h1.nodes i x h), fun i e h => h2.edges i e (h1.edges i e h)⟩

theorem HeapExt.reflExt (h : Heap) : HeapExt h h := by
  constructor <;> intros <;> rfl

theorem HeapExt.transExt {a b c : Heap} (h1 : HeapExt a b) (h2 : HeapExt b c) : HeapExt a c where
  size := le_trans h1.size h2.size
  flow := fun x hx => (h2.flow x (lt_of_lt_of_le hx h1.size)).trans (h1.flow x hx)
  groupIndex := fun x hx => (h2.groupIndex x (lt_of_lt_of_le hx h1.size)).trans (h1.groupIndex x hx)
  virtual := fun x hx => (h2.virtual x (lt_of_lt_of_le hx h1.size)).trans (h1.virtual x hx)
  predecessors := fun x hx =>
    (h2.predecessors x (lt_of_lt_of_le hx h1.size)).trans (h1.predecessors x hx)
  successors := fun x hx =>
    (h2.successors x (lt_of_lt_of_le hx h1.size)).trans (h1.successors x hx)
  realPredecessors := fun x hx =>
    (h2.realPredecessors x (lt_of_lt_of_le hx h1.size)).trans (h1.realPredecessors x hx)
  realSuccessors := fun x hx =>
    (h2.realSuccessors x (lt_of_lt_of_le hx h1.size)).trans (h1.realSuccessors x hx)

theorem OnRanks.monoRanks {h h' : Heap} {ls ls' : Layers} (he : HeapExt h h') (hl : LayersLe ls ls') :
    ∀ (f : Int) (xs : List Nat), (∀ x ∈ xs, x < h.size) → OnRanks h ls f xs → OnRanks h' ls' f xs
  | _, [], _, _ => trivial
  | f, w :: rest, hb, hr => by
    obtain ⟨⟨h1, h2, h3⟩, h4⟩ := hr
    refine ⟨⟨?_, h2, hl.nodes _ _ h3⟩, OnRanks.monoRanks he hl (f + 1) rest
      (fun x hx => hb x (List.mem_cons_of_mem _ hx)) h4⟩
    rw [he.flow w (hb w (List.mem_cons_self _ _)), h1]

theorem Linked.monoLinked {ls ls' : Layers} (hl : LayersLe ls ls') :
    ∀ (f : Int) (xs : List Nat), Linked ls f xs → Linked ls' f xs
  | _, [], _ => trivial
  | _, [_], _ => trivial
  | f, a :: b :: rest, hr => by
    obtain ⟨⟨h1, h2⟩, h3⟩ := hr
    exact ⟨⟨h1, hl.edges _ _ h2⟩, Linked.monoLinked hl (f + 1) (b :: rest) h3⟩

theorem Routes.monoRoutes {h h' : Heap} (he : HeapExt h h') {gi : Option Nat} {u v w : Nat}
    (hw : w < h.size) (hr : Routes h gi u v w) : Routes h' gi u v w := by
  obtain ⟨h1, h2, h3, h4⟩ := hr
  exact ⟨(he.virtual w hw).trans h1, (he.realPredecessors w hw).trans h2,
    (he.realSuccessors w hw).trans h3, (he.groupIndex w hw).trans h4⟩

theorem Ranked.push_node {l : Nat} {h : Heap} {ls : Layers} (hr : Ranked l h ls) (k : Int)
    (x : Nat) (h0 : 0 ≤ k) (hk : k.toNat < l) (hx : h.flow x = some k) (hxs : x < h.size) :
    ∃ ln, pushAt ls.layeredNodes (some k) x = .ok ln ∧
      Ranked l h { ls with layeredNodes := ln } ∧ LayersLe ls { ls with layeredNodes := ln } ∧
      x ∈ ln.getD k.toNat [] ∧
      (∀ i y, y ∈ ln.getD i [] → y ∈ ls.layeredNodes.getD i [] ∨ y = x) := by
  have hk' : k.toNat < ls.layeredNodes.length := by rw [hr.lenN]; exact hk
  refine ⟨_, pushAt_ok _ k x h0 hk', ?_, ?_, ?_, ?_⟩
  · exact {
      lenN := by simp [hr.lenN]
      lenE := hr.lenE
      nodes := by
        intro i y hy
        rcases (mem_getD_push _ _ _ _ _ hk').mp hy with hy | ⟨hi, hy⟩
        · exact hr.nodes i y hy
        · subst hy
          refine ⟨?_, hxs⟩
          rw [hx, hi, Int.toNat_of_nonneg h0]
      edges := hr.edges }
  · exact ⟨fun i y hy => (mem_getD_push _ _ _ _ _ hk').mpr (Or.inl hy), fun _ _ h => h⟩
  · exact (mem_getD_push _ _ _ _ _ hk').mpr (Or.inr ⟨rfl, rfl⟩)
  · intro i y hy
    rcases (mem_getD_push _ _ _ _ _ hk').mp hy with hy | ⟨_, hy⟩
    · exact Or.inl hy
    · exact Or.inr hy

theorem Ranked.push_edge {l : Nat} {h : Heap} {ls : Layers} (hr : Ranked l h ls) (k : Int)
    (p s : Nat) (h0 : 0 ≤ k) (hk : k.toNat < l - 1) (hp : h.flow p = some k)
    (hs : h.flow s = some (k + 1)) (hps : p < h.size) (hss : s < h.size) :
    ∃ le, pushAt ls.layeredEdges (some k) (p, s) = .ok le ∧
      Ranked l h { ls with layeredEdges := le } ∧ LayersLe ls { ls with layeredEdges := le } ∧
      (p, s) ∈ le.getD k.toNat [] ∧
      (∀ i e, e ∈ le.getD i [] → e ∈ ls.layeredEdges.getD i [] ∨ e = (p, s)) := by
  have hk' : k.toNat < ls.layeredEdges.length := by rw [hr.lenE]; exact hk
  refine ⟨_, pushAt_ok _ k (p, s) h0 hk', ?_, ?_, ?_, ?_⟩
  · exact {
      lenN := hr.lenN
      lenE := by simp [hr.lenE]
      nodes := hr.nodes
      edges := by
        intro i a b hy
        rcases (mem_getD_push _ _ _ _ _ hk').mp hy with hy | ⟨hi, hy⟩
        · exact hr.edges i a b hy
        · simp only [Prod.mk.injEq] at hy
          obtain ⟨rfl, rfl⟩ := hy
          refine ⟨?_, ?_, hps, hss⟩
          · rw [hp, hi, Int.toNat_of_nonneg h0]
          · rw [hs, hi, Int.toNat_of_nonneg h0] }
  · exact ⟨fun _ _ h => h, fun i y hy => (mem_getD_push _ _ _ _ _ hk').mpr (Or.inl hy)⟩
  · exact (mem_getD_push _ _ _ _ _ hk').mpr (Or.inr ⟨rfl, rfl⟩)
  · intro i y hy
    rcases (mem_getD_push _ _ _ _ _ hk').mp hy with hy | ⟨_, hy⟩
    · exact Or.inl hy
    · exact Or.inr hy

theorem Ranked.monoRanked {l : Nat} {h h' : Heap} {ls : Layers} (hr : Ranked l h ls)
    (he : HeapExt h h') : Ranked l h' ls where
  lenN := hr.lenN
  lenE := hr.lenE
  nodes := by
    intro i x hx
    obtain ⟨h1, h2⟩ := hr.nodes i x hx
    exact ⟨(he.flow x h2).trans h1, lt_of_lt_of_le h2 he.size⟩
  edges := by
    intro i p s hx
    obtain ⟨h1, h2, h3, h4⟩ := hr.edges i p s hx
    exact ⟨(he.flow p h3).trans h1, (he.flow s h4).trans h2, lt_of_lt_of_le h3 he.size,
      lt_of_lt_of_le h4 he.size⟩

/-! ## `addVirtualNodes`: one chain of virtual nodes -/

theorem allocIntermediate_spec (h : Heap) (i : Int) (node successor : Nat)
    (hn : node < h.size) :
    (allocIntermediate h i node successor).2 = h.size ∧
    HeapExt h (allocIntermediate h i node successor).1 ∧
    (allocIntermediate h i node successor).1.size = h.size + 1 ∧
    (allocIntermediate h i node successor).1.flow h.size = some i ∧
    Routes (allocIntermediate h i node successor).1 (h.groupIndex node) node successor
      h.size := by
  have hne : node ≠ h.size := by omega
  refine ⟨rfl, ?_, rfl, by simp [allocIntermediate, Heap.alloc], ?_⟩
  · constructor
    · simp [allocIntermediate, Heap.alloc]
    all_goals
      intro x hx
      have hx' : x ≠ h.size := by omega
      simp [allocIntermediate, Heap.alloc, upd_ne _ _ hx']
  · refine ⟨by simp [allocIntermediate, Heap.alloc], by simp [allocIntermediate, Heap.alloc],
      by simp [allocIntermediate, Heap.alloc], ?_⟩
    simp [allocIntermediate, Heap.alloc, upd_ne _ _ hne]

theorem addVirtualChain_spec (l : Nat) (node successor : Nat) :
    ∀ (count : Nat) (i : Int) (pred : Nat) (h : Heap) (ls : Layers),
      Ranked l h ls → h.flow pred = some (i - 1) → pred < h.size → node < h.size → 1 ≤ i →
      i + count ≤ (l : Int) - 1 →
      ∃ (h' : Heap) (ls' : Layers) (last : Nat),
        addVirtualChain count i node successor pred h ls = .ok (h', ls', last) ∧
        h'.size = h.size + count ∧ HeapExt h h' ∧ LayersLe ls ls' ∧ Ranked l h' ls' ∧
        OnRanks h' ls' i (List.range' h.size count) ∧
        Linked ls' (i - 1) (pred :: List.range' h.size count) ∧
        (∀ w ∈ List.range' h.size count, Routes h' (h.groupIndex node) node successor w) ∧
        h'.flow last = some (i - 1 + count) ∧ last < h'.size ∧
        (pred :: List.range' h.size count).getLast? = some last ∧
        LayersNew ls ls' (fun x => x ∈ List.range' h.size count)
          (fun e => e ∈ pairs (pred :: List.range' h.size count)) := by
  intro count
  induction count with
  | zero =>
    intro i pred h ls hr hp hps _ _ _
    refine ⟨h, ls, pred, rfl, rfl, HeapExt.reflExt h, LayersLe.reflLayers ls, hr, trivial, trivial, ?_,
      by simpa using hp, hps, rfl, ⟨fun _ _ hx => Or.inl hx, fun _ _ hx => Or.inl hx⟩⟩
    intro w hw
    simp at hw
  | succ count ih =>
    intro i pred h ls hr hp hps hn hi hic
    obtain ⟨hid, hext, hsize, hflow, hroute⟩ := allocIntermediate_spec h i node successor hn
    have hr4 : Ranked l (allocIntermediate h i node successor).1 ls := hr.monoRanked hext
    have hi0 : (0 : Int) ≤ i := by omega
    have hil : i.toNat < l := by omega
    obtain ⟨ln, hln, hr5, hle5, hmem5, hnew5⟩ :=
      hr4.push_node i h.size hi0 hil hflow (by omega)
    have hp4 : (allocIntermediate h i node successor).1.flow pred = some (i - 1) :=
      (hext.flow pred hps).trans hp
    have hflow' : (allocIntermediate h i node successor).1.flow h.size = some (i - 1 + 1) := by
      rw [hflow]; congr 1; omega
    obtain ⟨le, hle, hr6, hle6, hmem6, hnew6⟩ :=
      Ranked.push_edge hr5 (i - 1) pred h.size (by omega) (by omega) hp4 hflow' (by omega)
        (by omega)
    obtain ⟨h', ls', last, hrun, hsz, hext', hlay', hrk', hon, hlink, hrt, hlast, hlb, hgl,
        hnew⟩ :=
      ih (i + 1) h.size (allocIntermediate h i node successor).1
        { layeredNodes := ln, layeredEdges := le } hr6
        (by rw [hflow]; congr 1; omega) (by omega) (by omega) (by omega)
        (by push_cast at hic; omega)
    have hlay : LayersLe ls ls' := (hle5.transLayers hle6).transLayers hlay'
    rw [hsize] at hon hlink hrt hgl hnew
    have hgi : (allocIntermediate h i node successor).1.groupIndex node = h.groupIndex node :=
      hext.groupIndex node hn
    rw [hgi] at hrt
    refine ⟨h', ls', last, ?_, by omega, hext.transExt hext', hlay, hrk', ?_, ?_, ?_, ?_, hlb, ?_,
      ?_⟩
    · rw [addVirtualChain]
      simp only [hid]
      rw [hln]
      simp only [Res.bind]
      rw [hp4, hle]
      exact hrun
    · rw [List.range'_succ]
      refine ⟨⟨(hext'.flow _ (by omega)).trans hflow, hi0, ?_⟩, hon⟩
      exact hlay'.nodes _ _ (hle6.nodes _ _ hmem5)
    · rw [List.range'_succ]
      refine ⟨⟨by omega, hlay'.edges _ _ hmem6⟩, ?_⟩
      have e : i + 1 - 1 = i - 1 + 1 := by omega
      rw [← e]
      exact hlink
    · intro w hw
      rw [List.range'_succ] at hw
      rcases List.mem_cons.mp hw with rfl | hw
      · exact hroute.monoRoutes hext' (by omega)
      · exact hrt w hw
    · rw [hlast]
      congr 1
      push_cast
      omega
    · rw [List.range'_succ]
      rw [List.getLast?_cons_cons]
      exact hgl
    · rw [List.range'_succ]
      constructor
      · intro r x hx
        rcases hnew.nodes r x hx with hx | hx
        · rcases hnew5 r x hx with hx | hx
          · exact Or.inl hx
          · exact Or.inr (hx ▸ List.mem_cons_self _ _)
        · exact Or.inr (List.mem_cons_of_mem _ hx)
      · intro r e he
        rcases hnew.edges r e he with he | he
        · rcases hnew6 r e he with he | he
          · exact Or.inl he
          · right
            rw [he]
            simp [pairs]
        · right
          simp only [pairs, List.tail_cons, List.zip_cons_cons, List.mem_cons] at he ⊢
          exact Or.inr he

/-! ## `addVirtualNodes`: one edge -/

theorem Linked.append (ls : Layers) (y : Nat) :
    ∀ (f : Int) (xs : List Nat) (last : Nat), Linked ls f xs → xs.getLast? = some last →
      0 ≤ f + ((xs.length : Int) - 1) →
      (last, y) ∈ ls.layeredEdges.getD (f + ((xs.length : Int) - 1)).toNat [] →
      Linked ls f (xs ++ [y])
  | _, [], _, _, hl, _, _ => by simp at hl
  | f, [a], last, _, hl, h0, hm => by
    simp at hl
    subst hl
    simp only [List.length_singleton, Nat.cast_one, sub_self, add_zero] at hm h0
    exact ⟨⟨h0, hm⟩, trivial⟩
  | f, a :: b :: rest, last, hr, hl, h0, hm => by
    obtain ⟨h1, h2⟩ := hr
    rw [List.getLast?_cons_cons] at hl
    refine ⟨h1, ?_⟩
    have e : f + (((a :: b :: rest).length : Int) - 1) =
        f + 1 + (((b :: rest).length : Int) - 1) := by
      simp only [List.length_cons]; push_cast; ring
    rw [e] at hm h0
    exact Linked.append ls y (f + 1) (b :: rest) last h2 hl h0 hm

theorem pairs_cons_cons (a b : Nat) (rest : List Nat) :
    pairs (a :: b :: rest) = (a, b) :: pairs (b :: rest) := by
  simp [pairs]

theorem mem_pairs_append (y : Nat) (e : Nat × Nat) :
    ∀ (xs : List Nat), e ∈ pairs xs → e ∈ pairs (xs ++ [y])
  | [], he => by simp [pairs] at he
  | [_], he => by simp [pairs] at he
  | a :: b :: rest, he => by
    rw [pairs_cons_cons] at he
    rw [List.cons_append, List.cons_append, pairs_cons_cons]
    rcases List.mem_cons.mp he with he | he
    · exact he ▸ List.mem_cons_self _ _
    · exact List.mem_cons_of_mem _ (mem_pairs_append y e (b :: rest) he)

theorem last_mem_pairs_append (y : Nat) :
    ∀ (xs : List Nat) (last : Nat), xs.getLast? = some last → (last, y) ∈ pairs (xs ++ [y])
  | [], _, hl => by simp at hl
  | [a], last, hl => by
    simp at hl
    subst hl
    simp [pairs]
  | a :: b :: rest, last, hl => by
    rw [List.getLast?_cons_cons] at hl
    rw [List.cons_append, List.cons_append, pairs_cons_cons]
    exact List.mem_cons_of_mem _ (last_mem_pairs_append y (b :: rest) last hl)

theorem ChainOK.monoChain {h0 h h' : Heap} {ls ls' : Layers} {c : EdgeChain} (he : HeapExt h h')
    (hl : LayersLe ls ls') (hb : ∀ w ∈ c.chain, w < h.size) (hc : ChainOK h0 h ls c) :
    ChainOK h0 h' ls' c := by
  obtain ⟨fu, fv, h1, h2, h3, h4, h5, h6⟩ := hc
  exact ⟨fu, fv, h1, h2, h3, OnRanks.monoRanks he hl _ _ hb h4, Linked.monoLinked hl _ _ h5,
    fun w hw => (h6 w hw).monoRoutes he (hb w hw)⟩

theorem addVirtualEdge_spec (l : Nat) (h0 h : Heap) (ls : Layers) (node successor : Nat)
    (fu fv : Int) (hext : HeapExt h0 h) (hr : Ranked l h ls) (hn : node < h0.size)
    (hs : successor < h0.size) (hfu : h0.flow node = some fu) (hfv : h0.flow successor = some fv)
    (h0u : 0 ≤ fu) (hlt : fu < fv) (hvl : fv < l) :
    ∃ (h' : Heap) (ls' : Layers),
      addVirtualEdge node fu (h, ls) successor = .ok (h', ls') ∧
      HeapExt h h' ∧ LayersLe ls ls' ∧ Ranked l h' ls' ∧
      ChainOK h0 h' ls' ⟨node, successor, List.range' h.size (h'.size - h.size)⟩ ∧
      LayersNew ls ls' (fun x => x ∈ List.range' h.size (h'.size - h.size))
        (fun e => e ∈ pairs (node :: List.range' h.size (h'.size - h.size) ++ [successor])) := by
  have hfu' : h.flow node = some fu := (hext.flow node hn).trans hfu
  have hfv' : h.flow successor = some fv := (hext.flow successor hs).trans hfv
  have hn' : node < h.size := lt_of_lt_of_le hn hext.size
  have hs' : successor < h.size := lt_of_lt_of_le hs hext.size
  have hcount : chainCount fu (h.flow successor) = (fv - fu - 1).toNat := by
    rw [hfv']
    simp only [chainCount]
    congr 1
    omega
  have hcc : ((fv - fu - 1).toNat : Int) = fv - fu - 1 := Int.toNat_of_nonneg (by omega)
  obtain ⟨h1, ls1, last, hrun, hsz, hext1, hle1, hr1, hon, hlink, hrt, hlast, hlb, hgl, hnew⟩ :=
    addVirtualChain_spec l node successor (fv - fu - 1).toNat (fu + 1) node h ls hr
      (by rw [hfu']; congr 1; omega) hn' hn' (by omega) (by rw [hcc]; omega)
  have hlast' : h1.flow last = some (fv - 1) := by
    rw [hlast, hcc]; congr 1; omega
  have hsucc1 : h1.flow successor = some (fv - 1 + 1) := by
    rw [hext1.flow successor hs', hfv']; congr 1; omega
  obtain ⟨le, hle, hr2, hle2, hmem2, hnew2⟩ :=
    hr1.push_edge (fv - 1) last successor (by omega) (by omega) hlast' hsucc1 hlb
      (lt_of_lt_of_le hs' hext1.size)
  have hsize : h1.size - h.size = (fv - fu - 1).toNat := by omega
  refine ⟨h1, { ls1 with layeredEdges := le }, ?_, hext1, hle1.transLayers hle2, hr2, ?_, ?_⟩
  · simp only [addVirtualEdge, hcount]
    rw [hrun]
    simp only [Res.bind]
    rw [hlast', hle]
  rotate_left
  · rw [hsize]
    constructor
    · intro r x hx
      exact hnew.nodes r x hx
    · intro r e he
      rcases hnew2 r e he with he | he
      · rcases hnew.edges r e he with he | he
        · exact Or.inl he
        · exact Or.inr (mem_pairs_append successor e _ he)
      · right
        rw [he]
        exact last_mem_pairs_append successor _ last hgl
  · rw [hsize]
    refine ⟨fu, fv, hfu, hfv, by simp, ?_, ?_, ?_⟩
    · exact OnRanks.monoRanks (HeapExt.reflExt h1) hle2 _ _ (fun _ _ => by
        rename_i x hx
        have := List.mem_range'_1.mp hx
        omega) hon
    · have hl2 : Linked { ls1 with layeredEdges := le } (fu + 1 - 1)
          (node :: List.range' h.size (fv - fu - 1).toNat) := Linked.monoLinked hle2 _ _ hlink
      have e1 : fu + 1 - 1 = fu := by omega
      rw [e1] at hl2
      have := Linked.append { ls1 with layeredEdges := le } successor fu
        (node :: List.range' h.size (fv - fu - 1).toNat) last hl2 hgl
      simp only [List.length_cons, List.length_range', Nat.cast_add, Nat.cast_one, hcc] at this
      have e2 : fu + (fv - fu - 1 + 1 - 1) = fv - 1 := by omega
      rw [e2] at this
      exact this (by omega) hmem2
    · intro w hw
      have := hrt w hw
      rw [hext.groupIndex node hn] at this
      exact this

/-! ## `addVirtualNodes`: the loops over successors and over nodes -/

theorem range'_append_sizes (a b c : Nat) (hab : a ≤ b) (hbc : b ≤ c) :
    List.range' a (b - a) ++ List.range' b (c - b) = List.range' a (c - a) := by
  have := List.range'_append a (b - a) (c - b) 1
  rw [show a + 1 * (b - a) = b by omega, show c - b + (b - a) = c - a by omega] at this
  exact this

theorem addVirtualEdges_spec (l : Nat) (h0 : Heap) (node : Nat) (fu : Int)
    (hn : node < h0.size) (hfu : h0.flow node = some fu) (h0u : 0 ≤ fu) :
    ∀ (succs : List Nat) (h : Heap) (ls : Layers), HeapExt h0 h → Ranked l h ls →
      (∀ s ∈ succs, s < h0.size ∧ ∃ fv : Int, h0.flow s = some fv ∧ fu < fv ∧ fv < l) →
      ∃ (h' : Heap) (ls' : Layers) (chains : List EdgeChain),
        Res.foldl (addVirtualEdge node fu) (h, ls) succs = .ok (h', ls') ∧
        HeapExt h h' ∧ LayersLe ls ls' ∧ Ranked l h' ls' ∧
        chains.map (fun c => (c.source, c.target)) = succs.map (fun v => (node, v)) ∧
        chains.flatMap (fun c => c.chain) = List.range' h.size (h'.size - h.size) ∧
        (∀ c ∈ chains, ChainOK h0 h' ls' c) ∧
        LayersNew ls ls' (fun x => ∃ c ∈ chains, x ∈ c.chain)
          (fun e => ∃ c ∈ chains, e ∈ pairs (c.source :: c.chain ++ [c.target])) := by
  intro succs
  induction succs with
  | nil =>
    intro h ls _ hr _
    refine ⟨h, ls, [], rfl, HeapExt.reflExt h, LayersLe.reflLayers ls, hr, rfl, by simp, by simp,
      ⟨fun _ _ hx => Or.inl hx, fun _ _ hx => Or.inl hx⟩⟩
  | cons s rest ih =>
    intro h ls hext hr hs
    obtain ⟨hsb, fv, hfv, hlt, hvl⟩ := hs s (List.mem_cons_self _ _)
    obtain ⟨h1, ls1, hrun1, hext1, hle1, hr1, hc1, hnew1⟩ :=
      addVirtualEdge_spec l h0 h ls node s fu fv hext hr hn hsb hfu hfv h0u hlt hvl
    obtain ⟨h2, ls2, chains, hrun2, hext2, hle2, hr2, hmap, hflat, hcs, hnew2⟩ :=
      ih h1 ls1 (hext.transExt hext1) hr1 (fun x hx => hs x (List.mem_cons_of_mem _ hx))
    have hb1 : ∀ w ∈ List.range' h.size (h1.size - h.size), w < h1.size := by
      intro w hw
      have := List.mem_range'_1.mp hw
      have := hext1.size
      omega
    refine ⟨h2, ls2, ⟨node, s, List.range' h.size (h1.size - h.size)⟩ :: chains, ?_,
      hext1.transExt hext2, hle1.transLayers hle2, hr2, ?_, ?_, ?_, ?_⟩
    · simp only [Res.foldl]
      rw [hrun1]
      exact hrun2
    · simp [hmap]
    · simp only [List.flatMap_cons, hflat]
      exact range'_append_sizes _ _ _ hext1.size hext2.size
    · intro c hc
      rcases List.mem_cons.mp hc with rfl | hc
      · exact hc1.monoChain hext2 hle2 hb1
      · exact hcs c hc
    · constructor
      · intro r x hx
        rcases hnew2.nodes r x hx with hx | ⟨c, hc, hx⟩
        · rcases hnew1.nodes r x hx with hx | hx
          · exact Or.inl hx
          · exact Or.inr ⟨_, List.mem_cons_self _ _, hx⟩
        · exact Or.inr ⟨c, List.mem_cons_of_mem _ hc, hx⟩
      · intro r e he
        rcases hnew2.edges r e he with he | ⟨c, hc, he⟩
        · rcases hnew1.edges r e he with he | he
          · exact Or.inl he
          · exact Or.inr ⟨_, List.mem_cons_self _ _, he⟩
        · exact Or.inr ⟨c, List.mem_cons_of_mem _ hc, he⟩

theorem addVirtualNodes_fold (l : Nat) (h0 : Heap) (nodes0 : List Nat)
    (hg : RankedGroup h0 nodes0 l) :
    ∀ (nodes : List Nat) (h : Heap) (ls : Layers), (∀ n ∈ nodes, n ∈ nodes0) →
      HeapExt h0 h → Ranked l h ls →
      ∃ (h' : Heap) (ls' : Layers) (chains : List EdgeChain),
        Res.foldl addVirtualNode (h, ls) nodes = .ok (h', ls') ∧
        HeapExt h h' ∧ LayersLe ls ls' ∧ Ranked l h' ls' ∧
        chains.map (fun c => (c.source, c.target)) =
          nodes.flatMap (fun u => (h0.successors u).map (fun v => (u, v))) ∧
        chains.flatMap (fun c => c.chain) = List.range' h.size (h'.size - h.size) ∧
        (∀ c ∈ chains, ChainOK h0 h' ls' c) ∧
        (∀ n ∈ nodes, ∃ f : Int, h0.flow n = some f ∧ n ∈ ls'.layeredNodes.getD f.toNat []) ∧
        LayersNew ls ls' (fun x => x ∈ nodes ∨ ∃ c ∈ chains, x ∈ c.chain)
          (fun e => ∃ c ∈ chains, e ∈ pairs (c.source :: c.chain ++ [c.target])) := by
  intro nodes
  induction nodes with
  | nil =>
    intro h ls _ _ hr
    refine ⟨h, ls, [], rfl, HeapExt.reflExt h, LayersLe.reflLayers ls, hr, rfl, by simp, by simp,
      by simp, ⟨fun _ _ hx => Or.inl hx, fun _ _ hx => Or.inl hx⟩⟩
  | cons n rest ih =>
    intro h ls hsub hext hr
    have hn0 : n ∈ nodes0 := hsub n (List.mem_cons_self _ _)
    have hnb := hg.bound n hn0
    obtain ⟨fu, hfu, h0u, hul⟩ := hg.flow n hn0
    have hfu' : h.flow n = some fu := (hext.flow n hnb).trans hfu
    obtain ⟨ln, hln, hr1, hle1, hmem1, hnew1⟩ :=
      hr.push_node fu n h0u (by omega) hfu' (lt_of_lt_of_le hnb hext.size)
    have hsuccs : ∀ s ∈ h0.successors n,
        s < h0.size ∧ ∃ fv : Int, h0.flow s = some fv ∧ fu < fv ∧ fv < l := by
      intro s hs
      obtain ⟨hs0, hlt⟩ := hg.edge n hn0 s hs
      obtain ⟨fv, hfv, _, hvl⟩ := hg.flow s hs0
      exact ⟨hg.bound s hs0, fv, hfv, hlt fu fv hfu hfv, hvl⟩
    obtain ⟨h2, ls2, chains1, hrun2, hext2, hle2, hr2, hmap2, hflat2, hcs2, hnew2⟩ :=
      addVirtualEdges_spec l h0 n fu hnb hfu h0u (h0.successors n) h
        { ls with layeredNodes := ln } hext hr1 hsuccs
    obtain ⟨h3, ls3, chains2, hrun3, hext3, hle3, hr3, hmap3, hflat3, hcs3, hin3, hnew3⟩ :=
      ih h2 ls2 (fun x hx => hsub x (List.mem_cons_of_mem _ hx)) (hext.transExt hext2) hr2
    have hb2 : ∀ c ∈ chains1, ∀ w ∈ c.chain, w < h2.size := by
      intro c hc w hw
      have : w ∈ chains1.flatMap (fun c => c.chain) := List.mem_flatMap.mpr ⟨c, hc, hw⟩
      rw [hflat2] at this
      have := List.mem_range'_1.mp this
      have := hext2.size
      omega
    refine ⟨h3, ls3, chains1 ++ chains2, ?_, hext2.transExt hext3, (hle1.transLayers hle2).transLayers hle3,
      hr3, ?_, ?_, ?_, ?_, ?_⟩
    · simp only [Res.foldl, addVirtualNode]
      rw [hfu', hln]
      simp only [Res.bind]
      rw [hext.successors n hnb, hrun2]
      exact hrun3
    · simp [hmap2, hmap3]
    · simp only [List.flatMap_append, hflat2, hflat3]
      exact range'_append_sizes _ _ _ hext2.size hext3.size
    · intro c hc
      rcases List.mem_append.mp hc with hc | hc
      · exact (hcs2 c hc).monoChain hext3 hle3 (hb2 c hc)
      · exact hcs3 c hc
    · intro x hx
      rcases List.mem_cons.mp hx with rfl | hx
      · exact ⟨fu, hfu, hle3.nodes _ _ (hle2.nodes _ _ hmem1)⟩
      · exact hin3 x hx
    · constructor
      · intro r x hx
        rcases hnew3.nodes r x hx with hx | hx | ⟨c, hc, hx⟩
        · rcases hnew2.nodes r x hx with hx | ⟨c, hc, hx⟩
          · rcases hnew1 r x hx with hx | hx
            · exact Or.inl hx
            · exact Or.inr (Or.inl (hx ▸ List.mem_cons_self _ _))
          · exact Or.inr (Or.inr ⟨c, List.mem_append_left _ hc, hx⟩)
        · exact Or.inr (Or.inl (List.mem_cons_of_mem _ hx))
        · exact Or.inr (Or.inr ⟨c, List.mem_append_right _ hc, hx⟩)
      · intro r e he
        rcases hnew3.edges r e he with he | ⟨c, hc, he⟩
        · rcases hnew2.edges r e he with he | ⟨c, hc, he⟩
          · exact Or.inl he
          · exact Or.inr ⟨c, List.mem_append_left _ hc, he⟩
        · exact Or.inr ⟨c, List.mem_append_right _ hc, he⟩

/-! ## `addVirtualNodes`: the whole function -/

theorem getD_replicate_nil {α : Type} (n i : Nat) :
    (List.replicate n ([] : List α)).getD i [] = [] := by
  rw [List.getD_eq_getElem?_getD]
  by_cases hi : i < n
  · rw [List.getElem?_eq_getElem (by simpa using hi)]
    simp
  · rw [List.getElem?_eq_none (by simpa using hi)]
    rfl

theorem Ranked.ofReplicate (l : Nat) (h : Heap) :
    Ranked l h { layeredNodes := List.replicate l [], layeredEdges := List.replicate (l - 1) [] } where
  lenN := by simp
  lenE := by simp
  nodes := by intro i x hx; simp [getD_replicate_nil] at hx
  edges := by intro i p s hx; simp [getD_replicate_nil] at hx

/-- What `addVirtualNodes` returns on a ranked group. -/
theorem addVirtualNodes_ok (h : Heap) (nodes : List Nat) (l : Nat) (hg : RankedGroup h nodes l)
    (hne : nodes ≠ []) :
    ∃ (h' : Heap) (ls : Layers) (chains : List EdgeChain),
      addVirtualNodes h nodes l = .ok (h', ls) ∧
      HeapExt h h' ∧ Ranked l h' ls ∧
      chains.map (fun c => (c.source, c.target)) =
        nodes.flatMap (fun u => (h.successors u).map (fun v => (u, v))) ∧
      chains.flatMap (fun c => c.chain) = List.range' h.size (h'.size - h.size) ∧
      (∀ c ∈ chains, ChainOK h h' ls c) ∧
      (∀ n ∈ nodes, ∃ f : Int, h.flow n = some f ∧ n ∈ ls.layeredNodes.getD f.toNat []) ∧
      (∀ i x, x ∈ ls.layeredNodes.getD i [] → x ∈ nodes ∨ ∃ c ∈ chains, x ∈ c.chain) ∧
      (∀ i e, e ∈ ls.layeredEdges.getD i [] →
        ∃ c ∈ chains, e ∈ pairs (c.source :: c.chain ++ [c.target])) := by
  have hpos : l ≠ 0 := by
    obtain ⟨x, hx⟩ := List.exists_mem_of_ne_nil nodes hne
    obtain ⟨f, _, h1, h2⟩ := hg.flow x hx
    omega
  obtain ⟨h', ls, chains, hrun, hext, _, hr, hmap, hflat, hcs, hin, hnew⟩ :=
    addVirtualNodes_fold l h nodes hg nodes h _ (fun _ hx => hx) (HeapExt.reflExt h)
      (Ranked.ofReplicate l h)
  refine ⟨h', ls, chains, ?_, hext, hr, hmap, hflat, hcs, hin, ?_, ?_⟩
  · simp only [addVirtualNodes, if_neg hpos]
    exact hrun
  · intro i x hx
    rcases hnew.nodes i x hx with hx | hx
    · simp [getD_replicate_nil] at hx
    · exact hx
  · intro i e he
    rcases hnew.edges i e he with he | he
    · simp [getD_replicate_nil] at he
    · exact he

/-- C6: on a non-empty group whose ranks grow strictly along every edge,
`addVirtualNodes` returns, and its virtual nodes are exactly the members of
one chain per occurrence of an edge `u → v` (in the order of the loops), each
created once.  With `k = flow(v) - flow(u)` the chain has `max (k - 1) 0`
nodes, one in the layer of each rank strictly between the two ends, joined
`u → v1 → … → v` by pairs of `layeredEdges`; each of them has `virtual = true`,
`realPredecessors = [u]`, `realSuccessors = [v]` and the group index of `u`.
Hence every virtual node of the layers has non-empty real-endpoint lists that
hold non-virtual nodes only. -/
theorem addVirtualNodes_chains (h : Heap) (nodes : List Nat) (maxLength : Nat)
    (hg : RankedGroup h nodes maxLength) (hne : nodes ≠ []) :
    ∃ (h' : Heap) (ls : Layers) (chains : List EdgeChain),
      addVirtualNodes h nodes maxLength = .ok (h', ls) ∧
      chains.map (fun c => (c.source, c.target)) =
        nodes.flatMap (fun u => (h.successors u).map (fun v => (u, v))) ∧
      chains.flatMap (fun c => c.chain) = List.range' h.size (h'.size - h.size) ∧
      (∀ c ∈ chains, ChainOK h h' ls c) ∧
      (∀ i x, x ∈ ls.layeredNodes.getD i [] → h'.virtual x = true →
        h'.realPredecessors x ≠ [] ∧ h'.realSuccessors x ≠ [] ∧
        (∀ p ∈ h'.realPredecessors x, h'.virtual p = false) ∧
        (∀ s ∈ h'.realSuccessors x, h'.virtual s = false)) := by
  obtain ⟨h', ls, chains, hrun, hext, _, hmap, hflat, hcs, _, horig, _⟩ :=
    addVirtualNodes_ok h nodes maxLength hg hne
  refine ⟨h', ls, chains, hrun, hmap, hflat, hcs, ?_⟩
  intro i x hx hv
  have hreal : ∀ n ∈ nodes, h'.virtual n = false := fun n hn =>
    (hext.virtual n (hg.bound n hn)).trans (hg.real n hn)
  rcases horig i x hx with hxn | ⟨c, hc, hxc⟩
  · rw [hreal x hxn] at hv
    simp at hv
  · obtain ⟨fu, fv, _, _, _, _, _, hrt⟩ := hcs c hc
    obtain ⟨_, hp, hs, _⟩ := hrt x hxc
    have hst : (c.source, c.target) ∈
        nodes.flatMap (fun u => (h.successors u).map (fun v => (u, v))) := by
      rw [← hmap]
      exact List.mem_map.mpr ⟨c, hc, rfl⟩
    obtain ⟨u, hu, hv'⟩ := List.mem_flatMap.mp hst
    obtain ⟨v, hvs, he⟩ := List.mem_map.mp hv'
    simp only [Prod.mk.injEq] at he
    obtain ⟨rfl, rfl⟩ := he
    rw [hp, hs]
    refine ⟨by simp, by simp, ?_, ?_⟩
    · intro p hp'
      simp at hp'
      subst hp'
      exact hreal _ hu
    · intro s hs'
      simp at hs'
      subst hs'
      exact hreal _ (hg.edge _ hu _ hvs).1

theorem triangleRanked_group : RankedGroup triangleRanked [0, 1, 2] 3 where
  bound := by decide
  real := by decide
  flow := by
    intro n hn
    refine ⟨(n : Int), rfl, by omega, ?_⟩
    simp only [List.mem_cons, List.mem_singleton, List.not_mem_nil, or_false] at hn
    omega
  edge := by
    intro n hn s hs
    have hlt : n < s ∧ s ∈ [0, 1, 2] := by
      revert s
      revert n
      decide
    refine ⟨hlt.2, ?_⟩
    intro f g hf hg
    simp only [triangleRanked, Option.some.injEq] at hf hg
    omega

/-- C6 at the triangle `A → B`, `B → C`, `A → C` with ranks 0, 1, 2. -/
theorem addVirtualNodes_chains_witness :
    RankedGroup triangleRanked [0, 1, 2] 3 ∧ [0, 1, 2] ≠ [] ∧
    ∃ (h' : Heap) (ls : Layers) (chains : List EdgeChain),
      addVirtualNodes triangleRanked [0, 1, 2] 3 = .ok (h', ls) ∧
      chains.map (fun c => (c.source, c.target)) =
        [0, 1, 2].flatMap (fun u => (triangleRanked.successors u).map (fun v => (u, v))) ∧
      chains.flatMap (fun c => c.chain) =
        List.range' triangleRanked.size (h'.size - triangleRanked.size) ∧
      (∀ c ∈ chains, ChainOK triangleRanked h' ls c) ∧
      (∀ i x, x ∈ ls.layeredNodes.getD i [] → h'.virtual x = true →
        h'.realPredecessors x ≠ [] ∧ h'.realSuccessors x ≠ [] ∧
        (∀ p ∈ h'.realPredecessors x, h'.virtual p = false) ∧
        (∀ s ∈ h'.realSuccessors x, h'.virtual s = false)) :=
  ⟨triangleRanked_group, by decide,
    addVirtualNodes_chains triangleRanked [0, 1, 2] 3 triangleRanked_group (by decide)⟩

/-! ## `factorialLimited` -/

theorem factorialLimitedSplit_spec (n t : Nat) :
    ∀ (j : Nat), 1 ≤ j → j ≤ n →
      (∀ j', j < j' → j' ≤ n → t < windowPerms n j') →
      (1 ≤ (factorialLimitedSplit n t j j.factorial (windowPerms n j)).1) ∧
      ((factorialLimitedSplit n t j j.factorial (windowPerms n j)).1 = 1 →
        ∀ j', 2 ≤ j' → j' ≤ n → t < windowPerms n j') ∧
      ((factorialLimitedSplit n t j j.factorial (windowPerms n j)).1 ≠ 1 →
        (factorialLimitedSplit n t j j.factorial (windowPerms n j)).1 ≤ n ∧
        windowPerms n (factorialLimitedSplit n t j j.factorial (windowPerms n j)).1 ≤ t ∧
        (factorialLimitedSplit n t j j.factorial (windowPerms n j)).2.2 =
          windowPerms n (factorialLimitedSplit n t j j.factorial (windowPerms n j)).1 ∧
        ∀ j', (factorialLimitedSplit n t j j.factorial (windowPerms n j)).1 < j' → j' ≤ n →
          t < windowPerms n j') := by
  intro j
  induction j with
  | zero => intro h; omega
  | succ j ih =>
    intro _ hjn hup
    rw [factorialLimitedSplit]
    by_cases hc : windowPerms n (j + 1) > t ∧ j + 1 > 1
    · rw [if_pos hc]
      have hj1 : 1 ≤ j := by omega
      have hdiv : (j + 1).factorial / (j + 1) = j.factorial := by
        rw [Nat.factorial_succ]
        exact Nat.mul_div_cancel_left _ (by omega)
      rw [hdiv]
      have hup' : ∀ j', j < j' → j' ≤ n → t < windowPerms n j' := by
        intro j' hj' hn'
        by_cases he : j' = j + 1
        · subst he; exact hc.1
        · exact hup j' (by omega) hn'
      exact ih hj1 (by omega) hup'
    · rw [if_neg hc]
      simp only []
      refine ⟨by omega, ?_, ?_⟩
      · intro h1 j' h2 hn'
        exact hup j' (by omega) hn'
      · intro h1
        have hle : windowPerms n (j + 1) ≤ t := by
          by_contra hgt
          exact hc ⟨by omega, by omega⟩
        exact ⟨hjn, hle, trivial, hup⟩

theorem windowPerms_gt_of_factorial_gt (n t i j : Nat) (hi : t < i.factorial) (hij : i ≤ j) :
    t < windowPerms n j := by
  have h1 : i.factorial ≤ j.factorial := Nat.factorial_le hij
  have h2 : j.factorial * 1 ≤ j.factorial * (n - j + 1) := Nat.mul_le_mul_left _ (by omega)
  unfold windowPerms
  omega

/-- What the loops of `factorialLimited` return. -/
theorem factorialLimitedFrom_spec (n t : Nat) (hn : 1 ≤ n) :
    ∀ (k i : Nat), i + k = n + 1 → 2 ≤ i → (i - 1).factorial ≤ t →
      (∃ j, 2 ≤ j ∧ j ≤ n ∧ windowPerms n j ≤ t ∧
        (∀ j', j < j' → j' ≤ n → t < windowPerms n j') ∧
        factorialLimitedFrom n t (List.range' i k) (i - 1).factorial = (windowPerms n j, j)) ∨
      ((∀ j, 2 ≤ j → j ≤ n → t < windowPerms n j) ∧
        factorialLimitedFrom n t (List.range' i k) (i - 1).factorial = (1, 1)) := by
  intro k
  induction k with
  | zero =>
    intro i hik hi ht
    have hin : i - 1 = n := by omega
    rw [hin] at ht ⊢
    simp only [List.range'_zero, factorialLimitedFrom]
    by_cases hn2 : 2 ≤ n
    · left
      refine ⟨n, hn2, le_refl _, ?_, ?_, ?_⟩
      · simp [windowPerms, ht]
      · intro j' h1 h2; omega
      · simp [windowPerms]
    · right
      have hn1 : n = 1 := by omega
      subst hn1
      exact ⟨by intro j h1 h2; omega, rfl⟩
  | succ k ih =>
    intro i hik hi ht
    have hfac : (i - 1).factorial * i = i.factorial := by
      obtain ⟨m, rfl⟩ : ∃ m, i = m + 1 := ⟨i - 1, by omega⟩
      simp [Nat.factorial_succ, Nat.mul_comm]
    rw [List.range'_succ, factorialLimitedFrom, hfac]
    by_cases hgt : i.factorial > t
    · rw [if_pos hgt]
      obtain ⟨m, rfl⟩ : ∃ m, i = m + 1 := ⟨i - 1, by omega⟩
      have hm1 : 1 ≤ m := by omega
      have hstep : factorialLimitedSplit n t (m + 1) (m + 1).factorial (m + 1).factorial =
          factorialLimitedSplit n t m m.factorial (windowPerms n m) := by
        rw [factorialLimitedSplit, if_pos ⟨hgt, by omega⟩]
        have hdiv : (m + 1).factorial / (m + 1) = m.factorial := by
          rw [Nat.factorial_succ]
          exact Nat.mul_div_cancel_left _ (by omega)
        rw [hdiv]
        rfl
      simp only []
      rw [hstep]
      have hup : ∀ j', m < j' → j' ≤ n → t < windowPerms n j' := by
        intro j' h1 h2
        exact windowPerms_gt_of_factorial_gt n t (m + 1) j' hgt (by omega)
      obtain ⟨_, h1, h2⟩ := factorialLimitedSplit_spec n t m hm1 (by omega) hup
      by_cases hr : (factorialLimitedSplit n t m m.factorial (windowPerms n m)).1 = 1
      · right
        rw [if_pos hr]
        exact ⟨h1 hr, rfl⟩
      · left
        rw [if_neg hr]
        obtain ⟨a, b, c, d⟩ := h2 hr
        refine ⟨_, by omega, a, b, d, ?_⟩
        rw [c]
    · rw [if_neg hgt]
      have := ih (i + 1) (by omega) (by omega) (by simpa using Nat.le_of_not_gt hgt)
      simpa using this

theorem windowPerms_le_factorial (n j : Nat) (h1 : 1 ≤ j) (hjn : j ≤ n) :
    windowPerms n j ≤ n.factorial := by
  unfold windowPerms
  by_cases he : j = n
  · subst he; simp
  · have hlt : j ≤ n - 1 := by omega
    obtain ⟨m, rfl⟩ : ∃ m, n = m + 1 := ⟨n - 1, by omega⟩
    have h2 : j.factorial ≤ m.factorial := Nat.factorial_le (by omega)
    rw [Nat.factorial_succ]
    calc j.factorial * (m + 1 - j + 1) ≤ j.factorial * (m + 1) :=
          Nat.mul_le_mul_left _ (by omega)
      _ ≤ m.factorial * (m + 1) := Nat.mul_le_mul_right _ h2
      _ = (m + 1) * m.factorial := Nat.mul_comm _ _

/-- C9 as stated fails: for width 3 and threshold 3 the code returns `[1, 1]`,
while the claim asks for `perms = min(3!, 3) = 3` and `j = 2`, the largest
`j ≤ 3` with `j! ≤ 3`. -/
theorem factorialLimited_not_min :
    factorialLimited 3 3 = (1, 1) ∧
    ¬ ∃ perms j, factorialLimited 3 3 = (perms, j) ∧ perms = min (Nat.factorial 3) 3 ∧
      j ≤ 3 ∧ Nat.factorial j ≤ 3 ∧ ∀ j', j' ≤ 3 → Nat.factorial j' ≤ 3 → j' ≤ j := by
  refine ⟨by decide, ?_⟩
  rintro ⟨perms, j, h, hp, _⟩
  have h1 : factorialLimited 3 3 = (1, 1) := by decide
  rw [h1] at h
  simp only [Prod.mk.injEq] at h
  rw [← h.1] at hp
  revert hp
  decide

/-- C9, amended: for width `n ≥ 1` and threshold `≥ 1`, `factorialLimited`
returns `[perms, j]` where `j` is the largest window width with `2 ≤ j ≤ n`
whose count of enumerated orderings `j! * (n - j + 1)` is at most the
threshold, and `perms` is that count; when there is no such width it returns
`[1, 1]`.  In both cases `perms ≤ min (n!) threshold`. -/
theorem factorialLimited_spec (n threshold : Nat) (hn : 1 ≤ n) (ht : 1 ≤ threshold) :
    ((∃ j, 2 ≤ j ∧ j ≤ n ∧ Nat.factorial j * (n - j + 1) ≤ threshold ∧
        (∀ j', j < j' → j' ≤ n → threshold < Nat.factorial j' * (n - j' + 1)) ∧
        factorialLimited n threshold = (Nat.factorial j * (n - j + 1), j)) ∨
      ((∀ j, 2 ≤ j → j ≤ n → threshold < Nat.factorial j * (n - j + 1)) ∧
        factorialLimited n threshold = (1, 1))) ∧
    (factorialLimited n threshold).1 ≤ min (Nat.factorial n) threshold := by
  have key := factorialLimitedFrom_spec n threshold hn (n - 1) 2 (by omega) (le_refl _)
    (by simpa using ht)
  have key' : (∃ j, 2 ≤ j ∧ j ≤ n ∧ windowPerms n j ≤ threshold ∧
        (∀ j', j < j' → j' ≤ n → threshold < windowPerms n j') ∧
        factorialLimited n threshold = (windowPerms n j, j)) ∨
      ((∀ j, 2 ≤ j → j ≤ n → threshold < windowPerms n j) ∧
        factorialLimited n threshold = (1, 1)) := by
    simpa [factorialLimited] using key
  refine ⟨key', ?_⟩
  rcases key' with ⟨j, h1, h2, h3, _, h5⟩ | ⟨_, h2⟩
  · rw [h5]
    exact le_min (windowPerms_le_factorial n j (by omega) h2) h3
  · rw [h2]
    exact le_min (Nat.factorial_pos n) ht

/-- C9, amended, at width 4 and threshold 10. -/
theorem factorialLimited_spec_witness :
    1 ≤ 4 ∧ 1 ≤ 10 ∧ factorialLimited 4 10 = (6, 2) ∧
    (((∃ j, 2 ≤ j ∧ j ≤ 4 ∧ Nat.factorial j * (4 - j + 1) ≤ 10 ∧
        (∀ j', j < j' → j' ≤ 4 → 10 < Nat.factorial j' * (4 - j' + 1)) ∧
        factorialLimited 4 10 = (Nat.factorial j * (4 - j + 1), j)) ∨
      ((∀ j, 2 ≤ j → j ≤ 4 → 10 < Nat.factorial j * (4 - j + 1)) ∧
        factorialLimited 4 10 = (1, 1))) ∧
    (factorialLimited 4 10).1 ≤ min (Nat.factorial 4) 10) :=
  ⟨by decide, by decide, by decide, factorialLimited_spec 4 10 (by decide) (by decide)⟩

/-! ## Adjacency stays symmetric -/

theorem count_filter_ne (l : List Nat) (n b : Nat) :
    (l.filter (fun item => decide (item ≠ n))).count b = if b = n then 0 else l.count b := by
  induction l with
  | nil => simp
  | cons x t ih =>
    by_cases hx : x = n
    · subst hx
      rw [List.filter_cons]
      simp only [ne_eq, not_true_eq_false, decide_False, Bool.false_eq_true, if_false, ih]
      by_cases hb : b = x
      · simp [hb]
      · simp [hb, List.count_cons, Ne.symm hb]
    · rw [List.filter_cons]
      simp only [ne_eq, hx, not_false_eq_true, decide_True, if_true, List.count_cons, ih]
      by_cases hb : b = n
      · subst hb
        simp [hx]
      · simp [hb]

theorem Balanced.removeSuccessorStep {g : Graph} (hb : Balanced g) (p n : Nat) :
    Balanced { g with heap := removeSuccessor g.heap p n } where
  count := by
    intro a b
    show ((removeSuccessor g.heap p n).successors a).count b =
      ((removeSuccessor g.heap p n).predecessors b).count a
    rw [removeSuccessor_successors, removeSuccessor_predecessors]
    have := hb.count a b
    by_cases ha : a = p <;> by_cases hbn : b = n
    · subst ha; subst hbn
      rw [if_pos rfl, if_pos rfl, count_filter_ne, count_filter_ne, if_pos rfl, if_pos rfl]
    · subst ha
      rw [if_pos rfl, if_neg hbn, count_filter_ne, if_neg hbn, this]
    · subst hbn
      rw [if_neg ha, if_pos rfl, count_filter_ne, if_neg ha, this]
    · rw [if_neg ha, if_neg hbn, this]
  tidy := by
    intro x hx
    have := hb.tidy x hx
    show (removeSuccessor g.heap p n).successors x = [] ∧
      (removeSuccessor g.heap p n).predecessors x = []
    rw [removeSuccessor_successors, removeSuccessor_predecessors]
    constructor
    · split
      · subst_vars; rw [this.1]; rfl
      · exact this.1
    · split
      · subst_vars; rw [this.2]; rfl
      · exact this.2
  bound := hb.bound

theorem removeCyclesLoop_balanced (g : Graph) (nodes : List Nat) :
    ∀ (fuel : Nat) (h : Heap) (u : List Nat) (ce : List (Nat × Nat)) (h' : Heap)
      (ce' : List (Nat × Nat)), Balanced { g with heap := h } →
      removeCyclesLoop fuel h nodes u ce = .ok (h', ce') → Balanced { g with heap := h' } := by
  intro fuel
  induction fuel with
  | zero => intro h u ce h' ce' _ hr; simp [removeCyclesLoop] at hr
  | succ f ih =>
    intro h u ce h' ce' hb hr
    rw [removeCyclesLoop] at hr
    split at hr
    · simp only [] at hr
      split at hr
      · split at hr
        · simp at hr
        · rename_i e _
          exact ih _ _ _ _ _ (hb.removeSuccessorStep e.1 e.2) hr
      · exact ih _ _ _ _ _ hb hr
    · simp only [Res.ok.injEq, Prod.mk.injEq] at hr
      rw [← hr.1]
      exact hb

theorem Balanced.ofEmptyGraph : Balanced Graph.empty where
  count := by intro a b; rfl
  tidy := by intro x _; exact ⟨rfl, rfl⟩
  bound := by intro v hv; simp [Graph.empty, Graph.values] at hv

theorem Balanced.stepOp {g : Graph} (hb : Balanced g) (op : Op) : Balanced (g.step op) := by
  cases op with
  | addNode id =>
    simp only [Graph.step, Graph.addNode]
    cases hl : lookup id g.nodes with
    | some v => exact hb
    | none =>
      simp only []
      exact {
        count := by
          intro a b
          simp only [Heap.alloc, upd]
          have ht := hb.tidy g.heap.size (le_refl _)
          by_cases ha : a = g.heap.size <;> by_cases hbb : b = g.heap.size
          · simp [ha, hbb]
          · have := hb.count g.heap.size b
            rw [ht.1] at this
            simp [ha, hbb, ← this]
          · have := hb.count a g.heap.size
            rw [ht.2] at this
            simp [ha, hbb, this]
          · simp [ha, hbb, hb.count a b]
        tidy := by
          intro x hx
          have hx' : g.heap.size + 1 ≤ x := hx
          simp only [Heap.alloc, upd]
          have := hb.tidy x (by omega)
          constructor
          · split
            · rfl
            · exact this.1
          · split
            · rfl
            · exact this.2
        bound := by
          intro v hv
          simp only [Graph.values, assign_of_lookup_none id _ g.nodes hl, List.map_append,
            List.map_cons, List.map_nil, List.mem_append, List.mem_singleton] at hv
          simp only [Heap.alloc]
          rcases hv with hv | hv
          · have := hb.bound v hv
            omega
          · have hv' : v = g.heap.size := hv
            omega }
  | addEdge p s =>
    simp only [Graph.step, Graph.addEdge]
    cases hp : lookup p g.nodes with
    | none => exact hb
    | some pv =>
      cases hs : lookup s g.nodes with
      | none => exact hb
      | some sv =>
        have hpv := hb.bound pv (lookup_some_mem p _ _ hp)
        have hsv := hb.bound sv (lookup_some_mem s _ _ hs)
        exact {
          count := by
            intro a b
            show ((addSuccessor g.heap pv sv).successors a).count b =
              ((addSuccessor g.heap pv sv).predecessors b).count a
            rw [addSuccessor_successors, addSuccessor_predecessors]
            have := hb.count a b
            by_cases ha : a = pv <;> by_cases hbb : b = sv
            · subst ha; subst hbb; simp [List.count_append, this]
            · subst ha; simp [List.count_append, hbb, this, Ne.symm hbb]
            · subst hbb; simp [List.count_append, ha, this, Ne.symm ha]
            · simp [ha, hbb, this]
          tidy := by
            intro x hx
            have hx' : g.heap.size ≤ x := hx
            have := hb.tidy x hx'
            show (addSuccessor g.heap pv sv).successors x = [] ∧
              (addSuccessor g.heap pv sv).predecessors x = []
            rw [addSuccessor_successors, addSuccessor_predecessors]
            have h1 : x ≠ pv := by omega
            have h2 : x ≠ sv := by omega
            simp [h1, h2, this]
          bound := hb.bound }
  | removeEdge p s =>
    simp only [Graph.step, Graph.removeEdge]
    cases hp : lookup p g.nodes with
    | none => exact hb
    | some pv =>
      cases hs : lookup s g.nodes with
      | none => exact hb
      | some sv =>
        have := hb.removeSuccessorStep pv sv
        exact ⟨this.count, this.tidy, this.bound⟩

theorem Reachable.balanced {g : Graph} (hr : Reachable g) : Balanced g := by
  induction hr with
  | empty => exact Balanced.ofEmptyGraph
  | step g op _ ih => exact ih.stepOp op
  | cycles g nodes fuel h' ce _ _ hrun ih =>
    exact removeCyclesLoop_balanced g nodes fuel g.heap nodes [] h' ce ih hrun

/-- C19: in every graph reached from `new Graph()` by any sequence of `addNode`,
`addEdge`, `removeEdge` and `removeCycles` steps, `B` occurs in `A.successors`
as often as `A` occurs in `B.predecessors`; in particular `A` lists `B` as
successor exactly when `B` lists `A` as predecessor. -/
theorem adjacency_count_symmetric (g : Graph) (hr : Reachable g) (a b : Nat) :
    (g.heap.successors a).count b = (g.heap.predecessors b).count a ∧
    (b ∈ g.heap.successors a ↔ a ∈ g.heap.predecessors b) := by
  have hc := hr.balanced.count a b
  refine ⟨hc, ?_⟩
  rw [← List.count_pos_iff, ← List.count_pos_iff, hc]

/-- C19 at a graph with a doubled edge and an edge added and removed again. -/
theorem adjacency_count_symmetric_witness :
    Reachable ((((((Graph.empty.step (.addNode "a")).step (.addNode "b")).step
      (.addEdge "a" "b")).step (.addEdge "a" "b")).step (.addEdge "b" "a")).step
      (.removeEdge "b" "a")) ∧
    ((((((((Graph.empty.step (.addNode "a")).step (.addNode "b")).step
      (.addEdge "a" "b")).step (.addEdge "a" "b")).step (.addEdge "b" "a")).step
      (.removeEdge "b" "a")).heap.successors 0).count 1 =
     (((((((Graph.empty.step (.addNode "a")).step (.addNode "b")).step
      (.addEdge "a" "b")).step (.addEdge "a" "b")).step (.addEdge "b" "a")).step
      (.removeEdge "b" "a")).heap.predecessors 1).count 0 ∧
     (1 ∈ ((((((Graph.empty.step (.addNode "a")).step (.addNode "b")).step
      (.addEdge "a" "b")).step (.addEdge "a" "b")).step (.addEdge "b" "a")).step
      (.removeEdge "b" "a")).heap.successors 0 ↔
      0 ∈ ((((((Graph.empty.step (.addNode "a")).step (.addNode "b")).step
      (.addEdge "a" "b")).step (.addEdge "a" "b")).step (.addEdge "b" "a")).step
      (.removeEdge "b" "a")).heap.predecessors 1)) :=
  ⟨Reachable.step _ _ (Reachable.step _ _ (Reachable.step _ _ (Reachable.step _ _
      (Reachable.step _ _ (Reachable.step _ _ Reachable.empty))))),
    adjacency_count_symmetric _
      (Reachable.step _ _ (Reachable.step _ _ (Reachable.step _ _ (Reachable.step _ _
        (Reachable.step _ _ (Reachable.step _ _ Reachable.empty)))))) 0 1⟩

/-! ## The metric functions against their references -/

theorem totalCrossingsInner_eq (b : Nat) (e1 : ℚ × ℚ) :
    ∀ (rest : List (ℚ × ℚ)) (res : Nat), res ≤ b →
      totalCrossingsInner (b : ℚ) e1 rest res =
        min (res + rest.countP (fun e2 => crosses e1 e2)) b
  | [], res, h => by simp [totalCrossingsInner, h]
  | e2 :: rest, res, h => by
    rw [totalCrossingsInner]
    by_cases hlt : res < b
    · rw [if_pos (by exact_mod_cast hlt)]
      by_cases hc : crosses e1 e2 = true
      · rw [if_pos hc, totalCrossingsInner_eq b e1 rest (res + 1) (by omega)]
        simp only [List.countP_cons, hc, if_true]
        congr 1
        omega
      · rw [if_neg hc, totalCrossingsInner_eq b e1 rest res h]
        simp [List.countP_cons, hc]
    · rw [if_neg (by exact_mod_cast hlt)]
      have : res = b := by omega
      subst this
      simp

theorem totalCrossingsOuter_eq (b : Nat) :
    ∀ (edges : List (ℚ × ℚ)) (res : Nat), res ≤ b →
      totalCrossingsOuter (b : ℚ) edges res = min (res + crossingsRef edges) b
  | [], res, h => by simp [totalCrossingsOuter, crossingsRef, h]
  | e1 :: rest, res, h => by
    rw [totalCrossingsOuter]
    by_cases hlt : res < b
    · rw [if_pos (by exact_mod_cast hlt), totalCrossingsInner_eq b e1 rest res h,
        totalCrossingsOuter_eq b rest _ (min_le_right _ _)]
      simp only [crossingsRef]
      omega
    · rw [if_neg (by exact_mod_cast hlt)]
      have : res = b := by omega
      subst this
      simp

theorem crossingsRef_le_pairs : ∀ (edges : List (ℚ × ℚ)),
    crossingsRef edges ≤ edges.length * (edges.length - 1) / 2
  | [] => by simp [crossingsRef]
  | e :: rest => by
    have h1 := crossingsRef_le_pairs rest
    have h2 : rest.countP (fun e2 => crosses e e2) ≤ rest.length := List.countP_le_length _
    simp only [crossingsRef, List.length_cons, Nat.add_sub_cancel]
    have h3 : rest.length * (rest.length - 1) / 2 + rest.length =
        (rest.length + 1) * rest.length / 2 := by
      have : (rest.length + 1) * rest.length = rest.length * (rest.length - 1) + rest.length * 2 := by
        cases rest.length with
        | zero => rfl
        | succ m => simp only [Nat.add_sub_cancel]; ring
      rw [this, Nat.add_mul_div_right _ _ (by decide : 0 < 2)]
    omega

theorem edgeLength_eq_abs (e : ℚ × ℚ) : edgeLength e = |e.2 - e.1| := by
  unfold edgeLength
  split
  · rw [abs_of_pos (by linarith)]
  · rw [abs_of_nonpos (by linarith)]
    ring

theorem distanceRef_nonneg (edges : List (ℚ × ℚ)) : 0 ≤ distanceRef edges := by
  unfold distanceRef
  apply List.sum_nonneg
  intro x hx
  obtain ⟨e, _, rfl⟩ := List.mem_map.mp hx
  exact abs_nonneg _

theorem distanceRef_cons (e : ℚ × ℚ) (rest : List (ℚ × ℚ)) :
    distanceRef (e :: rest) = |e.2 - e.1| + distanceRef rest := by
  simp [distanceRef]

/-- The loop of `totalDistance` from a running total `res`: the exact total
when that stays below the bound, otherwise the running total plus the sum
over a prefix of the remaining edges, which has reached the bound. -/
theorem totalDistanceLoop_spec (b : ℚ) :
    ∀ (edges : List (ℚ × ℚ)) (res : ℚ),
      (res + distanceRef edges < b →
        totalDistanceLoop b edges res = res + distanceRef edges) ∧
      (b ≤ res + distanceRef edges →
        b ≤ totalDistanceLoop b edges res ∧
        ∃ k, k ≤ edges.length ∧
          totalDistanceLoop b edges res = res + distanceRef (edges.take k))
  | [], res => by
    simp only [totalDistanceLoop, distanceRef, List.map_nil, List.sum_nil, add_zero]
    exact ⟨fun _ => trivial, fun h => ⟨h, 0, le_refl _, by simp⟩⟩
  | e :: rest, res => by
    have ih := totalDistanceLoop_spec b rest (res + edgeLength e)
    rw [edgeLength_eq_abs] at ih
    rw [totalDistanceLoop, distanceRef_cons, edgeLength_eq_abs]
    have hn := distanceRef_nonneg rest
    have ha := abs_nonneg (e.2 - e.1)
    constructor
    · intro h
      rw [if_pos (by linarith), ih.1 (by linarith)]
      ring
    · intro h
      by_cases hlt : res < b
      · rw [if_pos hlt]
        obtain ⟨h1, k, hk, h2⟩ := ih.2 (by linarith)
        refine ⟨h1, k + 1, by simpa using hk, ?_⟩
        rw [h2, List.take_succ_cons, distanceRef_cons]
        ring
      · rw [if_neg hlt]
        exact ⟨le_of_not_lt hlt, 0, by simp, by simp [distanceRef]⟩

/-- C13: `totalCrossings(edges, B)` is `min(reference count, B)` for every
natural bound `B`, hence the reference count of inverted pairs when `B`
exceeds the number of edge pairs; `totalDistance(edges, B)` is the reference
sum of `|to - from|` when that sum is below `B`, and otherwise the sum over a
prefix of the edges, which is at least `B`. -/
theorem metrics_match_reference (edges : List (ℚ × ℚ)) :
    (∀ B : Nat, totalCrossings edges (B : ℚ) = min (crossingsRef edges) B) ∧
    (∀ B : Nat, edges.length * (edges.length - 1) / 2 < B →
      totalCrossings edges (B : ℚ) = crossingsRef edges) ∧
    (∀ B : ℚ, distanceRef edges < B → totalDistance edges B = distanceRef edges) ∧
    (∀ B : ℚ, B ≤ distanceRef edges →
      B ≤ totalDistance edges B ∧
      ∃ k, k ≤ edges.length ∧ totalDistance edges B = distanceRef (edges.take k)) := by
  have hc : ∀ B : Nat, totalCrossings edges (B : ℚ) = min (crossingsRef edges) B := by
    intro B
    rw [totalCrossings, totalCrossingsOuter_eq B edges 0 (Nat.zero_le _)]
    simp
  refine ⟨hc, ?_, ?_, ?_⟩
  · intro B hB
    rw [hc B]
    have := crossingsRef_le_pairs edges
    exact min_eq_left (by omega)
  · intro B hB
    have := (totalDistanceLoop_spec B edges 0).1 (by simpa using hB)
    simpa [totalDistance] using this
  · intro B hB
    have := (totalDistanceLoop_spec B edges 0).2 (by simpa using hB)
    simpa [totalDistance] using this

/-- C13 at four edges between two layers, with bound 7 above the 6 edge pairs
and a distance bound 1/2 below the total distance 1. -/
theorem metrics_match_reference_witness :
    totalCrossings [(1/4, 3/4), (3/4, 1/4), (1/4, 1/4), (3/4, 3/4)] ((7 : Nat) : ℚ) =
      crossingsRef [(1/4, 3/4), (3/4, 1/4), (1/4, 1/4), (3/4, 3/4)] ∧
    (1/2 : ℚ) ≤ totalDistance [(1/4, 3/4), (3/4, 1/4), (1/4, 1/4), (3/4, 3/4)] (1/2) :=
  ⟨(metrics_match_reference [(1/4, 3/4), (3/4, 1/4), (1/4, 1/4), (3/4, 3/4)]).2.1 7
      (by decide),
    ((metrics_match_reference [(1/4, 3/4), (3/4, 1/4), (1/4, 1/4), (3/4, 3/4)]).2.2.2
      (1/2) (by decide!)).1⟩

/-- The 4-edge two-layer example: the metric functions agree with the
brute-force values 1 crossing and total distance 1. -/
theorem metrics_example :
    totalCrossings [(1/4, 3/4), (3/4, 1/4), (1/4, 1/4), (3/4, 3/4)] maxValue = 1 ∧
    crossingsRef [(1/4, 3/4), (3/4, 1/4), (1/4, 1/4), (3/4, 3/4)] = 1 ∧
    totalDistance [(1/4, 3/4), (3/4, 1/4), (1/4, 1/4), (3/4, 3/4)] maxValue = 1 ∧
    distanceRef [(1/4, 3/4), (3/4, 1/4), (1/4, 1/4), (3/4, 3/4)] = 1 := by
  decide!

/-! ## Option validation -/

/-- When `validate` returns: both thresholds are numbers, at least 1, ordered,
with product at most `Number.MAX_SAFE_INTEGER`, and both names are known. -/
theorem validate_ok_iff (thresholdEvaluate thresholdLayer : Option Int)
    (alignNodes metrics : String) :
    validate thresholdEvaluate thresholdLayer alignNodes metrics = .ok () ↔
      ∃ te tl, thresholdEvaluate = some te ∧ thresholdLayer = some tl ∧
        1 ≤ te ∧ 1 ≤ tl ∧ tl ≤ te ∧ te * tl ≤ maxSafeInteger ∧
        alignNodes ∈ alignNodeValues ∧ metrics ∈ metricsValues := by
  unfold validate
  cases thresholdEvaluate with
  | none => simp
  | some te =>
    cases thresholdLayer with
    | none => by_cases h : te < 1 <;> simp [h]
    | some tl =>
      simp only [Option.some.injEq, exists_and_left, exists_eq_left', List.contains_eq_any_beq,
        List.any_eq_true, beq_iff_eq, exists_eq_right, gt_iff_lt]
      split_ifs <;> simp_all

/-- C14: the product check of `validate` lets the product `2^53 - 1`, which is
not under the safe-integer limit, pass: `validate(9007199254740991, 1,
"start", "crossings")` returns without error, against the error message
"thresholdEvaluate * thresholdLayer has to be < Number.MAX_SAFE_INTEGER". -/
theorem validate_accepts_limit :
    validate (some 9007199254740991) (some 1) "start" "crossings" = .ok () ∧
    ¬ ((9007199254740991 : Int) * 1 < maxSafeInteger) := by
  decide

/-! ## Structural comparison on examples -/

/-- C16: a graph on which the edge `a → b` was added and removed again has
the node ids and the (empty) multiset of edges of the graph with nodes `a`,
`b` alone, yet `equals` returns `false`: `removeEdge` leaves the key `a`
with an empty successor list in `this.edges`. -/
theorem equals_after_removeEdge :
    (Graph.build [.addNode "a", .addNode "b", .addEdge "a" "b", .removeEdge "a" "b"]).nodes.map
        Prod.fst = (Graph.build [.addNode "a", .addNode "b"]).nodes.map Prod.fst ∧
    (Graph.build [.addNode "a", .addNode "b", .addEdge "a" "b", .removeEdge "a" "b"]).edgePairs =
      (Graph.build [.addNode "a", .addNode "b"]).edgePairs ∧
    (Graph.build [.addNode "a", .addNode "b", .addEdge "a" "b", .removeEdge "a" "b"]).edges =
      [("a", [])] ∧
    ((Graph.build [.addNode "a", .addNode "b", .addEdge "a" "b", .removeEdge "a" "b"]).equals
      (some (Graph.build [.addNode "a", .addNode "b"]))).1 = false := by
  decide!

/-- C17: comparing a graph with a previous graph whose node `a` has the
successor ids `["c", "b"]` returns `true` and leaves the list sorted,
`["b", "c"]`, in `previous.edges` and in `this.edges`. -/
theorem equals_sorts_in_place :
    (Graph.build [.addNode "a", .addNode "b", .addNode "c", .addEdge "a" "c",
      .addEdge "a" "b"]).edges = [("a", ["c", "b"])] ∧
    ((Graph.build [.addNode "a", .addNode "b", .addNode "c", .addEdge "a" "c",
        .addEdge "a" "b"]).equals
      (some (Graph.build [.addNode "a", .addNode "b", .addNode "c", .addEdge "a" "c",
        .addEdge "a" "b"]))).1 = true ∧
    (((Graph.build [.addNode "a", .addNode "b", .addNode "c", .addEdge "a" "c",
        .addEdge "a" "b"]).equals
      (some (Graph.build [.addNode "a", .addNode "b", .addNode "c", .addEdge "a" "c",
        .addEdge "a" "b"]))).2.2.map Graph.edges) = some [("a", ["b", "c"])] ∧
    ((Graph.build [.addNode "a", .addNode "b", .addNode "c", .addEdge "a" "c",
        .addEdge "a" "b"]).equals
      (some (Graph.build [.addNode "a", .addNode "b", .addNode "c", .addEdge "a" "c",
        .addEdge "a" "b"]))).2.1.edges = [("a", ["b", "c"])] := by
  decide!

/-! ## `layout` on examples -/

set_option maxRecDepth 100000 in
/-- C7: `layout()` with the default `mergeVirtualNodes = "start"` on the graph
with nodes `A, B, C, D` and edges `B → C`, `C → D`, `B → D`, `B → D`. The
group of `A` is laid out first and its merge loop leaves the variable
`mergeVirtualNodes` `false`, so that the two virtual nodes 4 and 5 of the
second group, both on rank 1 with `realPredecessors = [B]` and
`realSuccessors = [D]`, both survive. Without the node `A` they are merged
into one. -/
theorem layout_second_group_unmerged :
    Res.map (fun r => (r.1.2.virtualNodes, virtualSummary r.1.1.heap r.1.2.virtualNodes))
      (layoutOf 100 [.addNode "A", .addNode "B", .addNode "C", .addNode "D",
        .addEdge "B" "C", .addEdge "C" "D", .addEdge "B" "D", .addEdge "B" "D"]
        Options.default) =
      .ok ([0, 1, 4, 5, 2, 3],
        [{ node := 4, flow := some 1, realPredecessors := [1], realSuccessors := [3] },
         { node := 5, flow := some 1, realPredecessors := [1], realSuccessors := [3] }]) ∧
    Res.map (fun r => (r.1.2.virtualNodes, virtualSummary r.1.1.heap r.1.2.virtualNodes))
      (layoutOf 100 [.addNode "B", .addNode "C", .addNode "D",
        .addEdge "B" "C", .addEdge "C" "D", .addEdge "B" "D", .addEdge "B" "D"]
        Options.default) =
      .ok ([0, 3, 1, 2],
        [{ node := 3, flow := some 1, realPredecessors := [0], realSuccessors := [2] }]) := by
  decide!

set_option maxRecDepth 100000 in
/-- C12: `layout({metrics: "distance"})` on the graph `A → B`, `A → C` reports
`metricsValue = [0]`, while the sum of the absolute ordinal differences over
its two layered edges is `1/2`: the only block is the layer `[B, C]` with
`symmetry = true`, for which `findBestPermutation` returns before it
evaluates any metric. -/
theorem layout_distance_not_reported :
    Res.map (fun r => (r.1.2.metricsValue, r.1.2.virtualEdges,
        (edgeOrths r.1.1.heap (r.1.2.virtualEdges.map (fun e => (e.1, e.2.1)))).map distanceRef))
      (layoutOf 100 [.addNode "A", .addNode "B", .addNode "C", .addEdge "A" "B",
        .addEdge "A" "C"] { Options.default with metrics := "distance" }) =
      .ok ([0], [(0, 1, false), (0, 2, false)], some (1 / 2)) := by
  decide!

set_option maxRecDepth 100000 in
/-- C18: on the graph with the single node `a` a first `layout()` completes
and a second `layout()` on the same object throws `RangeError: Invalid array
length`: the node keeps its `groupIndex`, `groupNodes` returns the one empty
group `[[]]`, `calculateFlow` returns 0 for it and `addVirtualNodes`
evaluates `Array(-1)`. -/
theorem layout_twice_throws :
    Res.map (fun r => (r.1.2.virtualNodes, r.1.2.maxLength, r.1.2.groupCount))
      (layoutOf 100 [.addNode "a"] Options.default) = .ok ([0], [1], 1) ∧
    Res.map (fun _ => ())
      ((layoutOf 100 [.addNode "a"] Options.default).bind
        (fun r => r.1.1.layout 100 r.1.2 none Options.default)) =
      .throw "RangeError: Invalid array length" := by
  decide!

/-! ## Validation and the reuse path -/

theorem Graph.equals_frame (g : Graph) (otherGraph : Option Graph) :
    (g.equals otherGraph).2.1.heap = g.heap ∧ (g.equals otherGraph).2.1.nodes = g.nodes := by
  unfold Graph.equals
  cases otherGraph with
  | none => exact ⟨rfl, rfl⟩
  | some o =>
    simp only
    split_ifs <;> exact ⟨rfl, rfl⟩

theorem validate_ne_timeout (thresholdEvaluate thresholdLayer : Option Int)
    (alignNodes metrics : String) :
    validate thresholdEvaluate thresholdLayer alignNodes metrics ≠ .timeout := by
  unfold validate
  cases thresholdEvaluate with
  | none => simp
  | some te =>
    cases thresholdLayer with
    | none => simp only []; split_ifs <;> simp
    | some tl => simp only []; split_ifs <;> simp

set_option maxRecDepth 100000 in
/-- C15 fails on the reuse path: with `thresholdEvaluate = 0`, which `validate`
rejects, and a `previous` result for the same single node, `layout` returns
without error and has replaced `virtualNodes`, `maxWidth`, `maxLength` and
`groupCount` of the graph by those of `previous`. -/
theorem layout_reuse_skips_validate :
    validate (some 0) (some 21000) "start" "crossings" =
      .throw "thresholdEvaluate has to be a positive number" ∧
    Res.map (fun r => (r.1.2.virtualNodes, r.1.2.maxWidth, r.1.2.maxLength, r.1.2.groupCount))
      ((layoutOf 100 [.addNode "a"] Options.default).bind fun p =>
        (Graph.build [.addNode "a"]).layout 100 Derived.empty (some p.1)
          { Options.default with thresholdEvaluate := some 0 }) =
      .ok ([0], [1], [1], 1) ∧
    (Derived.empty.virtualNodes, Derived.empty.maxWidth, Derived.empty.maxLength,
      Derived.empty.groupCount) = (([] : List Nat), ([] : List Nat), ([] : List Nat), 0) := by
  decide!

theorem Graph.equals_true (g : Graph) (otherGraph : Option Graph)
    (he : (g.equals otherGraph).1 = true) :
    ∃ o og, otherGraph = some o ∧ (g.equals otherGraph).2.2 = some og := by
  cases otherGraph with
  | none => cases he
  | some o =>
    have : ∃ og, (g.equals (some o)).2.2 = some og := by
      unfold Graph.equals
      simp only
      split_ifs <;> exact ⟨_, rfl⟩
    obtain ⟨og, hog⟩ := this
    exact ⟨o, og, rfl, hog⟩

/-- C15, amended, both paths of `layout`. When `this.equals(previous)` is false
(as it is without a `previous`) and `validate` rejects the options, `layout`
throws the error of `validate`; all that has run before is `equals`, which
leaves the nodes and their adjacency as they were and does not touch the
derived fields. When `this.equals(previous)` is true, `layout` returns for
every options object, whether `validate` accepts it or not, and
`virtualNodes`, `virtualEdges`, `maxWidth`, `maxLength` and `groupCount` are
those of `previous`; `metricsValue`, the nodes and their adjacency are as
they were. -/
theorem layout_validates_first (fuel : Nat) (g : Graph) (d : Derived)
    (previous : Option (Graph × Derived)) (o : Options) :
    ((g.equals (previous.map Prod.fst)).1 = false →
      validate o.thresholdEvaluate o.thresholdLayer o.alignNodes o.metrics ≠ .ok () →
      ∃ msg, validate o.thresholdEvaluate o.thresholdLayer o.alignNodes o.metrics = .throw msg ∧
        g.layout fuel d previous o = .throw msg ∧
        (g.equals (previous.map Prod.fst)).2.1.heap = g.heap ∧
        (g.equals (previous.map Prod.fst)).2.1.nodes = g.nodes) ∧
    ((g.equals (previous.map Prod.fst)).1 = true →
      ∃ p r, previous = some p ∧ g.layout fuel d previous o = .ok r ∧
        r.1.2.virtualNodes = p.2.virtualNodes ∧ r.1.2.virtualEdges = p.2.virtualEdges ∧
        r.1.2.maxWidth = p.2.maxWidth ∧ r.1.2.maxLength = p.2.maxLength ∧
        r.1.2.groupCount = p.2.groupCount ∧ r.1.2.metricsValue = d.metricsValue ∧
        r.1.1.heap = g.heap ∧ r.1.1.nodes = g.nodes) := by
  constructor
  · intro he hv
    have hthrow : ∃ msg,
        validate o.thresholdEvaluate o.thresholdLayer o.alignNodes o.metrics = .throw msg := by
      cases hval : validate o.thresholdEvaluate o.thresholdLayer o.alignNodes o.metrics with
      | ok u => exact absurd hval hv
      | throw msg => exact ⟨msg, rfl⟩
      | timeout => exact absurd hval (validate_ne_timeout _ _ _ _)
    obtain ⟨msg, hmsg⟩ := hthrow
    refine ⟨msg, hmsg, ?_, Graph.equals_frame g _⟩
    unfold Graph.layout
    simp only [he, hmsg]
    rfl
  · intro he
    obtain ⟨og, pg, hprev, hpg⟩ := Graph.equals_true g _ he
    cases previous with
    | none => cases hprev
    | some p =>
      have hl : g.layout fuel d (some p) o = .ok (((g.equals (some p.1)).2.1,
          { d with virtualNodes := p.2.virtualNodes, virtualEdges := p.2.virtualEdges,
                   maxWidth := p.2.maxWidth, maxLength := p.2.maxLength,
                   groupCount := p.2.groupCount }), some (pg, p.2)) := by
        unfold Graph.layout
        simp only [Option.map_some'] at he hpg ⊢
        simp only [he, hpg]
      exact ⟨p, _, rfl, hl, rfl, rfl, rfl, rfl, rfl, rfl, (Graph.equals_frame g _).1,
        (Graph.equals_frame g _).2⟩

set_option maxRecDepth 100000 in
/-- C15, amended, at the graph with one node and `thresholdEvaluate = 0`, which
`validate` rejects: without `previous`, and with a `previous` for the same
node whose derived fields are those that `layout` gives this graph. -/
theorem layout_validates_first_witness :
    (((Graph.build [.addNode "a"]).equals
        (Option.map Prod.fst (none : Option (Graph × Derived)))).1 = false ∧
      validate (some 0) (some 21000) "start" "crossings" ≠ .ok () ∧
      ∃ msg, validate (some 0) (some 21000) "start" "crossings" = .throw msg ∧
        (Graph.build [.addNode "a"]).layout 100 Derived.empty none
          { Options.default with thresholdEvaluate := some 0 } = .throw msg ∧
        ((Graph.build [.addNode "a"]).equals
          (Option.map Prod.fst (none : Option (Graph × Derived)))).2.1.heap
          = (Graph.build [.addNode "a"]).heap ∧
        ((Graph.build [.addNode "a"]).equals
          (Option.map Prod.fst (none : Option (Graph × Derived)))).2.1.nodes
          = (Graph.build [.addNode "a"]).nodes) ∧
    (((Graph.build [.addNode "a"]).equals
        (Option.map Prod.fst (some (Graph.build [.addNode "a"],
          { Derived.empty with virtualNodes := [0], maxWidth := [1], maxLength := [1],
                               metricsValue := [0], groupCount := 1 })))).1 = true ∧
      ∃ p r, some (Graph.build [.addNode "a"],
          { Derived.empty with virtualNodes := [0], maxWidth := [1], maxLength := [1],
                               metricsValue := [0], groupCount := 1 }) = some p ∧
        (Graph.build [.addNode "a"]).layout 100 Derived.empty
          (some (Graph.build [.addNode "a"],
            { Derived.empty with virtualNodes := [0], maxWidth := [1], maxLength := [1],
                                 metricsValue := [0], groupCount := 1 }))
          { Options.default with thresholdEvaluate := some 0 } = .ok r ∧
        r.1.2.virtualNodes = p.2.virtualNodes ∧ r.1.2.virtualEdges = p.2.virtualEdges ∧
        r.1.2.maxWidth = p.2.maxWidth ∧ r.1.2.maxLength = p.2.maxLength ∧
        r.1.2.groupCount = p.2.groupCount ∧
        r.1.2.metricsValue = Derived.empty.metricsValue ∧
        r.1.1.heap = (Graph.build [.addNode "a"]).heap ∧
        r.1.1.nodes = (Graph.build [.addNode "a"]).nodes) :=
  ⟨⟨by decide, by decide,
      (layout_validates_first 100 (Graph.build [.addNode "a"]) Derived.empty none
        { Options.default with thresholdEvaluate := some 0 }).1 (by decide) (by decide)⟩,
    ⟨by decide,
      (layout_validates_first 100 (Graph.build [.addNode "a"]) Derived.empty
        (some (Graph.build [.addNode "a"],
          { Derived.empty with virtualNodes := [0], maxWidth := [1], maxLength := [1],
                               metricsValue := [0], groupCount := 1 }))
        { Options.default with thresholdEvaluate := some 0 }).2 (by decide)⟩⟩

set_option maxRecDepth 1000000 in
/-- C20: `layout({metrics: "distance", thresholdEvaluate: 8, thresholdLayer: 4})`
on the graph with the edges `n0 → n1, n2, n3`, `n1 → n4, n5, n6` and
`n2 → n6` completes with the nodes `n4, n5, n6` all on rank 2 and with the
ordinals `1/6, 1/2, 1/2`: two nodes of the layer share the ordinal `1/2` and
the value `5/6` is not used. The block of the layers 1 and 2 is searched
first and ends with the ordinals `1/6, 5/6, 1/2`, found with the window of
two positions shifted by one; the search of layer 2 alone then starts with
the window at position 0 and `nextPermutation` resets the positions 0 and 1
to `1/6` and `1/2`. -/
theorem layout_duplicate_ordinals :
    Res.map (fun r => (r.1.2.virtualNodes, r.1.2.virtualNodes.map r.1.1.heap.flow,
        r.1.2.virtualNodes.map r.1.1.heap.orth))
      (layoutOf 100 [.addNode "n0", .addNode "n1", .addNode "n2", .addNode "n3", .addNode "n4",
          .addNode "n5", .addNode "n6", .addEdge "n0" "n1", .addEdge "n0" "n2",
          .addEdge "n0" "n3", .addEdge "n1" "n4", .addEdge "n1" "n5", .addEdge "n1" "n6",
          .addEdge "n2" "n6"]
        { Options.default with metrics := "distance", thresholdEvaluate := some 8,
                               thresholdLayer := some 4 }) =
      .ok ([0, 1, 2, 3, 4, 5, 6],
        [some 0, some 1, some 1, some 1, some 2, some 2, some 2],
        [some (1 / 2), some (1 / 6), some (1 / 2), some (5 / 6), some (1 / 6), some (1 / 2),
          some (1 / 2)]) ∧
    validate (some 8) (some 4) "start" "distance" = .ok () := by
  decide!

/-! ## The count returned by `findBestPermutation` -/

theorem findInit_fold (metricsMethod : String) (usedNodes : List (List Nat))
    (usedEdges : List (List (Nat × Nat))) (permsLayer permWidthsLayer : List Nat) (start : Nat)
    (symmetry : Bool) :
    ∀ (is : List Nat) (s0 r : Search × Nat × List Nat),
      Res.foldl (findInitStep metricsMethod usedNodes usedEdges permsLayer permWidthsLayer start
        symmetry) s0 is = .ok r →
      r.1.h = s0.1.h ∧
      r.2.1 = s0.2.1 * (is.map (fun i => permsLayer.getD (i + start) 0)).prod
  | [], s0, r, hr => by
    simp only [Res.foldl, Res.ok.injEq] at hr
    subst hr
    simp
  | i :: is, s0, r, hr => by
    rw [Res.foldl] at hr
    cases hstep : findInitStep metricsMethod usedNodes usedEdges permsLayer permWidthsLayer start
        symmetry s0 i with
    | throw m => rw [hstep] at hr; cases hr
    | timeout => rw [hstep] at hr; cases hr
    | ok s1 =>
      rw [hstep] at hr
      obtain ⟨h1, h2⟩ := findInit_fold metricsMethod usedNodes usedEdges permsLayer
        permWidthsLayer start symmetry is s1 r hr
      have hs1 : s1.1.h = s0.1.h ∧ s1.2.1 = s0.2.1 * permsLayer.getD (i + start) 0 := by
        unfold findInitStep at hstep
        cases hm : (if symmetry = true ∧ i = 0 then (Res.ok 0 : Res ℚ)
            else metricsFunction metricsMethod s0.1.h usedEdges[i]? maxValue) with
        | throw m => rw [hm] at hstep; cases hstep
        | timeout => rw [hm] at hstep; cases hstep
        | ok um =>
          rw [hm] at hstep
          simp only [Res.bind] at hstep
          split at hstep
          · cases hstep
          · simp only [Res.ok.injEq] at hstep
            subst hstep
            exact ⟨rfl, rfl⟩
      rw [h1, h2, hs1.1, hs1.2]
      simp [mul_assoc]

theorem Res.bind_ne_timeout {α β : Type} (x : Res α) (f : α → Res β) (hx : x ≠ .timeout)
    (hf : ∀ a, f a ≠ .timeout) : x.bind f ≠ .timeout := by
  cases x with
  | ok a => exact hf a
  | throw m => simp [Res.bind]
  | timeout => exact absurd rfl hx

theorem metricsFunction_ne_timeout (metricsMethod : String) (h : Heap)
    (edges : Option (List (Nat × Nat))) (bound : ℚ) :
    metricsFunction metricsMethod h edges bound ≠ .timeout := by
  unfold metricsFunction
  split
  · simp
  · split <;> simp

theorem findInitStep_ne_timeout (metricsMethod : String) (usedNodes : List (List Nat))
    (usedEdges : List (List (Nat × Nat))) (permsLayer permWidthsLayer : List Nat) (start : Nat)
    (symmetry : Bool) (s : Search × Nat × List Nat) (i : Nat) :
    findInitStep metricsMethod usedNodes usedEdges permsLayer permWidthsLayer start symmetry s i
      ≠ .timeout := by
  unfold findInitStep
  refine Res.bind_ne_timeout _ _ ?_ (fun um => ?_)
  · split_ifs
    · simp
    · exact metricsFunction_ne_timeout _ _ _ _
  · split <;> simp

theorem findInit_ne_timeout (metricsMethod : String) (usedNodes : List (List Nat))
    (usedEdges : List (List (Nat × Nat))) (permsLayer permWidthsLayer : List Nat) (start : Nat)
    (symmetry : Bool) :
    ∀ (is : List Nat) (s0 : Search × Nat × List Nat),
      Res.foldl (findInitStep metricsMethod usedNodes usedEdges permsLayer permWidthsLayer start
        symmetry) s0 is ≠ .timeout
  | [], s0 => by simp [Res.foldl]
  | i :: is, s0 => by
    rw [Res.foldl]
    exact Res.bind_ne_timeout _ _ (findInitStep_ne_timeout _ _ _ _ _ _ _ _ _)
      (fun s1 => findInit_ne_timeout _ _ _ _ _ _ _ is s1)

theorem blockPerms_pos (permsLayer : List Nat) (start end_ : Nat)
    (hperms : ∀ l, start ≤ l → l < end_ → 1 ≤ permsLayer.getD l 0) :
    1 ≤ blockPerms permsLayer start end_ := by
  unfold blockPerms
  apply Nat.succ_le_of_lt
  apply List.prod_pos
  intro x hx
  obtain ⟨i, hi, rfl⟩ := List.mem_map.mp hx
  have := List.mem_range.mp hi
  exact hperms (i + start) (by omega) (by omega)

theorem resetOrth_ne_timeout (layer : List Nat) :
    ∀ (is : List Nat) (h : Heap), resetOrth layer is h ≠ .timeout
  | [], h => by simp [resetOrth]
  | i :: rest, h => by
    rw [resetOrth]
    split
    · exact resetOrth_ne_timeout layer rest _
    · simp

theorem swapOrth_ne_timeout (h : Heap) (layer : List Nat) (si oi : Nat) :
    swapOrth h layer si oi ≠ .timeout := by
  unfold swapOrth
  split <;> simp

theorem nextPermutationFrom_ne_timeout (layer : List Nat) (permShift : Nat) :
    ∀ (k i : Nat) (h : Heap) (permState : List Nat),
      nextPermutationFrom layer permShift k i h permState ≠ .timeout
  | 0, i, h, permState => by
    rw [nextPermutationFrom]
    exact Res.bind_ne_timeout _ _ (resetOrth_ne_timeout _ _ _) (fun _ => by simp)
  | k + 1, i, h, permState => by
    rw [nextPermutationFrom]
    simp only
    split_ifs
    · exact Res.bind_ne_timeout _ _ (swapOrth_ne_timeout _ _ _ _) (fun _ => by simp)
    · exact Res.bind_ne_timeout _ _ (swapOrth_ne_timeout _ _ _ _) (fun _ => by simp)
    · exact nextPermutationFrom_ne_timeout layer permShift k _ _ _

theorem firstAboveSecond_ne_timeout (h : Heap) (nodeLayer : List Nat) :
    firstAboveSecond h nodeLayer ≠ .timeout := by
  unfold firstAboveSecond
  split <;> simp

theorem nextPermutation_ne_timeout (h : Heap) (layer permState : List Nat) (permShift : Nat) :
    nextPermutation h layer permState permShift ≠ .timeout :=
  nextPermutationFrom_ne_timeout _ _ _ _ _ _

theorem searchLayer_ne_timeout (b : Block) (p i : Nat) (s : Search) (metricsLeft : ℚ) :
    searchLayer b p i s metricsLeft ≠ .timeout := by
  unfold searchLayer
  split_ifs
  · refine Res.bind_ne_timeout _ _ (nextPermutation_ne_timeout _ _ _ _) (fun r => ?_)
    exact Res.bind_ne_timeout _ _ (metricsFunction_ne_timeout _ _ _ _) (fun _ => by simp)
  · refine Res.bind_ne_timeout _ _ (nextPermutation_ne_timeout _ _ _ _) (fun r => ?_)
    exact Res.bind_ne_timeout _ _ (firstAboveSecond_ne_timeout _ _) (fun _ => by simp)
  · simp

theorem searchLayers_ne_timeout (b : Block) (p : Nat) :
    ∀ (k i : Nat) (s : Search) (metricsLeft : ℚ) (current : Nat),
      searchLayers b p k i s metricsLeft current ≠ .timeout
  | 0, i, s, metricsLeft, current => by simp [searchLayers]
  | k + 1, i, s, metricsLeft, current => by
    rw [searchLayers]
    split_ifs
    · exact Res.bind_ne_timeout _ _ (searchLayer_ne_timeout _ _ _ _ _)
        (fun _ => searchLayers_ne_timeout b p k _ _ _ _)
    · simp

theorem nextIncrement_pos (totalPerms p current : Nat) (hp : p < totalPerms) :
    1 ≤ nextIncrement totalPerms p current := by
  unfold nextIncrement
  split_ifs with h0
  · rcases Nat.eq_zero_or_pos current with hz | hpos
    · rw [hz, Nat.mod_zero] at h0
      omega
    · exact hpos
  · omega

/-- The search loop returns once the fuel exceeds the number of values of
`p` left, and its count stays within the evaluation budget and the size of
the permutation space. -/
theorem searchLoop_count (b : Block) :
    ∀ (fuel : Nat) (s : Search) (p permsExecuted : Nat),
      1 ≤ fuel → b.totalPerms + 1 ≤ fuel + p → 1 ≤ permsExecuted → permsExecuted ≤ p →
      permsExecuted ≤ b.totalPerms → (permsExecuted : Int) ≤ b.thresholdEvaluate →
      searchLoop b fuel s p permsExecuted ≠ .timeout ∧
      ∀ s' count, searchLoop b fuel s p permsExecuted = .ok (s', count) →
        1 ≤ count ∧ (count : Int) ≤ b.thresholdEvaluate ∧ count ≤ b.totalPerms
  | 0, s, p, pe, h0, hf, h1, hp, ht, hte => by
    exfalso
    omega
  | fuel + 1, s, p, pe, h0, hf, h1, hp, ht, hte => by
    rw [searchLoop]
    by_cases hc : (pe : Int) < b.thresholdEvaluate ∧ p < b.totalPerms
    · rw [if_pos hc]
      have hinc := fun current => nextIncrement_pos b.totalPerms p current hc.2
      have hrec : ∀ (s1 : Search) (current : Nat),
          searchLoop b fuel s1 (p + nextIncrement b.totalPerms p current) (pe + 1) ≠ .timeout ∧
          ∀ s' count, searchLoop b fuel s1 (p + nextIncrement b.totalPerms p current) (pe + 1)
              = .ok (s', count) →
            1 ≤ count ∧ (count : Int) ≤ b.thresholdEvaluate ∧ count ≤ b.totalPerms := by
        intro s1 current
        have := hinc current
        exact searchLoop_count b fuel s1 _ (pe + 1) (by omega) (by omega) (by omega) (by omega)
          (by omega) (by push_cast; omega)
      cases hl : searchLayers b p b.calculatedLayers 0 s s.bestMetrics 1 with
      | throw m => simp [Res.bind]
      | timeout => exact absurd hl (searchLayers_ne_timeout b p _ _ _ _ _)
      | ok r =>
        simp only [Res.bind]
        split_ifs with hpos hbreak
        · refine ⟨by simp, ?_⟩
          intro s' count hok
          simp only [Res.ok.injEq, Prod.mk.injEq] at hok
          obtain ⟨_, rfl⟩ := hok
          refine ⟨by omega, ?_, by omega⟩
          push_cast
          omega
        · exact hrec _ _
        · exact hrec _ _
    · rw [if_neg hc]
      refine ⟨by simp, ?_⟩
      intro s' count hok
      simp only [Res.ok.injEq, Prod.mk.injEq] at hok
      obtain ⟨_, rfl⟩ := hok
      exact ⟨h1, hte, ht⟩

theorem factorialLimited_cases (n threshold : Nat) (hn : 1 ≤ n) (ht : 1 ≤ threshold) :
    (∃ j, 2 ≤ j ∧ j ≤ n ∧ windowPerms n j ≤ threshold ∧
        factorialLimited n threshold = (windowPerms n j, j)) ∨
      factorialLimited n threshold = (1, 1) := by
  have key := factorialLimitedFrom_spec n threshold hn (n - 1) 2 (by omega) (le_refl _)
    (by simpa using ht)
  rcases key with ⟨j, h1, h2, h3, _, h5⟩ | ⟨_, h2⟩
  · exact Or.inl ⟨j, h1, h2, h3, by simpa [factorialLimited] using h5⟩
  · exact Or.inr (by simpa [factorialLimited] using h2)

theorem factorialLimited_fst_bounds (n threshold : Nat) (ht : 1 ≤ threshold) :
    1 ≤ (factorialLimited n threshold).1 ∧
    (factorialLimited n threshold).1 ≤ min (Nat.factorial n) threshold := by
  rcases Nat.eq_zero_or_pos n with h0 | hn
  · subst h0
    have : factorialLimited 0 threshold = (1, 0) := by
      simp [factorialLimited, factorialLimitedFrom]
    rw [this]
    exact ⟨le_refl _, le_min (by decide) ht⟩
  · rcases factorialLimited_cases n threshold hn ht with ⟨j, h1, h2, h3, h4⟩ | h
    · rw [h4]
      refine ⟨?_, le_min (windowPerms_le_factorial n j (by omega) h2) h3⟩
      unfold windowPerms
      exact Nat.mul_pos (Nat.factorial_pos j) (by omega)
    · rw [h]
      exact ⟨le_refl _, le_min (Nat.factorial_pos n) ht⟩

/-- C10: for a block whose entries of `permsLayer` are at least 1 (as those
that `factorialLimited` returns are) and `thresholdEvaluate ≥ 1`,
`findBestPermutation` returns or throws once the fuel reaches the size of the
permutation space of the block, and a returned count is at least 1, at most
`thresholdEvaluate` and at most that size. For `1 ≤ thresholdLayer < n!` the
count `factorialLimited(n, thresholdLayer)[0]` is at least 1, below `n!` and
at most `thresholdLayer`. -/
theorem findBestPermutation_count (fuel : Nat) (h : Heap) (nodes : List (List Nat))
    (edges : List (List (Nat × Nat))) (metrics : List ℚ) (permsLayer permWidthsLayer : List Nat)
    (start end_ : Nat) (symmetry : Bool) (thresholdEvaluate : Int) (metricsMethod : String)
    (hte : 1 ≤ thresholdEvaluate)
    (hperms : ∀ l, start ≤ l → l < end_ → 1 ≤ permsLayer.getD l 0)
    (hfuel : blockPerms permsLayer start end_ ≤ fuel) :
    findBestPermutation fuel h nodes edges metrics permsLayer permWidthsLayer start end_
        symmetry thresholdEvaluate metricsMethod ≠ .timeout ∧
    (∀ h' metrics' count,
      findBestPermutation fuel h nodes edges metrics permsLayer permWidthsLayer start end_
          symmetry thresholdEvaluate metricsMethod = .ok (h', metrics', count) →
        1 ≤ count ∧ (count : Int) ≤ thresholdEvaluate ∧
          count ≤ blockPerms permsLayer start end_) ∧
    (∀ n thresholdLayer : Nat, 1 ≤ thresholdLayer → thresholdLayer < Nat.factorial n →
      1 ≤ (factorialLimited n thresholdLayer).1 ∧
      (factorialLimited n thresholdLayer).1 < Nat.factorial n ∧
      (factorialLimited n thresholdLayer).1 ≤ thresholdLayer) := by
  have hpos := blockPerms_pos permsLayer start end_ hperms
  have hfact : ∀ n thresholdLayer : Nat, 1 ≤ thresholdLayer → thresholdLayer < Nat.factorial n →
      1 ≤ (factorialLimited n thresholdLayer).1 ∧
      (factorialLimited n thresholdLayer).1 < Nat.factorial n ∧
      (factorialLimited n thresholdLayer).1 ≤ thresholdLayer := by
    intro n tl h1 h2
    have := factorialLimited_fst_bounds n tl h1
    have h3 := le_min_iff.mp this.2
    exact ⟨this.1, by omega, h3.2⟩
  have hone : (1 : Nat) ≤ 1 ∧ ((1 : Nat) : Int) ≤ thresholdEvaluate ∧
      1 ≤ blockPerms permsLayer start end_ := ⟨le_refl _, by simpa using hte, hpos⟩
  unfold findBestPermutation
  split_ifs with hskip hneg
  · refine ⟨by simp, ?_, hfact⟩
    intro h' metrics' count hok
    simp only [Res.ok.injEq, Prod.mk.injEq] at hok
    obtain ⟨_, _, rfl⟩ := hok
    exact hone
  · exact ⟨by simp, by simp, hfact⟩
  · simp only
    cases hinit : Res.foldl
        (findInitStep metricsMethod (jsSlice nodes start end_)
          (jsSlice edges ((start : Int) - 1) ((end_ : Int) - 1)) permsLayer permWidthsLayer start
          symmetry)
        ({ h := h, metrics := metrics, usedMetrics := [], permState := [], permShift := [],
           bestResult := [], bestMetrics := 0 }, 1, [])
        (List.range (end_ - start)) with
    | throw m => exact ⟨by simp [Res.bind], by simp [Res.bind], hfact⟩
    | timeout =>
      exfalso
      exact findInit_ne_timeout _ _ _ _ _ _ _ _ _ hinit
    | ok r =>
      have htot := (findInit_fold _ _ _ _ _ _ _ _ _ r hinit).2
      simp only [one_mul] at htot
      have htot' : r.2.1 = blockPerms permsLayer start end_ := htot
      simp only [Res.bind]
      split_ifs with hzero
      · refine ⟨by simp, ?_, hfact⟩
        intro h' metrics' count hok
        simp only [Res.ok.injEq, Prod.mk.injEq] at hok
        obtain ⟨_, _, rfl⟩ := hok
        exact hone
      · have hloop := searchLoop_count
          { calculatedLayers := end_ - start, usedNodes := jsSlice nodes start end_,
            usedEdges := jsSlice edges ((start : Int) - 1) ((end_ : Int) - 1),
            permCounterOverflow := r.2.2.map (fun prefixPerms => r.2.1 / prefixPerms),
            totalPerms := r.2.1, start := start, symmetry := symmetry,
            thresholdEvaluate := thresholdEvaluate, metricsMethod := metricsMethod }
          fuel r.1 1 1 (by omega) (by simp only; omega) (le_refl _) (le_refl _)
          (by simp only; omega) (by simpa using hte)
        cases hs : searchLoop
          { calculatedLayers := end_ - start, usedNodes := jsSlice nodes start end_,
            usedEdges := jsSlice edges ((start : Int) - 1) ((end_ : Int) - 1),
            permCounterOverflow := r.2.2.map (fun prefixPerms => r.2.1 / prefixPerms),
            totalPerms := r.2.1, start := start, symmetry := symmetry,
            thresholdEvaluate := thresholdEvaluate, metricsMethod := metricsMethod }
          fuel r.1 1 1 with
        | throw m => exact ⟨by simp, by simp, hfact⟩
        | timeout => exact absurd hs hloop.1
        | ok t =>
          refine ⟨by simp, ?_, hfact⟩
          intro h' metrics' count hok
          simp only [Res.ok.injEq, Prod.mk.injEq] at hok
          obtain ⟨_, _, rfl⟩ := hok
          have := hloop.2 t.1 t.2 hs
          simpa [htot'] using this

/-- C10 at the block of the second of two layers of two nodes whose two
edges cross: the search returns the count 2 with budget 10 and a permutation
space of size 2. -/
theorem findBestPermutation_count_witness :
    Res.map (fun r => r.2.2)
      (findBestPermutation 5 twoByTwo [[0, 1], [2, 3]] [[(0, 3), (1, 2)]] [0, 0] [2, 2] [2, 2]
        1 2 false 10 "crossings") = .ok 2 ∧
    blockPerms [2, 2] 1 2 = 2 ∧
    (findBestPermutation 5 twoByTwo [[0, 1], [2, 3]] [[(0, 3), (1, 2)]] [0, 0] [2, 2] [2, 2]
        1 2 false 10 "crossings" ≠ .timeout ∧
    (∀ h' metrics' count,
      findBestPermutation 5 twoByTwo [[0, 1], [2, 3]] [[(0, 3), (1, 2)]] [0, 0] [2, 2] [2, 2]
          1 2 false 10 "crossings" = .ok (h', metrics', count) →
        1 ≤ count ∧ (count : Int) ≤ 10 ∧ count ≤ blockPerms [2, 2] 1 2) ∧
    (∀ n thresholdLayer : Nat, 1 ≤ thresholdLayer → thresholdLayer < Nat.factorial n →
      1 ≤ (factorialLimited n thresholdLayer).1 ∧
      (factorialLimited n thresholdLayer).1 < Nat.factorial n ∧
      (factorialLimited n thresholdLayer).1 ≤ thresholdLayer)) :=
  ⟨by decide!, by decide,
    findBestPermutation_count 5 twoByTwo [[0, 1], [2, 3]] [[(0, 3), (1, 2)]] [0, 0] [2, 2] [2, 2]
      1 2 false 10 "crossings" (by decide)
      (fun l h1 h2 => by
        have hl : l = 1 := by omega
        subst hl
        decide)
      (by decide)⟩

/-! ## Bounded evaluation of the metrics -/

theorem totalCrossingsInner_bound (q : ℚ) (e1 : ℚ × ℚ) :
    ∀ (rest : List (ℚ × ℚ)) (res : Nat),
      totalCrossingsInner q e1 rest res = res + rest.countP (fun e2 => crosses e1 e2) ∨
      q ≤ (totalCrossingsInner q e1 rest res : ℚ)
  | [], res => by simp [totalCrossingsInner]
  | e2 :: rest, res => by
    rw [totalCrossingsInner]
    by_cases hlt : (res : ℚ) < q
    · rw [if_pos hlt]
      by_cases hc : crosses e1 e2 = true
      · rw [if_pos hc]
        rcases totalCrossingsInner_bound q e1 rest (res + 1) with h | h
        · left
          rw [h]
          simp only [List.countP_cons, hc, if_true]
          omega
        · exact Or.inr h
      · rw [if_neg hc]
        rcases totalCrossingsInner_bound q e1 rest res with h | h
        · left
          rw [h]
          simp [List.countP_cons, hc]
        · exact Or.inr h
    · rw [if_neg hlt]
      exact Or.inr (le_of_not_lt hlt)

theorem totalCrossingsOuter_stop (q : ℚ) (edges : List (ℚ × ℚ)) (res : Nat)
    (h : q ≤ (res : ℚ)) : totalCrossingsOuter q edges res = res := by
  cases edges with
  | nil => rfl
  | cons e rest => rw [totalCrossingsOuter, if_neg (not_lt.mpr h)]

theorem totalCrossingsOuter_bound (q : ℚ) :
    ∀ (edges : List (ℚ × ℚ)) (res : Nat),
      totalCrossingsOuter q edges res = res + crossingsRef edges ∨
      q ≤ (totalCrossingsOuter q edges res : ℚ)
  | [], res => by simp [totalCrossingsOuter, crossingsRef]
  | e1 :: rest, res => by
    rw [totalCrossingsOuter]
    by_cases hlt : (res : ℚ) < q
    · rw [if_pos hlt]
      rcases totalCrossingsInner_bound q e1 rest res with h1 | h1
      · rcases totalCrossingsOuter_bound q rest (totalCrossingsInner q e1 rest res) with h2 | h2
        · left
          rw [h2, h1, crossingsRef]
          omega
        · exact Or.inr h2
      · right
        rw [totalCrossingsOuter_stop q rest _ h1]
        exact h1
    · rw [if_neg hlt]
      exact Or.inr (le_of_not_lt hlt)

/-- A call of `metricsFunction` on edges whose ordinals are all assigned
returns the exact metric or a value that has reached the bound. -/
theorem metricsFunction_spec (metricsMethod : String) (h : Heap) (es : List (Nat × Nat))
    (bound : ℚ) (hdef : (edgeOrths h es).isSome) :
    ∃ v, metricsFunction metricsMethod h (some es) bound = .ok v ∧
      (v = metricValue metricsMethod h es ∨ bound ≤ v) := by
  obtain ⟨os, hos⟩ := Option.isSome_iff_exists.mp hdef
  unfold metricsFunction metricValue
  simp only [hos]
  refine ⟨_, rfl, ?_⟩
  by_cases hm : metricsMethod = "crossings"
  · simp only [hm, if_true]
    rcases totalCrossingsOuter_bound bound os 0 with h1 | h1
    · left
      unfold totalCrossings
      rw [h1]
      simp
    · exact Or.inr h1
  · simp only [hm, if_false]
    have hs := totalDistanceLoop_spec bound os 0
    simp only [zero_add] at hs
    by_cases hlt : distanceRef os < bound
    · exact Or.inl (hs.1 hlt)
    · exact Or.inr (hs.2 (le_of_not_lt hlt)).1

theorem metricValue_nonneg (metricsMethod : String) (h : Heap) (es : List (Nat × Nat)) :
    0 ≤ metricValue metricsMethod h es := by
  unfold metricValue
  split
  · split_ifs
    · exact Nat.cast_nonneg _
    · exact distanceRef_nonneg _
  · exact le_refl _

theorem edgeOrths_congr (h h' : Heap) :
    ∀ (es : List (Nat × Nat)),
      (∀ e ∈ es, h'.orth e.1 = h.orth e.1 ∧ h'.orth e.2 = h.orth e.2) →
      edgeOrths h' es = edgeOrths h es
  | [], _ => rfl
  | e :: rest, hag => by
    have h1 := hag e (List.mem_cons_self _ _)
    have h2 := edgeOrths_congr h h' rest (fun e' he' => hag e' (List.mem_cons_of_mem _ he'))
    simp only [edgeOrths, h1.1, h1.2, h2]

theorem metricValue_congr (metricsMethod : String) (h h' : Heap) (es : List (Nat × Nat))
    (hag : ∀ e ∈ es, h'.orth e.1 = h.orth e.1 ∧ h'.orth e.2 = h.orth e.2) :
    metricValue metricsMethod h' es = metricValue metricsMethod h es := by
  unfold metricValue
  rw [edgeOrths_congr h h' es hag]

theorem edgeOrths_isSome (h : Heap) :
    ∀ (es : List (Nat × Nat)),
      (∀ e ∈ es, (h.orth e.1).isSome ∧ (h.orth e.2).isSome) → (edgeOrths h es).isSome
  | [], _ => rfl
  | e :: rest, hd => by
    have h1 := hd e (List.mem_cons_self _ _)
    have h2 := edgeOrths_isSome h rest (fun e' he' => hd e' (List.mem_cons_of_mem _ he'))
    obtain ⟨a, ha⟩ := Option.isSome_iff_exists.mp h1.1
    obtain ⟨b, hb⟩ := Option.isSome_iff_exists.mp h1.2
    obtain ⟨os, hos⟩ := Option.isSome_iff_exists.mp h2
    simp [edgeOrths, ha, hb, hos]

/-! ## `nextPermutation` touches the ordinals of its layer only -/

theorem swapOrth_spec (h : Heap) (layer : List Nat) (si oi : Nat) (hsi : si < layer.length)
    (hoi : oi < layer.length) (hdef : ∀ n ∈ layer, (h.orth n).isSome) :
    ∃ h', swapOrth h layer si oi = .ok h' ∧ (∀ n, n ∉ layer → h'.orth n = h.orth n) ∧
      ∀ n ∈ layer, (h'.orth n).isSome := by
  unfold swapOrth
  rw [List.getElem?_eq_getElem hsi, List.getElem?_eq_getElem hoi]
  refine ⟨_, rfl, ?_, ?_⟩
  · intro n hn
    have h1 : n ≠ layer[si] := fun e => hn (e ▸ List.getElem_mem _)
    have h2 : n ≠ layer[oi] := fun e => hn (e ▸ List.getElem_mem _)
    simp [upd, h1, h2]
  · intro n hn
    simp only [upd]
    split_ifs
    · exact hdef _ (List.getElem_mem _)
    · exact hdef _ (List.getElem_mem _)
    · exact hdef n hn

theorem resetOrth_spec (layer : List Nat) :
    ∀ (is : List Nat) (h : Heap), (∀ j ∈ is, j < layer.length) →
      (∀ n ∈ layer, (h.orth n).isSome) →
      ∃ h', resetOrth layer is h = .ok h' ∧ (∀ n, n ∉ layer → h'.orth n = h.orth n) ∧
        ∀ n ∈ layer, (h'.orth n).isSome
  | [], h, _, hdef => ⟨h, rfl, fun _ _ => rfl, hdef⟩
  | i :: rest, h, his, hdef => by
    have hi : i < layer.length := his i (List.mem_cons_self _ _)
    rw [resetOrth, List.getElem?_eq_getElem hi]
    simp only
    obtain ⟨h', hok, hfr, hd'⟩ := resetOrth_spec layer rest
      { h with orth := upd h.orth layer[i] (some ((i + 1 / 2) / layer.length)) }
      (fun j hj => his j (List.mem_cons_of_mem _ hj))
      (fun n hn => by
        simp only [upd]
        split_ifs
        · rfl
        · exact hdef n hn)
    refine ⟨h', hok, ?_, hd'⟩
    intro n hn
    rw [hfr n hn]
    have h1 : n ≠ layer[i] := fun e => hn (e ▸ List.getElem_mem _)
    simp [upd, h1]

theorem nextPermutationFrom_spec (layer : List Nat) (permShift : Nat) :
    ∀ (k i : Nat) (h : Heap) (permState : List Nat),
      (k ≠ 0 → i + k ≤ permState.length) → permState.length + permShift ≤ layer.length →
      (∀ n ∈ layer, (h.orth n).isSome) →
      ∃ r, nextPermutationFrom layer permShift k i h permState = .ok r ∧
        r.2.1.length = permState.length ∧ r.2.1.length + r.2.2 ≤ layer.length ∧
        (∀ n, n ∉ layer → r.1.orth n = h.orth n) ∧ ∀ n ∈ layer, (r.1.orth n).isSome
  | 0, i, h, permState, _, hw, hdef => by
    rw [nextPermutationFrom]
    obtain ⟨h', hok, hfr, hd'⟩ := resetOrth_spec layer (List.range' permShift permState.length) h
      (fun j hj => by
        have := List.mem_range'_1.mp hj
        omega)
      hdef
    rw [hok]
    refine ⟨_, rfl, rfl, ?_, hfr, hd'⟩
    simp only
    have := Nat.mod_lt (permShift + 1)
      (show 0 < layer.length - permState.length + 1 by omega)
    omega
  | k + 1, i, h, permState, hk, hw, hdef => by
    rw [nextPermutationFrom]
    have hi : i + (k + 1) ≤ permState.length := hk (by omega)
    simp only
    by_cases hp : permState.getD i 0 < i
    · rw [if_pos hp]
      obtain ⟨h', hok, hfr, hd'⟩ := swapOrth_spec h layer (i + permShift)
        (if i % 2 = 0 then permShift else permState.getD i 0 + permShift)
        (by omega) (by split_ifs <;> omega) hdef
      rw [hok]
      exact ⟨_, rfl, by simp, by simpa using hw, hfr, hd'⟩
    · rw [if_neg hp]
      obtain ⟨r, hok, h1, h2, h3, h4⟩ := nextPermutationFrom_spec layer permShift k (i + 1) h
        (permState.set i 0) (fun _ => by simp only [List.length_set]; omega)
        (by simpa using hw) hdef
      exact ⟨r, hok, by simpa using h1, h2, h3, h4⟩

/-- A call of `nextPermutation` whose window fits the layer returns; it keeps
the window within the layer, changes no ordinal outside the layer and leaves
every node of the layer with an ordinal. -/
theorem nextPermutation_spec (h : Heap) (layer permState : List Nat) (permShift : Nat)
    (hw : permState.length + permShift ≤ layer.length)
    (hdef : ∀ n ∈ layer, (h.orth n).isSome) :
    ∃ r, nextPermutation h layer permState permShift = .ok r ∧
      r.2.1.length = permState.length ∧ r.2.1.length + r.2.2 ≤ layer.length ∧
      (∀ n, n ∉ layer → r.1.orth n = h.orth n) ∧ ∀ n ∈ layer, (r.1.orth n).isSome :=
  nextPermutationFrom_spec layer permShift (permState.length - 1) 1 h permState
    (fun hk => by omega) hw hdef

/-! ## One layer of the search -/

theorem getD_set_eq {α : Type} (a : List α) (j : Nat) (v d : α) (i : Nat) :
    (a.set j v).getD i d = if i = j ∧ j < a.length then v else a.getD i d := by
  simp only [List.getD_eq_getElem?_getD, List.getElem?_set]
  by_cases hij : j = i
  · subst hij
    by_cases hj : j < a.length
    · simp [hj]
    · simp [hj]
      rw [List.getElem?_eq_none (by omega)]
      rfl
  · have : ¬ (i = j ∧ j < a.length) := fun h => hij h.1.symm
    simp [hij, this]

/-- The metric of edge layer `i` reads the ordinals of the layers `i - 1` and
`i` only: it is the same on two heaps that differ within another layer `j`. -/
theorem Block.metricAt_congr (b : Block) (hb : BlockOK b) (h h' : Heap) (i j : Nat)
    (hi : i < b.calculatedLayers) (hj : j < b.calculatedLayers) (hij : i ≠ j)
    (hij' : j + 1 ≠ i)
    (hag : ∀ n, n ∉ b.usedNodes.getD j [] → h'.orth n = h.orth n) :
    b.metricAt h' i = b.metricAt h i := by
  unfold Block.metricAt
  apply metricValue_congr
  intro e he
  exact ⟨hag _ (hb.edgeFrom i hi e he j hj hij'),
    hag _ (hb.disjoint i j hi hj hij _ (hb.edgeTo i hi e he))⟩

theorem Block.metricAt_congr_all (b : Block) (h h' : Heap) (i : Nat)
    (hag : ∀ n, h'.orth n = h.orth n) : b.metricAt h' i = b.metricAt h i := by
  unfold Block.metricAt
  exact metricValue_congr _ _ _ _ (fun e _ => ⟨hag _, hag _⟩)

/-- The body of the inner loop for layer `i` of a block searched without
symmetry returns; it changes ordinals within layer `i` only, changes
`usedMetrics` at `i` only, subtracts `usedMetrics[i]` from `metricsLeft`, and
when the layer is advanced `usedMetrics[i]` is exact or has reached
`metricsLeft`. -/
theorem searchLayer_spec (b : Block) (h0 : Heap) (hb : BlockOK b) (p i : Nat) (s : Search)
    (metricsLeft : ℚ) (hi : i < b.calculatedLayers) (hs : SearchOK b h0 s) :
    ∃ r, searchLayer b p i s metricsLeft = .ok r ∧ SearchOK b h0 r.1 ∧
      r.1.bestResult = s.bestResult ∧ r.1.bestMetrics = s.bestMetrics ∧
      r.1.metrics = s.metrics ∧
      (∀ n, n ∉ b.usedNodes.getD i [] → r.1.h.orth n = s.h.orth n) ∧
      (∀ j, j ≠ i → r.1.usedMetrics.getD j 0 = s.usedMetrics.getD j 0) ∧
      r.2 = metricsLeft - r.1.usedMetrics.getD i 0 ∧
      (p % b.permCounterOverflow.getD i 0 = 0 →
        r.1.Exact b i ∨ metricsLeft ≤ r.1.usedMetrics.getD i 0) ∧
      (p % b.permCounterOverflow.getD i 0 ≠ 0 → r.1 = s) := by
  unfold searchLayer
  by_cases hadv : p % b.permCounterOverflow.getD i 0 = 0
  · rw [if_pos hadv]
    obtain ⟨r0, hr0, hlen, hwin, hfr, hdef⟩ := nextPermutation_spec s.h (b.usedNodes.getD i [])
      (s.permState.getD i []) (s.permShift.getD i 0) (hs.window i hi) (hs.defined i hi)
    rw [hr0]
    simp only [Res.bind, hb.symmetry, true_or, if_true]
    have hes : b.usedEdges[i]? = some (b.usedEdges.getD i []) := by
      rw [List.getD_eq_getElem?_getD, List.getElem?_eq_getElem (by rw [hb.lenEdges]; exact hi)]
      rfl
    have hfrom : ∀ j, j < b.calculatedLayers → ∀ e ∈ b.usedEdges.getD j [],
        (r0.1.orth e.1).isSome := by
      intro j hj e he
      by_cases hmem : e.1 ∈ b.usedNodes.getD i []
      · exact hdef _ hmem
      · rw [hfr _ hmem]
        exact hs.definedFrom j hj e he
    have hsome : (edgeOrths r0.1 (b.usedEdges.getD i [])).isSome :=
      edgeOrths_isSome _ _ (fun e he => ⟨hfrom i hi e he, hdef _ (hb.edgeTo i hi e he)⟩)
    obtain ⟨v, hv, hval⟩ := metricsFunction_spec b.metricsMethod r0.1 (b.usedEdges.getD i [])
      metricsLeft hsome
    rw [hes, hv]
    have hget : (s.usedMetrics.set i v).getD i 0 = v := by
      rw [getD_set_eq, if_pos ⟨rfl, by rw [hs.lenMetrics]; exact hi⟩]
    refine ⟨_, rfl, ?_, rfl, rfl, rfl, hfr, ?_, ?_, ?_, ?_⟩
    · refine ⟨by simp [hs.lenMetrics], by simp [hs.lenState], by simp [hs.lenShift], ?_, ?_,
        hfrom, ?_⟩
      · intro j hj
        simp only [getD_set_eq]
        by_cases hji : j = i
        · subst hji
          rw [if_pos ⟨rfl, by rw [hs.lenState]; exact hj⟩,
            if_pos ⟨rfl, by rw [hs.lenShift]; exact hj⟩]
          exact hwin
        · rw [if_neg (fun h => hji h.1), if_neg (fun h => hji h.1)]
          exact hs.window j hj
      · intro j hj n hn
        by_cases hmem : n ∈ b.usedNodes.getD i []
        · exact hdef _ hmem
        · show (r0.1.orth n).isSome
          rw [hfr _ hmem]
          exact hs.defined j hj n hn
      · intro n hn
        show r0.1.orth n = h0.orth n
        rw [hfr _ (hn i hi)]
        exact hs.frame n hn
    · intro j hj
      show (s.usedMetrics.set i v).getD j 0 = _
      rw [getD_set_eq, if_neg (fun h => hj h.1)]
    · show metricsLeft - v = metricsLeft - (s.usedMetrics.set i v).getD i 0
      rw [hget]
    · intro _
      show (s.usedMetrics.set i v).getD i 0 = b.metricAt r0.1 i ∨
        metricsLeft ≤ (s.usedMetrics.set i v).getD i 0
      rw [hget]
      exact hval
    · intro h
      exact absurd hadv h
  · rw [if_neg hadv]
    exact ⟨_, rfl, hs, rfl, rfl, rfl, fun _ _ => rfl, fun _ _ => rfl, rfl,
      fun h => absurd h hadv, fun _ => rfl⟩

/-! ## The inner loop of the search -/

theorem Search.usedSum_succ (s : Search) (i : Nat) :
    s.usedSum (i + 1) = s.usedSum i + s.usedMetrics.getD i 0 := by
  simp [Search.usedSum, List.range_succ]

theorem Search.usedSum_congr (s s' : Search) (i : Nat)
    (h : ∀ j, j < i → s'.usedMetrics.getD j 0 = s.usedMetrics.getD j 0) :
    s'.usedSum i = s.usedSum i := by
  unfold Search.usedSum
  congr 1
  apply List.map_congr_left
  intro j hj
  exact h j (List.mem_range.mp hj)

/-- The inner loop from layer `i` on, for a state in which the entries of
`usedMetrics` that are still to be read are exact: it returns, and either
`metricsLeft` stays positive, all layers have been visited, every entry of
`usedMetrics` is exact and `metricsLeft` is the bound `x` less their sum; or
the loop has stopped at a layer `e`, the entries before `e` are exact and
`currentPermCounterOverflow` is `permCounterOverflow[e]`. -/
theorem searchLayers_spec (b : Block) (h0 : Heap) (hb : BlockOK b) (p : Nat) (x : ℚ) :
    ∀ (k i : Nat) (s : Search) (metricsLeft : ℚ) (current : Nat),
      i + k = b.calculatedLayers → SearchOK b h0 s →
      (∀ j, j < i → (j + 1 < i ∨ 0 < metricsLeft) → s.Exact b j) →
      (∀ j, i ≤ j → j < b.calculatedLayers → p % b.permCounterOverflow.getD j 0 ≠ 0 →
        s.Exact b j) →
      (0 < i → current = b.permCounterOverflow.getD (i - 1) 0) →
      (0 < metricsLeft → metricsLeft = x - s.usedSum i) →
      (0 < i ∨ 0 < metricsLeft) →
      ∃ r, searchLayers b p k i s metricsLeft current = .ok r ∧ SearchOK b h0 r.1 ∧
        r.1.bestResult = s.bestResult ∧ r.1.bestMetrics = s.bestMetrics ∧
        r.1.metrics = s.metrics ∧
        ((0 < r.2.1 ∧ (∀ j, j < b.calculatedLayers → r.1.Exact b j) ∧
            r.2.1 = x - r.1.usedSum b.calculatedLayers) ∨
          (r.2.1 ≤ 0 ∧ ∃ e, e < b.calculatedLayers ∧ (∀ j, j < e → r.1.Exact b j) ∧
            r.2.2 = b.permCounterOverflow.getD e 0))
  | 0, i, s, metricsLeft, current, hik, hs, hpre, _, hcur, hacc, hstart => by
    have hiL : i = b.calculatedLayers := by omega
    refine ⟨(s, metricsLeft, current), rfl, hs, rfl, rfl, rfl, ?_⟩
    by_cases hml : 0 < metricsLeft
    · left
      exact ⟨hml, fun j hj => hpre j (by omega) (Or.inr hml), by rw [← hiL]; exact hacc hml⟩
    · right
      have hi0 : 0 < i := hstart.resolve_right hml
      exact ⟨le_of_not_lt hml, i - 1, by omega, fun j hj => hpre j (by omega) (Or.inl (by omega)),
        hcur hi0⟩
  | k + 1, i, s, metricsLeft, current, hik, hs, hpre, hrest, hcur, hacc, hstart => by
    have hiL : i < b.calculatedLayers := by omega
    rw [searchLayers]
    by_cases hml : 0 < metricsLeft
    · rw [if_pos hml]
      obtain ⟨r1, hr1, hs1, hb1, hb2, hb3, hfr, hum, hsub, hadv, hstay⟩ :=
        searchLayer_spec b h0 hb p i s metricsLeft hiL hs
      rw [hr1]
      simp only [Res.bind]
      have hexact_lt : ∀ j, j < i → r1.1.Exact b j := by
        intro j hj
        have := hpre j hj (Or.inr hml)
        unfold Search.Exact at this ⊢
        rw [hum j (by omega), this]
        exact (b.metricAt_congr hb s.h r1.1.h j i (by omega) hiL (by omega) (by omega) hfr).symm
      obtain ⟨r, hr, hs2, hc1, hc2, hc3, hfin⟩ := searchLayers_spec b h0 hb p x k (i + 1) r1.1
        r1.2 (b.permCounterOverflow.getD i 0) (by omega) hs1
        (by
          intro j hj hcase
          by_cases hji : j = i
          · subst hji
            have hpos : 0 < r1.2 := by
              rcases hcase with h | h
              · omega
              · exact h
            by_cases ha : p % b.permCounterOverflow.getD j 0 = 0
            · rcases hadv ha with h | h
              · exact h
              · exfalso
                rw [hsub] at hpos
                linarith
            · rw [hstay ha]
              exact hrest j (le_refl _) hiL ha
          · exact hexact_lt j (by omega))
        (by
          intro j hij hj hna
          have ha : p % b.permCounterOverflow.getD i 0 ≠ 0 := by
            intro h0'
            apply hna
            have hdvd := hb.chain i j (by omega) hj
            exact Nat.mod_eq_zero_of_dvd (dvd_trans hdvd (Nat.dvd_of_mod_eq_zero h0'))
          rw [hstay ha]
          exact hrest j (by omega) hj hna)
        (fun _ => by simp)
        (by
          intro hpos
          rw [hsub, Search.usedSum_succ, Search.usedSum_congr s r1.1 i (fun j hj => hum j (by omega)),
            hacc hml]
          ring)
        (Or.inl (by omega))
      exact ⟨r, hr, hs2, hc1.trans hb1, hc2.trans hb2, hc3.trans hb3, hfin⟩
    · rw [if_neg hml]
      have hi0 : 0 < i := hstart.resolve_right hml
      refine ⟨(s, metricsLeft, current), rfl, hs, rfl, rfl, rfl, Or.inr ?_⟩
      exact ⟨le_of_not_lt hml, i - 1, by omega, fun j hj => hpre j (by omega) (Or.inl (by omega)),
        hcur hi0⟩

/-! ## The search loop keeps its record exact -/

theorem arraySet_getD (a : List ℚ) (i : Nat) (v : ℚ) (j : Nat) :
    (arraySet a i v 0).getD j 0 = if j = i then v else a.getD j 0 := by
  unfold arraySet
  by_cases hi : i < a.length
  · rw [if_pos hi, getD_set_eq]
    by_cases hji : j = i
    · rw [if_pos ⟨hji, hi⟩, if_pos hji]
    · rw [if_neg (fun h => hji h.1), if_neg hji]
  · rw [if_neg hi]
    simp only [List.getD_eq_getElem?_getD, List.append_assoc]
    by_cases hja : j < a.length
    · rw [List.getElem?_append_left hja, if_neg (by omega)]
    · rw [List.getElem?_append_right (by omega), List.getElem?_eq_none (l := a) (by omega)]
      by_cases hji : j = i
      · subst hji
        rw [if_pos rfl, List.getElem?_append_right (by simp)]
        simp
      · rw [if_neg hji]
        by_cases hlt : j < i
        · rw [List.getElem?_append_left (by simp; omega), List.getElem?_replicate]
          split_ifs <;> rfl
        · rw [List.getElem?_eq_none (by simp; omega)]

theorem writeMetrics_getD (start : Nat) :
    ∀ (um : List ℚ) (i : Nat) (metrics : List ℚ) (j : Nat),
      (writeMetrics start um i metrics).getD (j + start) 0 =
        if i ≤ j ∧ j < i + um.length then um.getD (j - i) 0 else metrics.getD (j + start) 0
  | [], i, metrics, j => by
    rw [writeMetrics, if_neg (by simp only [List.length_nil]; omega)]
  | v :: rest, i, metrics, j => by
    rw [writeMetrics, writeMetrics_getD start rest (i + 1) _ j]
    by_cases h1 : i + 1 ≤ j ∧ j < i + 1 + rest.length
    · rw [if_pos h1, if_pos ⟨by omega, by simp only [List.length_cons]; omega⟩]
      have : j - i = (j - (i + 1)) + 1 := by omega
      rw [this, List.getD_cons_succ]
    · rw [if_neg h1, arraySet_getD]
      by_cases hji : j = i
      · subst hji
        rw [if_pos rfl, if_pos ⟨le_refl _, by simp⟩]
        simp
      · rw [if_neg (by omega), if_neg (by simp only [List.length_cons]; omega)]

theorem nextIncrement_dvd (totalPerms p current : Nat)
    (hdvd : current ∣ totalPerms) (hp : p < totalPerms) :
    current ∣ p + nextIncrement totalPerms p current := by
  unfold nextIncrement
  split_ifs with h0
  · have h1 : current ∣ totalPerms - p := Nat.dvd_of_mod_eq_zero h0
    have h2 : current ∣ p := by
      have := Nat.dvd_sub' hdvd h1
      rwa [Nat.sub_sub_self (le_of_lt hp)] at this
    exact Dvd.dvd.add h2 (dvd_refl _)
  · apply Nat.dvd_of_mod_eq_zero
    rw [Nat.add_mod, Nat.mod_mod, ← Nat.add_mod, Nat.add_sub_cancel' (le_of_lt hp)]
    exact Nat.mod_eq_zero_of_dvd hdvd

theorem Block.metricSum_nonneg (b : Block) (h : Heap) : 0 ≤ b.metricSum h := by
  unfold Block.metricSum
  apply List.sum_nonneg
  intro x hx
  obtain ⟨i, _, rfl⟩ := List.mem_map.mp hx
  exact metricValue_nonneg _ _ _

theorem Block.metricSum_eq_usedSum (b : Block) (s : Search)
    (h : ∀ j, j < b.calculatedLayers → s.Exact b j) :
    b.metricSum s.h = s.usedSum b.calculatedLayers := by
  unfold Block.metricSum Search.usedSum
  congr 1
  apply List.map_congr_left
  intro j hj
  exact (h j (List.mem_range.mp hj)).symm

theorem Block.metricSum_congr (b : Block) (h h' : Heap) (hag : ∀ n, h'.orth n = h.orth n) :
    b.metricSum h' = b.metricSum h := by
  unfold Block.metricSum
  congr 1
  apply List.map_congr_left
  intro j _
  exact b.metricAt_congr_all h h' j hag

/-- Recording an ordering whose entries of `usedMetrics` are all exact and
whose total is below the best so far gives a correct record. -/
theorem recordBest_ok (b : Block) (h0 : Heap) (s : Search) (metricsLeft : ℚ)
    (hs : SearchOK b h0 s) (hbest : BestOK b h0 s) (hpos : 0 < metricsLeft)
    (hex : ∀ j, j < b.calculatedLayers → s.Exact b j)
    (hml : metricsLeft = s.bestMetrics - s.usedSum b.calculatedLayers) :
    SearchOK b h0 (recordBest b s metricsLeft) ∧ BestOK b h0 (recordBest b s metricsLeft) ∧
      (∀ j, j < b.calculatedLayers → (recordBest b s metricsLeft).Exact b j) := by
  refine ⟨⟨hs.lenMetrics, hs.lenState, hs.lenShift, hs.window, hs.defined, hs.definedFrom,
    hs.frame⟩, ?_, hex⟩
  obtain ⟨hb, _, _, h3, _, h5⟩ := hbest
  have hsum := b.metricSum_eq_usedSum s hex
  refine ⟨s.h, rfl, hs.frame, ?_, ?_, ?_⟩
  · show s.bestMetrics - metricsLeft = b.metricSum s.h
    rw [hsum, hml]
    ring
  · intro i hi
    show (writeMetrics b.start s.usedMetrics 0 s.metrics).getD (i + b.start) 0 = _
    rw [writeMetrics_getD, if_pos ⟨Nat.zero_le _, by rw [hs.lenMetrics]; omega⟩]
    exact hex i hi
  · have : b.metricSum s.h = s.bestMetrics - metricsLeft := by
      rw [hsum, hml]
      ring
    rw [this, h3]
    linarith

/-- The search loop of a block searched without symmetry returns once the fuel
exceeds the number of values of `p` left, with a state that fits the block
and a correct record of the best ordering. -/
theorem searchLoop_spec (b : Block) (h0 : Heap) (hb : BlockOK b) :
    ∀ (fuel : Nat) (s : Search) (p permsExecuted : Nat),
      1 ≤ fuel → b.totalPerms + 1 ≤ fuel + p →
      SearchOK b h0 s → BestOK b h0 s → 0 < s.bestMetrics →
      (∃ k, k ≤ b.calculatedLayers ∧ (∀ j, j < k → s.Exact b j) ∧
        (k < b.calculatedLayers → b.permCounterOverflow.getD k 0 ∣ p)) →
      ∃ t, searchLoop b fuel s p permsExecuted = .ok t ∧ SearchOK b h0 t.1 ∧ BestOK b h0 t.1
  | 0, s, p, pe, h1, _, _, _, _, _ => by
    exfalso
    omega
  | fuel + 1, s, p, pe, _, hf, hs, hbest, hpos, hhead => by
    rw [searchLoop]
    by_cases hc : (pe : Int) < b.thresholdEvaluate ∧ p < b.totalPerms
    · rw [if_pos hc]
      have hinc := fun current => nextIncrement_pos b.totalPerms p current hc.2
      obtain ⟨k, hk, hkex, hkdvd⟩ := hhead
      obtain ⟨r, hr, hs1, hc1, hc2, hc3, hfin⟩ := searchLayers_spec b h0 hb p s.bestMetrics
        b.calculatedLayers 0 s s.bestMetrics 1 (by omega) hs
        (fun j hj _ => absurd hj (Nat.not_lt_zero _))
        (by
          intro j _ hj hna
          by_cases hjk : j < k
          · exact hkex j hjk
          · exfalso
            apply hna
            have hkL : k < b.calculatedLayers := by omega
            exact Nat.mod_eq_zero_of_dvd (dvd_trans (hb.chain k j (by omega) hj) (hkdvd hkL)))
        (fun h => absurd h (Nat.lt_irrefl _))
        (fun _ => by simp [Search.usedSum])
        (Or.inr hpos)
      rw [hr]
      simp only [Res.bind]
      have hbest1 : BestOK b h0 r.1 := by
        obtain ⟨hb', h1, h2, h3, h4, h5⟩ := hbest
        exact ⟨hb', hc1.trans h1, h2, hc2.trans h3, fun i hi => by rw [hc3]; exact h4 i hi, h5⟩
      rcases hfin with ⟨hml, hex, hacc⟩ | ⟨hml, e, he, hex, hcur⟩
      · rw [if_pos hml]
        obtain ⟨hs2, hbest2, hex2⟩ := recordBest_ok b h0 r.1 r.2.1 hs1 hbest1 hml hex
          (by rw [hacc, hc2])
        split_ifs with hzero
        · exact ⟨_, rfl, hs2, hbest2⟩
        · have hpos2 : 0 < (recordBest b r.1 r.2.1).bestMetrics := by
            obtain ⟨hb', _, _, h3, _, _⟩ := hbest2
            have := b.metricSum_nonneg hb'
            rw [← h3] at this
            exact lt_of_le_of_ne this (Ne.symm hzero)
          have := hinc r.2.2
          exact searchLoop_spec b h0 hb fuel _ _ (pe + 1) (by omega) (by omega) hs2 hbest2 hpos2
            ⟨b.calculatedLayers, le_refl _, hex2, fun h => absurd h (Nat.lt_irrefl _)⟩
      · rw [if_neg (not_lt.mpr hml)]
        have := hinc r.2.2
        refine searchLoop_spec b h0 hb fuel _ _ (pe + 1) (by omega) (by omega) hs1 hbest1
          (by rw [hc2]; exact hpos) ⟨e, le_of_lt he, hex, fun _ => ?_⟩
        rw [hcur]
        exact nextIncrement_dvd _ _ _ (hb.overflowTotal e he) hc.2
    · rw [if_neg hc]
      exact ⟨_, rfl, hs, hbest⟩

/-! ## The first loop of `findBestPermutation` -/

theorem Res.foldl_append {σ α : Type} (f : σ → α → Res σ) :
    ∀ (l1 l2 : List α) (s : σ),
      Res.foldl f s (l1 ++ l2) = (Res.foldl f s l1).bind (fun s' => Res.foldl f s' l2)
  | [], l2, s => rfl
  | a :: l1, l2, s => by
    simp only [List.cons_append, Res.foldl]
    cases f s a with
    | ok s' => exact Res.foldl_append f l1 l2 s'
    | throw m => rfl
    | timeout => rfl

theorem totalCrossingsInner_le (q : ℚ) (e1 : ℚ × ℚ) :
    ∀ (rest : List (ℚ × ℚ)) (res : Nat),
      totalCrossingsInner q e1 rest res ≤ res + rest.countP (fun e2 => crosses e1 e2)
  | [], res => by simp [totalCrossingsInner]
  | e2 :: rest, res => by
    rw [totalCrossingsInner]
    split_ifs with hlt hc
    · have := totalCrossingsInner_le q e1 rest (res + 1)
      simp only [List.countP_cons, hc, if_true]
      omega
    · have := totalCrossingsInner_le q e1 rest res
      simp only [List.countP_cons, hc]
      simpa using this
    · omega

theorem totalCrossingsOuter_le (q : ℚ) :
    ∀ (edges : List (ℚ × ℚ)) (res : Nat),
      totalCrossingsOuter q edges res ≤ res + crossingsRef edges
  | [], res => by simp [totalCrossingsOuter]
  | e1 :: rest, res => by
    rw [totalCrossingsOuter]
    split_ifs with hlt
    · have h1 := totalCrossingsInner_le q e1 rest res
      have h2 := totalCrossingsOuter_le q rest (totalCrossingsInner q e1 rest res)
      rw [crossingsRef]
      omega
    · omega

theorem totalDistanceLoop_le (b : ℚ) :
    ∀ (edges : List (ℚ × ℚ)) (res : ℚ),
      totalDistanceLoop b edges res ≤ res + distanceRef edges
  | [], res => by simp [totalDistanceLoop, distanceRef]
  | e :: rest, res => by
    rw [totalDistanceLoop, distanceRef_cons]
    split_ifs with hlt
    · have := totalDistanceLoop_le b rest (res + edgeLength e)
      rw [edgeLength_eq_abs] at this ⊢
      linarith
    · have h1 := distanceRef_nonneg rest
      have h2 := abs_nonneg (e.2 - e.1)
      linarith

/-- With the bound `Number.MAX_VALUE` above the exact metric, `metricsFunction`
returns the exact metric. -/
theorem metricsFunction_exact (metricsMethod : String) (h : Heap) (es : List (Nat × Nat))
    (hdef : (edgeOrths h es).isSome) (hlt : metricValue metricsMethod h es < maxValue) :
    metricsFunction metricsMethod h (some es) maxValue =
      .ok (metricValue metricsMethod h es) := by
  obtain ⟨v, hv, hval⟩ := metricsFunction_spec metricsMethod h es maxValue hdef
  rw [hv]
  rcases hval with h1 | h1
  · rw [h1]
  · exfalso
    obtain ⟨os, hos⟩ := Option.isSome_iff_exists.mp hdef
    have hle : v ≤ metricValue metricsMethod h es := by
      unfold metricsFunction at hv
      unfold metricValue
      simp only [hos, Res.ok.injEq] at hv ⊢
      rw [← hv]
      split_ifs
      · have := totalCrossingsOuter_le maxValue os 0
        unfold totalCrossings
        exact_mod_cast (by simpa using this)
      · have := totalDistanceLoop_le maxValue os 0
        simpa [totalDistance] using this
    linarith

/-- The first loop of `findBestPermutation` without symmetry, on a block
whose edges have ordinals and whose metrics are below `Number.MAX_VALUE`:
`usedMetrics`, `metrics` and `bestMetrics` hold the exact metrics of the entry
ordering, `bestResult` its ordinals, each `permState[i]` is a window of zeros
and `permCounterOverflow` holds the products of the first entries of
`permsLayer`. -/
theorem findInit_spec (metricsMethod : String) (h : Heap) (usedNodes : List (List Nat))
    (usedEdges : List (List (Nat × Nat))) (permsLayer permWidthsLayer : List Nat) (start : Nat)
    (metrics : List ℚ) :
    ∀ (n : Nat), n ≤ usedNodes.length → n ≤ usedEdges.length →
      (∀ i, i < n → (edgeOrths h (usedEdges.getD i [])).isSome) →
      (∀ i, i < n → metricValue metricsMethod h (usedEdges.getD i []) < maxValue) →
      ∃ r, Res.foldl
          (findInitStep metricsMethod usedNodes usedEdges permsLayer permWidthsLayer start false)
          ({ h := h, metrics := metrics, usedMetrics := [], permState := [], permShift := [],
             bestResult := [], bestMetrics := 0 }, 1, []) (List.range n) = .ok r ∧
        r.1.h = h ∧
        r.1.usedMetrics =
          (List.range n).map (fun i => metricValue metricsMethod h (usedEdges.getD i [])) ∧
        r.1.permState =
          (List.range n).map (fun i => List.replicate (permWidthsLayer.getD (i + start) 1) 0) ∧
        r.1.permShift = (List.range n).map (fun _ => 0) ∧
        r.1.bestResult = (List.range n).map (fun i => (usedNodes.getD i []).map h.orth) ∧
        r.1.bestMetrics =
          ((List.range n).map
            (fun i => metricValue metricsMethod h (usedEdges.getD i []))).sum ∧
        (∀ j, r.1.metrics.getD (j + start) 0 =
          if j < n then metricValue metricsMethod h (usedEdges.getD j [])
          else metrics.getD (j + start) 0) ∧
        r.2.1 = ((List.range n).map (fun i => permsLayer.getD (i + start) 0)).prod ∧
        r.2.2 = (List.range n).map
          (fun i => ((List.range (i + 1)).map (fun t => permsLayer.getD (t + start) 0)).prod)
  | 0, _, _, _, _ => by
    refine ⟨_, rfl, rfl, rfl, rfl, rfl, rfl, rfl, ?_, rfl, rfl⟩
    intro j
    simp
  | n + 1, hn, he, hdef, hlt => by
    obtain ⟨r, hr, h1, h2, h3, h4, h5, h6, h7, h8, h9⟩ := findInit_spec metricsMethod h usedNodes
      usedEdges permsLayer permWidthsLayer start metrics n (by omega) (by omega)
      (fun i hi => hdef i (by omega)) (fun i hi => hlt i (by omega))
    rw [List.range_succ, Res.foldl_append, hr]
    simp only [Res.bind, Res.foldl]
    have hes : usedEdges[n]? = some (usedEdges.getD n []) := by
      rw [List.getD_eq_getElem?_getD, List.getElem?_eq_getElem (by omega)]
      rfl
    have hns : usedNodes[n]? = some (usedNodes.getD n []) := by
      rw [List.getD_eq_getElem?_getD, List.getElem?_eq_getElem (by omega)]
      rfl
    have hstep : findInitStep metricsMethod usedNodes usedEdges permsLayer permWidthsLayer start
        false r n = .ok ({ r.1 with
            metrics := arraySet r.1.metrics (n + start)
              (metricValue metricsMethod h (usedEdges.getD n [])) 0
            usedMetrics := r.1.usedMetrics ++ [metricValue metricsMethod h (usedEdges.getD n [])]
            bestMetrics := r.1.bestMetrics + metricValue metricsMethod h (usedEdges.getD n [])
            bestResult := r.1.bestResult ++ [(usedNodes.getD n []).map r.1.h.orth]
            permShift := r.1.permShift ++ [0]
            permState := r.1.permState ++ [List.replicate (permWidthsLayer.getD (n + start) 1) 0] },
          r.2.1 * permsLayer.getD (n + start) 0,
          r.2.2 ++ [r.2.1 * permsLayer.getD (n + start) 0]) := by
      unfold findInitStep
      have hfalse : ¬ (false = true ∧ n = 0) := by simp
      rw [if_neg hfalse, hes, h1,
        metricsFunction_exact metricsMethod h _ (hdef n (by omega)) (hlt n (by omega))]
      simp only [Res.bind, hns, h1]
    rw [hstep]
    refine ⟨_, rfl, h1, ?_, ?_, ?_, ?_, ?_, ?_, ?_, ?_⟩
    · simp [h2]
    · simp [h3]
    · simp [h4]
    · simp [h5, h1]
    · simp [h6]
    · intro j
      show (arraySet r.1.metrics (n + start) _ 0).getD (j + start) 0 = _
      rw [arraySet_getD, h7 j]
      by_cases hj : j = n
      · subst hj
        simp
      · rw [if_neg (by omega)]
        by_cases hjn : j < n
        · rw [if_pos hjn, if_pos (by omega)]
        · rw [if_neg hjn, if_neg (by omega)]
    · simp [h8]
    · simp [h9, h8, List.range_succ]

/-! ## Slices, prefix products and the write-back -/

theorem jsSlice_eq {α : Type} (l : List α) (a b : Nat) (hab : a ≤ b) (hb : b ≤ l.length) :
    jsSlice l (a : Int) (b : Int) = (l.drop a).take (b - a) := by
  unfold jsSlice
  have h1 : ¬ ((a : Int) < 0) := by omega
  have h2 : ¬ ((b : Int) < 0) := by omega
  simp only [h1, h2, if_false]
  have h3 : min (a : Int) (l.length : Int) = (a : Int) := min_eq_left (by omega)
  have h4 : min (b : Int) (l.length : Int) = (b : Int) := min_eq_left (by omega)
  rw [h3, h4]
  have h5 : ((b : Int) - (a : Int)).toNat = b - a := by omega
  rw [h5, Int.toNat_ofNat]

theorem jsSlice_length {α : Type} (l : List α) (a b : Nat) (hab : a ≤ b) (hb : b ≤ l.length) :
    (jsSlice l (a : Int) (b : Int)).length = b - a := by
  rw [jsSlice_eq l a b hab hb, List.length_take, List.length_drop]
  omega

theorem jsSlice_getD {α : Type} (l : List α) (a b : Nat) (hab : a ≤ b) (hb : b ≤ l.length)
    (i : Nat) (hi : i < b - a) (d : α) :
    (jsSlice l (a : Int) (b : Int)).getD i d = l.getD (a + i) d := by
  rw [jsSlice_eq l a b hab hb]
  simp only [List.getD_eq_getElem?_getD, List.getElem?_take, hi, if_true, List.getElem?_drop]

theorem map_range_getD {α β : Type} (l : List α) (d : α) (g : α → β) :
    (List.range l.length).map (fun i => g (l.getD i d)) = l.map g := by
  apply List.ext_getElem
  · simp
  · intro i h1 h2
    simp only [List.getElem_map, List.getElem_range]
    congr 1
    rw [List.getD_eq_getElem?_getD, List.getElem?_eq_getElem (by simpa using h2)]
    rfl

theorem getD_map_range {β : Type} (f : Nat → β) (n i : Nat) (d : β) (hi : i < n) :
    ((List.range n).map f).getD i d = f i := by
  rw [List.getD_eq_getElem?_getD, List.getElem?_eq_getElem (by simpa using hi)]
  simp

/-- The product of `f 0` to `f (a - 1)` divides the product up to `f (b - 1)`
for `a ≤ b`. -/
theorem prod_range_split (f : Nat → Nat) (a : Nat) :
    ∀ (c : Nat), ∃ m, ((List.range (a + c)).map f).prod = ((List.range a).map f).prod * m ∧
      ((∀ t, a ≤ t → t < a + c → 1 ≤ f t) → 1 ≤ m)
  | 0 => ⟨1, by simp, fun _ => le_refl _⟩
  | c + 1 => by
    obtain ⟨m, hm, hpos⟩ := prod_range_split f a c
    refine ⟨m * f (a + c), ?_, ?_⟩
    · rw [← Nat.add_assoc, List.range_succ, List.map_append, List.prod_append, hm]
      simp [Nat.mul_assoc]
    · intro hf
      have h1 := hpos (fun t h1 h2 => hf t h1 (by omega))
      have h2 := hf (a + c) (by omega) (by omega)
      exact Nat.mul_pos h1 h2

theorem writeBackLayer_map (f : Nat → Option ℚ) :
    ∀ (ns : List Nat) (h : Heap) (n : Nat),
      (writeBackLayer ns (ns.map f) h).orth n = if n ∈ ns then f n else h.orth n
  | [], h, n => by simp [writeBackLayer]
  | a :: ns, h, n => by
    rw [List.map_cons, writeBackLayer, writeBackLayer_map f ns _ n]
    by_cases hn : n ∈ ns
    · rw [if_pos hn, if_pos (List.mem_cons_of_mem _ hn)]
    · rw [if_neg hn]
      by_cases hna : n = a
      · subst hna
        simp [upd]
      · rw [if_neg (by simp [hna, hn])]
        simp [upd, hna]

theorem writeBack_map (f : Nat → Option ℚ) :
    ∀ (layers : List (List Nat)) (h : Heap) (n : Nat),
      (writeBack layers (layers.map (fun nodeLayer => nodeLayer.map f)) h).orth n =
        if ∃ nodeLayer ∈ layers, n ∈ nodeLayer then f n else h.orth n
  | [], h, n => by simp [writeBack]
  | ns :: layers, h, n => by
    rw [List.map_cons, writeBack, writeBack_map f layers _ n, writeBackLayer_map]
    by_cases h1 : ∃ nodeLayer ∈ layers, n ∈ nodeLayer
    · obtain ⟨nl, hnl, hn⟩ := h1
      rw [if_pos ⟨nl, hnl, hn⟩, if_pos ⟨nl, List.mem_cons_of_mem _ hnl, hn⟩]
    · rw [if_neg h1]
      by_cases h2 : n ∈ ns
      · rw [if_pos h2, if_pos ⟨ns, List.mem_cons_self _ _, h2⟩]
      · rw [if_neg h2, if_neg]
        rintro ⟨nl, hnl, hn⟩
        rcases List.mem_cons.mp hnl with rfl | h3
        · exact h2 hn
        · exact h1 ⟨nl, h3, hn⟩

/-! ## The block built by `findBestPermutation` -/

theorem overflow_getD (f : Nat → Nat) (n i : Nat) (hi : i < n) :
    (((List.range n).map (fun i => ((List.range (i + 1)).map f).prod)).map
      (fun prefixPerms => ((List.range n).map f).prod / prefixPerms)).getD i 0 =
      ((List.range n).map f).prod / ((List.range (i + 1)).map f).prod := by
  rw [List.map_map, getD_map_range _ _ _ _ hi]
  rfl

theorem overflow_quotient (f : Nat → Nat) (n i : Nat) (hi : i < n)
    (hf : ∀ t, t < n → 1 ≤ f t) :
    ∃ m, 1 ≤ m ∧ ((List.range n).map f).prod = ((List.range (i + 1)).map f).prod * m ∧
      ((List.range n).map f).prod / ((List.range (i + 1)).map f).prod = m ∧
      1 ≤ ((List.range (i + 1)).map f).prod := by
  obtain ⟨m, hm, hpos⟩ := prod_range_split f (i + 1) (n - (i + 1))
  obtain ⟨m0, hm0, hpos0⟩ := prod_range_split f 0 (i + 1)
  have hn : i + 1 + (n - (i + 1)) = n := by omega
  rw [hn] at hm hpos
  have h1 : 1 ≤ m := hpos (fun t _ ht => hf t ht)
  have h0 : 1 ≤ ((List.range (i + 1)).map f).prod := by
    have := hpos0 (fun t _ ht => hf t (by omega))
    simp only [Nat.zero_add, List.range_zero, List.map_nil, List.prod_nil, one_mul] at hm0
    rw [hm0]
    exact this
  exact ⟨m, h1, hm, by rw [hm, Nat.mul_div_cancel_left m (by omega)], h0⟩

theorem overflow_chain (f : Nat → Nat) (n i j : Nat) (hij : i ≤ j) (hj : j < n)
    (hf : ∀ t, t < n → 1 ≤ f t) :
    ((List.range n).map f).prod / ((List.range (j + 1)).map f).prod ∣
      ((List.range n).map f).prod / ((List.range (i + 1)).map f).prod := by
  obtain ⟨m2, _, h2, hq2, hp2⟩ := overflow_quotient f n j hj hf
  obtain ⟨m1, _, h1, hq1, hp1⟩ := overflow_quotient f n i (by omega) hf
  obtain ⟨m, hm, _⟩ := prod_range_split f (i + 1) (j - i)
  have hji : i + 1 + (j - i) = j + 1 := by omega
  rw [hji] at hm
  rw [hq1, hq2]
  have : ((List.range (i + 1)).map f).prod * m1 = ((List.range (i + 1)).map f).prod * (m * m2) := by
    rw [← h1, h2, hm, Nat.mul_assoc]
  have hm1 : m1 = m * m2 := Nat.eq_of_mul_eq_mul_left (by omega) this
  rw [hm1]
  exact Dvd.intro_left m rfl

/-- The search loop and the write-back of `findBestPermutation`, for a block
and an initial state that satisfy the invariants. -/
theorem findBestPermutation_search (fuel : Nat) (h : Heap) (nodes : List (List Nat))
    (edges : List (List (Nat × Nat))) (start end_ : Nat) (thresholdEvaluate : Int)
    (metricsMethod : String) (permsLayer : List Nat) (metrics : List ℚ)
    (r : Search × Nat × List Nat)
    (hfuel : blockPerms permsLayer start end_ ≤ fuel)
    (hpos : 1 ≤ blockPerms permsLayer start end_)
    (htot : r.2.1 = blockPerms permsLayer start end_)
    (hunL : (jsSlice nodes (start : Int) (end_ : Int)).length = end_ - start)
    (hblock : ∀ h' : Heap, blockMetric metricsMethod h' edges start end_ =
      ((List.range (end_ - start)).map (fun i => metricValue metricsMethod h'
        ((jsSlice edges ((start : Int) - 1) ((end_ : Int) - 1)).getD i []))).sum)
    (hedge : ∀ l, start ≤ l → l < end_ → edges.getD (l - 1) [] =
      (jsSlice edges ((start : Int) - 1) ((end_ : Int) - 1)).getD (l - start) [])
    (h1 : r.1.h = h)
    (h2 : r.1.usedMetrics = (List.range (end_ - start)).map (fun i =>
      metricValue metricsMethod h
        ((jsSlice edges ((start : Int) - 1) ((end_ : Int) - 1)).getD i [])))
    (h5 : r.1.bestResult = (List.range (end_ - start)).map
      (fun i => ((jsSlice nodes (start : Int) (end_ : Int)).getD i []).map h.orth))
    (h6 : r.1.bestMetrics = ((List.range (end_ - start)).map (fun i =>
      metricValue metricsMethod h
        ((jsSlice edges ((start : Int) - 1) ((end_ : Int) - 1)).getD i []))).sum)
    (h7 : ∀ j, r.1.metrics.getD (j + start) 0 =
      if j < end_ - start then
        metricValue metricsMethod h
          ((jsSlice edges ((start : Int) - 1) ((end_ : Int) - 1)).getD j [])
      else metrics.getD (j + start) 0)
    (hzero : ¬ r.1.bestMetrics = 0)
    (hbk : BlockOK
      { calculatedLayers := end_ - start, usedNodes := jsSlice nodes (start : Int) (end_ : Int),
        usedEdges := jsSlice edges ((start : Int) - 1) ((end_ : Int) - 1),
        permCounterOverflow := r.2.2.map (fun prefixPerms => r.2.1 / prefixPerms),
        totalPerms := r.2.1, start := start, symmetry := false,
        thresholdEvaluate := thresholdEvaluate, metricsMethod := metricsMethod })
    (hsk : SearchOK
      { calculatedLayers := end_ - start, usedNodes := jsSlice nodes (start : Int) (end_ : Int),
        usedEdges := jsSlice edges ((start : Int) - 1) ((end_ : Int) - 1),
        permCounterOverflow := r.2.2.map (fun prefixPerms => r.2.1 / prefixPerms),
        totalPerms := r.2.1, start := start, symmetry := false,
        thresholdEvaluate := thresholdEvaluate, metricsMethod := metricsMethod } h r.1) :
    ∃ h' metrics' count,
      ((searchLoop
        { calculatedLayers := end_ - start, usedNodes := jsSlice nodes (start : Int) (end_ : Int),
          usedEdges := jsSlice edges ((start : Int) - 1) ((end_ : Int) - 1),
          permCounterOverflow := r.2.2.map (fun prefixPerms => r.2.1 / prefixPerms),
          totalPerms := r.2.1, start := start, symmetry := false,
          thresholdEvaluate := thresholdEvaluate, metricsMethod := metricsMethod }
        fuel r.1 1 1).bind fun t =>
        Res.ok (writeBack (jsSlice nodes (start : Int) (end_ : Int)) t.1.bestResult t.1.h,
          t.1.metrics, t.2)) = .ok (h', metrics', count) ∧
      blockMetric metricsMethod h' edges start end_ ≤
        blockMetric metricsMethod h edges start end_ ∧
      ∀ l, start ≤ l → l < end_ →
        metrics'.getD l 0 = metricValue metricsMethod h' (edges.getD (l - 1) []) := by
  have hbest : BestOK
      { calculatedLayers := end_ - start, usedNodes := jsSlice nodes (start : Int) (end_ : Int),
        usedEdges := jsSlice edges ((start : Int) - 1) ((end_ : Int) - 1),
        permCounterOverflow := r.2.2.map (fun prefixPerms => r.2.1 / prefixPerms),
        totalPerms := r.2.1, start := start, symmetry := false,
        thresholdEvaluate := thresholdEvaluate, metricsMethod := metricsMethod } h r.1 := by
    refine ⟨h, ?_, fun _ _ => rfl, h6, ?_, le_refl _⟩
    · rw [h5, ← hunL]
      exact map_range_getD _ [] (fun nodeLayer => nodeLayer.map h.orth)
    · intro i (hi : i < end_ - start)
      have := h7 i
      rw [if_pos hi] at this
      exact this
  have hnonneg := Block.metricSum_nonneg
      { calculatedLayers := end_ - start, usedNodes := jsSlice nodes (start : Int) (end_ : Int),
        usedEdges := jsSlice edges ((start : Int) - 1) ((end_ : Int) - 1),
        permCounterOverflow := r.2.2.map (fun prefixPerms => r.2.1 / prefixPerms),
        totalPerms := r.2.1, start := start, symmetry := false,
        thresholdEvaluate := thresholdEvaluate, metricsMethod := metricsMethod } h
  have hpos' : 0 < r.1.bestMetrics := by
    have h6' : r.1.bestMetrics = Block.metricSum
      { calculatedLayers := end_ - start, usedNodes := jsSlice nodes (start : Int) (end_ : Int),
        usedEdges := jsSlice edges ((start : Int) - 1) ((end_ : Int) - 1),
        permCounterOverflow := r.2.2.map (fun prefixPerms => r.2.1 / prefixPerms),
        totalPerms := r.2.1, start := start, symmetry := false,
        thresholdEvaluate := thresholdEvaluate, metricsMethod := metricsMethod } h := h6
    rw [← h6'] at hnonneg
    exact lt_of_le_of_ne hnonneg (Ne.symm hzero)
  obtain ⟨t, ht, hst, hbt⟩ := searchLoop_spec
      { calculatedLayers := end_ - start, usedNodes := jsSlice nodes (start : Int) (end_ : Int),
        usedEdges := jsSlice edges ((start : Int) - 1) ((end_ : Int) - 1),
        permCounterOverflow := r.2.2.map (fun prefixPerms => r.2.1 / prefixPerms),
        totalPerms := r.2.1, start := start, symmetry := false,
        thresholdEvaluate := thresholdEvaluate, metricsMethod := metricsMethod }
      h hbk fuel r.1 1 1 (by omega)
    (by show r.2.1 + 1 ≤ fuel + 1; omega) hsk hbest hpos'
    ⟨end_ - start, le_refl _, fun j (hj : j < end_ - start) => by
      show r.1.usedMetrics.getD j 0 = metricValue metricsMethod r.1.h
        ((jsSlice edges ((start : Int) - 1) ((end_ : Int) - 1)).getD j [])
      rw [h2, getD_map_range _ _ _ _ hj, h1], fun hk => absurd hk (Nat.lt_irrefl _)⟩
  rw [ht]
  simp only [Res.bind]
  obtain ⟨hb', e1, e2, e3, e4, e5⟩ := hbt
  have horth : ∀ n,
      (writeBack (jsSlice nodes (start : Int) (end_ : Int)) t.1.bestResult t.1.h).orth n =
        hb'.orth n := by
    intro n
    rw [e1]
    show (writeBack (jsSlice nodes (start : Int) (end_ : Int))
      ((jsSlice nodes (start : Int) (end_ : Int)).map (fun nodeLayer => nodeLayer.map hb'.orth))
      t.1.h).orth n = _
    rw [writeBack_map]
    split_ifs with hmem
    · rfl
    · have hnot : ∀ i, i < end_ - start →
          n ∉ (jsSlice nodes (start : Int) (end_ : Int)).getD i [] := by
        intro i hi hn
        apply hmem
        refine ⟨_, ?_, hn⟩
        rw [List.getD_eq_getElem?_getD,
          List.getElem?_eq_getElem (by rw [hunL]; exact hi)]
        exact List.getElem_mem _
      rw [hst.frame n hnot, e2 n hnot]
  refine ⟨_, _, _, rfl, ?_, ?_⟩
  · rw [hblock, hblock]
    have := Block.metricSum_congr
      { calculatedLayers := end_ - start, usedNodes := jsSlice nodes (start : Int) (end_ : Int),
        usedEdges := jsSlice edges ((start : Int) - 1) ((end_ : Int) - 1),
        permCounterOverflow := r.2.2.map (fun prefixPerms => r.2.1 / prefixPerms),
        totalPerms := r.2.1, start := start, symmetry := false,
        thresholdEvaluate := thresholdEvaluate, metricsMethod := metricsMethod }
      hb' _ horth
    exact le_of_eq_of_le this e5
  · intro l hl1 hl2
    have h4 := e4 (l - start) (by show l - start < end_ - start; omega)
    have h4' : t.1.metrics.getD (l - start + start) 0 = _ := h4
    rw [Nat.sub_add_cancel hl1] at h4'
    rw [h4', hedge l hl1 hl2]
    exact (Block.metricAt_congr_all
      { calculatedLayers := end_ - start, usedNodes := jsSlice nodes (start : Int) (end_ : Int),
        usedEdges := jsSlice edges ((start : Int) - 1) ((end_ : Int) - 1),
        permCounterOverflow := r.2.2.map (fun prefixPerms => r.2.1 / prefixPerms),
        totalPerms := r.2.1, start := start, symmetry := false,
        thresholdEvaluate := thresholdEvaluate, metricsMethod := metricsMethod }
      hb' _ (l - start) horth).symm

/-- The part of `findBestPermutation` after its first loop, for the block that
the loop has built. -/
theorem findBestPermutation_finish (fuel : Nat) (h : Heap) (nodes : List (List Nat))
    (edges : List (List (Nat × Nat))) (metrics : List ℚ) (permsLayer permWidthsLayer : List Nat)
    (start end_ : Nat) (thresholdEvaluate : Int) (metricsMethod : String)
    (hstart : 1 ≤ start) (hlt : start < end_)
    (hperms : ∀ l, start ≤ l → l < end_ → 1 ≤ permsLayer.getD l 0)
    (hwidths : ∀ l, start ≤ l → l < end_ →
      permWidthsLayer.getD l 1 ≤ (nodes.getD l []).length)
    (hends : ∀ l, start ≤ l → l < end_ → ∀ e ∈ edges.getD (l - 1) [],
      e.1 ∈ nodes.getD (l - 1) [] ∧ e.2 ∈ nodes.getD l [])
    (hdef : ∀ l, start - 1 ≤ l → l < end_ → ∀ n ∈ nodes.getD l [], (h.orth n).isSome)
    (hfuel : blockPerms permsLayer start end_ ≤ fuel)
    (hunL : (jsSlice nodes (start : Int) (end_ : Int)).length = end_ - start)
    (hueL : (jsSlice edges ((start : Int) - 1) ((end_ : Int) - 1)).length = end_ - start)
    (hun : ∀ i, i < end_ - start →
      (jsSlice nodes (start : Int) (end_ : Int)).getD i [] = nodes.getD (start + i) [])
    (hue : ∀ i, i < end_ - start →
      (jsSlice edges ((start : Int) - 1) ((end_ : Int) - 1)).getD i [] =
        edges.getD (start - 1 + i) [])
    (hdisj : ∀ l l', start - 1 ≤ l → l < end_ → start - 1 ≤ l' → l' < end_ → l ≠ l' →
      ∀ n ∈ nodes.getD l [], n ∉ nodes.getD l' [])
    (r : Search × Nat × List Nat)
    (hr : Res.foldl
      (findInitStep metricsMethod (jsSlice nodes (start : Int) (end_ : Int))
        (jsSlice edges ((start : Int) - 1) ((end_ : Int) - 1)) permsLayer permWidthsLayer start
        false)
      ({ h := h, metrics := metrics, usedMetrics := [], permState := [], permShift := [],
         bestResult := [], bestMetrics := 0 }, 1, []) (List.range (end_ - start)) = .ok r)
    (h1 : r.1.h = h)
    (h2 : r.1.usedMetrics = (List.range (end_ - start)).map (fun i =>
      metricValue metricsMethod h
        ((jsSlice edges ((start : Int) - 1) ((end_ : Int) - 1)).getD i [])))
    (h3 : r.1.permState = (List.range (end_ - start)).map
      (fun i => List.replicate (permWidthsLayer.getD (i + start) 1) 0))
    (h4 : r.1.permShift = (List.range (end_ - start)).map (fun _ => 0))
    (h5 : r.1.bestResult = (List.range (end_ - start)).map
      (fun i => ((jsSlice nodes (start : Int) (end_ : Int)).getD i []).map h.orth))
    (h6 : r.1.bestMetrics = ((List.range (end_ - start)).map (fun i =>
      metricValue metricsMethod h
        ((jsSlice edges ((start : Int) - 1) ((end_ : Int) - 1)).getD i []))).sum)
    (h7 : ∀ j, r.1.metrics.getD (j + start) 0 =
      if j < end_ - start then
        metricValue metricsMethod h
          ((jsSlice edges ((start : Int) - 1) ((end_ : Int) - 1)).getD j [])
      else metrics.getD (j + start) 0)
    (h8 : r.2.1 = ((List.range (end_ - start)).map (fun i => permsLayer.getD (i + start) 0)).prod)
    (h9 : r.2.2 = (List.range (end_ - start)).map
      (fun i => ((List.range (i + 1)).map (fun t => permsLayer.getD (t + start) 0)).prod)) :
    ∃ h' metrics' count,
      findBestPermutation fuel h nodes edges metrics permsLayer permWidthsLayer start end_
        false thresholdEvaluate metricsMethod = .ok (h', metrics', count) ∧
      blockMetric metricsMethod h' edges start end_ ≤
        blockMetric metricsMethod h edges start end_ ∧
      ∀ l, start ≤ l → l < end_ →
        metrics'.getD l 0 = metricValue metricsMethod h' (edges.getD (l - 1) []) := by
  have hL : ∀ i, i < end_ - start → start ≤ start + i ∧ start + i < end_ := fun i hi => by omega
  have hpred : ∀ i, start - 1 + i = (start + i) - 1 := fun i => by omega
  have hf : ∀ t, t < end_ - start → 1 ≤ permsLayer.getD (t + start) 0 :=
    fun t ht => hperms (t + start) (by omega) (by omega)
  have hblock : ∀ h' : Heap, blockMetric metricsMethod h' edges start end_ =
      ((List.range (end_ - start)).map (fun i => metricValue metricsMethod h'
        ((jsSlice edges ((start : Int) - 1) ((end_ : Int) - 1)).getD i []))).sum := by
    intro h'
    unfold blockMetric
    congr 1
    apply List.map_congr_left
    intro i hi
    rw [hue i (List.mem_range.mp hi)]
  have hedge : ∀ l, start ≤ l → l < end_ → edges.getD (l - 1) [] =
      (jsSlice edges ((start : Int) - 1) ((end_ : Int) - 1)).getD (l - start) [] := by
    intro l hl1 hl2
    rw [hue (l - start) (by omega)]
    congr 1
    omega
  have hpos := blockPerms_pos permsLayer start end_ hperms
  have htot : r.2.1 = blockPerms permsLayer start end_ := h8
  unfold findBestPermutation
  rw [if_neg (by simp; omega), if_neg (by omega)]
  simp only []
  rw [hr]
  simp only [Res.bind]
  split_ifs with hzero
  · refine ⟨_, _, _, rfl, le_refl _, ?_⟩
    intro l hl1 hl2
    have := h7 (l - start)
    rw [Nat.sub_add_cancel hl1, if_pos (by omega)] at this
    rw [this, hedge l hl1 hl2]
  · have hbk : BlockOK
        { calculatedLayers := end_ - start, usedNodes := jsSlice nodes (start : Int) (end_ : Int),
          usedEdges := jsSlice edges ((start : Int) - 1) ((end_ : Int) - 1),
          permCounterOverflow := r.2.2.map (fun prefixPerms => r.2.1 / prefixPerms),
          totalPerms := r.2.1, start := start, symmetry := false,
          thresholdEvaluate := thresholdEvaluate, metricsMethod := metricsMethod } := by
      refine ⟨hunL, hueL, rfl, ?_, ?_, ?_, ?_, ?_, ?_⟩
      · intro i (hi : i < end_ - start)
        show 0 < (r.2.2.map (fun prefixPerms => r.2.1 / prefixPerms)).getD i 0
        rw [h9, h8, overflow_getD _ _ _ hi]
        obtain ⟨m, hm1, _, hq, _⟩ := overflow_quotient _ _ i hi hf
        rw [hq]
        exact hm1
      · intro i (hi : i < end_ - start)
        show (r.2.2.map (fun prefixPerms => r.2.1 / prefixPerms)).getD i 0 ∣ r.2.1
        rw [h9, h8, overflow_getD _ _ _ hi]
        obtain ⟨m, _, hm, hq, _⟩ := overflow_quotient _ _ i hi hf
        rw [hq]
        exact Dvd.intro_left _ hm.symm
      · intro i j hij (hj : j < end_ - start)
        show (r.2.2.map (fun prefixPerms => r.2.1 / prefixPerms)).getD j 0 ∣
          (r.2.2.map (fun prefixPerms => r.2.1 / prefixPerms)).getD i 0
        rw [h9, h8, overflow_getD _ _ _ hj, overflow_getD _ _ _ (by omega)]
        exact overflow_chain _ _ i j hij hj hf
      · intro i (hi : i < end_ - start) e he
        show e.2 ∈ (jsSlice nodes (start : Int) (end_ : Int)).getD i []
        have he' : e ∈ (jsSlice edges ((start : Int) - 1) ((end_ : Int) - 1)).getD i [] := he
        rw [hue i hi, hpred] at he'
        rw [hun i hi]
        exact (hends (start + i) (hL i hi).1 (hL i hi).2 e he').2
      · intro i (hi : i < end_ - start) e he j (hj : j < end_ - start) hji
        show e.1 ∉ (jsSlice nodes (start : Int) (end_ : Int)).getD j []
        have he' : e ∈ (jsSlice edges ((start : Int) - 1) ((end_ : Int) - 1)).getD i [] := he
        rw [hue i hi, hpred] at he'
        rw [hun j hj]
        exact hdisj (start + i - 1) (start + j) (by omega) (by omega) (by omega) (by omega)
          (by omega) _ (hends (start + i) (hL i hi).1 (hL i hi).2 e he').1
      · intro i j (hi : i < end_ - start) (hj : j < end_ - start) hij n hn
        show n ∉ (jsSlice nodes (start : Int) (end_ : Int)).getD j []
        have hn' : n ∈ (jsSlice nodes (start : Int) (end_ : Int)).getD i [] := hn
        rw [hun i hi] at hn'
        rw [hun j hj]
        exact hdisj (start + i) (start + j) (by omega) (by omega) (by omega) (by omega)
          (by omega) n hn'
    have hsk : SearchOK
        { calculatedLayers := end_ - start, usedNodes := jsSlice nodes (start : Int) (end_ : Int),
          usedEdges := jsSlice edges ((start : Int) - 1) ((end_ : Int) - 1),
          permCounterOverflow := r.2.2.map (fun prefixPerms => r.2.1 / prefixPerms),
          totalPerms := r.2.1, start := start, symmetry := false,
          thresholdEvaluate := thresholdEvaluate, metricsMethod := metricsMethod } h r.1 := by
      refine ⟨by rw [h2]; simp, by rw [h3]; simp, by rw [h4]; simp, ?_, ?_, ?_, ?_⟩
      · intro i (hi : i < end_ - start)
        show (r.1.permState.getD i []).length + r.1.permShift.getD i 0 ≤
          ((jsSlice nodes (start : Int) (end_ : Int)).getD i []).length
        rw [h3, h4, getD_map_range _ _ _ _ hi, getD_map_range _ _ _ _ hi, hun i hi,
          List.length_replicate, Nat.add_zero, Nat.add_comm start i]
        exact hwidths (i + start) (by omega) (by omega)
      · intro i (hi : i < end_ - start) n hn
        have hn' : n ∈ (jsSlice nodes (start : Int) (end_ : Int)).getD i [] := hn
        rw [hun i hi] at hn'
        rw [h1]
        exact hdef (start + i) (by omega) (by omega) n hn'
      · intro i (hi : i < end_ - start) e he
        have he' : e ∈ (jsSlice edges ((start : Int) - 1) ((end_ : Int) - 1)).getD i [] := he
        rw [hue i hi, hpred] at he'
        rw [h1]
        exact hdef (start + i - 1) (by omega) (by omega) _
          (hends (start + i) (hL i hi).1 (hL i hi).2 e he').1
      · intro n _
        rw [h1]
    exact findBestPermutation_search fuel h nodes edges start end_ thresholdEvaluate
      metricsMethod permsLayer metrics r hfuel hpos htot hunL hblock hedge h1 h2 h5 h6 h7 hzero
      hbk hsk

/-- C11: a block of the layers `start` to `end - 1` (`1 ≤ start`) searched
with `symmetry = false`, whose layers are pairwise disjoint and lie in
`nodes`, whose edges join consecutive layers and have ordinals, and whose
windows fit the layers. With fuel for the permutation space
`findBestPermutation` returns; the sum of the exact metric over the edge
layers of the block on the ordinals written back is at most that sum on the
ordinals on entry, and `metrics[l]` is the exact metric of edge layer `l` of
the block on the ordinals written back. -/
theorem findBestPermutation_improves (fuel : Nat) (h : Heap) (nodes : List (List Nat))
    (edges : List (List (Nat × Nat))) (metrics : List ℚ) (permsLayer permWidthsLayer : List Nat)
    (start end_ : Nat) (thresholdEvaluate : Int) (metricsMethod : String)
    (hstart : 1 ≤ start) (hlt : start < end_) (hnodes : end_ ≤ nodes.length)
    (hedges : end_ ≤ edges.length + 1)
    (hperms : ∀ l, start ≤ l → l < end_ → 1 ≤ permsLayer.getD l 0)
    (hwidths : ∀ l, start ≤ l → l < end_ →
      permWidthsLayer.getD l 1 ≤ (nodes.getD l []).length)
    (hends : ∀ l, start ≤ l → l < end_ → ∀ e ∈ edges.getD (l - 1) [],
      e.1 ∈ nodes.getD (l - 1) [] ∧ e.2 ∈ nodes.getD l [])
    (hdisj : ∀ l l', start - 1 ≤ l → l < l' → l' < end_ →
      ∀ n ∈ nodes.getD l [], n ∉ nodes.getD l' [])
    (hdef : ∀ l, start - 1 ≤ l → l < end_ → ∀ n ∈ nodes.getD l [], (h.orth n).isSome)
    (hmax : ∀ l, start ≤ l → l < end_ →
      metricValue metricsMethod h (edges.getD (l - 1) []) < maxValue)
    (hfuel : blockPerms permsLayer start end_ ≤ fuel) :
    ∃ h' metrics' count,
      findBestPermutation fuel h nodes edges metrics permsLayer permWidthsLayer start end_
        false thresholdEvaluate metricsMethod = .ok (h', metrics', count) ∧
      blockMetric metricsMethod h' edges start end_ ≤
        blockMetric metricsMethod h edges start end_ ∧
      ∀ l, start ≤ l → l < end_ →
        metrics'.getD l 0 = metricValue metricsMethod h' (edges.getD (l - 1) []) := by
  -- the slices
  have hcast1 : (start : Int) - 1 = ((start - 1 : Nat) : Int) := by omega
  have hcast2 : (end_ : Int) - 1 = ((end_ - 1 : Nat) : Int) := by omega
  have hunL : (jsSlice nodes (start : Int) (end_ : Int)).length = end_ - start :=
    jsSlice_length nodes start end_ (by omega) hnodes
  have hueL : (jsSlice edges ((start : Int) - 1) ((end_ : Int) - 1)).length = end_ - start := by
    rw [hcast1, hcast2, jsSlice_length edges (start - 1) (end_ - 1) (by omega) (by omega)]
    omega
  have hun : ∀ i, i < end_ - start →
      (jsSlice nodes (start : Int) (end_ : Int)).getD i [] = nodes.getD (start + i) [] :=
    fun i hi => jsSlice_getD nodes start end_ (by omega) hnodes i hi []
  have hue : ∀ i, i < end_ - start →
      (jsSlice edges ((start : Int) - 1) ((end_ : Int) - 1)).getD i [] =
        edges.getD (start - 1 + i) [] := by
    intro i hi
    rw [hcast1, hcast2]
    exact jsSlice_getD edges (start - 1) (end_ - 1) (by omega) (by omega) i (by omega) []
  have hdisj' : ∀ l l', start - 1 ≤ l → l < end_ → start - 1 ≤ l' → l' < end_ → l ≠ l' →
      ∀ n ∈ nodes.getD l [], n ∉ nodes.getD l' [] := by
    intro l l' h1 h2 h3 h4 hne n hn hn'
    rcases Nat.lt_or_gt_of_ne hne with h5 | h5
    · exact hdisj l l' h1 h5 h4 n hn hn'
    · exact hdisj l' l h3 h5 h2 n hn' hn
  have hsome : ∀ i, i < end_ - start →
      (edgeOrths h ((jsSlice edges ((start : Int) - 1) ((end_ : Int) - 1)).getD i [])).isSome := by
    intro i hi
    rw [hue i hi]
    apply edgeOrths_isSome
    intro e he
    have hl : start - 1 + i = (start + i) - 1 := by omega
    rw [hl] at he
    have := hends (start + i) (by omega) (by omega) e he
    exact ⟨hdef _ (by omega) (by omega) _ this.1, hdef _ (by omega) (by omega) _ this.2⟩
  have hbelow : ∀ i, i < end_ - start →
      metricValue metricsMethod h
        ((jsSlice edges ((start : Int) - 1) ((end_ : Int) - 1)).getD i []) < maxValue := by
    intro i hi
    rw [hue i hi]
    have hl : start - 1 + i = (start + i) - 1 := by omega
    rw [hl]
    exact hmax (start + i) (by omega) (by omega)
  obtain ⟨r, hr, h1, h2, h3, h4, h5, h6, h7, h8, h9⟩ := findInit_spec metricsMethod h
    (jsSlice nodes (start : Int) (end_ : Int))
    (jsSlice edges ((start : Int) - 1) ((end_ : Int) - 1)) permsLayer permWidthsLayer start
    metrics (end_ - start) (by omega) (by omega) hsome hbelow
  exact findBestPermutation_finish fuel h nodes edges metrics permsLayer permWidthsLayer start
    end_ thresholdEvaluate metricsMethod hstart hlt hperms hwidths hends hdef hfuel hunL hueL hun
    hue hdisj' r hr h1 h2 h3 h4 h5 h6 h7 h8 h9

/-- C11 at the block of the second of two layers of two nodes whose two
edges cross on entry: the search returns with no crossing left. -/
theorem findBestPermutation_improves_witness :
    Res.map (fun r => (r.2.1, r.2.2, blockMetric "crossings" r.1 [[(0, 3), (1, 2)]] 1 2))
      (findBestPermutation 5 twoByTwo [[0, 1], [2, 3]] [[(0, 3), (1, 2)]] [0, 0] [2, 2] [2, 2]
        1 2 false 10 "crossings") = .ok ([0, 0], 2, 0) ∧
    blockMetric "crossings" twoByTwo [[(0, 3), (1, 2)]] 1 2 = 1 ∧
    ∃ h' metrics' count,
      findBestPermutation 5 twoByTwo [[0, 1], [2, 3]] [[(0, 3), (1, 2)]] [0, 0] [2, 2] [2, 2]
        1 2 false 10 "crossings" = .ok (h', metrics', count) ∧
      blockMetric "crossings" h' [[(0, 3), (1, 2)]] 1 2 ≤
        blockMetric "crossings" twoByTwo [[(0, 3), (1, 2)]] 1 2 ∧
      ∀ l, 1 ≤ l → l < 2 →
        metrics'.getD l 0 = metricValue "crossings" h' ([[(0, 3), (1, 2)]].getD (l - 1) []) :=
  ⟨by decide!, by decide!,
    findBestPermutation_improves 5 twoByTwo [[0, 1], [2, 3]] [[(0, 3), (1, 2)]] [0, 0] [2, 2]
      [2, 2] 1 2 10 "crossings" (by decide) (by decide) (by decide) (by decide)
      (fun l h1 h2 => by
        have hl : l = 1 := by omega
        subst hl
        decide)
      (fun l h1 h2 => by
        have hl : l = 1 := by omega
        subst hl
        decide)
      (fun l h1 h2 => by
        have hl : l = 1 := by omega
        subst hl
        decide)
      (fun l l' h1 h2 h3 => by
        have hl : l = 0 := by omega
        have hl' : l' = 1 := by omega
        subst hl hl'
        decide)
      (fun l _ _ n _ => by
        simp only [twoByTwo]
        split_ifs <;> rfl)
      (fun l h1 h2 => by
        have hl : l = 1 := by omega
        subst hl
        decide!)
      (by decide)⟩

/-! ## Groups and weakly-connected components -/

theorem Representatives.length_le {h : Heap} (hs : h.Symmetric) {nodes r1 r2 : List Nat}
    (h1 : Representatives h nodes r1) (h2 : Representatives h nodes r2) :
    r1.length ≤ r2.length := by
  have hex : ∀ i : Fin r1.length, ∃ j : Fin r2.length, h.Connected (r2.get j) (r1.get i) := by
    intro i
    obtain ⟨r, hr, hc⟩ := h2.2.2 (r1.get i) (h1.1 _ (List.get_mem _ _ _))
    obtain ⟨j, hj⟩ := List.mem_iff_get.mp hr
    exact ⟨j, hj ▸ hc⟩
  choose f hf using hex
  have hinj : Function.Injective f := by
    intro i k hik
    by_contra hne
    have hc : h.Connected (r1.get i) (r1.get k) :=
      (Heap.Connected.symm hs (hf i)).trans (hik ▸ hf k)
    rcases Nat.lt_or_gt_of_ne (Fin.val_ne_of_ne hne) with hlt | hgt
    · exact (List.pairwise_iff_get.mp h1.2.1 i k hlt) hc
    · exact (List.pairwise_iff_get.mp h1.2.1 k i hgt) (Heap.Connected.symm hs hc)
  simpa using Fintype.card_le_of_injective f hinj

theorem GroupInv.grouped {h0 : Heap} {all : List Nat} {gi : Nat → Option Nat}
    {idx : Nat} {groups : List (List Nat)} (inv : GroupInv h0 all gi [] idx groups)
    {a : Nat} (ha : a ∈ all) : ∃ i g, groups[i]? = some g ∧ a ∈ g ∧ gi a = some i := by
  have hne : gi a ≠ none := by
    intro hc
    have : a ∈ all.filter (fun n => decide (gi n = none)) :=
      List.mem_filter.mpr ⟨ha, by simpa using hc⟩
    rw [← inv.rest] at this
    simp at this
  obtain ⟨i, hi⟩ := Option.ne_none_iff_exists'.mp hne
  obtain ⟨g, hg, hag⟩ := (inv.mem i a ha).mpr hi
  exact ⟨i, g, hg, hag, hi⟩

theorem headD_mem (g : List Nat) (hg : g ≠ []) : g.headD 0 ∈ g := by
  cases g with
  | nil => exact absurd rfl hg
  | cons a rest => simp

/-- The first nodes of the groups that `groupNodes` returns are a system of
representatives of the weakly-connected components. -/
theorem GroupInv.representatives {h0 : Heap} {all : List Nat} {gi : Nat → Option Nat}
    {idx : Nat} {groups : List (List Nat)} (hs : h0.Symmetric) (hcl : h0.ClosedOn all)
    (inv : GroupInv h0 all gi [] idx groups) :
    Representatives h0 all (groups.map (fun g => g.headD 0)) := by
  refine ⟨?_, ?_, ?_⟩
  · intro r hr
    obtain ⟨g, hg, rfl⟩ := List.mem_map.mp hr
    exact inv.sub g hg _ (headD_mem g (inv.nonempty g hg))
  · rw [List.pairwise_map, List.pairwise_iff_getElem]
    intro i j hi hj hij hc
    have hgi := List.getElem_mem hi
    have hgj := List.getElem_mem hj
    have h1 := inv.index_of_mem (List.getElem?_eq_getElem hi)
      (headD_mem _ (inv.nonempty _ hgi))
    have h2 := inv.index_of_mem (List.getElem?_eq_getElem hj)
      (headD_mem _ (inv.nonempty _ hgj))
    have h3 := (inv.connected_index hs hcl
      (inv.sub _ hgi _ (headD_mem _ (inv.nonempty _ hgi))) (by rw [h1]; simp) hc).1
    rw [h1, h2] at h3
    simp only [Option.some.injEq] at h3
    omega
  · intro n hn
    obtain ⟨i, g, hg, hng, hgin⟩ := inv.grouped hn
    have hgm : g ∈ groups := List.mem_iff_getElem?.mpr ⟨i, hg⟩
    have hhead := headD_mem g (inv.nonempty g hgm)
    refine ⟨g.headD 0, List.mem_map.mpr ⟨g, hgm, rfl⟩, ?_⟩
    exact inv.conn _ _ i (inv.sub g hgm _ hhead) hn (inv.index_of_mem hg hhead) hgin

/-- When `layout` without `previous` returns, `groupCount` is the number of
groups that `groupNodes` has returned. -/
theorem Graph.layout_groupCount (fuel : Nat) (g : Graph) (d : Derived) (o : Options)
    (h1 h2 : Heap) (cyclicEdges : List (Nat × Nat)) (groups : List (List Nat))
    (hrc : removeCycles fuel g.heap g.values = .ok (h1, cyclicEdges))
    (hgn : groupNodes fuel h1 g.values = .ok (h2, groups))
    (r : (Graph × Derived) × Option (Graph × Derived))
    (hl : g.layout fuel d none o = .ok r) : r.1.2.groupCount = groups.length := by
  unfold Graph.layout at hl
  simp only [Option.map_none', Graph.equals] at hl
  cases hv : validate o.thresholdEvaluate o.thresholdLayer o.alignNodes o.metrics with
  | throw m => rw [hv] at hl; cases hl
  | timeout => rw [hv] at hl; cases hl
  | ok u =>
    rw [hv] at hl
    simp only [Res.bind] at hl
    split at hl
    · unfold Graph.layoutCompute at hl
      simp only [hrc, hgn, Res.bind] at hl
      split at hl
      · rename_i a heq
        simp only [Res.ok.injEq] at hl
        rw [← hl]
        split at heq
        · simp only [Res.ok.injEq] at heq
          rw [← heq]
        · cases heq
        · cases heq
      · cases hl
      · cases hl
    · cases hl

set_option maxRecDepth 100000 in
/-- C3 fails for the components of the original graph: the graph `bridgeOps` is
weakly connected (one component), and `layout()` reports `groupCount = 2`;
`removeCycles` returns the edge `a1 → b1`, which joined the two 2-cycles,
as its first cyclic edge. -/
theorem groupCount_not_original :
    ComponentCount (Graph.build bridgeOps).heap (Graph.build bridgeOps).values 1 ∧
    Res.map (fun r => (r.1.2.groupCount, r.1.2.virtualEdges))
      (layoutOf 100 bridgeOps Options.default) =
      .ok (2, [(0, 1, false), (2, 3, false), (2, 0, true), (1, 0, true), (3, 2, true)]) := by
  have hl1 : (Graph.build bridgeOps).heap.linked 0 1 := Or.inr (by decide)
  have hl2 : (Graph.build bridgeOps).heap.linked 0 2 := Or.inl (by decide)
  have hl3 : (Graph.build bridgeOps).heap.linked 2 3 := Or.inr (by decide)
  have hrep : Representatives (Graph.build bridgeOps).heap (Graph.build bridgeOps).values [0] := by
    refine ⟨by decide, List.pairwise_singleton _ _, ?_⟩
    intro n hn
    have hv : (Graph.build bridgeOps).values = [0, 1, 2, 3] := by decide
    rw [hv] at hn
    refine ⟨0, List.mem_singleton.mpr rfl, ?_⟩
    simp only [List.mem_cons, List.mem_singleton, List.not_mem_nil, or_false] at hn
    rcases hn with rfl | rfl | rfl | rfl
    · exact Relation.ReflTransGen.refl
    · exact Relation.ReflTransGen.single hl1
    · exact Relation.ReflTransGen.single hl2
    · exact (Relation.ReflTransGen.single hl2).tail hl3
  refine ⟨⟨⟨[0], hrep, rfl⟩, ?_⟩, by decide!⟩
  intro reps hreps
  have hs := (Fresh.build bridgeOps).sym
  have h1 := Representatives.length_le hs hreps hrep
  have h2 := Representatives.length_le hs hrep hreps
  simp only [List.length_singleton] at h1 h2
  omega

/-! ## A merge keeps every entry in the layer of its rank -/

theorem layerAt_ok {α : Type} (a : List (List α)) (k : Int) (h0 : 0 ≤ k)
    (hk : k.toNat < a.length) : layerAt a (some k) = .ok (a.getD k.toNat []) := by
  simp [layerAt, h0, hk]

theorem mem_getD_set {α : Type} (a : List (List α)) (j : Nat) (v : List α) (i : Nat) (x : α)
    (hx : x ∈ (a.set j v).getD i []) : x ∈ a.getD i [] ∨ (i = j ∧ x ∈ v) := by
  rw [getD_set] at hx
  split_ifs at hx with h
  · exact Or.inr ⟨h.1, hx⟩
  · exact Or.inl hx

/-- The entries of `layeredEdges` after the body of the merge loop has run for
one replaced node: old entries, or new pairs in the layer that receives them. -/
theorem mergedEdges_mem {α : Type} (a : List (List α)) (j1 j2 j3 : Nat) (p1 p2 : α → Bool)
    (new : List α) (i : Nat) (x : α)
    (hx : x ∈ (((a.set j1 ((a.getD j1 []).filter p1)).set j2
        (((a.set j1 ((a.getD j1 []).filter p1)).getD j2 []).filter p2)).set j3
        ((((a.set j1 ((a.getD j1 []).filter p1)).set j2
          (((a.set j1 ((a.getD j1 []).filter p1)).getD j2 []).filter p2)).getD j3 []) ++ new)).getD
        i []) :
    x ∈ a.getD i [] ∨ (i = j3 ∧ x ∈ new) := by
  have step1 : ∀ k y, y ∈ (a.set j1 ((a.getD j1 []).filter p1)).getD k [] → y ∈ a.getD k [] := by
    intro k y hy
    rcases mem_getD_set _ _ _ _ _ hy with h | ⟨rfl, h⟩
    · exact h
    · exact (List.mem_filter.mp h).1
  have step2 : ∀ k y, y ∈ ((a.set j1 ((a.getD j1 []).filter p1)).set j2
      (((a.set j1 ((a.getD j1 []).filter p1)).getD j2 []).filter p2)).getD k [] →
      y ∈ a.getD k [] := by
    intro k y hy
    rcases mem_getD_set _ _ _ _ _ hy with h | ⟨rfl, h⟩
    · exact step1 _ _ h
    · exact step1 _ _ (List.mem_filter.mp h).1
  rcases mem_getD_set _ _ _ _ _ hx with h | ⟨rfl, h⟩
  · exact Or.inl (step2 _ _ h)
  · rcases List.mem_append.mp h with h' | h'
    · exact Or.inl (step2 _ _ h')
    · exact Or.inr ⟨rfl, h'⟩

/-- The body of the merge loop for one replaced node, on layers in which every
entry sits in the layer of its rank and for a node `node` of a rank `f`
strictly between the first and the last: it returns, the entries still sit
in the layers of their ranks, no rank changes and no layer gains a node. -/
theorem mergeReplaced_ranked (l node replaced : Nat) (f : Int) (pre : Bool) (s : Heap × Layers)
    (hr : Ranked l s.1 s.2) (hf : s.1.flow node = some f) (h1 : 1 ≤ f) (h2 : f + 2 ≤ l)
    (hsz : node < s.1.size) :
    ∃ s', mergeReplaced node (some f) pre s replaced = .ok s' ∧ Ranked l s'.1 s'.2 ∧
      s'.1.flow = s.1.flow ∧ s'.1.virtual = s.1.virtual ∧ s'.1.size = s.1.size ∧
      ∀ i x, x ∈ s'.2.layeredNodes.getD i [] → x ∈ s.2.layeredNodes.getD i [] := by
  have h0 : 0 ≤ f := by omega
  have h0' : 0 ≤ f - 1 := by omega
  have hkN : f.toNat < s.2.layeredNodes.length := by rw [hr.lenN]; omega
  have hkE : f.toNat < s.2.layeredEdges.length := by rw [hr.lenE]; omega
  have hkE' : (f - 1).toNat < s.2.layeredEdges.length := by rw [hr.lenE]; omega
  have hfi : ((f.toNat : Nat) : Int) = f := Int.toNat_of_nonneg h0
  have hfi' : (((f - 1).toNat : Nat) : Int) = f - 1 := Int.toNat_of_nonneg h0'
  have hnodes : ∀ i x, x ∈ (s.2.layeredNodes.set f.toNat
      ((s.2.layeredNodes.getD f.toNat []).filter (fun item => decide (item ≠ replaced)))).getD i [] →
      x ∈ s.2.layeredNodes.getD i [] := by
    intro i x hx
    rcases mem_getD_set _ _ _ _ _ hx with h | ⟨rfl, h⟩
    · exact h
    · exact (List.mem_filter.mp h).1
  unfold mergeReplaced
  simp only [Option.map_some', setLayer]
  rw [layerAt_ok _ f h0 hkN]
  simp only [Res.bind]
  cases pre
  · simp only [Bool.false_eq_true, if_false]
    rw [layerAt_ok _ (f - 1) h0' hkE']
    simp only [Res.bind]
    rw [layerAt_ok _ f h0 (by rw [List.length_set]; exact hkE)]
    simp only [Res.bind]
    rw [layerAt_ok _ (f - 1) h0' (by rw [List.length_set, List.length_set]; exact hkE')]
    refine ⟨_, rfl, ⟨?_, ?_, ?_, ?_⟩, rfl, rfl, rfl, hnodes⟩
    · simp [hr.lenN]
    · simp [hr.lenE]
    · intro i x hx
      exact hr.nodes i x (hnodes i x hx)
    · intro i p q hpq
      rcases mergedEdges_mem _ _ _ _ _ _ _ _ _ hpq with h | ⟨rfl, h⟩
      · exact hr.edges i p q h
      · obtain ⟨e, he, heq⟩ := List.mem_map.mp h
        have he' := (List.mem_filter.mp he).1
        obtain ⟨e1, e2⟩ := e
        simp only [Prod.mk.injEq] at heq
        obtain ⟨rfl, rfl⟩ := heq
        have := hr.edges _ _ _ he'
        refine ⟨this.1, ?_, this.2.2.1, hsz⟩
        show s.1.flow node = _
        rw [hf, hfi']
        simp
  · simp only [if_true]
    rw [layerAt_ok _ f h0 hkE]
    simp only [Res.bind]
    rw [layerAt_ok _ (f - 1) h0' hkE']
    simp only [Res.bind]
    rw [layerAt_ok _ f h0 (by rw [List.length_set]; exact hkE)]
    simp only [Res.bind]
    rw [layerAt_ok _ f h0 (by rw [List.length_set, List.length_set]; exact hkE)]
    refine ⟨_, rfl, ⟨?_, ?_, ?_, ?_⟩, rfl, rfl, rfl, hnodes⟩
    · simp [hr.lenN]
    · simp [hr.lenE]
    · intro i x hx
      exact hr.nodes i x (hnodes i x hx)
    · intro i p q hpq
      rcases mergedEdges_mem _ _ _ _ _ _ _ _ _ hpq with h | ⟨rfl, h⟩
      · exact hr.edges i p q h
      · obtain ⟨e, he, heq⟩ := List.mem_map.mp h
        have he' := (List.mem_filter.mp he).1
        obtain ⟨e1, e2⟩ := e
        simp only [Prod.mk.injEq] at heq
        obtain ⟨rfl, rfl⟩ := heq
        have := hr.edges _ _ _ he'
        refine ⟨?_, this.2.1, hsz, this.2.2.2⟩
        show s.1.flow node = _
        rw [hf, hfi]

/-! ## Merge steps keep the ranks -/

theorem getNextMergable_mem (h : Heap) (layeredNodes : List (List Nat)) (pre : Bool)
    (r : Mergable) (hr : getNextMergableVirtualNodeGroup h layeredNodes pre = some r) :
    ∃ j, r.node ∈ layeredNodes.getD j [] ∧ h.virtual r.node = true := by
  unfold getNextMergableVirtualNodeGroup at hr
  simp only at hr
  obtain ⟨i, _, hi⟩ := List.exists_of_findSome?_eq_some hr
  obtain ⟨node, hnode, hn⟩ := List.exists_of_findSome?_eq_some hi
  obtain ⟨hmem, hvirt⟩ := List.mem_filter.mp hnode
  split_ifs at hn
  all_goals
    simp only [Option.some.injEq] at hn
    rw [← hn]
    exact ⟨_, hmem, hvirt⟩

theorem mergeFold_ranked (l node : Nat) (f : Int) (pre : Bool) (h1 : 1 ≤ f) (h2 : f + 2 ≤ l) :
    ∀ (group : List Nat) (s : Heap × Layers), Ranked l s.1 s.2 → s.1.flow node = some f →
      node < s.1.size →
      ∃ s', Res.foldl (mergeReplaced node (some f) pre) s group = .ok s' ∧ Ranked l s'.1 s'.2 ∧
        s'.1.flow = s.1.flow ∧ s'.1.virtual = s.1.virtual ∧ s'.1.size = s.1.size ∧
        ∀ i x, x ∈ s'.2.layeredNodes.getD i [] → x ∈ s.2.layeredNodes.getD i []
  | [], s, hr, _, _ => ⟨s, rfl, hr, rfl, rfl, rfl, fun _ _ hx => hx⟩
  | replaced :: rest, s, hr, hf, hsz => by
    obtain ⟨s1, hs1, hr1, e1, e2, e3, e4⟩ :=
      mergeReplaced_ranked l node replaced f pre s hr hf h1 h2 hsz
    obtain ⟨s2, hs2, hr2, g1, g2, g3, g4⟩ := mergeFold_ranked l node f pre h1 h2 rest s1 hr1
      (by rw [e1]; exact hf) (by rw [e3]; exact hsz)
    refine ⟨s2, ?_, hr2, g1.trans e1, g2.trans e2, g3.trans e3,
      fun i x hx => e4 i x (g4 i x hx)⟩
    rw [Res.foldl, hs1]
    exact hs2

theorem mergeGroup_ranked (l : Nat) (h : Heap) (ls : Layers) (mergeVirtualNodes : String)
    (r : Mergable) (hr : Ranked l h ls) (hv : VirtualInside l h ls)
    (hmem : ∃ j, r.node ∈ ls.layeredNodes.getD j [] ∧ h.virtual r.node = true) :
    ∃ h' ls' res,
      ((Res.foldl (mergeReplaced r.node (h.flow r.node) r.pre) (h, ls) r.group).bind fun s =>
        Res.ok (s.1, s.2, some mergeVirtualNodes)) = .ok (h', ls', res) ∧
      Ranked l h' ls' ∧ VirtualInside l h' ls' := by
  obtain ⟨j, hj, hvirt⟩ := hmem
  have hflow := hr.nodes j _ hj
  have hin := hv j _ hj hvirt
  obtain ⟨s', hs', hr', e1, e2, e3, e4⟩ := mergeFold_ranked l r.node (j : Int) r.pre
    (by omega) (by omega) r.group (h, ls) hr hflow.1 hflow.2
  simp only [hflow.1, hs', Res.bind]
  refine ⟨_, _, _, rfl, hr', ?_⟩
  intro i x hx hxv
  rw [e2] at hxv
  exact hv i x (e4 i x hx) hxv

/-- A call of `mergeNextVirtualNodeGroup` on layers whose entries sit in the
layers of their ranks, with the virtual nodes strictly between the first and
the last rank, returns and keeps both properties. -/
theorem mergeNext_ranked (l : Nat) (h : Heap) (ls : Layers) (mergeVirtualNodes : String)
    (hr : Ranked l h ls) (hv : VirtualInside l h ls) :
    ∃ h' ls' r, mergeNextVirtualNodeGroup h ls mergeVirtualNodes = .ok (h', ls', r) ∧
      Ranked l h' ls' ∧ VirtualInside l h' ls' := by
  unfold mergeNextVirtualNodeGroup
  cases h1 : getNextMergableVirtualNodeGroup h ls.layeredNodes
      (decide ("start" = mergeVirtualNodes)) with
  | some r =>
    simp only
    exact mergeGroup_ranked l h ls mergeVirtualNodes r hr hv (getNextMergable_mem _ _ _ _ h1)
  | none =>
    cases h2 : getNextMergableVirtualNodeGroup h ls.layeredNodes
        (decide ("end" = mergeVirtualNodes)) with
    | some r =>
      simp only
      exact mergeGroup_ranked l h ls mergeVirtualNodes r hr hv (getNextMergable_mem _ _ _ _ h2)
    | none => exact ⟨h, ls, none, rfl, hr, hv⟩

/-- Any number of merge steps keeps every entry in the layer of its rank. -/
theorem mergeSteps_ranked (l : Nat) (s s' : Heap × Layers)
    (hsteps : Relation.ReflTransGen MergeStep s s') (hr : Ranked l s.1 s.2)
    (hv : VirtualInside l s.1 s.2) : Ranked l s'.1 s'.2 ∧ VirtualInside l s'.1 s'.2 := by
  induction hsteps with
  | refl => exact ⟨hr, hv⟩
  | tail _ hstep ih =>
    obtain ⟨mode, r, hrun⟩ := hstep
    obtain ⟨h', ls', r', hrun', hr', hv'⟩ := mergeNext_ranked l _ _ mode ih.1 ih.2
    rw [hrun'] at hrun
    simp only [Res.ok.injEq, Prod.mk.injEq] at hrun
    rw [← hrun.1, ← hrun.2.1]
    exact ⟨hr', hv'⟩

/-! ## From the groups to ranked layers -/

/-- On an acyclic group of existing real nodes `calculateFlow` returns ranks
that `addVirtualNodes` can work on. -/
theorem calculateFlow_rankedGroup {h : Heap} {group : List Nat} (hg : AcyclicGroup h group)
    (hne : group ≠ []) (alignNodes : String) (hal : alignNodes ∈ alignNodeValues)
    (hb : ∀ n ∈ group, n < h.size) (hreal : ∀ n ∈ group, h.virtual n = false) :
    ∃ (l : Nat) (h' : Heap),
      (∀ fuel, group.length < fuel → calculateFlow fuel h group alignNodes = .ok (h', l)) ∧
      RankedGroup h' group l := by
  obtain ⟨l, h', top, bot, hrun, _, _, hframe, ft, fb, _, _, hflow, _⟩ :=
    calculateFlow_ranks hg hne alignNodes hal
  refine ⟨l, h', hrun, ?_, ?_, ?_, ?_⟩
  · intro n hn
    rw [hframe.size]
    exact hb n hn
  · intro n hn
    rw [hframe.virtual]
    exact hreal n hn
  · intro n hn
    obtain ⟨f, hf, h0, h1⟩ := flowValue_some alignNodes hal l _ _ (ft n hn).1 (fb n hn).1
    exact ⟨f, by rw [hflow n hn, hf], h0, by omega⟩
  · intro n hn s hs
    rw [hframe.successors] at hs
    obtain ⟨hsg, h1, h2⟩ := ranks_edge hg (fun n hn => (ft n hn).2) (fun n hn => (fb n hn).2) hn hs
    refine ⟨hsg, ?_⟩
    intro f g hf hg'
    rw [hflow n hn] at hf
    rw [hflow s hsg] at hg'
    exact flowValue_lt alignNodes hal l _ _ _ _ h1 h2 f g hf hg'

theorem OnRanks.flow_mem {h : Heap} {ls : Layers} :
    ∀ (xs : List Nat) (f : Int), OnRanks h ls f xs → ∀ x ∈ xs,
      ∃ g : Int, h.flow x = some g ∧ f ≤ g ∧ g < f + xs.length
  | [], _, _, x, hx => absurd hx (List.not_mem_nil x)
  | w :: rest, f, hon, x, hx => by
    rcases List.mem_cons.mp hx with rfl | hx'
    · exact ⟨f, hon.1.1, le_refl _, by simp only [List.length_cons]; push_cast; omega⟩
    · obtain ⟨g, hg, h1, h2⟩ := OnRanks.flow_mem rest (f + 1) hon.2 x hx'
      exact ⟨g, hg, by omega, by simp only [List.length_cons]; push_cast; omega⟩

/-- After `addVirtualNodes` the virtual nodes of the layers lie strictly between
the first and the last rank. -/
theorem addVirtualNodes_inside (h : Heap) (nodes : List Nat) (l : Nat)
    (hg : RankedGroup h nodes l) (hne : nodes ≠ []) :
    ∃ (h' : Heap) (ls : Layers), addVirtualNodes h nodes l = .ok (h', ls) ∧ Ranked l h' ls ∧
      VirtualInside l h' ls := by
  obtain ⟨h', ls, chains, hrun, hext, hr, hmap, _, hcs, _, hnodes, _⟩ :=
    addVirtualNodes_ok h nodes l hg hne
  refine ⟨h', ls, hrun, hr, ?_⟩
  intro i x hx hv
  rcases hnodes i x hx with hxn | ⟨c, hc, hxc⟩
  · exfalso
    rw [hext.virtual x (hg.bound x hxn), hg.real x hxn] at hv
    cases hv
  · obtain ⟨fu, fv, hfu, hfv, hlen, hon, _, _⟩ := hcs c hc
    have hpair : (c.source, c.target) ∈
        nodes.flatMap (fun u => (h.successors u).map (fun v => (u, v))) := by
      rw [← hmap]
      exact List.mem_map.mpr ⟨c, hc, rfl⟩
    obtain ⟨u, hu, huv⟩ := List.mem_flatMap.mp hpair
    obtain ⟨v, hv', heq⟩ := List.mem_map.mp huv
    simp only [Prod.mk.injEq] at heq
    obtain ⟨rfl, rfl⟩ := heq
    obtain ⟨f1, hf1, h01, _⟩ := hg.flow _ hu
    obtain ⟨f2, hf2, _, h12⟩ := hg.flow _ (hg.edge _ hu _ hv').1
    rw [hfu] at hf1
    rw [hfv] at hf2
    simp only [Option.some.injEq] at hf1 hf2
    subst hf1 hf2
    obtain ⟨g, hgx, hg1, hg2⟩ := OnRanks.flow_mem _ _ hon x hxc
    have hxi := (hr.nodes i x hx).1
    rw [hgx] at hxi
    simp only [Option.some.injEq] at hxi
    rw [hlen] at hg2
    omega

/-- A group that `groupNodes` returns on an acyclic graph is an acyclic group
for the next stages. -/
theorem GroupInv.acyclicGroup {h0 : Heap} {all : List Nat} {gi : Nat → Option Nat}
    {idx : Nat} {groups : List (List Nat)} (hs : h0.Symmetric) (hcl : h0.ClosedOn all)
    (hac : h0.Acyclic) (inv : GroupInv h0 all gi [] idx groups) {g : List Nat}
    (hg : g ∈ groups) : AcyclicGroup { h0 with groupIndex := gi } g := by
  obtain ⟨i, hi⟩ := List.mem_iff_getElem?.mp hg
  have hclosed : ∀ n ∈ g, ∀ m, h0.linked n m → m ∈ g := by
    intro n hn m hl
    have hgn := inv.index_of_mem hi hn
    have hna := inv.sub g hg n hn
    have hgm := inv.closed n m hna (by rw [hgn]; simp) hl
    rw [hgn] at hgm
    obtain ⟨g', hg', hm⟩ := (inv.mem i m (Heap.linked_mem hs hcl hl).2).mpr hgm
    rw [hi] at hg'
    simp only [Option.some.injEq] at hg'
    rw [hg']
    exact hm
  exact ⟨inv.nodup g hg, hs, hac, fun n hn p hp => hclosed n hn p (Or.inl hp),
    fun n hn s hs' => hclosed n hn s (Or.inr hs')⟩

/-- C2: for a graph built by `addNode`, `addEdge` and `removeEdge` and every
alignment mode, `removeCycles` and `groupNodes` return with enough fuel, and
for every group `calculateFlow` and `addVirtualNodes` return layers in which,
also after any number of calls of `mergeNextVirtualNodeGroup`, every pair of
`layeredEdges[i]` goes from `flow = i` to `flow = i + 1` and every node of
`layeredNodes[i]` has `flow = i`. Each group is taken from the heap that
`groupNodes` returns. -/
theorem layers_ranked (ops : List Op) (alignNodes : String)
    (hal : alignNodes ∈ alignNodeValues) :
    ∃ (bound : Nat) (h1 : Heap) (cyclicEdges : List (Nat × Nat)) (h2 : Heap)
      (groups : List (List Nat)),
      (∀ fuel, bound ≤ fuel →
        removeCycles fuel (Graph.build ops).heap (Graph.build ops).values =
          .ok (h1, cyclicEdges)) ∧
      (∀ fuel, bound ≤ fuel → groupNodes fuel h1 (Graph.build ops).values = .ok (h2, groups)) ∧
      ∀ group ∈ groups, ∃ (maxLength : Nat) (h3 h4 : Heap) (ls : Layers),
        (∀ fuel, bound ≤ fuel → calculateFlow fuel h2 group alignNodes = .ok (h3, maxLength)) ∧
        addVirtualNodes h3 group maxLength = .ok (h4, ls) ∧
        ∀ s', Relation.ReflTransGen MergeStep (h4, ls) s' →
          (∀ i p s, (p, s) ∈ s'.2.layeredEdges.getD i [] →
            s'.1.flow p = some (i : Int) ∧ s'.1.flow s = some ((i : Int) + 1)) ∧
          ∀ i x, x ∈ s'.2.layeredNodes.getD i [] → s'.1.flow x = some (i : Int) := by
  have hf := Fresh.build ops
  obtain ⟨h1, ce, hrun1, inv1⟩ := removeCycles_ok hf.nodup hf.sym hf.closed
  have hgi : ∀ n ∈ (Graph.build ops).values, h1.groupIndex n = none := by
    intro n _
    rw [inv1.frame.groupIndex]
    exact hf.groupIndex n
  obtain ⟨bound2, gi', groups, hrun2, ginv⟩ := groupNodes_ok inv1.sym inv1.closed hgi
  refine ⟨max (max ((Graph.build ops).values.length +
      edgeCount (Graph.build ops).heap (Graph.build ops).values + 1) bound2)
      ((Graph.build ops).values.length + 1), h1, ce, _, groups,
    fun fuel hfuel => hrun1 fuel (by omega), fun fuel hfuel => hrun2 fuel (by omega), ?_⟩
  intro group hgroup
  have hag := ginv.acyclicGroup inv1.sym inv1.closed inv1.acyclic hgroup
  have hsub := ginv.sub group hgroup
  have hlen : group.length ≤ (Graph.build ops).values.length :=
    (List.subperm_of_subset hag.nodup hsub).length_le
  obtain ⟨l, h3, hrun3, hrg⟩ := calculateFlow_rankedGroup hag (ginv.nonempty group hgroup)
    alignNodes hal
    (fun n hn => by
      show n < h1.size
      rw [inv1.frame.size]
      exact hf.bound n (hsub n hn))
    (fun n hn => by
      show h1.virtual n = false
      rw [inv1.frame.virtual]
      exact hf.virtual n)
  obtain ⟨h4, ls, hrun4, hr, hv⟩ := addVirtualNodes_inside h3 group l hrg
    (ginv.nonempty group hgroup)
  refine ⟨l, h3, h4, ls, fun fuel hfuel => hrun3 fuel (by omega), hrun4, ?_⟩
  intro s' hsteps
  obtain ⟨hr', _⟩ := mergeSteps_ranked l (h4, ls) s' hsteps hr hv
  exact ⟨fun i p s hps => ⟨(hr'.edges i p s hps).1, (hr'.edges i p s hps).2.1⟩,
    fun i x hx => (hr'.nodes i x hx).1⟩

/-- C2 at the graph `triangle` with the alignment `"center-start"`. -/
theorem layers_ranked_witness :
    "center-start" ∈ alignNodeValues ∧
    ∃ (bound : Nat) (h1 : Heap) (cyclicEdges : List (Nat × Nat)) (h2 : Heap)
      (groups : List (List Nat)),
      (∀ fuel, bound ≤ fuel →
        removeCycles fuel
          (Graph.build [.addNode "a", .addNode "b", .addNode "c", .addEdge "a" "b",
            .addEdge "b" "c", .addEdge "a" "c"]).heap
          (Graph.build [.addNode "a", .addNode "b", .addNode "c", .addEdge "a" "b",
            .addEdge "b" "c", .addEdge "a" "c"]).values = .ok (h1, cyclicEdges)) ∧
      (∀ fuel, bound ≤ fuel →
        groupNodes fuel h1
          (Graph.build [.addNode "a", .addNode "b", .addNode "c", .addEdge "a" "b",
            .addEdge "b" "c", .addEdge "a" "c"]).values = .ok (h2, groups)) ∧
      ∀ group ∈ groups, ∃ (maxLength : Nat) (h3 h4 : Heap) (ls : Layers),
        (∀ fuel, bound ≤ fuel →
          calculateFlow fuel h2 group "center-start" = .ok (h3, maxLength)) ∧
        addVirtualNodes h3 group maxLength = .ok (h4, ls) ∧
        ∀ s', Relation.ReflTransGen MergeStep (h4, ls) s' →
          (∀ i p s, (p, s) ∈ s'.2.layeredEdges.getD i [] →
            s'.1.flow p = some (i : Int) ∧ s'.1.flow s = some ((i : Int) + 1)) ∧
          ∀ i x, x ∈ s'.2.layeredNodes.getD i [] → s'.1.flow x = some (i : Int) :=
  ⟨by decide, layers_ranked _ "center-start" (by decide)⟩

/-! ## Merging in the oriented view -/

theorem Net.Layered.flipLayered {n : Net} (h : n.Layered) : n.flip.Layered where
  lay_fun := h.lay_fun
  adj_lay := fun z x hzx => by
    obtain ⟨i, j, hi, hj, hn⟩ := h.adj_lay x z hzx
    exact ⟨j, i, hj, hi, hn⟩
  lt_irrefl := h.lt_irrefl
  next_lt := fun i j hn => h.next_lt j i hn
  next_left := fun i i' j h1 h2 => h.next_right j i i' h1 h2
  next_right := fun i j j' h1 h2 => h.next_left j j' i h1 h2

theorem Net.Routed.flipRouted {n : Net} (h : n.Routed) : n.flip.Routed where
  someA := h.someB
  someB := h.someA
  pair := fun i x a b hx hv ha hb => by
    obtain ⟨h1, h2, h3, h4, h5⟩ := h.pair i x b a hx hv hb ha
    exact ⟨h1, h3, h2, h5, h4⟩
  witA := fun i x a b hx hv ha hb => by
    obtain ⟨w, h1, h2⟩ := h.witB i x b a hx hv hb ha
    exact ⟨w, h1, h2.imp id (fun c => ⟨c.1, c.2.2, c.2.1⟩)⟩
  witB := fun i x a b hx hv ha hb => by
    obtain ⟨w, h1, h2⟩ := h.witA i x b a hx hv hb ha
    exact ⟨w, h1, h2.imp id (fun c => ⟨c.1, c.2.2, c.2.1⟩)⟩
  realA := fun i j a b hi hj ha hb hl => by
    obtain ⟨w, h1, h2⟩ := h.realB j i b a hj hi hb ha hl
    exact ⟨w, h1, h2.imp id (fun c => ⟨c.1, c.2.2, c.2.1⟩)⟩
  realB := fun i j a b hi hj ha hb hl => by
    obtain ⟨w, h1, h2⟩ := h.realA j i b a hj hi hb ha hl
    exact ⟨w, h1, h2.imp id (fun c => ⟨c.1, c.2.2, c.2.1⟩)⟩

/-- An entry of the compared list of a virtual node of the layers is a real
node of an earlier layer. -/
theorem Net.Routed.realOfA {n : Net} (hr : n.Routed) {i x a : Nat} (hx : n.lay i x)
    (vx : n.virt x) (ha : n.A x a) : ¬ n.virt a ∧ ∃ j, n.lay j a ∧ n.lt j i := by
  obtain ⟨b, hb⟩ := hr.someB i x hx vx
  obtain ⟨_, h2, _, h4, _⟩ := hr.pair i x a b hx vx ha hb
  exact ⟨h2, h4⟩

/-- Two nodes of one layer with the same compared entries have the same
neighbour on the `A` side for an entry `a`, when no earlier layer has two
virtual nodes with the same compared entries. -/
theorem Net.sameNeighbour {n : Net} (hl : n.Layered) (hr : n.Routed) (hq : n.Narrows)
    {i x y : Nat} (he : n.ExhaustedTo i) (hx : n.lay i x) (hy : n.lay i y) (vx : n.virt x)
    (vy : n.virt y) (hA : ∀ a, n.A x a ↔ n.A y a) {a zx zy : Nat} (hzx : n.adj zx x)
    (hzy : n.adj zy y) (cx : zx = a ∨ (n.virt zx ∧ n.A zx a))
    (cy : zy = a ∨ (n.virt zy ∧ n.A zy a)) : zx = zy := by
  obtain ⟨p, i1, hp, hi1, hn1⟩ := hl.adj_lay zx x hzx
  obtain ⟨q, i2, hq', hi2, hn2⟩ := hl.adj_lay zy y hzy
  have e1 : i1 = i := hl.lay_fun _ _ _ hi1 hx
  have e2 : i2 = i := hl.lay_fun _ _ _ hi2 hy
  subst e1
  subst e2
  have epq : p = q := hl.next_left _ _ _ hn1 hn2
  subst epq
  rcases cx with rfl | ⟨vzx, azx⟩
  · rcases cy with rfl | ⟨vzy, azy⟩
    · rfl
    · obtain ⟨_, j, hj, hlt⟩ := hr.realOfA hq' vzy azy
      have : j = p := hl.lay_fun _ _ _ hj hp
      subst this
      exact absurd hlt (hl.lt_irrefl _)
  · rcases cy with rfl | ⟨vzy, azy⟩
    · obtain ⟨_, j, hj, hlt⟩ := hr.realOfA hp vzx azx
      have : j = p := hl.lay_fun _ _ _ hj hq'
      subst this
      exact absurd hlt (hl.lt_irrefl _)
    · refine he p zx zy (hl.next_lt _ _ hn1) hp hq' vzx vzy ?_
      intro a'
      rw [hq zx x hzx vzx vx a', hq zy y hzy vzy vy a', hA a']
      constructor
      · rintro ⟨h1, j, k, hj, hk, hlt⟩
        have : k = p := hl.lay_fun _ _ _ hk hp
        subst this
        exact ⟨h1, j, k, hj, hq', hlt⟩
      · rintro ⟨h1, j, k, hj, hk, hlt⟩
        have : k = p := hl.lay_fun _ _ _ hk hq'
        subst this
        exact ⟨h1, j, k, hj, hp, hlt⟩

theorem Net.Merged.carry {n m : Net} {x y : Nat} (hm : n.Merged m x y) {a b w : Nat}
    (c : n.Carry a b w) : m.Carry a b w := by
  unfold Net.Carry
  rw [hm.virt, hm.A]
  exact ⟨c.1, c.2.1, (hm.B w b).mpr (Or.inl c.2.2)⟩

theorem Net.Merged.carryNode {n m : Net} {x y : Nat} (hm : n.Merged m x y) (vx : n.virt x)
    (hA : ∀ a, n.A x a ↔ n.A y a) {a b : Nat} (c : n.Carry a b y) : m.Carry a b x := by
  unfold Net.Carry
  rw [hm.virt, hm.A]
  exact ⟨vx, (hA a).mpr c.2.1, (hm.B x b).mpr (Or.inr ⟨rfl, c.2.2⟩)⟩

theorem Net.Merged.layered {n m : Net} {i x y : Nat} (hm : n.Merged m x y) (hl : n.Layered)
    (hx : n.lay i x) (hy : n.lay i y) (hxy : x ≠ y) : m.Layered where
  lay_fun := fun i j w h1 h2 => hl.lay_fun i j w ((hm.lay _ _).mp h1).1 ((hm.lay _ _).mp h2).1
  adj_lay := fun z w hzw => by
    rw [hm.next]
    rcases (hm.adj z w).mp hzw with ⟨h1, h2, h3⟩ | ⟨rfl, h1⟩
    · obtain ⟨p, q, hp, hq, hn⟩ := hl.adj_lay z w h1
      exact ⟨p, q, (hm.lay _ _).mpr ⟨hp, h2⟩, (hm.lay _ _).mpr ⟨hq, h3⟩, hn⟩
    · obtain ⟨p, q, hp, hq, hn⟩ := hl.adj_lay y w h1
      have : p = i := hl.lay_fun _ _ _ hp hy
      subst this
      refine ⟨p, q, (hm.lay _ _).mpr ⟨hx, hxy⟩, (hm.lay _ _).mpr ⟨hq, ?_⟩, hn⟩
      rintro rfl
      have : q = p := hl.lay_fun _ _ _ hq hy
      subst this
      exact hl.lt_irrefl _ (hl.next_lt _ _ hn)
  lt_irrefl := by rw [hm.lt]; exact hl.lt_irrefl
  next_lt := by rw [hm.lt, hm.next]; exact hl.next_lt
  next_left := by rw [hm.next]; exact hl.next_left
  next_right := by rw [hm.next]; exact hl.next_right

/-- The body of the merge loop keeps the routes: with `x` and `y` virtual
nodes of layer `i` with the same compared entries, and no earlier layer with
two such nodes, replacing `y` by `x` leaves every real edge continued on
both sides. -/
theorem Net.Merged.routed {n m : Net} {i x y : Nat} (hm : n.Merged m x y) (hl : n.Layered)
    (hr : n.Routed) (hq : n.Narrows) (he : n.ExhaustedTo i) (hx : n.lay i x) (hy : n.lay i y)
    (vx : n.virt x) (vy : n.virt y) (hxy : x ≠ y) (hA : ∀ a, n.A x a ↔ n.A y a) :
    m.Routed := by
  have same : ∀ {a zx zy : Nat}, n.adj zx x → n.adj zy y →
      (zx = a ∨ (n.virt zx ∧ n.A zx a)) → (zy = a ∨ (n.virt zy ∧ n.A zy a)) → zx = zy :=
    fun h1 h2 h3 h4 => Net.sameNeighbour hl hr hq he hx hy vx vy hA h1 h2 h3 h4
  have nlay : ∀ {j w}, m.lay j w → n.lay j w := fun h => ((hm.lay _ _).mp h).1
  have ney : ∀ {j w}, m.lay j w → w ≠ y := fun h => ((hm.lay _ _).mp h).2
  have realNe : ∀ {a}, ¬ n.virt a → a ≠ y := fun h e => h (e ▸ vy)
  have mlay : ∀ {j a}, n.lay j a → ¬ n.virt a → m.lay j a :=
    fun h v => (hm.lay _ _).mpr ⟨h, realNe v⟩
  -- the neighbour of `x` on the `A` side for the entry `a`
  have nbr : ∀ a, n.A x a → ∃ zx, n.adj zx x ∧ (zx = a ∨ (n.virt zx ∧ n.A zx a)) := by
    intro a ha
    obtain ⟨b0, hb0⟩ := hr.someB i x hx vx
    obtain ⟨zx, h1, h2⟩ := hr.witA i x a b0 hx vx ha hb0
    exact ⟨zx, h1, h2.imp id (fun c => ⟨c.1, c.2.1⟩)⟩
  have nbrNe : ∀ {z}, n.adj z x → z ≠ y := by
    intro z hz e
    subst e
    obtain ⟨p, q, hp, hq', hn⟩ := hl.adj_lay _ _ hz
    have e1 : p = i := hl.lay_fun _ _ _ hp hy
    have e2 : q = i := hl.lay_fun _ _ _ hq' hx
    subst e1
    subst e2
    exact hl.lt_irrefl _ (hl.next_lt _ _ hn)
  constructor
  · intro j w hw vw
    rw [hm.virt] at vw
    rw [hm.A]
    exact hr.someA j w (nlay hw) vw
  · intro j w hw vw
    rw [hm.virt] at vw
    obtain ⟨b, hb⟩ := hr.someB j w (nlay hw) vw
    exact ⟨b, (hm.B w b).mpr (Or.inl hb)⟩
  · intro j w a b hw vw ha hb
    rw [hm.virt] at vw
    rw [hm.A] at ha
    rw [hm.link, hm.virt, hm.lt]
    rcases (hm.B w b).mp hb with hb | ⟨rfl, hb⟩
    · obtain ⟨h1, h2, h3, ⟨j1, h4, h4'⟩, ⟨k1, h5, h5'⟩⟩ := hr.pair j w a b (nlay hw) vw ha hb
      exact ⟨h1, h2, h3, ⟨j1, mlay h4 h2, h4'⟩, ⟨k1, mlay h5 h3, h5'⟩⟩
    · have ej : j = i := hl.lay_fun _ _ _ (nlay hw) hx
      subst ej
      obtain ⟨h1, h2, h3, ⟨j1, h4, h4'⟩, ⟨k1, h5, h5'⟩⟩ :=
        hr.pair j y a b hy vy ((hA a).mp ha) hb
      exact ⟨h1, h2, h3, ⟨j1, mlay h4 h2, h4'⟩, ⟨k1, mlay h5 h3, h5'⟩⟩
  · intro j w a b hw vw ha hb
    rw [hm.virt] at vw
    rw [hm.A] at ha
    rcases (hm.B w b).mp hb with hb | ⟨rfl, hb⟩
    · obtain ⟨z, h1, h2⟩ := hr.witA j w a b (nlay hw) vw ha hb
      by_cases hz : z = y
      · subst hz
        have hreal := (hr.realOfA (nlay hw) vw ha).1
        rcases h2 with rfl | c
        · exact absurd vy hreal
        · exact ⟨x, (hm.adj _ _).mpr (Or.inr ⟨rfl, h1⟩), Or.inr (hm.carryNode vx hA c)⟩
      · exact ⟨z, (hm.adj _ _).mpr (Or.inl ⟨h1, hz, ney hw⟩), h2.imp id hm.carry⟩
    · have ej : j = i := hl.lay_fun _ _ _ (nlay hw) hx
      subst ej
      obtain ⟨zy, h1, h2⟩ := hr.witA j y a b hy vy ((hA a).mp ha) hb
      obtain ⟨zx, h3, h4⟩ := nbr a ha
      have e := same h3 h1 h4 (h2.imp id (fun c => ⟨c.1, c.2.1⟩))
      subst e
      exact ⟨zx, (hm.adj _ _).mpr (Or.inl ⟨h3, nbrNe h3, hxy⟩), h2.imp id hm.carry⟩
  · intro j w a b hw vw ha hb
    rw [hm.virt] at vw
    rw [hm.A] at ha
    rcases (hm.B w b).mp hb with hb | ⟨rfl, hb⟩
    · obtain ⟨w', h1, h2⟩ := hr.witB j w a b (nlay hw) vw ha hb
      by_cases hz : w' = y
      · subst hz
        obtain ⟨_, _, hrb, _, _⟩ := hr.pair j w a b (nlay hw) vw ha hb
        rcases h2 with rfl | c
        · exact absurd vy hrb
        · obtain ⟨zx, h3, h4⟩ := nbr a ((hA a).mpr c.2.1)
          have e := same h3 h1 h4 (Or.inr ⟨vw, ha⟩)
          subst e
          exact ⟨x, (hm.adj _ _).mpr (Or.inl ⟨h3, ney hw, hxy⟩), Or.inr (hm.carryNode vx hA c)⟩
      · exact ⟨w', (hm.adj _ _).mpr (Or.inl ⟨h1, ney hw, hz⟩), h2.imp id hm.carry⟩
    · have ej : j = i := hl.lay_fun _ _ _ (nlay hw) hx
      subst ej
      obtain ⟨w', h1, h2⟩ := hr.witB j y a b hy vy ((hA a).mp ha) hb
      exact ⟨w', (hm.adj _ _).mpr (Or.inr ⟨rfl, h1⟩), h2.imp id hm.carry⟩
  · intro i1 j1 a b ha hb va vb hab
    rw [hm.virt] at va vb
    rw [hm.link] at hab
    obtain ⟨w, h1, h2⟩ := hr.realA i1 j1 a b (nlay ha) (nlay hb) va vb hab
    by_cases hz : w = y
    · subst hz
      rcases h2 with rfl | c
      · exact absurd vy vb
      · obtain ⟨zx, h3, h4⟩ := nbr a ((hA a).mpr c.2.1)
        have e := same h3 h1 h4 (Or.inl rfl)
        subst e
        exact ⟨x, (hm.adj _ _).mpr (Or.inl ⟨h3, ney ha, hxy⟩), Or.inr (hm.carryNode vx hA c)⟩
    · exact ⟨w, (hm.adj _ _).mpr (Or.inl ⟨h1, ney ha, hz⟩), h2.imp id hm.carry⟩
  · intro i1 j1 a b ha hb va vb hab
    rw [hm.virt] at va vb
    rw [hm.link] at hab
    obtain ⟨z, h1, h2⟩ := hr.realB i1 j1 a b (nlay ha) (nlay hb) va vb hab
    by_cases hz : z = y
    · subst hz
      rcases h2 with rfl | c
      · exact absurd vy va
      · exact ⟨x, (hm.adj _ _).mpr (Or.inr ⟨rfl, h1⟩), Or.inr (hm.carryNode vx hA c)⟩
    · exact ⟨z, (hm.adj _ _).mpr (Or.inl ⟨h1, hz, ney hb⟩), h2.imp id hm.carry⟩

/-- The body of the merge loop keeps the compared lists narrowing along the
pairs. -/
theorem Net.Merged.narrows {n m : Net} {i x y : Nat} (hm : n.Merged m x y) (hl : n.Layered)
    (hr : n.Routed) (hq : n.Narrows) (hx : n.lay i x) (hy : n.lay i y)
    (vx : n.virt x) (vy : n.virt y) (hxy : x ≠ y) (hA : ∀ a, n.A x a ↔ n.A y a) :
    m.Narrows := by
  intro z w hzw vz vw a
  rw [hm.virt] at vz vw
  rw [hm.A, hm.lt]
  have realNe : ∀ {a}, ¬ n.virt a → a ≠ y := fun h e => h (e ▸ vy)
  rcases (hm.adj z w).mp hzw with ⟨h1, h2, h3⟩ | ⟨rfl, h1⟩
  · rw [hq z w h1 vz vw a]
    obtain ⟨p, q, hp, _, _⟩ := hl.adj_lay z w h1
    constructor
    · rintro ⟨ha, j, k, hj, hk, hlt⟩
      have hza : n.A z a := (hq z w h1 vz vw a).mpr ⟨ha, j, k, hj, hk, hlt⟩
      exact ⟨ha, j, k, (hm.lay _ _).mpr ⟨hj, realNe (hr.realOfA hp vz hza).1⟩,
        (hm.lay _ _).mpr ⟨hk, h2⟩, hlt⟩
    · rintro ⟨ha, j, k, hj, hk, hlt⟩
      exact ⟨ha, j, k, ((hm.lay _ _).mp hj).1, ((hm.lay _ _).mp hk).1, hlt⟩
  · rw [hA a, hq y w h1 vy vw a]
    constructor
    · rintro ⟨ha, j, k, hj, hk, hlt⟩
      have hya : n.A y a := (hq y w h1 vy vw a).mpr ⟨ha, j, k, hj, hk, hlt⟩
      have ek : k = i := hl.lay_fun _ _ _ hk hy
      subst ek
      exact ⟨ha, j, k, (hm.lay _ _).mpr ⟨hj, realNe (hr.realOfA hy vy hya).1⟩,
        (hm.lay _ _).mpr ⟨hx, hxy⟩, hlt⟩
    · rintro ⟨ha, j, k, hj, hk, hlt⟩
      have ek : k = i := hl.lay_fun _ _ _ ((hm.lay _ _).mp hk).1 hx
      subst ek
      exact ⟨ha, j, k, ((hm.lay _ _).mp hj).1, hy, hlt⟩

theorem Net.Merged.single {n m : Net} {x y : Nat} (hm : n.Merged m x y) (hs : n.Single) :
    m.Single := by
  intro i w a a' hw vw ha ha'
  rw [hm.virt] at vw
  rw [hm.A] at ha ha'
  exact hs i w a a' ((hm.lay _ _).mp hw).1 vw ha ha'

/-- The body of the merge loop keeps the other lists widening along the
pairs, while the compared lists have one entry each. -/
theorem Net.Merged.widens {n m : Net} {i x y : Nat} (hm : n.Merged m x y) (hl : n.Layered)
    (hr : n.Routed) (hq : n.Narrows) (hs : n.Single) (hw : n.Widens) (he : n.ExhaustedTo i)
    (hx : n.lay i x) (hy : n.lay i y) (vx : n.virt x) (vy : n.virt y)
    (hA : ∀ a, n.A x a ↔ n.A y a) : m.Widens := by
  intro z w hzw vz vw b hb
  rw [hm.virt] at vz vw
  rcases (hm.adj z w).mp hzw with ⟨h1, h2, h3⟩ | ⟨rfl, h1⟩
  · rcases (hm.B w b).mp hb with hb | ⟨rfl, hb⟩
    · exact (hm.B z b).mpr (Or.inl (hw z w h1 vz vw b hb))
    · obtain ⟨a, ha⟩ := hr.someA i y hy vy
      obtain ⟨zy, h4, h5⟩ := hr.witA i y a b hy vy ha hb
      obtain ⟨p, q, hp, _, _⟩ := hl.adj_lay z w h1
      obtain ⟨a', ha'⟩ := hr.someA p z hp vz
      have hxa' : n.A w a' := ((hq z w h1 vz vw a').mp ha').1
      have e : a' = a := hs i w a' a hx vx hxa' ((hA a).mpr ha)
      subst e
      have e := Net.sameNeighbour hl hr hq he hx hy vx vy hA h1 h4 (Or.inr ⟨vz, ha'⟩)
        (h5.imp id (fun c => ⟨c.1, c.2.1⟩))
      subst e
      rcases h5 with rfl | c
      · exact absurd vz (hr.realOfA hy vy ha).1
      · exact (hm.B z b).mpr (Or.inl c.2.2)
  · rcases (hm.B w b).mp hb with hb | ⟨rfl, hb⟩
    · exact (hm.B _ b).mpr (Or.inr ⟨rfl, hw y w h1 vy vw b hb⟩)
    · exact (hm.B _ b).mpr (Or.inr ⟨rfl, hb⟩)

theorem Net.Merged.apart {n m : Net} {i x y : Nat} (hm : n.Merged m x y) (hl : n.Layered)
    (ha : n.Apart) (hx : n.lay i x) (hy : n.lay i y) (vy : n.virt y) : m.Apart := by
  intro j w w' b hw hw' vw vw' hb hb'
  rw [hm.virt] at vw vw'
  obtain ⟨lw, nw⟩ := (hm.lay _ _).mp hw
  obtain ⟨lw', nw'⟩ := (hm.lay _ _).mp hw'
  rcases (hm.B w b).mp hb with hb | ⟨rfl, hb⟩
  · rcases (hm.B w' b).mp hb' with hb' | ⟨rfl, hb'⟩
    · exact ha j w w' b lw lw' vw vw' hb hb'
    · have ej : j = i := hl.lay_fun _ _ _ lw' hx
      subst ej
      exact absurd (ha j w y b lw hy vw vy hb hb') nw
  · rcases (hm.B w' b).mp hb' with hb' | ⟨rfl, hb'⟩
    · have ej : j = i := hl.lay_fun _ _ _ lw hx
      subst ej
      exact absurd (ha j w' y b lw' hy vw' vy hb' hb) nw'
    · rfl

theorem Net.Merged.exhaustedTo {n m : Net} {x y : Nat} (hm : n.Merged m x y) {i : Nat}
    (he : n.ExhaustedTo i) : m.ExhaustedTo i := by
  intro j z z' hlt hz hz' vz vz' hA
  rw [hm.virt] at vz vz'
  rw [hm.A] at hA
  rw [hm.lt] at hlt
  exact he j z z' hlt ((hm.lay _ _).mp hz).1 ((hm.lay _ _).mp hz').1 vz vz' hA

/-- Replacing a node that is in no layer any more, and whose other list is
part of the list of `x`, changes nothing. -/
theorem Net.Merged.absent {n m : Net} {x y : Nat} (hm : n.Merged m x y) (hl : n.Layered)
    (hy : ∀ j, ¬ n.lay j y) (hB : ∀ b, n.B y b → n.B x b) : m = n := by
  obtain ⟨h1, h2, h3, h4, h5, h6, h7, h8⟩ := hm
  have e1 : m.lay = n.lay := by
    funext j w
    refine propext ((h1 j w).trans ⟨fun h => h.1, fun h => ⟨h, ?_⟩⟩)
    rintro rfl
    exact hy j h
  have e2 : m.adj = n.adj := by
    funext z w
    refine propext ((h2 z w).trans ⟨?_, fun h => Or.inl ⟨h, ?_, ?_⟩⟩)
    · rintro (h | ⟨_, h⟩)
      · exact h.1
      · obtain ⟨p, _, hp, _, _⟩ := hl.adj_lay _ _ h
        exact absurd hp (hy p)
    · rintro rfl
      obtain ⟨p, _, hp, _, _⟩ := hl.adj_lay _ _ h
      exact hy p hp
    · rintro rfl
      obtain ⟨_, q, _, hq, _⟩ := hl.adj_lay _ _ h
      exact hy q hq
  have e5 : m.B = n.B := by
    funext w b
    refine propext ((h5 w b).trans ⟨?_, Or.inl⟩)
    rintro (h | ⟨rfl, h⟩)
    · exact h
    · exact hB b h
  cases m
  cases n
  simp only at e1 e2 h3 h4 e5 h6 h7 h8
  subst e1 e2 h3 h4 e5 h6 h7 h8
  rfl

/-- When the side compared first has nothing left to merge, the state of the
first phase is a state of the second phase seen from the other side. -/
theorem Net.First.second {n : Net} (hf : n.First) (he : n.Exhausted) : n.flip.Second where
  layered := hf.layered.flipLayered
  routed := hf.routed.flipRouted
  narrows := by
    intro z x hzx vz vx b
    have hl := hf.layered
    have hr := hf.routed
    change n.adj x z at hzx
    change n.virt z at vz
    change n.virt x at vx
    change n.B z b ↔ (n.B x b ∧ ∃ j k, n.lay j b ∧ n.lay k z ∧ n.lt k j)
    obtain ⟨p, q, hp, hq, hn⟩ := hl.adj_lay x z hzx
    constructor
    · intro hb
      obtain ⟨a0, ha0⟩ := hr.someA q z hq vz
      obtain ⟨_, _, _, _, k, hk, hlt⟩ := hr.pair q z a0 b hq vz ha0 hb
      exact ⟨hf.widens x z hzx vx vz b hb, k, q, hk, hq, hlt⟩
    · rintro ⟨hb, j, k, hj, hk, hlt⟩
      have ek : k = q := hl.lay_fun _ _ _ hk hq
      subst ek
      obtain ⟨a, ha⟩ := hr.someA p x hp vx
      obtain ⟨w, h1, h2⟩ := hr.witB p x a b hp vx ha hb
      obtain ⟨p', q', hp', hq', hn'⟩ := hl.adj_lay x w h1
      have ep : p' = p := hl.lay_fun _ _ _ hp' hp
      subst ep
      have eq' : q' = k := hl.next_right _ _ _ hn' hn
      subst eq'
      rcases h2 with rfl | c
      · have : j = q' := hl.lay_fun _ _ _ hj hq'
        subst this
        exact absurd hlt (hl.lt_irrefl _)
      · have ha' : n.A z a := ((hf.narrows x z hzx vx vz a).mp ha).1
        have e : z = w := by
          refine he q' z w hq hq' vz c.1 fun a'' => ⟨fun h => ?_, fun h => ?_⟩
          · rw [hf.single q' z a'' a hq vz h ha']
            exact c.2.1
          · rw [hf.single q' w a'' a hq' c.1 h c.2.1]
            exact ha'
        subst e
        exact c.2.2
  apart := by
    intro i x y a hx hy vx vy hxa hya
    change n.A x a at hxa
    change n.A y a at hya
    refine he i x y hx hy vx vy fun a' => ⟨fun h => ?_, fun h => ?_⟩
    · rw [hf.single i x a' a hx vx h hxa]
      exact hya
    · rw [hf.single i y a' a hy vy h hya]
      exact hxa

/-- In the second phase no two virtual nodes of one layer have the same
entries in the lists that were compared first. -/
theorem Net.Second.noFirst {n : Net} (hs : n.Second) {i x y : Nat} (hx : n.lay i x)
    (hy : n.lay i y) (vx : n.virt x) (vy : n.virt y) (hB : ∀ b, n.B x b ↔ n.B y b) : x = y := by
  obtain ⟨b, hb⟩ := hs.routed.someB i x hx vx
  exact hs.apart i x y b hx hy vx vy hb ((hB b).mp hb)

/-- One run of the body of the merge loop in the first phase. -/
theorem Net.First.mergedFirst {n m : Net} {i x y : Nat} (hf : n.First) (hm : n.Merged m x y)
    (he : n.ExhaustedTo i) (hx : n.lay i x) (hy : n.lay i y) (vx : n.virt x) (vy : n.virt y)
    (hxy : x ≠ y) (hA : ∀ a, n.A x a ↔ n.A y a) : m.First where
  layered := hm.layered hf.layered hx hy hxy
  routed := hm.routed hf.layered hf.routed hf.narrows he hx hy vx vy hxy hA
  narrows := hm.narrows hf.layered hf.routed hf.narrows hx hy vx vy hxy hA
  single := hm.single hf.single
  widens := hm.widens hf.layered hf.routed hf.narrows hf.single hf.widens he hx hy vx vy hA

/-- One run of the body of the merge loop in the second phase. -/
theorem Net.Second.mergedSecond {n m : Net} {i x y : Nat} (hf : n.Second) (hm : n.Merged m x y)
    (he : n.ExhaustedTo i) (hx : n.lay i x) (hy : n.lay i y) (vx : n.virt x) (vy : n.virt y)
    (hxy : x ≠ y) (hA : ∀ a, n.A x a ↔ n.A y a) : m.Second where
  layered := hm.layered hf.layered hx hy hxy
  routed := hm.routed hf.layered hf.routed hf.narrows he hx hy vx vy hxy hA
  narrows := hm.narrows hf.layered hf.routed hf.narrows hx hy vx vy hxy hA
  apart := hm.apart hf.layered hf.apart hx hy vy

/-! ## The merge steps in the oriented view -/

theorem mem_filterDuplicates (a : List Nat) (b : Nat) : b ∈ filterDuplicates a ↔ b ∈ a := by
  unfold filterDuplicates
  simp only [List.mem_map, List.mem_filter, decide_eq_true_eq, Prod.exists, exists_eq_right]
  constructor
  · rintro ⟨i, hi, _⟩
    exact List.getElem?_mem (List.mk_mem_enum_iff_getElem?.mp hi)
  · intro hb
    refine ⟨a.indexOf b, List.mk_mem_enum_iff_getElem?.mpr ?_, rfl⟩
    have hlt : a.indexOf b < a.length := List.indexOf_lt_length.mpr hb
    rw [List.getElem?_eq_getElem hlt]
    simp

theorem nodup_filterDuplicates (a : List Nat) : (filterDuplicates a).Nodup := by
  unfold filterDuplicates
  refine List.Nodup.map_on ?_ ?_
  · rintro ⟨i, v⟩ hi ⟨j, w⟩ hj hvw
    simp only [List.mem_filter, decide_eq_true_eq] at hi hj
    simp only at hvw
    subst hvw
    rw [← hi.2, ← hj.2]
  · refine List.Nodup.filter _ (List.Nodup.of_map Prod.fst ?_)
    rw [List.enum_map_fst]
    exact List.nodup_range _

theorem nodeRelEquals_of_same {a1 a2 : List Nat} (h1 : a1.Nodup) (h2 : a2.Nodup)
    (h : ∀ x, x ∈ a1 ↔ x ∈ a2) : nodeRelEquals a1 a2 = true := by
  unfold nodeRelEquals
  have hp : a1.Perm a2 := (List.perm_ext_iff_of_nodup h1 h2).mpr h
  simp only [Bool.and_eq_true, decide_eq_true_eq, List.all_eq_true]
  exact ⟨hp.length_eq, fun x hx => (h x).mp hx⟩

theorem nodeRelEquals_same {a1 a2 : List Nat} (h1 : a1.Nodup)
    (h : nodeRelEquals a1 a2 = true) : ∀ x, x ∈ a1 ↔ x ∈ a2 := by
  unfold nodeRelEquals at h
  simp only [Bool.and_eq_true, decide_eq_true_eq, List.all_eq_true] at h
  have hsub : a1 ⊆ a2 := fun x hx => h.2 x hx
  have hp : a1.Perm a2 := (List.subperm_of_subset h1 hsub).perm_of_length_le (le_of_eq h.1.symm)
  exact fun x => hp.mem_iff

theorem mem_getD_set_filter {α : Type} (b : List (List α)) (j : Nat) (p : α → Bool) (k : Nat)
    (y : α) (hj : j < b.length) :
    y ∈ (b.set j ((b.getD j []).filter p)).getD k [] ↔ (y ∈ b.getD k [] ∧ (k = j → p y = true)) := by
  rw [getD_set]
  by_cases hk : k = j
  · subst hk
    rw [if_pos ⟨rfl, hj⟩, List.mem_filter]
    exact ⟨fun h => ⟨h.1, fun _ => h.2⟩, fun h => ⟨h.1, h.2 rfl⟩⟩
  · rw [if_neg (fun h => hk h.1)]
    exact ⟨fun h => ⟨h, fun e => absurd e hk⟩, fun h => h.1⟩

/-- The entries of `layeredEdges` after the body of the merge loop has run for
one replaced node. -/
theorem mergedEdges_iff {α : Type} (a : List (List α)) (j1 j2 j3 : Nat) (p1 p2 : α → Bool)
    (new : List α) (i : Nat) (x : α) (h1 : j1 < a.length) (h2 : j2 < a.length)
    (h3 : j3 < a.length) :
    x ∈ (((a.set j1 ((a.getD j1 []).filter p1)).set j2
        (((a.set j1 ((a.getD j1 []).filter p1)).getD j2 []).filter p2)).set j3
        ((((a.set j1 ((a.getD j1 []).filter p1)).set j2
          (((a.set j1 ((a.getD j1 []).filter p1)).getD j2 []).filter p2)).getD j3 []) ++ new)).getD
        i [] ↔
    (x ∈ a.getD i [] ∧ (i = j1 → p1 x = true) ∧ (i = j2 → p2 x = true)) ∨
      (i = j3 ∧ x ∈ new) := by
  have step2 : ∀ k y, y ∈ ((a.set j1 ((a.getD j1 []).filter p1)).set j2
      (((a.set j1 ((a.getD j1 []).filter p1)).getD j2 []).filter p2)).getD k [] ↔
      (y ∈ a.getD k [] ∧ (k = j1 → p1 y = true) ∧ (k = j2 → p2 y = true)) := by
    intro k y
    rw [mem_getD_set_filter _ _ _ _ _ (by rw [List.length_set]; exact h2),
      mem_getD_set_filter _ _ _ _ _ h1, and_assoc]
  rw [getD_set]
  by_cases hk : i = j3
  · subst hk
    rw [if_pos ⟨rfl, by rw [List.length_set, List.length_set]; exact h3⟩, List.mem_append, step2]
    exact ⟨fun h => h.imp id (fun h' => ⟨rfl, h'⟩), fun h => h.imp id (fun h' => h'.2)⟩
  · rw [if_neg (fun h => hk h.1), step2]
    exact ⟨Or.inl, fun h => h.elim id (fun h' => absurd h'.1 hk)⟩

/-- The body of the merge loop for one replaced node `y` of the rank of
`x`, in the view of the side it compares: `y` leaves its layer, its pairs on
the other side pass to `x`, its pairs on the compared side go, and the other
list of `x` takes the entries of the other list of `y`. -/
theorem mergeReplaced_merged (l x y : Nat) (f : Int) (pre : Bool) (s s' : Heap × Layers)
    (hr : Ranked l s.1 s.2) (hf : s.1.flow x = some f) (hfy : s.1.flow y = some f)
    (h1 : 1 ≤ f) (h2 : f + 2 ≤ l) (hrun : mergeReplaced x (some f) pre s y = .ok s') :
    (net pre s).Merged (net pre s') x y ∧
    (∀ w, (s'.1.realPredecessors w).Nodup ∨
      s'.1.realPredecessors w = s.1.realPredecessors w) ∧
    (∀ w, (s'.1.realSuccessors w).Nodup ∨ s'.1.realSuccessors w = s.1.realSuccessors w) ∧
    s'.1.successors = s.1.successors := by
  have h0 : 0 ≤ f := by omega
  have h0' : 0 ≤ f - 1 := by omega
  have hkN : f.toNat < s.2.layeredNodes.length := by rw [hr.lenN]; omega
  have hkE : f.toNat < s.2.layeredEdges.length := by rw [hr.lenE]; omega
  have hkE' : (f - 1).toNat < s.2.layeredEdges.length := by rw [hr.lenE]; omega
  have hfi : ((f.toNat : Nat) : Int) = f := Int.toNat_of_nonneg h0
  have hfi' : (((f - 1).toNat : Nat) : Int) = f - 1 := Int.toNat_of_nonneg h0'
  have hlay : ∀ j w, w ∈ (s.2.layeredNodes.set f.toNat
      ((s.2.layeredNodes.getD f.toNat []).filter (fun item => decide (item ≠ y)))).getD j [] ↔
      (w ∈ s.2.layeredNodes.getD j [] ∧ w ≠ y) := by
    intro j w
    rw [mem_getD_set_filter _ _ _ _ _ hkN]
    refine and_congr_right fun hw => ⟨fun h e => ?_, fun h _ => by simpa using h⟩
    subst e
    have hj := (hr.nodes j w hw).1
    rw [hfy] at hj
    have : j = f.toNat := by
      simp only [Option.some.injEq] at hj
      omega
    simpa using h this
  -- the pairs of a layer, old and new
  have tgt : ∀ k p q, (p, q) ∈ s.2.layeredEdges.getD k [] → q = y → k = (f - 1).toNat := by
    intro k p q hpq e
    subst e
    have := (hr.edges k p q hpq).2.1
    rw [hfy] at this
    simp only [Option.some.injEq] at this
    omega
  have src : ∀ k p q, (p, q) ∈ s.2.layeredEdges.getD k [] → p = y → k = f.toNat := by
    intro k p q hpq e
    subst e
    have := (hr.edges k p q hpq).1
    rw [hfy] at this
    simp only [Option.some.injEq] at this
    omega
  have hold : ∀ k p q, ((p, q) ∈ s.2.layeredEdges.getD k [] ∧
      (k = (f - 1).toNat → decide ((p, q).2 ≠ y) = true) ∧
      (k = f.toNat → decide ((p, q).1 ≠ y) = true)) ↔
      ((p, q) ∈ s.2.layeredEdges.getD k [] ∧ p ≠ y ∧ q ≠ y) := by
    intro k p q
    refine and_congr_right fun hpq => ⟨fun h => ⟨fun e => ?_, fun e => ?_⟩, fun h =>
      ⟨fun _ => by simpa using h.2, fun _ => by simpa using h.1⟩⟩
    · have := h.2 (src k p q hpq e)
      simp at this
      exact this e
    · have := h.1 (tgt k p q hpq e)
      simp at this
      exact this e
  unfold mergeReplaced at hrun
  simp only [Option.map_some', setLayer] at hrun
  rw [layerAt_ok _ f h0 hkN] at hrun
  simp only [Res.bind] at hrun
  cases pre
  · simp only [Bool.false_eq_true, if_false] at hrun
    rw [layerAt_ok _ (f - 1) h0' hkE'] at hrun
    simp only [Res.bind] at hrun
    rw [layerAt_ok _ f h0 (by rw [List.length_set]; exact hkE)] at hrun
    simp only [Res.bind] at hrun
    rw [layerAt_ok _ (f - 1) h0' (by rw [List.length_set, List.length_set]; exact hkE')] at hrun
    simp only [Res.ok.injEq] at hrun
    subst hrun
    refine ⟨⟨hlay, ?_, rfl, rfl, ?_, rfl, rfl, rfl⟩, ?_, fun w => Or.inr rfl, rfl⟩
    · intro z w
      simp only [net, Bool.false_eq_true, if_false]
      constructor
      · rintro ⟨k, hk⟩
        rcases (mergedEdges_iff _ _ _ _ _ _ _ _ _ hkE' hkE hkE').mp hk with h | ⟨_, h⟩
        · obtain ⟨h3, h4, h5⟩ := (hold k w z).mp h
          exact Or.inl ⟨⟨k, h3⟩, h5, h4⟩
        · obtain ⟨e, he, heq⟩ := List.mem_map.mp h
          obtain ⟨he1, he2⟩ := List.mem_filter.mp he
          obtain ⟨e1, e2⟩ := e
          simp only [Prod.mk.injEq] at heq
          simp only [decide_eq_true_eq] at he2
          obtain ⟨rfl, rfl⟩ := heq
          subst he2
          exact Or.inr ⟨rfl, _, he1⟩
      · rintro (⟨⟨k, hk⟩, hz, hw⟩ | ⟨rfl, k, hk⟩)
        · exact ⟨k, (mergedEdges_iff _ _ _ _ _ _ _ _ _ hkE' hkE hkE').mpr
            (Or.inl ((hold k w z).mpr ⟨hk, hw, hz⟩))⟩
        · refine ⟨(f - 1).toNat, (mergedEdges_iff _ _ _ _ _ _ _ _ _ hkE' hkE hkE').mpr
            (Or.inr ⟨rfl, ?_⟩)⟩
          have ek := tgt k w y hk rfl
          subst ek
          exact List.mem_map.mpr ⟨(w, y), List.mem_filter.mpr ⟨hk, by simp⟩, rfl⟩
    · intro w b
      simp only [net, Bool.false_eq_true, if_false]
      by_cases hw : w = x
      · subst hw
        rw [upd_same, mem_filterDuplicates, List.mem_append]
        exact ⟨fun h => h.imp id (fun h' => ⟨rfl, h'⟩), fun h => h.imp id (fun h' => h'.2)⟩
      · rw [upd_ne _ _ hw]
        exact ⟨Or.inl, fun h => h.elim id (fun h' => absurd h'.1 hw)⟩
    · intro w
      by_cases hw : w = x
      · subst hw
        left
        show List.Nodup (upd _ _ _ _)
        rw [upd_same]
        exact nodup_filterDuplicates _
      · right
        show upd _ _ _ _ = _
        rw [upd_ne _ _ hw]
  · simp only [if_true] at hrun
    rw [layerAt_ok _ f h0 hkE] at hrun
    simp only [Res.bind] at hrun
    rw [layerAt_ok _ (f - 1) h0' hkE'] at hrun
    simp only [Res.bind] at hrun
    rw [layerAt_ok _ f h0 (by rw [List.length_set]; exact hkE)] at hrun
    simp only [Res.bind] at hrun
    rw [layerAt_ok _ f h0 (by rw [List.length_set, List.length_set]; exact hkE)] at hrun
    simp only [Res.ok.injEq] at hrun
    subst hrun
    refine ⟨⟨hlay, ?_, rfl, rfl, ?_, rfl, rfl, rfl⟩, fun w => Or.inr rfl, ?_, rfl⟩
    · intro z w
      simp only [net, if_true]
      constructor
      · rintro ⟨k, hk⟩
        rcases (mergedEdges_iff _ _ _ _ _ _ _ _ _ hkE' hkE hkE).mp hk with h | ⟨_, h⟩
        · obtain ⟨h3, h4, h5⟩ := (hold k z w).mp h
          exact Or.inl ⟨⟨k, h3⟩, h4, h5⟩
        · obtain ⟨e, he, heq⟩ := List.mem_map.mp h
          obtain ⟨he1, he2⟩ := List.mem_filter.mp he
          obtain ⟨e1, e2⟩ := e
          simp only [Prod.mk.injEq] at heq
          simp only [decide_eq_true_eq] at he2
          obtain ⟨rfl, rfl⟩ := heq
          subst he2
          exact Or.inr ⟨rfl, _, he1⟩
      · rintro (⟨⟨k, hk⟩, hz, hw⟩ | ⟨rfl, k, hk⟩)
        · exact ⟨k, (mergedEdges_iff _ _ _ _ _ _ _ _ _ hkE' hkE hkE).mpr
            (Or.inl ((hold k z w).mpr ⟨hk, hz, hw⟩))⟩
        · refine ⟨f.toNat, (mergedEdges_iff _ _ _ _ _ _ _ _ _ hkE' hkE hkE).mpr
            (Or.inr ⟨rfl, ?_⟩)⟩
          have ek := src k y w hk rfl
          subst ek
          exact List.mem_map.mpr ⟨(y, w), List.mem_filter.mpr ⟨hk, by simp⟩, rfl⟩
    · intro w b
      simp only [net, if_true]
      by_cases hw : w = x
      · subst hw
        rw [upd_same, mem_filterDuplicates, List.mem_append]
        exact ⟨fun h => h.imp id (fun h' => ⟨rfl, h'⟩), fun h => h.imp id (fun h' => h'.2)⟩
      · rw [upd_ne _ _ hw]
        exact ⟨Or.inl, fun h => h.elim id (fun h' => absurd h'.1 hw)⟩
    · intro w
      by_cases hw : w = x
      · subst hw
        left
        show List.Nodup (upd _ _ _ _)
        rw [upd_same]
        exact nodup_filterDuplicates _
      · right
        show upd _ _ _ _ = _
        rw [upd_ne _ _ hw]

theorem findSome?_range'_some {β : Type} (f : Nat → Option β) (b : β) :
    ∀ (n s : Nat), (List.range' s n).findSome? f = some b →
      ∃ i, s ≤ i ∧ i < s + n ∧ f i = some b ∧ ∀ j, s ≤ j → j < i → f j = none := by
  intro n
  induction n with
  | zero => intro s h; simp at h
  | succ n ih =>
    intro s h
    rw [List.range'_succ, List.findSome?_cons] at h
    cases hs : f s with
    | some c =>
      rw [hs] at h
      simp only [Option.some.injEq] at h
      subst h
      exact ⟨s, le_refl _, by omega, hs, fun j h1 h2 => by omega⟩
    | none =>
      rw [hs] at h
      obtain ⟨i, h1, h2, h3, h4⟩ := ih (s + 1) h
      refine ⟨i, by omega, by omega, h3, fun j hj1 hj2 => ?_⟩
      by_cases e : j = s
      · rw [e]; exact hs
      · exact h4 j (by omega) hj2

/-- The search of one layer for a virtual node with others of the same list. -/
theorem layerSearch_none (relProp : Nat → List Nat) (pre : Bool) (vn : List Nat)
    (h : vn.findSome? (fun node =>
      if (vn.filter (fun otherNode =>
          decide (otherNode ≠ node) && nodeRelEquals (relProp node) (relProp otherNode))).length > 0
      then some (Mergable.mk node (vn.filter (fun otherNode =>
          decide (otherNode ≠ node) && nodeRelEquals (relProp node) (relProp otherNode))) pre)
      else none) = none) :
    ∀ node ∈ vn, ∀ other ∈ vn, other ≠ node →
      nodeRelEquals (relProp node) (relProp other) = false := by
  intro node hn other ho hne
  have := List.findSome?_eq_none_iff.mp h node hn
  split_ifs at this with hc
  simp only [gt_iff_lt, List.length_pos, ne_eq, not_not, List.filter_eq_nil_iff,
    Bool.and_eq_true, decide_eq_true_eq, not_and, Bool.not_eq_true] at hc
  exact hc other ho hne

theorem layerSearch_some (relProp : Nat → List Nat) (pre : Bool) (vn : List Nat) (r : Mergable)
    (h : vn.findSome? (fun node =>
      if (vn.filter (fun otherNode =>
          decide (otherNode ≠ node) && nodeRelEquals (relProp node) (relProp otherNode))).length > 0
      then some (Mergable.mk node (vn.filter (fun otherNode =>
          decide (otherNode ≠ node) && nodeRelEquals (relProp node) (relProp otherNode))) pre)
      else none) = some r) :
    r.node ∈ vn ∧ r.pre = pre ∧ ∀ y ∈ r.group, y ∈ vn ∧ y ≠ r.node ∧
      nodeRelEquals (relProp r.node) (relProp y) = true := by
  obtain ⟨node, hn, hr⟩ := List.exists_of_findSome?_eq_some h
  split_ifs at hr with hc
  simp only [Option.some.injEq] at hr
  subst hr
  refine ⟨hn, rfl, fun y hy => ?_⟩
  simp only [List.mem_filter, Bool.and_eq_true, decide_eq_true_eq] at hy
  exact ⟨hy.1, hy.2.1, hy.2.2⟩

/-- What a successful search of `getNextMergableVirtualNodeGroup` returns:
a virtual node of a layer with the other virtual nodes of that layer that
have the same list, from the first layer in the order of the search that has
such nodes. -/
theorem getNextMergable_some (h : Heap) (layeredNodes : List (List Nat)) (pre : Bool)
    (r : Mergable) (hr : getNextMergableVirtualNodeGroup h layeredNodes pre = some r) :
    ∃ i, i < layeredNodes.length ∧ r.pre = pre ∧
      r.node ∈ layeredNodes.getD (if pre then i else layeredNodes.length - i - 1) [] ∧
      h.virtual r.node = true ∧
      (∀ y ∈ r.group,
        y ∈ layeredNodes.getD (if pre then i else layeredNodes.length - i - 1) [] ∧
        h.virtual y = true ∧ y ≠ r.node ∧
        nodeRelEquals ((if pre then h.realPredecessors else h.realSuccessors) r.node)
          ((if pre then h.realPredecessors else h.realSuccessors) y) = true) ∧
      ∀ j, j < i → ∀ z z',
        z ∈ layeredNodes.getD (if pre then j else layeredNodes.length - j - 1) [] →
        z' ∈ layeredNodes.getD (if pre then j else layeredNodes.length - j - 1) [] →
        h.virtual z = true → h.virtual z' = true → z' ≠ z →
        nodeRelEquals ((if pre then h.realPredecessors else h.realSuccessors) z)
          ((if pre then h.realPredecessors else h.realSuccessors) z') = false := by
  unfold getNextMergableVirtualNodeGroup at hr
  simp only at hr
  rw [List.range_eq_range'] at hr
  obtain ⟨i, _, hi, hsome, hnone⟩ := findSome?_range'_some _ _ _ _ hr
  obtain ⟨h1, h2, h3⟩ := layerSearch_some _ _ _ _ hsome
  obtain ⟨h1a, h1b⟩ := List.mem_filter.mp h1
  refine ⟨i, by omega, h2, h1a, h1b, fun y hy => ?_, fun j hj z z' hz hz' vz vz' hne => ?_⟩
  · obtain ⟨h4, h5, h6⟩ := h3 y hy
    obtain ⟨h4a, h4b⟩ := List.mem_filter.mp h4
    exact ⟨h4a, h4b, h5, h6⟩
  · exact layerSearch_none _ _ _ (hnone j (by omega) hj) z (List.mem_filter.mpr ⟨hz, vz⟩) z'
      (List.mem_filter.mpr ⟨hz', vz'⟩) hne

/-- After an unsuccessful search of `getNextMergableVirtualNodeGroup` no
layer has two virtual nodes with the same list. -/
theorem getNextMergable_none (h : Heap) (layeredNodes : List (List Nat)) (pre : Bool)
    (hr : getNextMergableVirtualNodeGroup h layeredNodes pre = none) :
    ∀ j, j < layeredNodes.length → ∀ z z',
      z ∈ layeredNodes.getD (if pre then j else layeredNodes.length - j - 1) [] →
      z' ∈ layeredNodes.getD (if pre then j else layeredNodes.length - j - 1) [] →
      h.virtual z = true → h.virtual z' = true → z' ≠ z →
      nodeRelEquals ((if pre then h.realPredecessors else h.realSuccessors) z)
        ((if pre then h.realPredecessors else h.realSuccessors) z') = false := by
  unfold getNextMergableVirtualNodeGroup at hr
  simp only at hr
  intro j hj z z' hz hz' vz vz' hne
  have := List.findSome?_eq_none_iff.mp hr j (List.mem_range.mpr hj)
  exact layerSearch_none _ _ _ this z (List.mem_filter.mpr ⟨hz, vz⟩) z'
    (List.mem_filter.mpr ⟨hz', vz'⟩) hne

/-! ## The loop over the group and one merge step -/

/-- The layers that the search has passed have no two virtual nodes with the
same compared entries. -/
theorem exhaustedTo_of_search (l : Nat) (pre : Bool) (s : Heap × Layers) (hok : MergeOK l s)
    (i : Nat) (hi : i < s.2.layeredNodes.length)
    (hs : ∀ j, j < i → ∀ z z',
      z ∈ s.2.layeredNodes.getD (if pre then j else s.2.layeredNodes.length - j - 1) [] →
      z' ∈ s.2.layeredNodes.getD (if pre then j else s.2.layeredNodes.length - j - 1) [] →
      s.1.virtual z = true → s.1.virtual z' = true → z' ≠ z →
      nodeRelEquals ((if pre then s.1.realPredecessors else s.1.realSuccessors) z)
        ((if pre then s.1.realPredecessors else s.1.realSuccessors) z') = false) :
    (net pre s).ExhaustedTo (if pre then i else s.2.layeredNodes.length - i - 1) := by
  intro j z z' hlt hz hz' vz vz' hA
  by_contra hne
  have hjl : j < s.2.layeredNodes.length := by
    by_contra hge
    have : s.2.layeredNodes.getD j [] = [] := by
      rw [List.getD_eq_getElem?_getD, List.getElem?_eq_none (by omega)]
      rfl
    change z ∈ s.2.layeredNodes.getD j [] at hz
    rw [this] at hz
    exact List.not_mem_nil _ hz
  cases pre
  · simp only [net, Bool.false_eq_true, if_false] at hlt hz hz' vz vz' hA hs ⊢
    have e : s.2.layeredNodes.length - (s.2.layeredNodes.length - 1 - j) - 1 = j := by omega
    have := hs (s.2.layeredNodes.length - 1 - j) (by omega) z z' (by rw [e]; exact hz)
      (by rw [e]; exact hz') vz vz' (fun e' => hne e'.symm)
    rw [nodeRelEquals_of_same (hok.nodupSuc j z hz vz) (hok.nodupSuc j z' hz' vz') hA] at this
    cases this
  · simp only [net, if_true] at hlt hz hz' vz vz' hA hs ⊢
    have := hs j hlt z z' hz hz' vz vz' (fun e' => hne e'.symm)
    rw [nodeRelEquals_of_same (hok.nodupPre j z hz vz) (hok.nodupPre j z' hz' vz') hA] at this
    cases this

/-- After an unsuccessful search no layer has two virtual nodes with the same
compared entries. -/
theorem exhausted_of_search (l : Nat) (pre : Bool) (s : Heap × Layers) (hok : MergeOK l s)
    (hs : getNextMergableVirtualNodeGroup s.1 s.2.layeredNodes pre = none) :
    (net pre s).Exhausted := by
  intro j z z' hz hz' vz vz' hA
  by_contra hne
  have hjl : j < s.2.layeredNodes.length := by
    by_contra hge
    have : s.2.layeredNodes.getD j [] = [] := by
      rw [List.getD_eq_getElem?_getD, List.getElem?_eq_none (by omega)]
      rfl
    change z ∈ s.2.layeredNodes.getD j [] at hz
    rw [this] at hz
    exact List.not_mem_nil _ hz
  have hs' := getNextMergable_none _ _ _ hs
  cases pre
  · simp only [net, Bool.false_eq_true, if_false] at hz hz' vz vz' hA hs'
    have e : s.2.layeredNodes.length - (s.2.layeredNodes.length - 1 - j) - 1 = j := by omega
    have := hs' (s.2.layeredNodes.length - 1 - j) (by omega) z z' (by rw [e]; exact hz)
      (by rw [e]; exact hz') vz vz' (fun e' => hne e'.symm)
    rw [nodeRelEquals_of_same (hok.nodupSuc j z hz vz) (hok.nodupSuc j z' hz' vz') hA] at this
    cases this
  · simp only [net, if_true] at hz hz' vz vz' hA hs'
    have := hs' j hjl z z' hz hz' vz vz' (fun e' => hne e'.symm)
    rw [nodeRelEquals_of_same (hok.nodupPre j z hz vz) (hok.nodupPre j z' hz' vz') hA] at this
    cases this

/-- The loop over the group of `mergeNextVirtualNodeGroup` returns and keeps
every property of the view that one run of its body keeps; a node that is in
the group twice is replaced once, and no real node leaves its layer. -/
theorem mergeFold_inv (l x f : Nat) (pre : Bool) (I : Net → Prop)
    (hL : ∀ n, I n → n.Layered)
    (hI : ∀ n m y, I n → n.Merged m x y → n.ExhaustedTo f → n.lay f x → n.lay f y → n.virt x →
      n.virt y → x ≠ y → (∀ a, n.A x a ↔ n.A y a) → I m) :
    ∀ (group : List Nat) (s : Heap × Layers), MergeOK l s → I (net pre s) →
      (net pre s).ExhaustedTo f → x ∈ s.2.layeredNodes.getD f [] → s.1.virtual x = true →
      (∀ y ∈ group, y ≠ x ∧ s.1.virtual y = true ∧ s.1.flow y = some (f : Int) ∧
        (∀ a, (net pre s).A x a ↔ (net pre s).A y a) ∧
        (y ∈ s.2.layeredNodes.getD f [] ∨
          ((∀ j, y ∉ s.2.layeredNodes.getD j []) ∧
            ∀ b, (net pre s).B y b → (net pre s).B x b))) →
      ∃ s', Res.foldl (mergeReplaced x (some (f : Int)) pre) s group = .ok s' ∧ MergeOK l s' ∧
        I (net pre s') ∧ s'.1.virtual = s.1.virtual ∧ s'.1.successors = s.1.successors ∧
        (∀ i w, w ∈ s.2.layeredNodes.getD i [] → s.1.virtual w = false →
          w ∈ s'.2.layeredNodes.getD i []) ∧
        ∀ i w, w ∈ s'.2.layeredNodes.getD i [] → w ∈ s.2.layeredNodes.getD i []
  | [], s, hok, hi, _, _, _, _ =>
    ⟨s, rfl, hok, hi, rfl, rfl, fun _ _ hw _ => hw, fun _ _ hw => hw⟩
  | y :: rest, s, hok, hi, he, hx, vx, hg => by
    obtain ⟨hyx, vy, hfy, hA, hpres⟩ := hg y (List.mem_cons_self _ _)
    have hfx := (hok.ranked.nodes f x hx)
    have hin := hok.inside f x hx vx
    obtain ⟨s1, hrun, hr1, e1, e2, e3, e4⟩ := mergeReplaced_ranked l x y (f : Int) pre s
      hok.ranked hfx.1 (by omega) (by omega) hfx.2
    obtain ⟨hm, hnp, hns, hsu⟩ := mergeReplaced_merged l x y (f : Int) pre s s1 hok.ranked hfx.1 hfy
      (by omega) (by omega) hrun
    have hok1 : MergeOK l s1 := by
      refine ⟨hr1, ?_, ?_, ?_⟩
      · intro i w hw vw
        rw [e2] at vw
        exact hok.inside i w (e4 i w hw) vw
      · intro i w hw vw
        rw [e2] at vw
        rcases hnp w with h | h
        · exact h
        · rw [h]; exact hok.nodupPre i w (e4 i w hw) vw
      · intro i w hw vw
        rw [e2] at vw
        rcases hns w with h | h
        · exact h
        · rw [h]; exact hok.nodupSuc i w (e4 i w hw) vw
    have hi1 : I (net pre s1) := by
      rcases hpres with hy | ⟨hy, hB⟩
      · exact hI _ _ y hi hm he hx hy vx vy (fun e => hyx e.symm) hA
      · rw [hm.absent (hL _ hi) hy hB]
        exact hi
    have hx1 : x ∈ s1.2.layeredNodes.getD f [] := (hm.lay f x).mpr ⟨hx, fun e => hyx e.symm⟩
    obtain ⟨s2, hrun2, hok2, hi2, hv2, hsu2, hst2, hsub2⟩ := mergeFold_inv l x f pre I hL hI rest s1 hok1 hi1
      (hm.exhaustedTo he) hx1 (by rw [e2]; exact vx) (by
        intro y' hy'
        obtain ⟨h1, h2, h3, h4, h5⟩ := hg y' (List.mem_cons_of_mem _ hy')
        refine ⟨h1, by rw [e2]; exact h2, by rw [e1]; exact h3, by rw [hm.A]; exact h4, ?_⟩
        have hBx : ∀ b, (net pre s).B x b → (net pre s1).B x b :=
          fun b hb => (hm.B x b).mpr (Or.inl hb)
        have hBy' : ∀ b, (net pre s1).B y' b → (net pre s).B y' b := by
          intro b hb
          rcases (hm.B y' b).mp hb with h | ⟨e, _⟩
          · exact h
          · exact absurd e h1
        by_cases e : y' = y
        · subst e
          right
          refine ⟨fun j hj => ((hm.lay j y').mp hj).2 rfl, fun b hb => ?_⟩
          exact (hm.B x b).mpr (Or.inr ⟨rfl, hBy' b hb⟩)
        · rcases h5 with h5 | ⟨h5, h6⟩
          · exact Or.inl ((hm.lay f y').mpr ⟨h5, e⟩)
          · exact Or.inr ⟨fun j hj => h5 j (e4 j y' hj), fun b hb => hBx b (h6 b (hBy' b hb))⟩)
    refine ⟨s2, ?_, hok2, hi2, hv2.trans e2, hsu2.trans hsu, fun i w hw vw =>
      hst2 i w ((hm.lay i w).mpr ⟨hw, fun e => ?_⟩) (by rw [e2]; exact vw),
      fun i w hw => e4 i w (hsub2 i w hw)⟩
    · rw [Res.foldl, hrun]
      exact hrun2
    · rw [e, vy] at vw
      cases vw

theorem net_flip (pre : Bool) (s : Heap × Layers) : (net pre s).flip = net (!pre) s := by
  cases pre <;> rfl

/-- The merge of the group that a successful search returns keeps every
property of the view that one run of the body of the merge loop keeps. -/
theorem mergeGroup_inv (l : Nat) (pre : Bool) (I : Net → Prop) (hL : ∀ n, I n → n.Layered)
    (hI : ∀ x f n m y, I n → n.Merged m x y → n.ExhaustedTo f → n.lay f x → n.lay f y →
      n.virt x → n.virt y → x ≠ y → (∀ a, n.A x a ↔ n.A y a) → I m)
    (s : Heap × Layers) (hok : MergeOK l s) (hi : I (net pre s)) (r : Mergable)
    (hr : getNextMergableVirtualNodeGroup s.1 s.2.layeredNodes pre = some r) :
    ∃ s', Res.foldl (mergeReplaced r.node (s.1.flow r.node) r.pre) s r.group = .ok s' ∧
      MergeOK l s' ∧ I (net pre s') ∧ s'.1.virtual = s.1.virtual ∧
      s'.1.successors = s.1.successors ∧
      (∀ i w, w ∈ s.2.layeredNodes.getD i [] → s.1.virtual w = false →
        w ∈ s'.2.layeredNodes.getD i []) ∧
      ∀ i w, w ∈ s'.2.layeredNodes.getD i [] → w ∈ s.2.layeredNodes.getD i [] := by
  obtain ⟨i, hil, hpre, hnode, vnode, hgroup, hexh⟩ := getNextMergable_some _ _ _ _ hr
  have he := exhaustedTo_of_search l pre s hok i hil hexh
  have hflow := (hok.ranked.nodes _ _ hnode).1
  rw [hflow, hpre]
  refine mergeFold_inv l r.node _ pre I hL (hI r.node _) r.group s hok hi he hnode vnode ?_
  intro y hy
  obtain ⟨h1, h2, h3, h4⟩ := hgroup y hy
  refine ⟨h3, h2, (hok.ranked.nodes _ _ h1).1, ?_, Or.inl h1⟩
  cases pre
  · simp only [Bool.false_eq_true, if_false] at h4 hnode
    exact nodeRelEquals_same (hok.nodupSuc _ _ hnode vnode) h4
  · simp only [if_true] at h4 hnode
    exact nodeRelEquals_same (hok.nodupPre _ _ hnode vnode) h4

/-- A call of `mergeNextVirtualNodeGroup` returns and takes a state between
two merge steps to such a state. -/
theorem mergeNext_inv (first : Bool) (mode : String) (h1 : decide ("start" = mode) = first)
    (h2 : decide ("end" = mode) = !first) (l : Nat) (s : Heap × Layers)
    (hinv : MergeInv first l s) :
    ∃ (s' : Heap × Layers) (r : Option String),
      mergeNextVirtualNodeGroup s.1 s.2 mode = .ok (s'.1, s'.2, r) ∧ MergeInv first l s' ∧
      s'.1.virtual = s.1.virtual ∧ s'.1.successors = s.1.successors ∧
      (∀ i w, w ∈ s.2.layeredNodes.getD i [] → s.1.virtual w = false →
        w ∈ s'.2.layeredNodes.getD i []) ∧
      ∀ i w, w ∈ s'.2.layeredNodes.getD i [] → w ∈ s.2.layeredNodes.getD i [] := by
  obtain ⟨hok, hphase⟩ := hinv
  unfold mergeNextVirtualNodeGroup
  rw [h1, h2]
  cases hs1 : getNextMergableVirtualNodeGroup s.1 s.2.layeredNodes first with
  | some r =>
    simp only
    rcases hphase with hF | hS
    · obtain ⟨s', hrun, hok', hF', hv, hsu, hst, hsb⟩ := mergeGroup_inv l first Net.First (fun n hn => hn.layered)
        (fun x f n m y hn hm he hx hy vx vy hxy hA => hn.mergedFirst hm he hx hy vx vy hxy hA)
        s hok hF r hs1
      refine ⟨s', some mode, ?_, ⟨hok', Or.inl hF'⟩, hv, hsu, hst, hsb⟩
      show (Res.foldl _ s r.group).bind _ = _
      rw [hrun]
      rfl
    · obtain ⟨i, hil, hpre, hnode, vnode, hgroup, _⟩ := getNextMergable_some _ _ _ _ hs1
      have hnil : r.group = [] := by
        refine List.eq_nil_iff_forall_not_mem.mpr fun y hy => ?_
        obtain ⟨g1, g2, g3, g4⟩ := hgroup y hy
        refine g3 (@Net.Second.noFirst _ hS _ y r.node g1 hnode g2 vnode ?_)
        cases first
        · simp only [Bool.false_eq_true, if_false] at g4 hnode
          have := nodeRelEquals_same (hok.nodupSuc _ _ hnode vnode) g4
          exact fun b => (this b).symm
        · simp only [if_true] at g4 hnode
          have := nodeRelEquals_same (hok.nodupPre _ _ hnode vnode) g4
          exact fun b => (this b).symm
      refine ⟨s, some mode, ?_, ⟨hok, Or.inr hS⟩, rfl, rfl, fun _ _ hw _ => hw, fun _ _ hw => hw⟩
      rw [hnil]
      rfl
  | none =>
    simp only
    cases hs2 : getNextMergableVirtualNodeGroup s.1 s.2.layeredNodes (!first) with
    | none => exact ⟨s, none, rfl, ⟨hok, hphase⟩, rfl, rfl, fun _ _ hw _ => hw, fun _ _ hw => hw⟩
    | some r =>
      simp only
      have hS : (net (!first) s).Second := by
        rcases hphase with hF | hS
        · rw [← net_flip]
          exact hF.second (exhausted_of_search l first s hok hs1)
        · exact hS
      obtain ⟨s', hrun, hok', hS', hv, hsu, hst, hsb⟩ := mergeGroup_inv l (!first) Net.Second
        (fun n hn => hn.layered)
        (fun x f n m y hn hm he hx hy vx vy hxy hA => hn.mergedSecond hm he hx hy vx vy hxy hA)
        s hok hS r hs2
      refine ⟨s', some mode, ?_, ⟨hok', Or.inr hS'⟩, hv, hsu, hst, hsb⟩
      show (Res.foldl _ s r.group).bind _ = _
      rw [hrun]
      rfl

/-- Any number of merge steps with one value of the option keeps the state
between two merge steps; no real node leaves its layer and no layer gains a
node. -/
theorem mergeSteps_inv (first : Bool) (mode : String) (h1 : decide ("start" = mode) = first)
    (h2 : decide ("end" = mode) = !first) (l : Nat) (s s' : Heap × Layers)
    (hsteps : Relation.ReflTransGen (MergeStepFor mode) s s') (hinv : MergeInv first l s) :
    MergeInv first l s' ∧ s'.1.virtual = s.1.virtual ∧ s'.1.successors = s.1.successors ∧
      (∀ i w, w ∈ s.2.layeredNodes.getD i [] → s.1.virtual w = false →
        w ∈ s'.2.layeredNodes.getD i []) ∧
      ∀ i w, w ∈ s'.2.layeredNodes.getD i [] → w ∈ s.2.layeredNodes.getD i [] := by
  induction hsteps with
  | refl => exact ⟨hinv, rfl, rfl, fun _ _ hw _ => hw, fun _ _ hw => hw⟩
  | tail _ hstep ih =>
    obtain ⟨r, hrun⟩ := hstep
    obtain ⟨ih1, ih2, ih3, ih4, ih5⟩ := ih
    obtain ⟨t, r', hrun', hinv', hv, hsu, hst, hsb⟩ := mergeNext_inv first mode h1 h2 l _ ih1
    rw [hrun'] at hrun
    simp only [Res.ok.injEq, Prod.mk.injEq] at hrun
    have : t = _ := Prod.ext hrun.1 hrun.2.1
    rw [← this]
    exact ⟨hinv', hv.trans ih2, hsu.trans ih3,
      fun i w hw vw => hst i w (ih4 i w hw vw) (by rw [ih2]; exact vw),
      fun i w hw => ih5 i w (hsb i w hw)⟩

/-- In a state between two merge steps every real edge is continued on both
sides, seen from the side of the predecessors. -/
theorem MergeInv.routedPre {first : Bool} {l : Nat} {s : Heap × Layers}
    (hinv : MergeInv first l s) : (net true s).Routed := by
  cases first
  · rcases hinv.2 with h | h
    · have := h.routed.flipRouted
      rw [net_flip] at this
      exact this
    · exact h.routed
  · rcases hinv.2 with h | h
    · exact h.routed
    · have := h.routed.flipRouted
      rw [net_flip] at this
      exact this

/-! ## The layers of `addVirtualNodes` as a start of the merge steps -/

theorem Linked.pairs_mem (ls : Layers) :
    ∀ (xs : List Nat) (f : Int), Linked ls f xs → ∀ e ∈ pairs xs,
      ∃ i, e ∈ ls.layeredEdges.getD i []
  | [], _, _, e, he => by simp [pairs] at he
  | [_], _, _, e, he => by simp [pairs] at he
  | a :: b :: rest, f, hl, e, he => by
    rw [pairs_cons_cons] at he
    rcases List.mem_cons.mp he with rfl | he
    · exact ⟨_, hl.1.2⟩
    · exact Linked.pairs_mem ls (b :: rest) (f + 1) hl.2 e he

theorem pairs_ends (b p q : Nat) :
    ∀ (xs : List Nat) (a : Nat), (p, q) ∈ pairs (a :: xs ++ [b]) →
      (p = a ∨ p ∈ xs) ∧ (q = b ∨ q ∈ xs)
  | [], a, h => by
    simp only [List.cons_append, List.nil_append, pairs_cons_cons, List.mem_cons,
      Prod.mk.injEq] at h
    rcases h with ⟨rfl, rfl⟩ | h
    · exact ⟨Or.inl rfl, Or.inl rfl⟩
    · simp [pairs] at h
  | x :: rest, a, h => by
    simp only [List.cons_append, pairs_cons_cons, List.mem_cons, Prod.mk.injEq] at h
    rcases h with ⟨rfl, rfl⟩ | h
    · exact ⟨Or.inl rfl, Or.inr (List.mem_cons_self _ _)⟩
    · have := pairs_ends b p q rest x (by simpa only [List.cons_append] using h)
      exact ⟨Or.inr (this.1.elim (fun e => e ▸ List.mem_cons_self _ _)
        (List.mem_cons_of_mem _)), this.2.imp id (List.mem_cons_of_mem _)⟩

theorem pairs_succ (b : Nat) :
    ∀ (xs : List Nat) (a : Nat),
      (∃ q, (a, q) ∈ pairs (a :: xs ++ [b]) ∧ (q = b ∨ q ∈ xs)) ∧
      ∀ w ∈ xs, ∃ q, (w, q) ∈ pairs (a :: xs ++ [b]) ∧ (q = b ∨ q ∈ xs)
  | [], a => by
    refine ⟨⟨b, ?_, Or.inl rfl⟩, fun w hw => absurd hw (List.not_mem_nil w)⟩
    simp [pairs]
  | x :: rest, a => by
    obtain ⟨⟨q, hq1, hq2⟩, ih⟩ := pairs_succ b rest x
    simp only [List.cons_append, pairs_cons_cons]
    simp only [List.cons_append] at hq1 ih
    refine ⟨⟨x, List.mem_cons_self _ _, Or.inr (List.mem_cons_self _ _)⟩, fun w hw => ?_⟩
    rcases List.mem_cons.mp hw with rfl | hw
    · exact ⟨q, List.mem_cons_of_mem _ hq1, hq2.imp id (List.mem_cons_of_mem _)⟩
    · obtain ⟨q', h1, h2⟩ := ih w hw
      exact ⟨q', List.mem_cons_of_mem _ h1, h2.imp id (List.mem_cons_of_mem _)⟩

theorem pairs_pred (b : Nat) :
    ∀ (xs : List Nat) (a : Nat),
      (∃ z, (z, b) ∈ pairs (a :: xs ++ [b]) ∧ (z = a ∨ z ∈ xs)) ∧
      ∀ w ∈ xs, ∃ z, (z, w) ∈ pairs (a :: xs ++ [b]) ∧ (z = a ∨ z ∈ xs)
  | [], a => by
    refine ⟨⟨a, ?_, Or.inl rfl⟩, fun w hw => absurd hw (List.not_mem_nil w)⟩
    simp [pairs]
  | x :: rest, a => by
    obtain ⟨⟨z, hz1, hz2⟩, ih⟩ := pairs_pred b rest x
    simp only [List.cons_append, pairs_cons_cons]
    simp only [List.cons_append] at hz1 ih
    have up : ∀ z', (z' = x ∨ z' ∈ rest) → (z' = a ∨ z' ∈ x :: rest) := fun z' h =>
      Or.inr (h.elim (fun e => e ▸ List.mem_cons_self _ _) (List.mem_cons_of_mem _))
    refine ⟨⟨z, List.mem_cons_of_mem _ hz1, up z hz2⟩, fun w hw => ?_⟩
    rcases List.mem_cons.mp hw with rfl | hw
    · exact ⟨a, List.mem_cons_self _ _, Or.inl rfl⟩
    · obtain ⟨z', h1, h2⟩ := ih w hw
      exact ⟨z', List.mem_cons_of_mem _ h1, up z' h2⟩

theorem OnRanks.mem_layer {h : Heap} {ls : Layers} :
    ∀ (xs : List Nat) (f : Int), OnRanks h ls f xs → ∀ x ∈ xs,
      ∃ g : Int, f ≤ g ∧ g < f + xs.length ∧ 0 ≤ g ∧ x ∈ ls.layeredNodes.getD g.toNat []
  | [], _, _, x, hx => absurd hx (List.not_mem_nil x)
  | w :: rest, f, hon, x, hx => by
    rcases List.mem_cons.mp hx with rfl | hx'
    · exact ⟨f, le_refl _, by simp only [List.length_cons]; push_cast; omega, hon.1.2.1,
        hon.1.2.2⟩
    · obtain ⟨g, h1, h2, h3, h4⟩ := OnRanks.mem_layer rest (f + 1) hon.2 x hx'
      exact ⟨g, by omega, by simp only [List.length_cons]; push_cast; omega, h3, h4⟩

/-- What the layers of `addVirtualNodes` hold for one chain. -/
theorem chain_facts {h h' : Heap} {ls : Layers} {nodes : List Nat} {l : Nat}
    (hg : RankedGroup h nodes l) {chains : List EdgeChain} (hext : HeapExt h h')
    (hmap : chains.map (fun c => (c.source, c.target)) =
      nodes.flatMap (fun u => (h.successors u).map (fun v => (u, v))))
    (hcs : ∀ c ∈ chains, ChainOK h h' ls c)
    (hin : ∀ n ∈ nodes, ∃ f : Int, h.flow n = some f ∧ n ∈ ls.layeredNodes.getD f.toNat [])
    (c : EdgeChain) (hc : c ∈ chains) :
    ∃ fu fv : Nat, c.source ∈ nodes ∧ c.target ∈ nodes ∧ c.target ∈ h'.successors c.source ∧
      h'.virtual c.source = false ∧ h'.virtual c.target = false ∧
      c.source ∈ ls.layeredNodes.getD fu [] ∧ c.target ∈ ls.layeredNodes.getD fv [] ∧
      fu < fv ∧ fv < l ∧
      (∀ w ∈ c.chain, h'.virtual w = true ∧ h'.realPredecessors w = [c.source] ∧
        h'.realSuccessors w = [c.target] ∧
        ∃ g, w ∈ ls.layeredNodes.getD g [] ∧ fu < g ∧ g < fv) ∧
      ∀ e ∈ pairs (c.source :: c.chain ++ [c.target]), ∃ i, e ∈ ls.layeredEdges.getD i [] := by
  obtain ⟨fu, fv, hfu, hfv, hlen, hon, hlink, hroutes⟩ := hcs c hc
  have hpair : (c.source, c.target) ∈
      nodes.flatMap (fun u => (h.successors u).map (fun v => (u, v))) := by
    rw [← hmap]
    exact List.mem_map.mpr ⟨c, hc, rfl⟩
  obtain ⟨u, hu, huv⟩ := List.mem_flatMap.mp hpair
  obtain ⟨v, hv, heq⟩ := List.mem_map.mp huv
  simp only [Prod.mk.injEq] at heq
  obtain ⟨e1, e2⟩ := heq
  subst e1
  subst e2
  have hvn := (hg.edge _ hu _ hv).1
  obtain ⟨f1, hf1, h01, _⟩ := hg.flow _ hu
  obtain ⟨f2, hf2, _, h2l⟩ := hg.flow _ hvn
  have hlt := (hg.edge _ hu _ hv).2 f1 f2 hf1 hf2
  rw [hfu] at hf1
  rw [hfv] at hf2
  simp only [Option.some.injEq] at hf1 hf2
  subst hf1
  subst hf2
  obtain ⟨g1, hg1, hm1⟩ := hin _ hu
  obtain ⟨g2, hg2, hm2⟩ := hin _ hvn
  rw [hfu] at hg1
  rw [hfv] at hg2
  simp only [Option.some.injEq] at hg1 hg2
  subst hg1
  subst hg2
  refine ⟨fu.toNat, fv.toNat, hu, hvn, ?_, ?_, ?_, hm1, hm2, by omega, by omega, ?_,
    Linked.pairs_mem ls _ _ hlink⟩
  · rw [hext.successors _ (hg.bound _ hu)]
    exact hv
  · rw [hext.virtual _ (hg.bound _ hu)]
    exact hg.real _ hu
  · rw [hext.virtual _ (hg.bound _ hvn)]
    exact hg.real _ hvn
  · intro w hw
    obtain ⟨r1, r2, r3, _⟩ := hroutes w hw
    obtain ⟨g, h1, h2, h3, h4⟩ := OnRanks.mem_layer _ _ hon w hw
    rw [hlen] at h2
    exact ⟨r1, r2, r3, g.toNat, h4, by omega, by omega⟩

/-- The layers that `addVirtualNodes` returns are a state of the first phase
of merging, seen from the side of the predecessors. -/
theorem addVirtualNodes_first {h h' : Heap} {ls : Layers} {nodes : List Nat} {l : Nat}
    (hg : RankedGroup h nodes l) {chains : List EdgeChain} (hext : HeapExt h h')
    (hr : Ranked l h' ls)
    (hmap : chains.map (fun c => (c.source, c.target)) =
      nodes.flatMap (fun u => (h.successors u).map (fun v => (u, v))))
    (hcs : ∀ c ∈ chains, ChainOK h h' ls c)
    (hin : ∀ n ∈ nodes, ∃ f : Int, h.flow n = some f ∧ n ∈ ls.layeredNodes.getD f.toNat [])
    (hnodes : ∀ i x, x ∈ ls.layeredNodes.getD i [] → x ∈ nodes ∨ ∃ c ∈ chains, x ∈ c.chain)
    (hedges : ∀ i e, e ∈ ls.layeredEdges.getD i [] →
      ∃ c ∈ chains, e ∈ pairs (c.source :: c.chain ++ [c.target])) :
    (net true (h', ls)).Layered ∧ (net true (h', ls)).Routed := by
  have cf := chain_facts hg hext hmap hcs hin
  have hidx : ∀ i j x, x ∈ ls.layeredNodes.getD i [] → x ∈ ls.layeredNodes.getD j [] → i = j := by
    intro i j x hi hj
    have h1 := (hr.nodes i x hi).1
    have h2 := (hr.nodes j x hj).1
    rw [h1] at h2
    simp only [Option.some.injEq] at h2
    omega
  have hreal : ∀ n ∈ nodes, h'.virtual n = false := fun n hn => by
    rw [hext.virtual _ (hg.bound _ hn)]
    exact hg.real _ hn
  have hchain : ∀ i x, x ∈ ls.layeredNodes.getD i [] → h'.virtual x = true →
      ∃ c ∈ chains, x ∈ c.chain := by
    intro i x hx vx
    rcases hnodes i x hx with hn | hc
    · rw [hreal x hn] at vx
      cases vx
    · exact hc
  have hgroup : ∀ i x, x ∈ ls.layeredNodes.getD i [] → ¬ h'.virtual x = true → x ∈ nodes := by
    intro i x hx vx
    rcases hnodes i x hx with hn | ⟨c, hc, hxc⟩
    · exact hn
    · obtain ⟨_, _, _, _, _, _, _, _, _, _, _, hw, _⟩ := cf c hc
      exact absurd (hw x hxc).1 vx
  have hchainFor : ∀ a b, a ∈ nodes → b ∈ h'.successors a →
      ∃ c ∈ chains, c.source = a ∧ c.target = b := by
    intro a b ha hb
    rw [hext.successors _ (hg.bound _ ha)] at hb
    have : (a, b) ∈ chains.map (fun c => (c.source, c.target)) := by
      rw [hmap]
      exact List.mem_flatMap.mpr ⟨a, ha, List.mem_map.mpr ⟨b, hb, rfl⟩⟩
    obtain ⟨c, hc, heq⟩ := List.mem_map.mp this
    simp only [Prod.mk.injEq] at heq
    exact ⟨c, hc, heq.1, heq.2⟩
  have hlayOf : ∀ c ∈ chains, ∀ y, (y = c.source ∨ y ∈ c.chain) ∨ (y = c.target ∨ y ∈ c.chain) →
      ∃ i, y ∈ ls.layeredNodes.getD i [] := by
    intro c hc y hy
    obtain ⟨fu, fv, _, _, _, _, _, hsu, htg, _, _, hw, _⟩ := cf c hc
    rcases hy with (rfl | hy) | (rfl | hy)
    · exact ⟨fu, hsu⟩
    · obtain ⟨_, _, _, g, hg', _⟩ := hw y hy
      exact ⟨g, hg'⟩
    · exact ⟨fv, htg⟩
    · obtain ⟨_, _, _, g, hg', _⟩ := hw y hy
      exact ⟨g, hg'⟩
  have hcarry : ∀ c ∈ chains, ∀ w, (w = c.target ∨ w ∈ c.chain) →
      w = c.target ∨ (net true (h', ls)).Carry c.source c.target w := by
    intro c hc w hw
    obtain ⟨_, _, _, _, _, _, _, _, _, _, _, hch, _⟩ := cf c hc
    refine hw.imp id fun hw' => ?_
    obtain ⟨v1, v2, v3, _⟩ := hch w hw'
    refine ⟨v1, ?_, ?_⟩
    · show c.source ∈ h'.realPredecessors w
      rw [v2]; exact List.mem_singleton_self _
    · show c.target ∈ h'.realSuccessors w
      rw [v3]; exact List.mem_singleton_self _
  have hcarryB : ∀ c ∈ chains, ∀ w, (w = c.source ∨ w ∈ c.chain) →
      w = c.source ∨ (net true (h', ls)).Carry c.source c.target w := by
    intro c hc w hw
    obtain ⟨_, _, _, _, _, _, _, _, _, _, _, hch, _⟩ := cf c hc
    refine hw.imp id fun hw' => ?_
    obtain ⟨v1, v2, v3, _⟩ := hch w hw'
    refine ⟨v1, ?_, ?_⟩
    · show c.source ∈ h'.realPredecessors w
      rw [v2]; exact List.mem_singleton_self _
    · show c.target ∈ h'.realSuccessors w
      rw [v3]; exact List.mem_singleton_self _
  constructor
  · refine ⟨hidx, ?_, ?_, ?_, ?_, ?_⟩
    · rintro z x ⟨k, hk⟩
      have hk' : (z, x) ∈ ls.layeredEdges.getD k [] := hk
      obtain ⟨c, hc, hp⟩ := hedges k _ hk'
      obtain ⟨e1, e2⟩ := pairs_ends _ _ _ _ _ hp
      obtain ⟨iz, hz⟩ := hlayOf c hc z (Or.inl e1)
      obtain ⟨ix, hx⟩ := hlayOf c hc x (Or.inr e2)
      obtain ⟨f1, f2, _, _⟩ := hr.edges k z x hk'
      have g1 := (hr.nodes iz z hz).1
      have g2 := (hr.nodes ix x hx).1
      rw [f1] at g1
      rw [f2] at g2
      simp only [Option.some.injEq] at g1 g2
      have e3 : iz = k := by omega
      have e4 : ix = k + 1 := by omega
      subst e3
      subst e4
      exact ⟨iz, iz + 1, hz, hx, rfl⟩
    · intro i hi
      exact absurd hi (Nat.lt_irrefl i)
    · intro i j hn
      have hn' : j = i + 1 := hn
      show i < j
      omega
    · intro i i' j h1 h2
      have h1' : j = i + 1 := h1
      have h2' : j = i' + 1 := h2
      omega
    · intro i j j' h1 h2
      have h1' : j = i + 1 := h1
      have h2' : j' = i + 1 := h2
      omega
  · constructor
    · intro i x hx vx
      obtain ⟨c, hc, hxc⟩ := hchain i x hx vx
      obtain ⟨_, _, _, _, _, _, _, _, _, _, _, hw, _⟩ := cf c hc
      refine ⟨c.source, ?_⟩
      show c.source ∈ h'.realPredecessors x
      rw [(hw x hxc).2.1]; exact List.mem_singleton_self _
    · intro i x hx vx
      obtain ⟨c, hc, hxc⟩ := hchain i x hx vx
      obtain ⟨_, _, _, _, _, _, _, _, _, _, _, hw, _⟩ := cf c hc
      refine ⟨c.target, ?_⟩
      show c.target ∈ h'.realSuccessors x
      rw [(hw x hxc).2.2.1]; exact List.mem_singleton_self _
    · intro i x a b hx vx ha hb
      obtain ⟨c, hc, hxc⟩ := hchain i x hx vx
      obtain ⟨fu, fv, _, _, hsucc, vs, vt, hsu, htg, _, _, hw, _⟩ := cf c hc
      obtain ⟨_, w2, w3, g, hg', hlo, hhi⟩ := hw x hxc
      have ha' : a ∈ h'.realPredecessors x := ha
      have hb' : b ∈ h'.realSuccessors x := hb
      rw [w2, List.mem_singleton] at ha'
      rw [w3, List.mem_singleton] at hb'
      subst ha'
      subst hb'
      have eg : g = i := hidx _ _ _ hg' hx
      subst eg
      refine ⟨hsucc, ?_, ?_, ⟨fu, hsu, hlo⟩, ⟨fv, htg, hhi⟩⟩
      · show ¬ h'.virtual c.source = true
        rw [vs]; exact Bool.false_ne_true
      · show ¬ h'.virtual c.target = true
        rw [vt]; exact Bool.false_ne_true
    · intro i x a b hx vx ha hb
      obtain ⟨c, hc, hxc⟩ := hchain i x hx vx
      obtain ⟨_, _, _, _, _, _, _, _, _, _, _, hw, hpairs⟩ := cf c hc
      obtain ⟨_, w2, w3, _⟩ := hw x hxc
      have ha' : a ∈ h'.realPredecessors x := ha
      have hb' : b ∈ h'.realSuccessors x := hb
      rw [w2, List.mem_singleton] at ha'
      rw [w3, List.mem_singleton] at hb'
      subst ha'
      subst hb'
      obtain ⟨z, hz1, hz2⟩ := (pairs_pred c.target c.chain c.source).2 x hxc
      obtain ⟨k, hk⟩ := hpairs _ hz1
      exact ⟨z, ⟨k, hk⟩, hcarryB c hc z hz2⟩
    · intro i x a b hx vx ha hb
      obtain ⟨c, hc, hxc⟩ := hchain i x hx vx
      obtain ⟨_, _, _, _, _, _, _, _, _, _, _, hw, hpairs⟩ := cf c hc
      obtain ⟨_, w2, w3, _⟩ := hw x hxc
      have ha' : a ∈ h'.realPredecessors x := ha
      have hb' : b ∈ h'.realSuccessors x := hb
      rw [w2, List.mem_singleton] at ha'
      rw [w3, List.mem_singleton] at hb'
      subst ha'
      subst hb'
      obtain ⟨q, hq1, hq2⟩ := (pairs_succ c.target c.chain c.source).2 x hxc
      obtain ⟨k, hk⟩ := hpairs _ hq1
      exact ⟨q, ⟨k, hk⟩, hcarry c hc q hq2⟩
    · intro i j a b ha hb va vb hab
      obtain ⟨c, hc, e1, e2⟩ := hchainFor a b (hgroup i a ha va) hab
      subst e1
      subst e2
      obtain ⟨_, _, _, _, _, _, _, _, _, _, _, _, hpairs⟩ := cf c hc
      obtain ⟨q, hq1, hq2⟩ := (pairs_succ c.target c.chain c.source).1
      obtain ⟨k, hk⟩ := hpairs _ hq1
      exact ⟨q, ⟨k, hk⟩, hcarry c hc q hq2⟩
    · intro i j a b ha hb va vb hab
      obtain ⟨c, hc, e1, e2⟩ := hchainFor a b (hgroup i a ha va) hab
      subst e1
      subst e2
      obtain ⟨_, _, _, _, _, _, _, _, _, _, _, _, hpairs⟩ := cf c hc
      obtain ⟨z, hz1, hz2⟩ := (pairs_pred c.target c.chain c.source).1
      obtain ⟨k, hk⟩ := hpairs _ hz1
      exact ⟨z, ⟨k, hk⟩, hcarryB c hc z hz2⟩

/-- On a group whose ranks grow strictly along every edge `addVirtualNodes`
returns layers whose real nodes are the nodes of the group and that are a
state between two merge steps, whichever side is searched first. -/
theorem addVirtualNodes_mergeInv (h : Heap) (nodes : List Nat) (l : Nat)
    (hg : RankedGroup h nodes l) (hne : nodes ≠ []) :
    ∃ (h' : Heap) (ls : Layers), addVirtualNodes h nodes l = .ok (h', ls) ∧
      (∀ n ∈ nodes, h'.virtual n = false ∧ ∃ i, n ∈ ls.layeredNodes.getD i []) ∧
      (∀ n ∈ nodes, h'.successors n = h.successors n) ∧
      (∀ i x, x ∈ ls.layeredNodes.getD i [] → h'.virtual x = false → x ∈ nodes) ∧
      ∀ first, MergeInv first l (h', ls) := by
  obtain ⟨h', ls, chains, hrun, hext, hr, hmap, _, hcs, hin, hnodes, hedges⟩ :=
    addVirtualNodes_ok h nodes l hg hne
  obtain ⟨hlay, hrout⟩ := addVirtualNodes_first hg hext hr hmap hcs hin hnodes hedges
  have cf := chain_facts hg hext hmap hcs hin
  have hidx : ∀ i j x, x ∈ ls.layeredNodes.getD i [] → x ∈ ls.layeredNodes.getD j [] → i = j :=
    hlay.lay_fun
  have hreal : ∀ n ∈ nodes, h'.virtual n = false := fun n hn => by
    rw [hext.virtual _ (hg.bound _ hn)]
    exact hg.real _ hn
  have hchain : ∀ i x, x ∈ ls.layeredNodes.getD i [] → h'.virtual x = true →
      ∃ c ∈ chains, x ∈ c.chain := by
    intro i x hx vx
    rcases hnodes i x hx with hn | hc
    · rw [hreal x hn] at vx
      cases vx
    · exact hc
  -- the facts on a virtual node of the layers
  have hvirt : ∀ i x, x ∈ ls.layeredNodes.getD i [] → h'.virtual x = true →
      ∃ u v fu fv, h'.realPredecessors x = [u] ∧ h'.realSuccessors x = [v] ∧
        u ∈ ls.layeredNodes.getD fu [] ∧ v ∈ ls.layeredNodes.getD fv [] ∧ fu < i ∧ i < fv ∧
        fv < l := by
    intro i x hx vx
    obtain ⟨c, hc, hxc⟩ := hchain i x hx vx
    obtain ⟨fu, fv, _, _, _, _, _, hsu, htg, _, hfl, hw, _⟩ := cf c hc
    obtain ⟨_, w2, w3, g, hg', hlo, hhi⟩ := hw x hxc
    have eg : g = i := hidx _ _ _ hg' hx
    subst eg
    exact ⟨c.source, c.target, fu, fv, w2, w3, hsu, htg, hlo, hhi, hfl⟩
  -- a pair between virtual nodes joins nodes with the same lists
  have hsame : ∀ k z x, (z, x) ∈ ls.layeredEdges.getD k [] → h'.virtual z = true →
      h'.virtual x = true → h'.realPredecessors z = h'.realPredecessors x ∧
        h'.realSuccessors z = h'.realSuccessors x ∧
        z ∈ ls.layeredNodes.getD k [] ∧ x ∈ ls.layeredNodes.getD (k + 1) [] := by
    intro k z x hk vz vx
    obtain ⟨c, hc, hp⟩ := hedges k _ hk
    obtain ⟨fu, fv, _, _, _, vs, vt, _, _, _, _, hw, _⟩ := cf c hc
    obtain ⟨e1, e2⟩ := pairs_ends _ _ _ _ _ hp
    have hz : z ∈ c.chain := by
      rcases e1 with rfl | e1
      · rw [vs] at vz; cases vz
      · exact e1
    have hx : x ∈ c.chain := by
      rcases e2 with rfl | e2
      · rw [vt] at vx; cases vx
      · exact e2
    obtain ⟨_, z2, z3, gz, hgz, _⟩ := hw z hz
    obtain ⟨_, x2, x3, gx, hgx, _⟩ := hw x hx
    obtain ⟨f1, f2, _, _⟩ := hr.edges k z x hk
    have g1 := (hr.nodes gz z hgz).1
    have g2 := (hr.nodes gx x hgx).1
    rw [f1] at g1
    rw [f2] at g2
    simp only [Option.some.injEq] at g1 g2
    have e3 : gz = k := by omega
    have e4 : gx = k + 1 := by omega
    subst e3
    subst e4
    exact ⟨z2.trans x2.symm, z3.trans x3.symm, hgz, hgx⟩
  have hok : MergeOK l (h', ls) := by
    refine ⟨hr, ?_, ?_, ?_⟩
    · intro i x hx vx
      obtain ⟨_, _, fu, fv, _, _, _, _, h1, h2, h3⟩ := hvirt i x hx vx
      omega
    · intro i x hx vx
      obtain ⟨u, _, _, _, h1, _⟩ := hvirt i x hx vx
      show (h'.realPredecessors x).Nodup
      rw [h1]
      exact List.nodup_singleton _
    · intro i x hx vx
      obtain ⟨_, v, _, _, _, h1, _⟩ := hvirt i x hx vx
      show (h'.realSuccessors x).Nodup
      rw [h1]
      exact List.nodup_singleton _
  have hfirstT : (net true (h', ls)).First := by
    refine ⟨hlay, hrout, ?_, ?_, ?_⟩
    · rintro z x ⟨k, hk⟩ vz vx a
      obtain ⟨s1, _, hz, _⟩ := hsame k z x hk vz vx
      obtain ⟨u, _, fu, _, h1, _, hu, _, hlt, _⟩ := hvirt k z hz vz
      show a ∈ h'.realPredecessors z ↔
        (a ∈ h'.realPredecessors x ∧ ∃ j k', a ∈ ls.layeredNodes.getD j [] ∧
          z ∈ ls.layeredNodes.getD k' [] ∧ j < k')
      rw [← s1, h1, List.mem_singleton]
      exact ⟨fun e => ⟨e, fu, k, e ▸ hu, hz, hlt⟩, fun e => e.1⟩
    · intro i x a a' hx vx ha ha'
      obtain ⟨u, _, _, _, h1, _⟩ := hvirt i x hx vx
      have ha1 : a ∈ h'.realPredecessors x := ha
      have ha2 : a' ∈ h'.realPredecessors x := ha'
      rw [h1, List.mem_singleton] at ha1 ha2
      rw [ha1, ha2]
    · rintro z x ⟨k, hk⟩ vz vx b hb
      obtain ⟨_, s2, _, _⟩ := hsame k z x hk vz vx
      show b ∈ h'.realSuccessors z
      rw [s2]
      exact hb
  have hfirstF : (net false (h', ls)).First := by
    refine ⟨?_, ?_, ?_, ?_, ?_⟩
    · have := hlay.flipLayered
      rw [net_flip] at this
      exact this
    · have := hrout.flipRouted
      rw [net_flip] at this
      exact this
    · rintro z x ⟨k, hk⟩ vz vx a
      have hk' : (x, z) ∈ ls.layeredEdges.getD k [] := hk
      obtain ⟨_, s2, _, hz⟩ := hsame k x z hk' vx vz
      obtain ⟨_, v, _, fv, _, h1, _, hv, _, hlt, _⟩ := hvirt (k + 1) z hz vz
      show a ∈ h'.realSuccessors z ↔
        (a ∈ h'.realSuccessors x ∧ ∃ j k', a ∈ ls.layeredNodes.getD j [] ∧
          z ∈ ls.layeredNodes.getD k' [] ∧ k' < j)
      rw [s2, h1, List.mem_singleton]
      exact ⟨fun e => ⟨e, fv, k + 1, e ▸ hv, hz, hlt⟩, fun e => e.1⟩
    · intro i x a a' hx vx ha ha'
      obtain ⟨_, v, _, _, _, h1, _⟩ := hvirt i x hx vx
      have ha1 : a ∈ h'.realSuccessors x := ha
      have ha2 : a' ∈ h'.realSuccessors x := ha'
      rw [h1, List.mem_singleton] at ha1 ha2
      rw [ha1, ha2]
    · rintro z x ⟨k, hk⟩ vz vx b hb
      have hk' : (x, z) ∈ ls.layeredEdges.getD k [] := hk
      obtain ⟨s1, _, _, _⟩ := hsame k x z hk' vx vz
      show b ∈ h'.realPredecessors z
      rw [← s1]
      exact hb
  refine ⟨h', ls, hrun, fun n hn => ⟨hreal n hn, ?_⟩,
    fun n hn => hext.successors _ (hg.bound _ hn), fun i x hx vx => ?_,
    fun first => ⟨hok, Or.inl ?_⟩⟩
  · obtain ⟨f, _, hf⟩ := hin n hn
    exact ⟨_, hf⟩
  · rcases hnodes i x hx with hn | ⟨c, hc, hxc⟩
    · exact hn
    · obtain ⟨_, _, _, _, _, _, _, _, _, _, _, hw, _⟩ := cf c hc
      rw [(hw x hxc).1] at vx
      cases vx
  · cases first
    · exact hfirstF
    · exact hfirstT

/-! ## Merging keeps the real edges -/

/-- On an acyclic group of existing real nodes `calculateFlow` returns ranks
that `addVirtualNodes` can work on, and leaves the edges as they are. -/
theorem calculateFlow_rankedEdges {h : Heap} {group : List Nat} (hg : AcyclicGroup h group)
    (hne : group ≠ []) (alignNodes : String) (hal : alignNodes ∈ alignNodeValues)
    (hb : ∀ n ∈ group, n < h.size) (hreal : ∀ n ∈ group, h.virtual n = false) :
    ∃ (l : Nat) (h' : Heap),
      (∀ fuel, group.length < fuel → calculateFlow fuel h group alignNodes = .ok (h', l)) ∧
      RankedGroup h' group l ∧ h'.successors = h.successors := by
  obtain ⟨l, h', top, bot, hrun, _, _, hframe, _⟩ := calculateFlow_ranks hg hne alignNodes hal
  obtain ⟨l2, h2, hrun2, hrg⟩ := calculateFlow_rankedGroup hg hne alignNodes hal hb hreal
  have e1 := hrun (group.length + 1) (by omega)
  have e2 := hrun2 (group.length + 1) (by omega)
  rw [e1] at e2
  simp only [Res.ok.injEq, Prod.mk.injEq] at e2
  obtain ⟨rfl, rfl⟩ := e2
  exact ⟨l, h', hrun, hrg, hframe.successors⟩

/-- Where every real edge is continued on both sides, a pair of
`layeredEdges` into a node that stands for the real edge `u → v`, or into
`v`, starts a path of such nodes to `v`. -/
theorem routePath_of_routed (s : Heap × Layers) (hl : (net true s).Layered)
    (hr : (net true s).Routed) (u v kv : Nat) (hv : v ∈ s.2.layeredNodes.getD kv []) :
    ∀ (d z w i : Nat), (∃ k, (z, w) ∈ s.2.layeredEdges.getD k []) →
      w ∈ s.2.layeredNodes.getD i [] → kv ≤ i + d → (w = v ∨ (net true s).Carry u v w) →
      ∃ xs, (∀ x ∈ xs, s.1.virtual x = true ∧ u ∈ s.1.realPredecessors x ∧
          v ∈ s.1.realSuccessors x) ∧
        List.Chain' (fun a b => ∃ i, (a, b) ∈ s.2.layeredEdges.getD i []) (z :: (xs ++ [v])) := by
  intro d
  induction d with
  | zero =>
    intro z w i hzw hw hle hc
    rcases hc with rfl | c
    · exact ⟨[], fun x hx => absurd hx (List.not_mem_nil x), by
        simpa [List.chain'_cons] using hzw⟩
    · obtain ⟨_, _, _, _, k, hk, hlt⟩ := hr.pair i w u v hw c.1 c.2.1 c.2.2
      have ek : k = kv := hl.lay_fun _ _ _ hk hv
      have hlt' : i < k := hlt
      omega
  | succ d ih =>
    intro z w i hzw hw hle hc
    rcases hc with rfl | c
    · exact ⟨[], fun x hx => absurd hx (List.not_mem_nil x), by
        simpa [List.chain'_cons] using hzw⟩
    · obtain ⟨w', h1, h2⟩ := hr.witB i w u v hw c.1 c.2.1 c.2.2
      obtain ⟨p, q, hp, hq, hn⟩ := hl.adj_lay w w' h1
      have ep : p = i := hl.lay_fun _ _ _ hp hw
      have hn' : q = p + 1 := hn
      obtain ⟨xs, hx1, hx2⟩ := ih w w' q h1 hq (by omega) h2
      refine ⟨w :: xs, ?_, ?_⟩
      · intro x hx
        rcases List.mem_cons.mp hx with rfl | hx
        · exact ⟨c.1, c.2.1, c.2.2⟩
        · exact hx1 x hx
      · rw [List.cons_append, List.chain'_cons]
        exact ⟨hzw, hx2⟩

/-- In a state between two merge steps that holds the real nodes `u` and `v`
of an edge `u → v`, a path of pairs of `layeredEdges` leads from `u` to `v`
through virtual nodes that stand for this edge. -/
theorem MergeInv.routePath {first : Bool} {l : Nat} {s : Heap × Layers}
    (hinv : MergeInv first l s) (u v i j : Nat) (hu : u ∈ s.2.layeredNodes.getD i [])
    (hv : v ∈ s.2.layeredNodes.getD j []) (vu : s.1.virtual u = false)
    (vv : s.1.virtual v = false) (huv : v ∈ s.1.successors u) : ∃ xs, RoutePath s u v xs := by
  have hr := hinv.routedPre
  have hl : (net true s).Layered := by
    cases first
    · rcases hinv.2 with h | h
      · have := h.layered.flipLayered
        rw [net_flip] at this
        exact this
      · exact h.layered
    · rcases hinv.2 with h | h
      · exact h.layered
      · have := h.layered.flipLayered
        rw [net_flip] at this
        exact this
  obtain ⟨w, h1, h2⟩ := hr.realA i j u v hu hv (by show ¬ s.1.virtual u = true; rw [vu]; simp)
    (by show ¬ s.1.virtual v = true; rw [vv]; simp) huv
  obtain ⟨p, q, _, hq, _⟩ := hl.adj_lay u w h1
  exact routePath_of_routed s hl hr u v j hv j u w q h1 hq (by omega) h2

/-- C8: for a graph built by `addNode`, `addEdge` and `removeEdge`, every
alignment mode and the option `mergeVirtualNodes` set to `"start"` or to
`"end"`, take a group after `removeCycles`, `groupNodes`, `calculateFlow` and
`addVirtualNodes` (which all return), and any number of calls of
`mergeNextVirtualNodeGroup` with this option.  Then for every edge `u → v`
that `removeCycles` has left to a node `u` of the group there is a path of
pairs of `layeredEdges` from `u` to `v` whose inner nodes are virtual and
have `u` in `realPredecessors` and `v` in `realSuccessors`; and for every
virtual node of the layers, every `p` of its `realPredecessors` is a node of
the group and has an edge left by `removeCycles` to every `q` of its
`realSuccessors`. -/
theorem merge_keeps_routes (ops : List Op) (alignNodes mergeVirtualNodes : String)
    (hal : alignNodes ∈ alignNodeValues)
    (hmv : mergeVirtualNodes = "start" ∨ mergeVirtualNodes = "end") :
    ∃ (bound : Nat) (h1 : Heap) (cyclicEdges : List (Nat × Nat)) (h2 : Heap)
      (groups : List (List Nat)),
      (∀ fuel, bound ≤ fuel →
        removeCycles fuel (Graph.build ops).heap (Graph.build ops).values =
          .ok (h1, cyclicEdges)) ∧
      (∀ fuel, bound ≤ fuel → groupNodes fuel h1 (Graph.build ops).values = .ok (h2, groups)) ∧
      ∀ group ∈ groups, ∃ (maxLength : Nat) (h3 h4 : Heap) (ls : Layers),
        (∀ fuel, bound ≤ fuel → calculateFlow fuel h2 group alignNodes = .ok (h3, maxLength)) ∧
        addVirtualNodes h3 group maxLength = .ok (h4, ls) ∧
        ∀ s', Relation.ReflTransGen (MergeStepFor mergeVirtualNodes) (h4, ls) s' →
          (∀ u ∈ group, ∀ v ∈ h1.successors u, ∃ xs, RoutePath s' u v xs) ∧
          ∀ i x, x ∈ s'.2.layeredNodes.getD i [] → s'.1.virtual x = true →
            ∀ p ∈ s'.1.realPredecessors x, ∀ q ∈ s'.1.realSuccessors x,
              p ∈ group ∧ q ∈ h1.successors p := by
  have hf := Fresh.build ops
  obtain ⟨h1, ce, hrun1, inv1⟩ := removeCycles_ok hf.nodup hf.sym hf.closed
  have hgi : ∀ n ∈ (Graph.build ops).values, h1.groupIndex n = none := by
    intro n _
    rw [inv1.frame.groupIndex]
    exact hf.groupIndex n
  obtain ⟨bound2, gi', groups, hrun2, ginv⟩ := groupNodes_ok inv1.sym inv1.closed hgi
  refine ⟨max (max ((Graph.build ops).values.length +
      edgeCount (Graph.build ops).heap (Graph.build ops).values + 1) bound2)
      ((Graph.build ops).values.length + 1), h1, ce, _, groups,
    fun fuel hfuel => hrun1 fuel (by omega), fun fuel hfuel => hrun2 fuel (by omega), ?_⟩
  intro group hgroup
  have hag := ginv.acyclicGroup inv1.sym inv1.closed inv1.acyclic hgroup
  have hsub := ginv.sub group hgroup
  have hne := ginv.nonempty group hgroup
  have hlen : group.length ≤ (Graph.build ops).values.length :=
    (List.subperm_of_subset hag.nodup hsub).length_le
  obtain ⟨l, h3, hrun3, hrg, hsucc3⟩ := calculateFlow_rankedEdges hag hne alignNodes hal
    (fun n hn => by
      show n < h1.size
      rw [inv1.frame.size]
      exact hf.bound n (hsub n hn))
    (fun n hn => by
      show h1.virtual n = false
      rw [inv1.frame.virtual]
      exact hf.virtual n)
  obtain ⟨h4, ls, hrun4, hnodes4, hsucc4, hreal4, hinv⟩ :=
    addVirtualNodes_mergeInv h3 group l hrg hne
  refine ⟨l, h3, h4, ls, fun fuel hfuel => hrun3 fuel (by omega), hrun4, ?_⟩
  intro s' hsteps
  have hmodes : ∃ first, decide ("start" = mergeVirtualNodes) = first ∧
      decide ("end" = mergeVirtualNodes) = !first := by
    rcases hmv with rfl | rfl
    · exact ⟨true, by decide, by decide⟩
    · exact ⟨false, by decide, by decide⟩
  obtain ⟨first, hm1, hm2⟩ := hmodes
  obtain ⟨hinv', hv, hsu, hst, hsb⟩ :=
    mergeSteps_inv first mergeVirtualNodes hm1 hm2 l (h4, ls) s' hsteps (hinv first)
  have hedge : ∀ u ∈ group, s'.1.successors u = h1.successors u := by
    intro u hu
    rw [hsu]
    show h4.successors u = h1.successors u
    rw [hsucc4 u hu, hsucc3]
  refine ⟨?_, ?_⟩
  · intro u hu v huv
    rw [← hedge u hu] at huv
    have hvg : v ∈ group := by
      have huv' := huv
      rw [hedge u hu, ← hsucc3] at huv'
      exact (hrg.edge u hu v huv').1
    obtain ⟨vu, i, hi⟩ := hnodes4 u hu
    obtain ⟨vv, j, hj⟩ := hnodes4 v hvg
    exact hinv'.routePath u v i j (hst i u hi vu) (hst j v hj vv) (by rw [hv]; exact vu)
      (by rw [hv]; exact vv) huv
  · intro i x hx vx p hp q hq
    obtain ⟨hlink, vp, _, ⟨j, hj, _⟩, _⟩ := hinv'.routedPre.pair i x p q hx vx hp hq
    have hpg : p ∈ group := by
      refine hreal4 j p (hsb j p hj) ?_
      have vp' : ¬ s'.1.virtual p = true := vp
      rw [hv] at vp'
      simpa using vp'
    have hlink' : q ∈ s'.1.successors p := hlink
    rw [hedge p hpg] at hlink'
    exact ⟨hpg, hlink'⟩

/-- C8 at the graph with the edges `a → b`, `b → c` and `a → c`, the alignment
`"start"` and the option `mergeVirtualNodes` set to `"start"`. -/
theorem merge_keeps_routes_witness :
    "start" ∈ alignNodeValues ∧ ("start" = "start" ∨ "start" = "end") ∧
    ∃ (bound : Nat) (h1 : Heap) (cyclicEdges : List (Nat × Nat)) (h2 : Heap)
      (groups : List (List Nat)),
      (∀ fuel, bound ≤ fuel →
        removeCycles fuel
          (Graph.build [.addNode "a", .addNode "b", .addNode "c", .addEdge "a" "b",
            .addEdge "b" "c", .addEdge "a" "c"]).heap
          (Graph.build [.addNode "a", .addNode "b", .addNode "c", .addEdge "a" "b",
            .addEdge "b" "c", .addEdge "a" "c"]).values = .ok (h1, cyclicEdges)) ∧
      (∀ fuel, bound ≤ fuel →
        groupNodes fuel h1
          (Graph.build [.addNode "a", .addNode "b", .addNode "c", .addEdge "a" "b",
            .addEdge "b" "c", .addEdge "a" "c"]).values = .ok (h2, groups)) ∧
      ∀ group ∈ groups, ∃ (maxLength : Nat) (h3 h4 : Heap) (ls : Layers),
        (∀ fuel, bound ≤ fuel → calculateFlow fuel h2 group "start" = .ok (h3, maxLength)) ∧
        addVirtualNodes h3 group maxLength = .ok (h4, ls) ∧
        ∀ s', Relation.ReflTransGen (MergeStepFor "start") (h4, ls) s' →
          (∀ u ∈ group, ∀ v ∈ h1.successors u, ∃ xs, RoutePath s' u v xs) ∧
          ∀ i x, x ∈ s'.2.layeredNodes.getD i [] → s'.1.virtual x = true →
            ∀ p ∈ s'.1.realPredecessors x, ∀ q ∈ s'.1.realSuccessors x,
              p ∈ group ∧ q ∈ h1.successors p :=
  ⟨by decide, Or.inl rfl, merge_keeps_routes _ "start" "start" (by decide) (Or.inl rfl)⟩

/-! ## No cycle error in the rank assignment -/

/-- A run of the loop of `topoSortNodes` that has returned or thrown does the
same with more fuel. -/
theorem topoSortNodesLoop_mono (relProp : RelProp) (orderProp : OrderProp) :
    ∀ (fuel : Nat) (h : Heap) (flow : Nat) (u : List Nat) (r : Res (Heap × Nat)),
      topoSortNodesLoop fuel h relProp orderProp flow u = r → r ≠ .timeout →
      ∀ fuel', fuel ≤ fuel' → topoSortNodesLoop fuel' h relProp orderProp flow u = r := by
  intro fuel
  induction fuel with
  | zero =>
    intro h flow u r hr hne
    rw [topoSortNodesLoop] at hr
    exact absurd hr.symm hne
  | succ k ih =>
    intro h flow u r hr hne fuel' hle
    obtain ⟨k', rfl⟩ : ∃ k', fuel' = k' + 1 := ⟨fuel' - 1, by omega⟩
    rw [topoSortNodesLoop] at hr ⊢
    simp only at hr ⊢
    split_ifs at hr ⊢ with h1 h2
    · exact hr
    · exact ih _ _ _ _ hr hne k' (by omega)
    · exact hr

/-- C21: for a graph built by `addNode`, `addEdge` and `removeEdge`,
`removeCycles` and `groupNodes` return with enough fuel, and for every group,
both relation properties and both order properties `topoSortNodes` never
throws, whatever the fuel, and returns with enough fuel, having given every
node of the group a rank below the number of layers it returns.  The heap
is the one `groupNodes` returns with any values in one order property, as it
is before the first run and, with the ranks of the first run, before the
second. -/
theorem topoSortNodes_never_throws (ops : List Op) :
    ∃ (bound : Nat) (h1 : Heap) (cyclicEdges : List (Nat × Nat)) (h2 : Heap)
      (groups : List (List Nat)),
      (∀ fuel, bound ≤ fuel →
        removeCycles fuel (Graph.build ops).heap (Graph.build ops).values =
          .ok (h1, cyclicEdges)) ∧
      (∀ fuel, bound ≤ fuel → groupNodes fuel h1 (Graph.build ops).values = .ok (h2, groups)) ∧
      ∀ group ∈ groups, ∀ (relProp : RelProp) (orderProp other : OrderProp)
        (values : Nat → Option Int),
        (∀ fuel message,
          topoSortNodes fuel (h2.withOrder other values) group relProp orderProp ≠
            .throw message) ∧
        ∃ (h3 : Heap) (layerCount : Nat),
          (∀ fuel, bound ≤ fuel →
            topoSortNodes fuel (h2.withOrder other values) group relProp orderProp =
              .ok (h3, layerCount)) ∧
          ∀ n ∈ group, ∃ rank : Nat, h3.order orderProp n = some (rank : Int) ∧
            rank < layerCount := by
  have hf := Fresh.build ops
  obtain ⟨h1, ce, hrun1, inv1⟩ := removeCycles_ok hf.nodup hf.sym hf.closed
  have hgi : ∀ n ∈ (Graph.build ops).values, h1.groupIndex n = none := by
    intro n _
    rw [inv1.frame.groupIndex]
    exact hf.groupIndex n
  obtain ⟨bound2, gi', groups, hrun2, ginv⟩ := groupNodes_ok inv1.sym inv1.closed hgi
  refine ⟨max (max ((Graph.build ops).values.length +
      edgeCount (Graph.build ops).heap (Graph.build ops).values + 1) bound2)
      ((Graph.build ops).values.length + 1), h1, ce, _, groups,
    fun fuel hfuel => hrun1 fuel (by omega), fun fuel hfuel => hrun2 fuel (by omega), ?_⟩
  intro group hgroup relProp orderProp other values
  have hag := (ginv.acyclicGroup inv1.sym inv1.closed inv1.acyclic hgroup).groupWithOrder
    other values
  have hsub := ginv.sub group hgroup
  have hlen : group.length ≤ (Graph.build ops).values.length :=
    (List.subperm_of_subset hag.nodup hsub).length_le
  obtain ⟨ord, layerCount, rank, hrun, hrank, _⟩ := topoSortNodes_ranks hag relProp orderProp
  constructor
  · intro fuel message hthrow
    have := topoSortNodesLoop_mono relProp orderProp fuel _ 0 group _ hthrow (by simp)
      (max fuel (group.length + 1)) (le_max_left _ _)
    have hok := hrun (max fuel (group.length + 1)) (by omega)
    unfold topoSortNodes at hok
    rw [hok] at this
    cases this
  · refine ⟨_, layerCount, fun fuel hfuel => hrun fuel (by omega), fun n hn => ?_⟩
    rw [Heap.withOrder_order]
    exact ⟨rank n, (hrank n hn).1, (hrank n hn).2.1⟩

set_option maxRecDepth 100000 in
/-- C23: a first `layout()` with the default options on the graph with the
nodes `a1, a2, a3, b1, b2, b3` and the edges `a1 → b1`, `a1 → b2`, `a1 → b3`,
`a2 → b1`, `a3 → b1` throws a `TypeError`, although `validate` accepts the
options. Both layers have three nodes and six orderings, so the layout loop
calls `findBestPermutation` for the block `start = 0`, `end = 2`; there
`edges.slice(start - 1, end - 1)` is `edges.slice(-1, 1)`, which holds the one
edge layer only, and `totalCrossings(usedEdges[1], …)` reads the `length` of
`undefined`. -/
theorem layout_first_block_throws :
    validate Options.default.thresholdEvaluate Options.default.thresholdLayer
      Options.default.alignNodes Options.default.metrics = .ok () ∧
    Res.map (fun _ => ())
      (layoutOf 100 [.addNode "a1", .addNode "a2", .addNode "a3", .addNode "b1",
        .addNode "b2", .addNode "b3", .addEdge "a1" "b1", .addEdge "a1" "b2",
        .addEdge "a1" "b3", .addEdge "a2" "b1", .addEdge "a3" "b1"] Options.default) =
      .throw "TypeError: Cannot read properties of undefined (reading 'length')" := by
  decide!

/-! ## The permutations of the positions behind `nextPermutation` -/

theorem swap_apply_eq (a b x : Nat) :
    Equiv.swap a b x = if x = a then b else if x = b then a else x :=
  Equiv.swap_apply_def a b x

theorem blockPerm_fix (i : Nat) (prev : Equiv.Perm Nat) (hprev : ∀ p, i ≤ p → prev p = p) :
    ∀ d, d ≤ i → ∀ p, i < p → blockPerm i prev d p = p := by
  intro d
  induction d with
  | zero => intro _ p _; rfl
  | succ d ih =>
    intro hd p hp
    rw [blockPerm, Equiv.Perm.mul_apply, Equiv.Perm.mul_apply, swap_apply_eq]
    have h1 : p ≠ (if i % 2 = 0 then 0 else d) := by split_ifs <;> omega
    rw [if_neg h1, if_neg (by omega), hprev p (by omega)]
    exact ih (by omega) p hp

theorem fullPerm_fix : ∀ i p, i < p → fullPerm i p = p := by
  intro i
  induction i with
  | zero => intro p _; rfl
  | succ i ih =>
    intro p hp
    rw [fullPerm, Equiv.Perm.mul_apply, ih p (by omega)]
    exact blockPerm_fix (i + 1) (fullPerm i) (fun q hq => ih q (by omega)) (i + 1) (le_refl _) p hp

theorem oddBlock_zero (i p : Nat) (h3 : 3 ≤ i) : oddBlock i 0 p = p := by
  unfold oddBlock
  by_cases h0 : p = 0
  · simp (disch := omega) only [if_pos, if_neg, h0, if_true, if_false]
  by_cases h1 : p = i - 1
  · simp (disch := omega) only [if_pos, if_neg, h1, if_true, if_false]
  by_cases h2 : p = i
  · simp (disch := omega) only [if_pos, if_neg, h2, if_true, if_false]
  by_cases h4 : p = 1
  · simp (disch := omega) only [if_pos, if_neg, h4, if_true, if_false]
  simp (disch := omega) only [if_pos, if_neg, if_true, if_false]
  split_ifs <;> rfl

/-- One more exchange of an odd index, position by position. -/
theorem oddBlock_succ (i d p : Nat) (hi : i % 2 = 1) (h3 : 3 ≤ i) (hd : d + 1 ≤ i) :
    oddBlock i d
      (if (if p = d then i else if p = i then d else p) = 0 then i - 1
        else if (if p = d then i else if p = i then d else p) = i - 1 then 0
        else (if p = d then i else if p = i then d else p)) = oddBlock i (d + 1) p := by
  by_cases hpd : p = d
  · subst hpd
    simp (disch := omega) only [if_pos, if_neg, if_true, if_false]
    unfold oddBlock
    simp (disch := omega) only [if_pos, if_neg, if_true, if_false]
    split_ifs <;> omega
  by_cases hpi : p = i
  · subst hpi
    simp (disch := omega) only [if_pos, if_neg, if_true, if_false]
    unfold oddBlock
    by_cases hd0 : d = 0
    · subst hd0
      simp (disch := omega) only [if_pos, if_neg, if_true, if_false]
    by_cases hd1 : d = p - 1
    · subst hd1
      simp (disch := omega) only [if_pos, if_neg, if_true, if_false]
    simp (disch := omega) only [if_pos, if_neg, if_true, if_false]
    split_ifs <;> omega
  simp (disch := omega) only [if_pos, if_neg, if_true, if_false]
  by_cases hp0 : p = 0
  · subst hp0
    simp (disch := omega) only [if_pos, if_neg, if_true, if_false]
    unfold oddBlock
    simp (disch := omega) only [if_pos, if_neg, if_true, if_false]
    split_ifs <;> omega
  by_cases hp1 : p = i - 1
  · subst hp1
    simp (disch := omega) only [if_pos, if_neg, if_true, if_false]
    unfold oddBlock
    simp (disch := omega) only [if_pos, if_neg, if_true, if_false]
    split_ifs <;> omega
  simp (disch := omega) only [if_pos, if_neg, if_true, if_false]
  unfold oddBlock
  simp (disch := omega) only [if_pos, if_neg, if_true, if_false]
  split_ifs <;> omega

/-- The exchanges of an odd index `i ≥ 3` after a full run of the lower
indices has exchanged the positions `0` and `i - 1`. -/
theorem blockPerm_odd (i : Nat) (hi : i % 2 = 1) (h3 : 3 ≤ i) :
    ∀ d, d ≤ i → ∀ p, blockPerm i (Equiv.swap 0 (i - 1)) d p = oddBlock i d p := by
  intro d
  induction d with
  | zero =>
    intro _ p
    rw [oddBlock_zero i p h3]
    rfl
  | succ d ih =>
    intro hd p
    rw [blockPerm, Equiv.Perm.mul_apply, Equiv.Perm.mul_apply, ih (by omega),
      if_neg (by omega), swap_apply_eq, swap_apply_eq]
    exact oddBlock_succ i d p hi h3 hd

/-- A full run of an odd index, position by position. -/
theorem oddBlock_full (i p : Nat) (hi : i % 2 = 1) (h3 : 3 ≤ i) :
    oddBlock i i (if p = 0 then i - 1 else if p = i - 1 then 0 else p) = oddFull i p := by
  unfold oddFull
  by_cases hp0 : p = 0
  · subst hp0
    simp (disch := omega) only [if_pos, if_neg, if_true, if_false]
    unfold oddBlock
    simp (disch := omega) only [if_pos, if_neg, if_true, if_false]
  by_cases hp1 : p = i - 1
  · subst hp1
    simp (disch := omega) only [if_pos, if_neg, if_true, if_false]
    unfold oddBlock
    simp (disch := omega) only [if_pos, if_neg, if_true, if_false]
  simp (disch := omega) only [if_pos, if_neg, if_true, if_false]
  unfold oddBlock
  simp (disch := omega) only [if_pos, if_neg, if_true, if_false]
  split_ifs <;> omega

theorem blockPerm_even (i : Nat) (hi : i % 2 = 0) (prev : Equiv.Perm Nat) :
    ∀ d, blockPerm i prev d = (prev * Equiv.swap 0 i) ^ d := by
  intro d
  induction d with
  | zero => rfl
  | succ d ih => rw [blockPerm, ih, if_pos hi, pow_succ, mul_assoc]

/-- One more exchange of an even index, for the position that ends at `i`. -/
theorem evenLast_succ (i d : Nat) (hi : i % 2 = 0) (h4 : 4 ≤ i) (hd : d < i) :
    oddFull (i - 1)
      (if evenLast i d = 0 then i else if evenLast i d = i then 0 else evenLast i d) =
      evenLast i (d + 1) := by
  unfold evenLast
  by_cases h0 : d = 0
  · subst h0
    simp (disch := omega) only [if_pos, if_neg, if_true, if_false]
    unfold oddFull
    simp (disch := omega) only [if_pos, if_neg, if_true, if_false]
    omega
  by_cases h1 : d ≤ i - 3
  · simp (disch := omega) only [if_pos, if_neg, if_true, if_false]
    unfold oddFull
    by_cases h2 : d = i - 3
    · subst h2
      simp (disch := omega) only [if_pos, if_neg, if_true, if_false]
      omega
    simp (disch := omega) only [if_pos, if_neg, if_true, if_false]
    omega
  by_cases h2 : d = i - 2
  · subst h2
    simp (disch := omega) only [if_pos, if_neg, if_true, if_false]
    unfold oddFull
    simp (disch := omega) only [if_pos, if_neg, if_true, if_false]
  have h3 : d = i - 1 := by omega
  subst h3
  simp (disch := omega) only [if_pos, if_neg, if_true, if_false]
  unfold oddFull
  simp (disch := omega) only [if_pos, if_neg, if_true, if_false]

theorem evenLast_surj (i p : Nat) (h4 : 4 ≤ i) (hp : p ≤ i) : ∃ d, d ≤ i ∧ evenLast i d = p := by
  by_cases h0 : p = i
  · exact ⟨0, by omega, by unfold evenLast; simp (disch := omega) only [if_pos, if_true, h0]⟩
  by_cases h1 : p = 0
  · refine ⟨i, le_refl _, ?_⟩
    unfold evenLast
    simp (disch := omega) only [if_pos, if_neg, if_true, if_false, h1]
  by_cases h2 : p = i - 1
  · refine ⟨i - 1, by omega, ?_⟩
    unfold evenLast
    simp (disch := omega) only [if_pos, if_neg, if_true, if_false, h2]
  by_cases h3 : p = i - 2
  · refine ⟨i - 2, by omega, ?_⟩
    unfold evenLast
    simp (disch := omega) only [if_pos, if_neg, if_true, if_false, h3]
  refine ⟨i - 2 - p, by omega, ?_⟩
  unfold evenLast
  simp (disch := omega) only [if_pos, if_neg, if_true, if_false]
  omega

theorem evenLast_inj (i d e : Nat) (h4 : 4 ≤ i) (hd : d ≤ i) (he : e ≤ i)
    (h : evenLast i d = evenLast i e) : d = e := by
  unfold evenLast at h
  split_ifs at h <;> omega

theorem oddBlock_last_inj (i d e : Nat) (h3 : 3 ≤ i) (hd : d ≤ i) (he : e ≤ i)
    (h : oddBlock i d i = oddBlock i e i) : d = e := by
  unfold oddBlock at h
  simp (disch := omega) only [if_pos, if_neg, if_true, if_false] at h
  split_ifs at h <;> omega

theorem oddFull_fix (i p : Nat) (hi : 1 ≤ i) (hp : i < p) : oddFull i p = p := by
  unfold oddFull
  simp (disch := omega) only [if_pos, if_neg, if_true, if_false]

/-- The position whose first ordinal is at position `i`, for an even index
`i ≥ 4`. -/
theorem even_orbit (i : Nat) (hi : i % 2 = 0) (h4 : 4 ≤ i) (prev : Equiv.Perm Nat)
    (hprev : ∀ p, prev p = oddFull (i - 1) p) :
    ∀ d, d ≤ i → ((prev * Equiv.swap 0 i) ^ d) i = evenLast i d := by
  intro d
  induction d with
  | zero =>
    intro _
    unfold evenLast
    simp
  | succ d ih =>
    intro hd
    rw [pow_succ', Equiv.Perm.mul_apply, ih (by omega), Equiv.Perm.mul_apply, swap_apply_eq,
      hprev]
    exact evenLast_succ i d hi h4 (by omega)

/-- After `i + 1` rounds of an even index `i ≥ 4` every position is back. -/
theorem even_cycle (i : Nat) (hi : i % 2 = 0) (h4 : 4 ≤ i) (prev : Equiv.Perm Nat)
    (hprev : ∀ p, prev p = oddFull (i - 1) p) : (prev * Equiv.swap 0 i) ^ (i + 1) = 1 := by
  have hlast : ((prev * Equiv.swap 0 i) ^ (i + 1)) i = i := by
    rw [pow_succ', Equiv.Perm.mul_apply, even_orbit i hi h4 prev hprev i (le_refl _),
      Equiv.Perm.mul_apply, swap_apply_eq, hprev]
    have : evenLast i i = 0 := by
      unfold evenLast
      simp (disch := omega) only [if_pos, if_neg, if_true, if_false]
    rw [this]
    simp only [if_true]
    exact oddFull_fix (i - 1) i (by omega) (by omega)
  have hfix : ∀ p, i < p → ∀ n, ((prev * Equiv.swap 0 i) ^ n) p = p := by
    intro p hp n
    induction n with
    | zero => rfl
    | succ n ih =>
      rw [pow_succ, Equiv.Perm.mul_apply, Equiv.Perm.mul_apply, swap_apply_eq,
        if_neg (by omega), if_neg (by omega), hprev, oddFull_fix (i - 1) p (by omega) (by omega)]
      exact ih
  ext p
  rw [Equiv.Perm.one_apply]
  by_cases hp : p ≤ i
  · obtain ⟨d, hd, rfl⟩ := evenLast_surj i p h4 hp
    rw [← even_orbit i hi h4 prev hprev d hd, ← Equiv.Perm.mul_apply, ← pow_add,
      Nat.add_comm, pow_add, Equiv.Perm.mul_apply, hlast]
  · exact hfix p (by omega) _

/-- What a full run of the indices `1 .. i` makes of the positions: for an
even `i ≥ 2` it exchanges the positions `0` and `i`. -/
theorem fullPerm_closed : ∀ i,
    (i % 2 = 0 → 2 ≤ i → fullPerm i = Equiv.swap 0 i) ∧
    (i % 2 = 1 → 3 ≤ i → ∀ p, fullPerm i p = oddFull i p) := by
  intro i
  induction i with
  | zero => exact ⟨fun _ h => by omega, fun h _ => by omega⟩
  | succ i ih =>
    constructor
    · intro hi h2
      by_cases h4 : 4 ≤ i + 1
      · have hprev : ∀ p, fullPerm i p = oddFull (i + 1 - 1) p := ih.2 (by omega) (by omega)
        have hc := even_cycle (i + 1) hi h4 (fullPerm i) hprev
        rw [fullPerm, blockPerm_even (i + 1) hi]
        have h : (fullPerm i * Equiv.swap 0 (i + 1)) ^ (i + 1) * fullPerm i *
            Equiv.swap 0 (i + 1) = 1 := by
          rw [mul_assoc, ← pow_succ]
          exact hc
        rw [eq_inv_of_mul_eq_one_left h, Equiv.swap_inv]
      · have e : i = 1 := by omega
        subst e
        ext p
        by_cases hp : 2 < p
        · rw [fullPerm_fix 2 p hp, swap_apply_eq, if_neg (by omega), if_neg (by omega)]
        · have hp' : p ≤ 2 := by omega
          interval_cases p <;> rfl
    · intro hi h3 p
      have hprev : fullPerm i = Equiv.swap 0 i := ih.1 (by omega) (by omega)
      rw [fullPerm, Equiv.Perm.mul_apply, hprev]
      have := blockPerm_odd (i + 1) hi h3 (i + 1) (le_refl _) (Equiv.swap 0 i p)
      rw [show i + 1 - 1 = i from rfl] at this
      rw [this, swap_apply_eq]
      exact oddBlock_full (i + 1) p hi h3

/-- While `permState[i]` runs from `0` to `i`, position `i` holds the first
ordinal of a different position each time. -/
theorem blockPerm_last_inj (i : Nat) (h1 : 1 ≤ i) (d e : Nat) (hd : d ≤ i) (he : e ≤ i)
    (h : blockPerm i (fullPerm (i - 1)) d i = blockPerm i (fullPerm (i - 1)) e i) : d = e := by
  by_cases hodd : i % 2 = 1
  · by_cases h3 : 3 ≤ i
    · have hprev : fullPerm (i - 1) = Equiv.swap 0 (i - 1) :=
        (fullPerm_closed (i - 1)).1 (by omega) (by omega)
      rw [hprev, blockPerm_odd i hodd h3 d hd, blockPerm_odd i hodd h3 e he] at h
      exact oddBlock_last_inj i d e h3 hd he h
    · have e1 : i = 1 := by omega
      subst e1
      interval_cases d <;> interval_cases e <;> first | rfl | (exfalso; revert h; decide)
  · have heven : i % 2 = 0 := by omega
    by_cases h4 : 4 ≤ i
    · have hprev : ∀ p, fullPerm (i - 1) p = oddFull (i - 1) p :=
        (fullPerm_closed (i - 1)).2 (by omega) (by omega)
      rw [blockPerm_even i heven _ d, blockPerm_even i heven _ e,
        even_orbit i heven h4 _ hprev d hd, even_orbit i heven h4 _ hprev e he] at h
      exact evenLast_inj i d e h4 hd he h
    · have e2 : i = 2 := by omega
      subst e2
      interval_cases d <;> interval_cases e <;> first | rfl | (exfalso; revert h; decide)

theorem statePerm_fix (c : List Nat) :
    ∀ m, (∀ l, 1 ≤ l → l ≤ m → c.getD l 0 ≤ l) → ∀ p, m < p → statePerm c m p = p := by
  intro m
  induction m with
  | zero => intro _ p _; rfl
  | succ m ih =>
    intro hv p hp
    rw [statePerm, Equiv.Perm.mul_apply, ih (fun l h1 h2 => hv l h1 (by omega)) p (by omega)]
    exact blockPerm_fix (m + 1) (fullPerm m) (fun q hq => fullPerm_fix m q (by omega)) _
      (hv (m + 1) (by omega) (le_refl _)) p hp

/-- Different entries of `permState` stand for different orderings. -/
theorem statePerm_inj (c c' : List Nat) :
    ∀ m, (∀ l, 1 ≤ l → l ≤ m → c.getD l 0 ≤ l) → (∀ l, 1 ≤ l → l ≤ m → c'.getD l 0 ≤ l) →
      statePerm c m = statePerm c' m → ∀ l, 1 ≤ l → l ≤ m → c.getD l 0 = c'.getD l 0 := by
  intro m
  induction m with
  | zero => intro _ _ _ l h1 h2; omega
  | succ m ih =>
    intro hv hv' heq
    have hv0 : ∀ l, 1 ≤ l → l ≤ m → c.getD l 0 ≤ l := fun l h1 h2 => hv l h1 (by omega)
    have hv0' : ∀ l, 1 ≤ l → l ≤ m → c'.getD l 0 ≤ l := fun l h1 h2 => hv' l h1 (by omega)
    have hlast := congrArg (fun f : Equiv.Perm Nat => f (m + 1)) heq
    simp only [statePerm, Equiv.Perm.mul_apply] at hlast
    rw [statePerm_fix c m hv0 (m + 1) (by omega), statePerm_fix c' m hv0' (m + 1) (by omega)]
      at hlast
    have htop : c.getD (m + 1) 0 = c'.getD (m + 1) 0 :=
      blockPerm_last_inj (m + 1) (by omega) _ _ (hv (m + 1) (by omega) (le_refl _))
        (hv' (m + 1) (by omega) (le_refl _)) hlast
    rw [statePerm, statePerm, htop] at heq
    have hrest := mul_left_cancel heq
    intro l h1 h2
    by_cases hl : l = m + 1
    · rw [hl]; exact htop
    · exact ih hv0 hv0' hrest l h1 (by omega)

theorem statePerm_full (c : List Nat) :
    ∀ m, (∀ l, 1 ≤ l → l ≤ m → c.getD l 0 = l) → statePerm c m = fullPerm m := by
  intro m
  induction m with
  | zero => intro _; rfl
  | succ m ih =>
    intro hv
    rw [statePerm, fullPerm, ih (fun l h1 h2 => hv l h1 (by omega)),
      hv (m + 1) (by omega) (le_refl _)]

theorem statePerm_zero (c : List Nat) :
    ∀ m, (∀ l, 1 ≤ l → l ≤ m → c.getD l 0 = 0) → statePerm c m = 1 := by
  intro m
  induction m with
  | zero => intro _; rfl
  | succ m ih =>
    intro hv
    rw [statePerm, ih (fun l h1 h2 => hv l h1 (by omega)), hv (m + 1) (by omega) (le_refl _)]
    rfl

/-- What a call of `nextPermutation` that increases `permState[i]` makes of
the ordering: it is followed by the exchange of the call. -/
theorem statePerm_step (c c' : List Nat) (i : Nat) (h1 : 1 ≤ i)
    (hmax : ∀ l, 1 ≤ l → l < i → c.getD l 0 = l)
    (hzero : ∀ l, 1 ≤ l → l < i → c'.getD l 0 = 0)
    (hinc : c'.getD i 0 = c.getD i 0 + 1)
    (hsame : ∀ l, i < l → c'.getD l 0 = c.getD l 0) :
    ∀ m, i ≤ m → statePerm c' m =
      statePerm c m * Equiv.swap (if i % 2 = 0 then 0 else c.getD i 0) i := by
  intro m
  induction m with
  | zero => intro h; omega
  | succ m ih =>
    intro hm
    by_cases hi : i = m + 1
    · subst hi
      rw [statePerm, statePerm, hinc, blockPerm,
        statePerm_zero c' m (fun l h1 h2 => hzero l h1 (by omega)),
        statePerm_full c m (fun l h1 h2 => hmax l h1 (by omega)), mul_one]
    · rw [statePerm, statePerm, ih (by omega), hsame (m + 1) (by omega), mul_assoc]

/-! ## The entries of `permState` as a counter -/

theorem stateRank_bound (c : List Nat) :
    ∀ j, (∀ l, l < j → c.getD l 0 ≤ l) → stateRank c j + 1 ≤ Nat.factorial j := by
  intro j
  induction j with
  | zero => intro _; simp [stateRank]
  | succ j ih =>
    intro hv
    have h1 := ih (fun l hl => hv l (by omega))
    have h2 : c.getD j 0 * Nat.factorial j ≤ j * Nat.factorial j :=
      Nat.mul_le_mul_right _ (hv j (by omega))
    rw [stateRank, Nat.factorial_succ, Nat.succ_mul]
    omega

theorem stateRank_full (c : List Nat) :
    ∀ j, (∀ l, l < j → c.getD l 0 = l) → stateRank c j + 1 = Nat.factorial j := by
  intro j
  induction j with
  | zero => intro _; simp [stateRank]
  | succ j ih =>
    intro hv
    have h1 := ih (fun l hl => hv l (by omega))
    rw [stateRank, Nat.factorial_succ, Nat.succ_mul, hv j (by omega)]
    omega

theorem stateRank_zero (c : List Nat) :
    ∀ j, (∀ l, l < j → c.getD l 0 = 0) → stateRank c j = 0 := by
  intro j
  induction j with
  | zero => intro _; rfl
  | succ j ih =>
    intro hv
    rw [stateRank, ih (fun l hl => hv l (by omega)), hv j (by omega)]
    simp

theorem stateRank_congr (c c' : List Nat) :
    ∀ j, (∀ l, l < j → c'.getD l 0 = c.getD l 0) → stateRank c' j = stateRank c j := by
  intro j
  induction j with
  | zero => intro _; rfl
  | succ j ih =>
    intro hv
    rw [stateRank, stateRank, ih (fun l hl => hv l (by omega)), hv j (by omega)]

/-- A call of `nextPermutation` that increases `permState[i]` counts one up. -/
theorem stateRank_step (c c' : List Nat) (i : Nat)
    (hmax : ∀ l, l < i → c.getD l 0 = l) (hzero : ∀ l, l < i → c'.getD l 0 = 0)
    (hinc : c'.getD i 0 = c.getD i 0 + 1) (hsame : ∀ l, i < l → c'.getD l 0 = c.getD l 0) :
    ∀ j, i < j → stateRank c' j = stateRank c j + 1 := by
  intro j
  induction j with
  | zero => intro h; omega
  | succ j ih =>
    intro hj
    by_cases hi : i = j
    · subst hi
      have h1 := stateRank_full c i hmax
      rw [stateRank, stateRank, stateRank_zero c' i hzero, hinc, Nat.succ_mul]
      omega
    · rw [stateRank, stateRank, ih (by omega), hsame j (by omega)]
      omega

theorem getD_set_nat (c : List Nat) (i v l : Nat) :
    (c.set i v).getD l 0 = if l = i ∧ i < c.length then v else c.getD l 0 := by
  simp only [List.getD_eq_getElem?_getD, List.getElem?_set]
  by_cases hij : i = l
  · subst hij
    by_cases hj : i < c.length
    · simp [hj]
    · simp [hj]
      rw [List.getElem?_eq_none (by omega)]
      rfl
  · have : ¬ (l = i ∧ i < c.length) := fun h => hij h.1.symm
    simp [hij, this]

/-! ## What one call of `nextPermutation` does -/

/-- The first loop of `nextPermutation` from index `i` on entries that are
all at most their index: either it finds the first index `i'` whose entry is
below `i'`, sets the entries before it to zero, exchanges two ordinals and
increases the entry, or all entries are at their index; then it sets them to
zero, writes the ordinals of the window anew and moves the window. -/
theorem nextPermutationFrom_scan (layer : List Nat) (s : Nat) :
    ∀ (k i : Nat) (h : Heap) (c : List Nat), 1 ≤ i → c.length ≤ i + k →
      (k ≠ 0 → i + k = c.length) → (∀ l, c.getD l 0 ≤ l) →
      (∃ i' c', i ≤ i' ∧ i' < c.length ∧ c.getD i' 0 < i' ∧
        (∀ l, i ≤ l → l < i' → c.getD l 0 = l) ∧ c'.length = c.length ∧
        (∀ l, c'.getD l 0 =
          if i ≤ l ∧ l < i' then 0 else if l = i' then c.getD i' 0 + 1 else c.getD l 0) ∧
        nextPermutationFrom layer s k i h c =
          (swapOrth h layer (i' + s) (if i' % 2 = 0 then s else c.getD i' 0 + s)).bind
            fun h' => .ok (h', c', s)) ∨
      ((∀ l, i ≤ l → l < c.length → c.getD l 0 = l) ∧
        ∃ c', c'.length = c.length ∧ (∀ l, c'.getD l 0 = if i ≤ l then 0 else c.getD l 0) ∧
          nextPermutationFrom layer s k i h c =
            (resetOrth layer (List.range' s c.length) h).bind
              fun h' => .ok (h', c', (s + 1) % (layer.length - c.length + 1)))
  | 0, i, h, c, _, hlen, _, _ => by
    right
    refine ⟨fun l h1 h2 => by omega, c, rfl, fun l => ?_, ?_⟩
    · split_ifs with hl
      · rw [List.getD_eq_getElem?_getD, List.getElem?_eq_none (by omega)]
        rfl
      · rfl
    · rw [nextPermutationFrom]
  | k + 1, i, h, c, hi, hlen, hk, hv => by
    have hik : i + (k + 1) = c.length := hk (by omega)
    rw [nextPermutationFrom]
    simp only
    by_cases hp : c.getD i 0 < i
    · rw [if_pos hp]
      left
      refine ⟨i, c.set i (c.getD i 0 + 1), le_refl _, by omega, hp, fun l h1 h2 => by omega,
        by simp, fun l => ?_, rfl⟩
      rw [getD_set_nat]
      by_cases hl : l = i
      · subst hl
        rw [if_pos ⟨rfl, by omega⟩, if_neg (by omega), if_pos rfl]
      · rw [if_neg (fun e => hl e.1), if_neg (by omega), if_neg hl]
    · rw [if_neg hp]
      have hci : c.getD i 0 = i := by
        have := hv i
        omega
      have hset : ∀ l, (c.set i 0).getD l 0 = if l = i then 0 else c.getD l 0 := by
        intro l
        rw [getD_set_nat]
        by_cases hl : l = i
        · rw [if_pos ⟨hl, by omega⟩, if_pos hl]
        · rw [if_neg (fun e => hl e.1), if_neg hl]
      have hv' : ∀ l, (c.set i 0).getD l 0 ≤ l := by
        intro l
        rw [hset]
        split_ifs
        · omega
        · exact hv l
      rcases nextPermutationFrom_scan layer s k (i + 1) h (c.set i 0) (by omega)
        (by simp only [List.length_set]; omega) (fun _ => by simp only [List.length_set]; omega)
        hv' with ⟨i', c', h1, h2, h3, h4, h5, h6, h7⟩ | ⟨h1, c', h2, h3, h4⟩
      · left
        simp only [List.length_set] at h2 h5
        have e : (c.set i 0).getD i' 0 = c.getD i' 0 := by rw [hset, if_neg (by omega)]
        rw [e] at h3 h7
        refine ⟨i', c', by omega, h2, h3, fun l hl1 hl2 => ?_, h5, fun l => ?_, h7⟩
        · by_cases hl : l = i
          · rw [hl]; exact hci
          · have := h4 l (by omega) hl2
            rw [hset, if_neg hl] at this
            exact this
        · rw [h6, e, hset l]
          split_ifs <;> first | rfl | omega
      · right
        simp only [List.length_set] at h1 h2 h4
        refine ⟨fun l hl1 hl2 => ?_, c', h2, fun l => ?_, h4⟩
        · by_cases hl : l = i
          · rw [hl]; exact hci
          · have := h1 l (by omega) hl2
            rw [hset, if_neg hl] at this
            exact this
        · rw [h3, hset l]
          split_ifs <;> first | rfl | omega

/-! ## The ordinals of the layer under `nextPermutation` -/

theorem evenOrth_inj (n a b : Nat) (hn : 0 < n) (h : evenOrth n a = evenOrth n b) : a = b := by
  unfold evenOrth at h
  have hn' : (n : ℚ) ≠ 0 := by exact_mod_cast hn.ne'
  have h2 := (div_left_inj' hn').mp h
  have h3 : (a : ℚ) = b := by linarith
  exact_mod_cast h3

theorem orths_getElem? (h : Heap) (layer : List Nat) (p : Nat) :
    (orths h layer)[p]? = (layer[p]?).map h.orth := by
  simp [orths]

theorem OrthAt.of_even {layer : List Nat} {h : Heap} (s j : Nat)
    (he : orths h layer = evenOrths layer.length) : OrthAt layer s j 1 h := by
  intro p x hx
  have hp : p < layer.length := by
    by_contra hge
    rw [List.getElem?_eq_none (by omega)] at hx
    cases hx
  have h1 := orths_getElem? h layer p
  rw [he, hx] at h1
  simp only [evenOrths, List.getElem?_map, List.getElem?_range hp, Option.map_some'] at h1
  simp only [Option.some.injEq] at h1
  rw [← h1]
  congr 2
  split_ifs with hc
  · simp only [Equiv.Perm.one_apply]
    omega
  · rfl

theorem OrthAt.even {layer : List Nat} {h : Heap} {s j : Nat} (ho : OrthAt layer s j 1 h) :
    orths h layer = evenOrths layer.length := by
  apply List.ext_getElem?
  intro p
  rw [orths_getElem?]
  by_cases hp : p < layer.length
  · rw [List.getElem?_eq_getElem hp]
    simp only [evenOrths, List.getElem?_map, List.getElem?_range hp, Option.map_some']
    rw [ho p _ (List.getElem?_eq_getElem hp)]
    congr 2
    split_ifs with hc
    · simp only [Equiv.Perm.one_apply]
      congr 1
      omega
    · rfl
  · rw [List.getElem?_eq_none (by omega)]
    simp only [evenOrths, List.getElem?_map, Option.map_none']
    rw [List.getElem?_eq_none (by simp; omega)]
    rfl

theorem nodup_getElem?_eq {layer : List Nat} (hn : layer.Nodup) {p q x : Nat}
    (hp : layer[p]? = some x) (hq : layer[q]? = some x) : p = q := by
  have hpl : p < layer.length := by
    by_contra hge
    rw [List.getElem?_eq_none (by omega)] at hp
    cases hp
  exact List.getElem?_inj hpl hn (hp.trans hq.symm)

/-- The exchange of two ordinals of the window by `nextPermutation`. -/
theorem swapOrth_orthAt (layer : List Nat) (hn : layer.Nodup) (s j o i : Nat)
    (order : Equiv.Perm Nat) (h : Heap) (ho : OrthAt layer s j order h) (hoi : o < i)
    (hij : i < j) (hw : s + j ≤ layer.length) :
    ∃ h', swapOrth h layer (i + s) (o + s) = .ok h' ∧
      OrthAt layer s j (order * Equiv.swap o i) h' ∧
      (∀ r, (orths h' layer)[r]? = (orths h layer)[Equiv.swap (s + o) (s + i) r]?) ∧
      (orths h layer)[s + o]? ≠ (orths h layer)[s + i]? := by
  have hsi : i + s < layer.length := by omega
  have hso : o + s < layer.length := by omega
  have ha : layer[i + s]? = some layer[i + s] := List.getElem?_eq_getElem hsi
  have hb : layer[o + s]? = some layer[o + s] := List.getElem?_eq_getElem hso
  have hab : layer[i + s] ≠ layer[o + s] := by
    intro e
    have := nodup_getElem?_eq hn ha (e ▸ hb)
    omega
  have hoa := ho _ _ ha
  have hob := ho _ _ hb
  rw [if_pos ⟨by omega, by omega⟩, show i + s - s = i by omega] at hoa
  rw [if_pos ⟨by omega, by omega⟩, show o + s - s = o by omega] at hob
  unfold swapOrth
  rw [ha, hb]
  refine ⟨_, rfl, ?_, ?_, ?_⟩
  · intro p x hx
    show upd (upd h.orth layer[i + s] (h.orth layer[o + s])) layer[o + s] (h.orth layer[i + s]) x
      = _
    by_cases hpo : p = o + s
    · subst hpo
      rw [hb] at hx
      simp only [Option.some.injEq] at hx
      subst hx
      rw [upd_same, hoa, if_pos ⟨by omega, by omega⟩, show o + s - s = o by omega,
        Equiv.Perm.mul_apply, Equiv.swap_apply_left]
    · have hxb : x ≠ layer[o + s] := fun e => hpo (nodup_getElem?_eq hn hx (e ▸ hb))
      rw [upd_ne _ _ hxb]
      by_cases hpi : p = i + s
      · subst hpi
        rw [ha] at hx
        simp only [Option.some.injEq] at hx
        subst hx
        rw [upd_same, hob, if_pos ⟨by omega, by omega⟩, show i + s - s = i by omega,
          Equiv.Perm.mul_apply, Equiv.swap_apply_right]
      · have hxa : x ≠ layer[i + s] := fun e => hpi (nodup_getElem?_eq hn hx (e ▸ ha))
        rw [upd_ne _ _ hxa, ho p x hx]
        congr 2
        split_ifs with hc
        · rw [Equiv.Perm.mul_apply, Equiv.swap_apply_of_ne_of_ne (by omega) (by omega)]
        · rfl
  · intro r
    rw [orths_getElem?, orths_getElem?, swap_apply_eq]
    by_cases hro : r = s + o
    · rw [if_pos hro, hro, show s + o = o + s by omega, show s + i = i + s by omega, hb, ha]
      show some (upd _ _ _ _) = _
      rw [upd_same]
      rfl
    · rw [if_neg hro]
      by_cases hri : r = s + i
      · rw [if_pos hri, hri, show s + o = o + s by omega, show s + i = i + s by omega, hb, ha]
        show some (upd _ _ _ _) = _
        rw [upd_ne _ _ hab, upd_same]
        rfl
      · rw [if_neg hri]
        cases hx : layer[r]? with
        | none => rfl
        | some x =>
          have hxb : x ≠ layer[o + s] := fun e =>
            hro (by have := nodup_getElem?_eq hn hx (e ▸ hb); omega)
          have hxa : x ≠ layer[i + s] := fun e =>
            hri (by have := nodup_getElem?_eq hn hx (e ▸ ha); omega)
          show some (upd _ _ _ _) = _
          rw [upd_ne _ _ hxb, upd_ne _ _ hxa]
          rfl
  · rw [orths_getElem?, orths_getElem?, show s + o = o + s by omega,
      show s + i = i + s by omega, hb, ha]
    simp only [Option.map_some', ne_eq, Option.some.injEq]
    rw [hoa, hob]
    intro e
    simp only [Option.some.injEq] at e
    have := evenOrth_inj _ _ _ (by omega) e
    have h2 : order o = order i := by omega
    have := order.injective h2
    omega

theorem resetOrth_window (layer : List Nat) (hn : layer.Nodup) :
    ∀ (is : List Nat) (h : Heap), (∀ q ∈ is, q < layer.length) →
      ∃ h', resetOrth layer is h = .ok h' ∧ ∀ p x, layer[p]? = some x →
        h'.orth x = if p ∈ is then some (evenOrth layer.length p) else h.orth x
  | [], h, _ => ⟨h, rfl, fun p x _ => by simp⟩
  | i :: rest, h, his => by
    have hi : i < layer.length := his i (List.mem_cons_self _ _)
    have ha : layer[i]? = some layer[i] := List.getElem?_eq_getElem hi
    rw [resetOrth, ha]
    simp only
    obtain ⟨h', hrun, hres⟩ := resetOrth_window layer hn rest
      { h with orth := upd h.orth layer[i] (some ((i + 1 / 2) / layer.length)) }
      (fun q hq => his q (List.mem_cons_of_mem _ hq))
    refine ⟨h', hrun, fun p x hx => ?_⟩
    rw [hres p x hx]
    by_cases hp : p ∈ rest
    · rw [if_pos hp, if_pos (List.mem_cons_of_mem _ hp)]
    · rw [if_neg hp]
      show upd h.orth layer[i] _ x = _
      by_cases hpi : p = i
      · subst hpi
        rw [ha] at hx
        simp only [Option.some.injEq] at hx
        subst hx
        rw [upd_same, if_pos (List.mem_cons_self _ _)]
        rfl
      · have hxa : x ≠ layer[i] := fun e => hpi (nodup_getElem?_eq hn hx (e ▸ ha))
        rw [upd_ne _ _ hxa, if_neg (by simp [hpi, hp])]

/-- The second loop of `nextPermutation` gives every position of the layer
its own ordinal again. -/
theorem resetOrth_orthAt (layer : List Nat) (hn : layer.Nodup) (s j : Nat)
    (order : Equiv.Perm Nat) (h : Heap) (ho : OrthAt layer s j order h)
    (hw : s + j ≤ layer.length) :
    ∃ h', resetOrth layer (List.range' s j) h = .ok h' ∧ OrthAt layer s j 1 h' := by
  obtain ⟨h', hrun, hres⟩ := resetOrth_window layer hn (List.range' s j) h (fun q hq => by
    have := List.mem_range'_1.mp hq
    omega)
  refine ⟨h', hrun, fun p x hx => ?_⟩
  rw [hres p x hx]
  by_cases hc : s ≤ p ∧ p < s + j
  · rw [if_pos (List.mem_range'_1.mpr hc), if_pos hc, Equiv.Perm.one_apply]
    congr 2
    omega
  · rw [if_neg (fun e => hc (List.mem_range'_1.mp e)), if_neg hc, ho p x hx, if_neg hc]

theorem getD_replicate_zero (j l : Nat) : (List.replicate j 0).getD l 0 = 0 := by
  rw [List.getD_eq_getElem?_getD, List.getElem?_replicate]
  split_ifs <;> rfl

theorem eq_replicate_zero (c : List Nat) (j : Nat) (hl : c.length = j)
    (h0 : ∀ l, c.getD l 0 = 0) : c = List.replicate j 0 := by
  apply List.ext_getElem
  · simp [hl]
  · intro i h1 h2
    have := h0 i
    rw [List.getD_eq_getElem?_getD, List.getElem?_eq_getElem h1] at this
    simpa using this

theorem PermInv.start {layer : List Nat} {h : Heap} (s j : Nat)
    (he : orths h layer = evenOrths layer.length) :
    PermInv layer s j h (List.replicate j 0) := by
  refine ⟨List.length_replicate _ _, fun l => ?_, ?_⟩
  · rw [getD_replicate_zero]
    omega
  · rw [statePerm_zero _ _ (fun l _ _ => getD_replicate_zero j l)]
    exact OrthAt.of_even s j he

/-- A call of `nextPermutation` either exchanges the ordinals of two positions
of the window and counts one up, or, at the last count, starts again. -/
theorem nextPermutation_cases (layer : List Nat) (hn : layer.Nodup) (s j : Nat)
    (hw : s + j ≤ layer.length) (h : Heap) (c : List Nat) (hinv : PermInv layer s j h c) :
    (∃ h' c' o i, o < i ∧ i < j ∧ nextPermutation h layer c s = .ok (h', c', s) ∧
      PermInv layer s j h' c' ∧ stateRank c' j = stateRank c j + 1 ∧
      (∀ r, (orths h' layer)[r]? = (orths h layer)[Equiv.swap (s + o) (s + i) r]?) ∧
      (orths h layer)[s + o]? ≠ (orths h layer)[s + i]?) ∨
    (stateRank c j + 1 = Nat.factorial j ∧
      ∃ h', nextPermutation h layer c s =
          .ok (h', List.replicate j 0, (s + 1) % (layer.length - j + 1)) ∧
        PermInv layer s j h' (List.replicate j 0)) := by
  obtain ⟨hlen, hvalid, horth⟩ := hinv
  have hc0 : c.getD 0 0 = 0 := Nat.le_zero.mp (hvalid 0)
  rcases nextPermutationFrom_scan layer s (j - 1) 1 h c (le_refl 1) (by omega)
    (fun hk => by omega) hvalid with
    ⟨i, c', h1, hij, hlt, hmax, hlen', hc', hrun⟩ | ⟨hmax, c', hlen', hc', hrun⟩
  · left
    have hoi : (if i % 2 = 0 then 0 else c.getD i 0) < i := by split_ifs <;> omega
    obtain ⟨h', hswap, horth', hex, hne⟩ :=
      swapOrth_orthAt layer hn s j _ i _ h horth hoi (by omega) hw
    have hoi' : (if i % 2 = 0 then s else c.getD i 0 + s)
        = (if i % 2 = 0 then 0 else c.getD i 0) + s := by
      split_ifs <;> omega
    have hzero : ∀ l, 1 ≤ l → l < i → c'.getD l 0 = 0 := by
      intro l a b
      rw [hc' l, if_pos ⟨a, b⟩]
    have hinc : c'.getD i 0 = c.getD i 0 + 1 := by
      rw [hc' i, if_neg (by omega), if_pos rfl]
    have hsame : ∀ l, i < l → c'.getD l 0 = c.getD l 0 := by
      intro l hl
      rw [hc' l, if_neg (by omega), if_neg (by omega)]
    refine ⟨h', c', _, i, hoi, by omega, ?_, ⟨by omega, ?_, ?_⟩, ?_, hex, hne⟩
    · show nextPermutationFrom layer s (c.length - 1) 1 h c = _
      rw [hlen, hrun, hoi', hswap]
      rfl
    · intro l
      have := hvalid l
      rw [hc' l]
      split_ifs <;> omega
    · rw [statePerm_step c c' i h1 hmax hzero hinc hsame (j - 1) (by omega)]
      exact horth'
    · refine stateRank_step c c' i (fun l hl => ?_) (fun l hl => ?_) hinc hsame j (by omega)
      · by_cases hl0 : l = 0
        · subst hl0
          exact hc0
        · exact hmax l (by omega) hl
      · by_cases hl0 : l = 0
        · subst hl0
          rw [hc' 0, if_neg (by omega), if_neg (by omega)]
          exact hc0
        · exact hzero l (by omega) hl
  · right
    have hfull := stateRank_full c j (fun l hl => by
      by_cases hl0 : l = 0
      · subst hl0
        exact hc0
      · exact hmax l (by omega) (by omega))
    obtain ⟨h', hreset, horth'⟩ := resetOrth_orthAt layer hn s j _ h horth hw
    have hc'0 : c' = List.replicate j 0 := eq_replicate_zero c' j (by omega) (fun l => by
      rw [hc' l]
      split_ifs with hl
      · rfl
      · have hl0 : l = 0 := by omega
        subst hl0
        exact hc0)
    subst hc'0
    refine ⟨hfull, h', ?_, PermInv.start s j (OrthAt.even horth')⟩
    show nextPermutationFrom layer s (c.length - 1) 1 h c = _
    rw [hlen, hrun, hlen, hreset]
    rfl

theorem permRun_add (layer : List Nat) (a : Nat) (h : Heap) (c : List Nat) (s : Nat) :
    ∀ b, permRun layer (a + b) h c s =
      (permRun layer a h c s).bind fun r => permRun layer b r.1 r.2.1 r.2.2
  | 0 => by
    show permRun layer a h c s = _
    cases permRun layer a h c s <;> rfl
  | b + 1 => by
    show (permRun layer (a + b) h c s).bind _ = _
    rw [permRun_add layer a h c s b]
    cases permRun layer a h c s <;> rfl

/-- The state after `m` calls of `nextPermutation`, for `m` below `j!`. -/
theorem permRun_state (layer : List Nat) (hn : layer.Nodup) (s j : Nat)
    (hw : s + j ≤ layer.length) (h : Heap) (he : orths h layer = evenOrths layer.length) :
    ∀ m, m + 1 ≤ Nat.factorial j →
      ∃ hm cm, permRun layer m h (List.replicate j 0) s = .ok (hm, cm, s) ∧
        PermInv layer s j hm cm ∧ stateRank cm j = m
  | 0, _ => ⟨h, _, rfl, PermInv.start s j he,
      stateRank_zero _ _ (fun l _ => getD_replicate_zero j l)⟩
  | m + 1, hm1 => by
    obtain ⟨hm, cm, hrun, hinv, hrank⟩ := permRun_state layer hn s j hw h he m (by omega)
    rcases nextPermutation_cases layer hn s j hw hm cm hinv with
      ⟨h', c', o, i, _, _, hnext, hinv', hrank', _, _⟩ | ⟨hfull, _⟩
    · refine ⟨h', c', ?_, hinv', by omega⟩
      rw [permRun, hrun]
      exact hnext
    · omega

/-- Two states of the same window with the same ordinals have the same count. -/
theorem PermInv.rank_eq {layer : List Nat} {s j : Nat} (hw : s + j ≤ layer.length)
    {h h' : Heap} {c c' : List Nat} (hinv : PermInv layer s j h c)
    (hinv' : PermInv layer s j h' c') (he : orths h layer = orths h' layer) :
    stateRank c j = stateRank c' j := by
  obtain ⟨_, hvalid, horth⟩ := hinv
  obtain ⟨_, hvalid', horth'⟩ := hinv'
  by_cases hj : j = 0
  · subst hj
    rfl
  have hperm : statePerm c (j - 1) = statePerm c' (j - 1) := by
    apply Equiv.ext
    intro p
    by_cases hp : p < j
    · have hsp : s + p < layer.length := by omega
      have hx : layer[s + p]? = some layer[s + p] := List.getElem?_eq_getElem hsp
      have h1 := horth _ _ hx
      have h2 := horth' _ _ hx
      rw [if_pos ⟨by omega, by omega⟩, show s + p - s = p by omega] at h1 h2
      have h3 := congrArg (fun l : List (Option ℚ) => l[s + p]?) he
      simp only [orths_getElem?, hx, Option.map_some', Option.some.injEq] at h3
      rw [h1, h2] at h3
      simp only [Option.some.injEq] at h3
      have := evenOrth_inj _ _ _ (by omega) h3
      omega
    · rw [statePerm_fix c (j - 1) (fun l _ _ => hvalid l) p (by omega),
        statePerm_fix c' (j - 1) (fun l _ _ => hvalid' l) p (by omega)]
  have hdig := statePerm_inj c c' (j - 1) (fun l _ _ => hvalid l) (fun l _ _ => hvalid' l) hperm
  refine (stateRank_congr c c' j (fun l hl => ?_)).symm
  by_cases hl0 : l = 0
  · subst hl0
    have := hvalid 0
    have := hvalid' 0
    omega
  · exact (hdig l (by omega) (by omega)).symm

/-- The call number `j!` of `nextPermutation` starts again. -/
theorem permRun_cycle (layer : List Nat) (hn : layer.Nodup) (s j : Nat)
    (hw : s + j ≤ layer.length) (h : Heap) (he : orths h layer = evenOrths layer.length) :
    ∃ hf, permRun layer (Nat.factorial j) h (List.replicate j 0) s =
        .ok (hf, List.replicate j 0, (s + 1) % (layer.length - j + 1)) ∧
      orths hf layer = evenOrths layer.length := by
  have hpos := Nat.factorial_pos j
  obtain ⟨hm, cm, hrun, hinv, hrank⟩ :=
    permRun_state layer hn s j hw h he (Nat.factorial j - 1) (by omega)
  rcases nextPermutation_cases layer hn s j hw hm cm hinv with
    ⟨h', c', o, i, _, _, _, hinv', hrank', _, _⟩ | ⟨_, h', hnext, hinv'⟩
  · have := stateRank_bound c' j (fun l _ => hinv'.2.1 l)
    omega
  · refine ⟨h', ?_, OrthAt.even (statePerm_zero _ _ (fun l _ _ => getD_replicate_zero j l) ▸
      hinv'.2.2)⟩
    rw [show Nat.factorial j = (Nat.factorial j - 1) + 1 by omega, permRun, hrun]
    exact hnext

/-- The shift after a number of rounds of `j!` calls each. -/
theorem permRun_cycles (layer : List Nat) (hn : layer.Nodup) (s j : Nat)
    (hw : s + j ≤ layer.length) (h : Heap) (he : orths h layer = evenOrths layer.length) :
    ∀ t, ∃ ht, permRun layer (t * Nat.factorial j) h (List.replicate j 0) s =
        .ok (ht, List.replicate j 0, (s + t) % (layer.length - j + 1)) ∧
      orths ht layer = evenOrths layer.length
  | 0 => by
    refine ⟨h, ?_, he⟩
    rw [Nat.zero_mul, Nat.add_zero, Nat.mod_eq_of_lt (by omega)]
    rfl
  | t + 1 => by
    obtain ⟨ht, hrun, het⟩ := permRun_cycles layer hn s j hw h he t
    have hlt : (s + t) % (layer.length - j + 1) < layer.length - j + 1 :=
      Nat.mod_lt _ (by omega)
    obtain ⟨hf, hrun', hef⟩ :=
      permRun_cycle layer hn ((s + t) % (layer.length - j + 1)) j (by omega) ht het
    refine ⟨hf, ?_, hef⟩
    rw [Nat.succ_mul, permRun_add, hrun]
    show permRun layer (Nat.factorial j) ht (List.replicate j 0) _ = _
    rw [hrun', Nat.mod_add_mod]
    rfl

/-- A layer with the ordinals `(i + 0.5) / width` by position has no node twice. -/
theorem nodup_of_even {layer : List Nat} {h : Heap}
    (he : orths h layer = evenOrths layer.length) : layer.Nodup := by
  rw [List.nodup_iff_getElem?_ne_getElem?]
  intro i j hij hj e
  have hx : layer[j]? = some layer[j] := List.getElem?_eq_getElem hj
  have h1 := OrthAt.of_even 0 0 he i _ (e.trans hx)
  have h2 := OrthAt.of_even 0 0 he j _ hx
  rw [if_neg (by omega)] at h1 h2
  rw [h1] at h2
  simp only [Option.some.injEq] at h2
  have := evenOrth_inj _ _ _ (by omega) h2
  omega

/-- C22: `nextPermutation` enumerates the orders of its window. From a layer
with the ordinals `(i + 0.5) / width` by position, a `permState` of
`j` zeros and a `permShift` with `permShift + j ≤ width`: each of the first
`j! - 1` calls returns `permShift` and exchanges the ordinals of two positions
of the window, which differ; the `j!` lists of ordinals seen are pairwise
distinct; the positions outside the window keep their ordinals; the call
number `j!` leaves `permState` all zeros and the ordinals `(i + 0.5) / width`
by position and returns `(permShift + 1) % (width - j + 1)`; and so after `t`
rounds of `j!` calls the shift is `(permShift + t) % (width - j + 1)`. For
`j = width` and `permShift = 0` the window is the layer and the shift stays `0`. -/
theorem nextPermutation_enumerates (h : Heap) (layer : List Nat) (j permShift : Nat)
    (hw : permShift + j ≤ layer.length)
    (hstart : orths h layer = evenOrths layer.length) :
    (∀ m, m + 1 < Nat.factorial j →
      ∃ hm cm h' c', permRun layer m h (List.replicate j 0) permShift = .ok (hm, cm, permShift) ∧
        nextPermutation hm layer cm permShift = .ok (h', c', permShift) ∧
        ∃ p q, permShift ≤ p ∧ p < q ∧ q < permShift + j ∧
          (orths hm layer)[p]? ≠ (orths hm layer)[q]? ∧
          ∀ r, (orths h' layer)[r]? = (orths hm layer)[Equiv.swap p q r]?) ∧
    (∀ m m', m < m' → m' < Nat.factorial j →
      ∃ r r', permRun layer m h (List.replicate j 0) permShift = .ok r ∧
        permRun layer m' h (List.replicate j 0) permShift = .ok r' ∧
        orths r.1 layer ≠ orths r'.1 layer) ∧
    (∀ m, m < Nat.factorial j →
      ∃ r, permRun layer m h (List.replicate j 0) permShift = .ok r ∧ r.2.2 = permShift ∧
        ∀ p, ¬ (permShift ≤ p ∧ p < permShift + j) →
          (orths r.1 layer)[p]? = (orths h layer)[p]?) ∧
    (∃ hf, permRun layer (Nat.factorial j) h (List.replicate j 0) permShift =
        .ok (hf, List.replicate j 0, (permShift + 1) % (layer.length - j + 1)) ∧
      orths hf layer = evenOrths layer.length) ∧
    (layer.length = j → (permShift + 1) % (layer.length - j + 1) = 0) ∧
    ∀ t, ∃ ht, permRun layer (t * Nat.factorial j) h (List.replicate j 0) permShift =
        .ok (ht, List.replicate j 0, (permShift + t) % (layer.length - j + 1)) ∧
      orths ht layer = evenOrths layer.length := by
  have hn := nodup_of_even hstart
  refine ⟨fun m hm1 => ?_, fun m m' hlt hm' => ?_, fun m hm1 => ?_,
    permRun_cycle layer hn permShift j hw h hstart, fun hj => ?_,
    permRun_cycles layer hn permShift j hw h hstart⟩
  · obtain ⟨hm, cm, hrun, hinv, hrank⟩ :=
      permRun_state layer hn permShift j hw h hstart m (by omega)
    rcases nextPermutation_cases layer hn permShift j hw hm cm hinv with
      ⟨h', c', o, i, hoi, hij, hnext, _, _, hex, hne⟩ | ⟨hfull, _⟩
    · exact ⟨hm, cm, h', c', hrun, hnext, permShift + o, permShift + i, by omega, by omega,
        by omega, hne, hex⟩
    · omega
  · obtain ⟨hm, cm, hrun, hinv, hrank⟩ :=
      permRun_state layer hn permShift j hw h hstart m (by omega)
    obtain ⟨hm', cm', hrun', hinv', hrank'⟩ :=
      permRun_state layer hn permShift j hw h hstart m' (by omega)
    refine ⟨_, _, hrun, hrun', fun he => ?_⟩
    have := PermInv.rank_eq hw hinv hinv' he
    omega
  · obtain ⟨hm, cm, hrun, hinv, hrank⟩ :=
      permRun_state layer hn permShift j hw h hstart m (by omega)
    refine ⟨_, hrun, rfl, fun p hp => ?_⟩
    rw [orths_getElem?, orths_getElem?]
    cases hx : layer[p]? with
    | none => rfl
    | some x =>
      have h1 := hinv.2.2 p x hx
      have h2 := OrthAt.of_even permShift j hstart p x hx
      rw [if_neg hp] at h1 h2
      show some (hm.orth x) = some (h.orth x)
      rw [h1, h2]
  · rw [hj, Nat.sub_self]
    exact Nat.mod_one _

/-- C22 at the layer of the nodes `0` and `1` of `twoByTwo`, with the whole
layer as the window. -/
theorem nextPermutation_enumerates_witness :
    0 + 2 ≤ [0, 1].length ∧ orths twoByTwo [0, 1] = evenOrths [0, 1].length ∧
    (∀ m, m + 1 < Nat.factorial 2 →
      ∃ hm cm h' c', permRun [0, 1] m twoByTwo (List.replicate 2 0) 0 = .ok (hm, cm, 0) ∧
        nextPermutation hm [0, 1] cm 0 = .ok (h', c', 0) ∧
        ∃ p q, 0 ≤ p ∧ p < q ∧ q < 0 + 2 ∧
          (orths hm [0, 1])[p]? ≠ (orths hm [0, 1])[q]? ∧
          ∀ r, (orths h' [0, 1])[r]? = (orths hm [0, 1])[Equiv.swap p q r]?) ∧
    (∀ m m', m < m' → m' < Nat.factorial 2 →
      ∃ r r', permRun [0, 1] m twoByTwo (List.replicate 2 0) 0 = .ok r ∧
        permRun [0, 1] m' twoByTwo (List.replicate 2 0) 0 = .ok r' ∧
        orths r.1 [0, 1] ≠ orths r'.1 [0, 1]) ∧
    (∀ m, m < Nat.factorial 2 →
      ∃ r, permRun [0, 1] m twoByTwo (List.replicate 2 0) 0 = .ok r ∧ r.2.2 = 0 ∧
        ∀ p, ¬ (0 ≤ p ∧ p < 0 + 2) →
          (orths r.1 [0, 1])[p]? = (orths twoByTwo [0, 1])[p]?) ∧
    (∃ hf, permRun [0, 1] (Nat.factorial 2) twoByTwo (List.replicate 2 0) 0 =
        .ok (hf, List.replicate 2 0, (0 + 1) % ([0, 1].length - 2 + 1)) ∧
      orths hf [0, 1] = evenOrths [0, 1].length) ∧
    ([0, 1].length = 2 → (0 + 1) % ([0, 1].length - 2 + 1) = 0) ∧
    ∀ t, ∃ ht, permRun [0, 1] (t * Nat.factorial 2) twoByTwo (List.replicate 2 0) 0 =
        .ok (ht, List.replicate 2 0, (0 + t) % ([0, 1].length - 2 + 1)) ∧
      orths ht [0, 1] = evenOrths [0, 1].length :=
  ⟨by decide, by decide!,
    nextPermutation_enumerates twoByTwo [0, 1] 2 0 (by decide) (by decide!)⟩

theorem SettlesWith.settlesConst {α : Type} (r : Res α) (P : α → Prop) (hr : r ≠ .timeout)
    (hp : ∀ a, r = .ok a → P a) : SettlesWith (fun _ => r) P :=
  ⟨0, r, hr, fun _ _ => rfl, hp⟩

theorem SettlesWith.settlesOfOk {α : Type} {f : Nat → Res α} {P : α → Prop} (bound : Nat) (a : α)
    (hf : ∀ fuel, bound ≤ fuel → f fuel = .ok a) (hp : P a) : SettlesWith f P :=
  ⟨bound, .ok a, by simp, hf, fun b hb => by
    simp only [Res.ok.injEq] at hb
    exact hb ▸ hp⟩

theorem SettlesWith.settlesWeaken {α : Type} {f : Nat → Res α} {P Q : α → Prop}
    (hf : SettlesWith f P) (hpq : ∀ a, P a → Q a) : SettlesWith f Q := by
  obtain ⟨bound, r, hr, hrun, hp⟩ := hf
  exact ⟨bound, r, hr, hrun, fun a ha => hpq a (hp a ha)⟩

theorem SettlesWith.settlesCongr {α : Type} {f g : Nat → Res α} {P : α → Prop}
    (hf : SettlesWith f P) (hfg : ∀ fuel, g fuel = f fuel) : SettlesWith g P := by
  obtain ⟨bound, r, hr, hrun, hp⟩ := hf
  exact ⟨bound, r, hr, fun fuel hfuel => (hfg fuel).trans (hrun fuel hfuel), hp⟩

/-- Sequencing of two computations that settle. -/
theorem SettlesWith.settlesBind {α β : Type} {f : Nat → Res α} {g : α → Nat → Res β}
    {P : α → Prop} {Q : β → Prop} (hf : SettlesWith f P)
    (hg : ∀ a, P a → SettlesWith (g a) Q) :
    SettlesWith (fun fuel => (f fuel).bind fun a => g a fuel) Q := by
  obtain ⟨bound, r, hr, hrun, hp⟩ := hf
  cases r with
  | timeout => exact absurd rfl hr
  | throw m =>
    refine ⟨bound, .throw m, by simp, fun fuel hfuel => ?_, fun a ha => by cases ha⟩
    simp only [hrun fuel hfuel, Res.bind]
  | ok a =>
    obtain ⟨bound2, r2, hr2, hrun2, hq⟩ := hg a (hp a rfl)
    refine ⟨max bound bound2, r2, hr2, fun fuel hfuel => ?_, hq⟩
    simp only [hrun fuel (le_trans (le_max_left _ _) hfuel), Res.bind]
    exact hrun2 fuel (le_trans (le_max_right _ _) hfuel)

/-- A loop over a list whose body settles and keeps `I`. -/
theorem SettlesWith.settlesFoldl {σ α : Type} (I : σ → Prop) (step : Nat → σ → α → Res σ) :
    ∀ (l : List α) (s : σ), I s →
      (∀ s a, I s → a ∈ l → SettlesWith (fun fuel => step fuel s a) I) →
      SettlesWith (fun fuel => Res.foldl (step fuel) s l) I
  | [], s, hs, _ => SettlesWith.settlesOfOk 0 s (fun _ _ => rfl) hs
  | a :: rest, s, hs, hstep => by
    have h1 := hstep s a hs (List.mem_cons_self _ _)
    have h2 := SettlesWith.settlesBind h1 (fun s' hs' =>
      SettlesWith.settlesFoldl I step rest s' hs'
        (fun t b ht hb => hstep t b ht (List.mem_cons_of_mem _ hb)))
    exact h2.settlesCongr (fun fuel => rfl)

theorem SameShape.reflShape (h : Heap) : SameShape h h := ⟨rfl, rfl, rfl, rfl⟩

theorem SameShape.transShape {a b c : Heap} (h1 : SameShape a b) (h2 : SameShape b c) :
    SameShape a c :=
  ⟨h2.1.trans h1.1, h2.2.1.trans h1.2.1, h2.2.2.1.trans h1.2.2.1, h2.2.2.2.trans h1.2.2.2⟩

theorem LayoutFrame.ofShape {h0 h h' : Heap} (hf : LayoutFrame h0 h) (hs : SameShape h h') :
    LayoutFrame h0 h' where
  size := by rw [hs.1]; exact hf.size
  virtual := fun x hx => by rw [hs.2.1]; exact hf.virtual x hx
  predecessors := hs.2.2.1.trans hf.predecessors
  successors := hs.2.2.2.trans hf.successors

/-! ## The search changes ordinals only, and settles -/

theorem Res.bind_eq_ok {α β : Type} {x : Res α} {f : α → Res β} {b : β}
    (h : x.bind f = .ok b) : ∃ a, x = .ok a ∧ f a = .ok b := by
  cases x with
  | ok a => exact ⟨a, rfl, h⟩
  | throw m => cases h
  | timeout => cases h

theorem swapOrth_shape {h h' : Heap} {layer : List Nat} {si oi : Nat}
    (hr : swapOrth h layer si oi = .ok h') : SameShape h h' := by
  unfold swapOrth at hr
  split at hr
  · simp only [Res.ok.injEq] at hr
    subst hr
    exact ⟨rfl, rfl, rfl, rfl⟩
  · cases hr

theorem resetOrth_shape (layer : List Nat) :
    ∀ (is : List Nat) (h h' : Heap), resetOrth layer is h = .ok h' → SameShape h h'
  | [], h, h', hr => by
    simp only [resetOrth, Res.ok.injEq] at hr
    subst hr
    exact SameShape.reflShape h
  | i :: rest, h, h', hr => by
    rw [resetOrth] at hr
    split at hr
    · have h2 := resetOrth_shape layer rest _ h' hr
      exact h2
    · cases hr

theorem nextPermutationFrom_shape (layer : List Nat) (permShift : Nat) :
    ∀ (k i : Nat) (h : Heap) (permState : List Nat) (r : Heap × List Nat × Nat),
      nextPermutationFrom layer permShift k i h permState = .ok r → SameShape h r.1
  | 0, i, h, permState, r, hr => by
    rw [nextPermutationFrom] at hr
    obtain ⟨h', h1, h2⟩ := Res.bind_eq_ok hr
    simp only [Res.ok.injEq] at h2
    subst h2
    exact resetOrth_shape layer _ h h' h1
  | k + 1, i, h, permState, r, hr => by
    rw [nextPermutationFrom] at hr
    simp only at hr
    split_ifs at hr with hp hev
    · obtain ⟨h', h1, h2⟩ := Res.bind_eq_ok hr
      simp only [Res.ok.injEq] at h2
      subst h2
      exact swapOrth_shape h1
    · obtain ⟨h', h1, h2⟩ := Res.bind_eq_ok hr
      simp only [Res.ok.injEq] at h2
      subst h2
      exact swapOrth_shape h1
    · exact nextPermutationFrom_shape layer permShift k (i + 1) h _ r hr

theorem nextPermutation_shape {h : Heap} {layer permState : List Nat} {permShift : Nat}
    {r : Heap × List Nat × Nat} (hr : nextPermutation h layer permState permShift = .ok r) :
    SameShape h r.1 :=
  nextPermutationFrom_shape layer permShift _ 1 h permState r hr

theorem searchLayer_shape {b : Block} {p i : Nat} {s : Search} {metricsLeft : ℚ}
    {r : Search × ℚ} (hr : searchLayer b p i s metricsLeft = .ok r) : SameShape s.h r.1.h := by
  unfold searchLayer at hr
  split_ifs at hr with hadv hsym
  · obtain ⟨r0, h0, h1⟩ := Res.bind_eq_ok hr
    obtain ⟨m, _, h3⟩ := Res.bind_eq_ok h1
    simp only [Res.ok.injEq] at h3
    subst h3
    exact nextPermutation_shape h0
  · obtain ⟨r0, h0, h1⟩ := Res.bind_eq_ok hr
    obtain ⟨m, _, h3⟩ := Res.bind_eq_ok h1
    simp only [Res.ok.injEq] at h3
    subst h3
    exact nextPermutation_shape h0
  · simp only [Res.ok.injEq] at hr
    subst hr
    exact SameShape.reflShape _

theorem searchLayers_shape (b : Block) (p : Nat) :
    ∀ (k i : Nat) (s : Search) (metricsLeft : ℚ) (current : Nat) (r : Search × ℚ × Nat),
      searchLayers b p k i s metricsLeft current = .ok r → SameShape s.h r.1.h
  | 0, i, s, metricsLeft, current, r, hr => by
    simp only [searchLayers, Res.ok.injEq] at hr
    subst hr
    exact SameShape.reflShape _
  | k + 1, i, s, metricsLeft, current, r, hr => by
    rw [searchLayers] at hr
    split_ifs at hr with hpos
    · obtain ⟨r0, h0, h1⟩ := Res.bind_eq_ok hr
      exact SameShape.transShape (searchLayer_shape h0)
        (searchLayers_shape b p k (i + 1) _ _ _ r h1)
    · simp only [Res.ok.injEq] at hr
      subst hr
      exact SameShape.reflShape _

theorem searchLoop_shape (b : Block) :
    ∀ (fuel : Nat) (s : Search) (p permsExecuted : Nat) (r : Search × Nat),
      searchLoop b fuel s p permsExecuted = .ok r → SameShape s.h r.1.h
  | 0, s, p, pe, r, hr => by
    rw [searchLoop] at hr
    cases hr
  | fuel + 1, s, p, pe, r, hr => by
    rw [searchLoop] at hr
    split_ifs at hr with hc
    · obtain ⟨r0, h0, h1⟩ := Res.bind_eq_ok hr
      have hs0 := searchLayers_shape b p _ 0 s _ 1 r0 h0
      split_ifs at h1 with hpos hbest
      · simp only [Res.ok.injEq] at h1
        subst h1
        exact hs0
      · have h2 := searchLoop_shape b fuel _ _ _ r h1
        exact SameShape.transShape hs0 h2
      · have h2 := searchLoop_shape b fuel _ _ _ r h1
        exact SameShape.transShape hs0 h2
    · simp only [Res.ok.injEq] at hr
      subst hr
      exact SameShape.reflShape _

theorem writeBackLayer_shape :
    ∀ (ns : List Nat) (vs : List (Option ℚ)) (h : Heap), SameShape h (writeBackLayer ns vs h)
  | [], _, h => SameShape.reflShape h
  | n :: ns, [], h => by
    rw [writeBackLayer]
    exact SameShape.transShape ⟨rfl, rfl, rfl, rfl⟩ (writeBackLayer_shape ns [] _)
  | n :: ns, v :: vs, h => by
    rw [writeBackLayer]
    exact SameShape.transShape ⟨rfl, rfl, rfl, rfl⟩ (writeBackLayer_shape ns vs _)

theorem writeBack_shape :
    ∀ (layers : List (List Nat)) (best : List (List (Option ℚ))) (h : Heap),
      SameShape h (writeBack layers best h)
  | [], _, h => SameShape.reflShape h
  | nodeLayer :: rest, [], h => by
    rw [writeBack]
    exact SameShape.transShape (writeBackLayer_shape nodeLayer [] h) (writeBack_shape rest [] _)
  | nodeLayer :: rest, b :: bests, h => by
    rw [writeBack]
    exact SameShape.transShape (writeBackLayer_shape nodeLayer b h) (writeBack_shape rest bests _)

theorem assignOrth_shape (width : Nat) :
    ∀ (layer : List Nat) (idx : Nat) (h : Heap), SameShape h (assignOrth width layer idx h)
  | [], _, h => SameShape.reflShape h
  | item :: rest, idx, h => by
    rw [assignOrth]
    exact SameShape.transShape ⟨rfl, rfl, rfl, rfl⟩ (assignOrth_shape width rest (idx + 1) _)

theorem findInitStep_heap {metricsMethod : String} {usedNodes : List (List Nat)}
    {usedEdges : List (List (Nat × Nat))} {permsLayer permWidthsLayer : List Nat} {start : Nat}
    {symmetry : Bool} {s r : Search × Nat × List Nat} {i : Nat}
    (hr : findInitStep metricsMethod usedNodes usedEdges permsLayer permWidthsLayer start symmetry
      s i = .ok r) : r.1.h = s.1.h := by
  unfold findInitStep at hr
  obtain ⟨um, _, h1⟩ := Res.bind_eq_ok hr
  split at h1
  · cases h1
  · simp only [Res.ok.injEq] at h1
    subst h1
    rfl

theorem findInit_heap (metricsMethod : String) (usedNodes : List (List Nat))
    (usedEdges : List (List (Nat × Nat))) (permsLayer permWidthsLayer : List Nat) (start : Nat)
    (symmetry : Bool) :
    ∀ (l : List Nat) (s r : Search × Nat × List Nat),
      Res.foldl (findInitStep metricsMethod usedNodes usedEdges permsLayer permWidthsLayer start
        symmetry) s l = .ok r → r.1.h = s.1.h
  | [], s, r, hr => by
    simp only [Res.foldl, Res.ok.injEq] at hr
    subst hr
    rfl
  | a :: rest, s, r, hr => by
    rw [Res.foldl] at hr
    obtain ⟨s1, h1, h2⟩ := Res.bind_eq_ok hr
    exact (findInit_heap metricsMethod usedNodes usedEdges permsLayer permWidthsLayer start
      symmetry rest s1 r h2).trans (findInitStep_heap h1)

theorem Res.ok_bind {α β : Type} (a : α) (f : α → Res β) : (Res.ok a).bind f = f a := rfl

/-- A call of `findBestPermutation` that returns has changed ordinals only. -/
theorem findBestPermutation_shape {fuel : Nat} {h : Heap} {nodes : List (List Nat)}
    {edges : List (List (Nat × Nat))} {metrics : List ℚ} {permsLayer permWidthsLayer : List Nat}
    {start end_ : Nat} {symmetry : Bool} {thresholdEvaluate : Int} {metricsMethod : String}
    {r : Heap × List ℚ × Nat}
    (hr : findBestPermutation fuel h nodes edges metrics permsLayer permWidthsLayer start end_
      symmetry thresholdEvaluate metricsMethod = .ok r) : SameShape h r.1 := by
  unfold findBestPermutation at hr
  split_ifs at hr with hskip hneg
  · simp only [Res.ok.injEq] at hr
    subst hr
    exact SameShape.reflShape h
  · simp only at hr
    obtain ⟨r0, h0, h1⟩ := Res.bind_eq_ok hr
    have hh : r0.1.h = h := findInit_heap _ _ _ _ _ _ _ _ _ _ h0
    split_ifs at h1 with hbest
    · simp only [Res.ok.injEq] at h1
      subst h1
      exact SameShape.reflShape h
    · obtain ⟨t, h2, h3⟩ := Res.bind_eq_ok h1
      simp only [Res.ok.injEq] at h3
      subst h3
      have := searchLoop_shape _ _ _ _ _ _ h2
      rw [hh] at this
      exact SameShape.transShape this (writeBack_shape _ _ _)

/-- A run of the search loop that has returned or thrown does the same with
more fuel. -/
theorem searchLoop_mono (b : Block) :
    ∀ (fuel : Nat) (s : Search) (p permsExecuted : Nat) (r : Res (Search × Nat)),
      searchLoop b fuel s p permsExecuted = r → r ≠ .timeout →
      ∀ fuel', fuel ≤ fuel' → searchLoop b fuel' s p permsExecuted = r := by
  intro fuel
  induction fuel with
  | zero =>
    intro s p pe r hr hne
    rw [searchLoop] at hr
    exact absurd hr.symm hne
  | succ k ih =>
    intro s p pe r hr hne fuel' hle
    obtain ⟨k', rfl⟩ : ∃ k', fuel' = k' + 1 := ⟨fuel' - 1, by omega⟩
    rw [searchLoop] at hr ⊢
    split_ifs at hr ⊢ with hc
    · cases hsl : searchLayers b p b.calculatedLayers 0 s s.bestMetrics 1 with
      | throw m => rw [hsl] at hr; exact hr
      | timeout => rw [hsl] at hr; exact hr
      | ok r0 =>
        rw [hsl] at hr
        simp only [Res.bind] at hr ⊢
        split_ifs at hr ⊢ with hpos hbest
        · exact hr
        · exact ih _ _ _ _ hr hne k' (by omega)
        · exact ih _ _ _ _ hr hne k' (by omega)
    · exact hr

theorem findBestPermutation_mono (fuel fuel' : Nat) (hle : fuel ≤ fuel') (h : Heap)
    (nodes : List (List Nat)) (edges : List (List (Nat × Nat))) (metrics : List ℚ)
    (permsLayer permWidthsLayer : List Nat) (start end_ : Nat) (symmetry : Bool)
    (thresholdEvaluate : Int) (metricsMethod : String)
    (hne : findBestPermutation fuel h nodes edges metrics permsLayer permWidthsLayer start end_
      symmetry thresholdEvaluate metricsMethod ≠ .timeout) :
    findBestPermutation fuel' h nodes edges metrics permsLayer permWidthsLayer start end_
      symmetry thresholdEvaluate metricsMethod =
    findBestPermutation fuel h nodes edges metrics permsLayer permWidthsLayer start end_
      symmetry thresholdEvaluate metricsMethod := by
  unfold findBestPermutation at hne ⊢
  split_ifs at hne ⊢ with hskip hneg
  · rfl
  · rfl
  · simp only at hne ⊢
    cases hinit : Res.foldl
        (findInitStep metricsMethod (jsSlice nodes start end_)
          (jsSlice edges ((start : Int) - 1) ((end_ : Int) - 1)) permsLayer permWidthsLayer start
          symmetry)
        ({ h := h, metrics := metrics, usedMetrics := [], permState := [], permShift := [],
           bestResult := [], bestMetrics := 0 }, 1, []) (List.range (end_ - start)) with
    | throw m => rfl
    | timeout => rfl
    | ok r0 =>
      rw [hinit] at hne
      simp only [Res.ok_bind] at hne ⊢
      split_ifs at hne ⊢ with hbest
      · rfl
      · congr 1
        refine searchLoop_mono _ fuel r0.1 1 1 _ rfl (fun e => hne ?_) fuel' hle
        rw [e]
        rfl

/-- For a block whose entries of `permsLayer` are at least 1 and
`thresholdEvaluate ≥ 1`, `findBestPermutation` settles, and it changes
ordinals only. -/
theorem findBestPermutation_settles (h : Heap) (nodes : List (List Nat))
    (edges : List (List (Nat × Nat))) (metrics : List ℚ) (permsLayer permWidthsLayer : List Nat)
    (start end_ : Nat) (symmetry : Bool) (thresholdEvaluate : Int) (metricsMethod : String)
    (hte : 1 ≤ thresholdEvaluate)
    (hperms : ∀ l, start ≤ l → l < end_ → 1 ≤ permsLayer.getD l 0) :
    SettlesWith (fun fuel => findBestPermutation fuel h nodes edges metrics permsLayer
      permWidthsLayer start end_ symmetry thresholdEvaluate metricsMethod)
      (fun r => SameShape h r.1) := by
  have hne := (findBestPermutation_count (blockPerms permsLayer start end_) h nodes edges metrics
    permsLayer permWidthsLayer start end_ symmetry thresholdEvaluate metricsMethod hte hperms
    (le_refl _)).1
  refine ⟨blockPerms permsLayer start end_, _, hne, fun fuel hfuel =>
    findBestPermutation_mono _ fuel hfuel h nodes edges metrics permsLayer permWidthsLayer start
      end_ symmetry thresholdEvaluate metricsMethod hne, fun r hr => findBestPermutation_shape hr⟩

/-- The body of the loop of `layout` over the layers settles and changes
ordinals only. -/
theorem layoutLayer_settles (layeredEdges : List (List (Nat × Nat)))
    (permsLayer permWidthsLayer : List Nat) (maxLength : Nat) (thresholdEvaluate : Int)
    (metrics : String) (s : Sweep) (i : Nat) (hte : 1 ≤ thresholdEvaluate)
    (hperms : ∀ l, l < maxLength → 1 ≤ permsLayer.getD l 0) (hi : i < maxLength) :
    SettlesWith (fun fuel => layoutLayer fuel layeredEdges permsLayer permWidthsLayer maxLength
      thresholdEvaluate metrics s i) (fun s' => SameShape s.h s'.h) := by
  have hassign := assignOrth_shape
    (sortBy (predecessorAverageSort s.h) (s.layeredNodes.getD i [])).length
    (sortBy (predecessorAverageSort s.h) (s.layeredNodes.getD i [])) 0 s.h
  unfold layoutLayer
  simp only []
  split_ifs with h0 h1
  all_goals first
    | exact SettlesWith.settlesConst _ _ (by simp) (fun a ha => by
        simp only [Res.ok.injEq] at ha
        subst ha
        exact hassign)
    | (refine SettlesWith.settlesBind
        (findBestPermutation_settles _ _ _ _ _ _ _ _ _ _ _ hte
          (fun l _ hl => hperms l (by omega))) (fun r hr => ?_)
       refine SettlesWith.settlesBind (P := fun s1 : Sweep => SameShape s.h s1.h) ?_
        (fun s1 hs1 => SettlesWith.settlesConst _ _ (by simp) (fun a ha => by
          simp only [Res.ok.injEq] at ha
          subst ha
          exact hs1))
       split_ifs
       all_goals first
         | exact SettlesWith.settlesConst _ _ (by simp) (fun a ha => by
             simp only [Res.ok.injEq] at ha
             subst ha
             exact SameShape.transShape hassign hr)
         | (refine SettlesWith.settlesBind
             (findBestPermutation_settles _ _ _ _ _ _ _ _ _ _ _ hte
               (fun l hl1 hl2 => hperms l (by omega))) (fun r2 hr2 => ?_)
            exact SettlesWith.settlesConst _ _ (by simp) (fun a ha => by
              simp only [Res.ok.injEq] at ha
              subst ha
              exact SameShape.transShape hassign (SameShape.transShape hr hr2))))

/-- The loop of `layout` over the layers of a group settles and changes
ordinals only. -/
theorem layoutSweep_settles (layeredEdges : List (List (Nat × Nat)))
    (permsLayer permWidthsLayer : List Nat) (maxLength : Nat) (thresholdEvaluate : Int)
    (metrics : String) (s : Sweep) (hte : 1 ≤ thresholdEvaluate)
    (hperms : ∀ l, l < maxLength → 1 ≤ permsLayer.getD l 0) :
    SettlesWith (fun fuel => Res.foldl (layoutLayer fuel layeredEdges permsLayer permWidthsLayer
      maxLength thresholdEvaluate metrics) s (List.range maxLength))
      (fun s' => SameShape s.h s'.h) :=
  SettlesWith.settlesFoldl (fun s' => SameShape s.h s'.h) _ _ s (SameShape.reflShape _)
    (fun t i ht hi => (layoutLayer_settles layeredEdges permsLayer permWidthsLayer maxLength
      thresholdEvaluate metrics t i hte hperms (List.mem_range.mp hi)).settlesWeaken
      (fun _ hs' => SameShape.transShape ht hs'))

/-! ## The merge loop settles -/

theorem layersSize_set (v : List Nat) :
    ∀ (a : List (List Nat)) (j : Nat), j < a.length →
      layersSize (a.set j v) + (a.getD j []).length = layersSize a + v.length
  | [], j, hj => by simp at hj
  | x :: rest, 0, _ => by
    simp only [List.set_cons_zero, layersSize, List.map_cons, List.sum_cons, List.getD_cons_zero]
    omega
  | x :: rest, j + 1, hj => by
    have ih := layersSize_set v rest j (by simpa using hj)
    simp only [List.set_cons_succ, layersSize, List.map_cons, List.sum_cons,
      List.getD_cons_succ] at ih ⊢
    omega

theorem layerSearch_group (relProp : Nat → List Nat) (pre : Bool) (vn : List Nat) (r : Mergable)
    (h : vn.findSome? (fun node =>
      if (vn.filter (fun otherNode =>
          decide (otherNode ≠ node) && nodeRelEquals (relProp node) (relProp otherNode))).length > 0
      then some (Mergable.mk node (vn.filter (fun otherNode =>
          decide (otherNode ≠ node) && nodeRelEquals (relProp node) (relProp otherNode))) pre)
      else none) = some r) : r.group ≠ [] := by
  obtain ⟨node, hn, hr⟩ := List.exists_of_findSome?_eq_some h
  split_ifs at hr with hc
  simp only [Option.some.injEq] at hr
  subst hr
  exact List.ne_nil_of_length_pos hc

/-- The group that a successful search returns is not empty. -/
theorem getNextMergable_group (h : Heap) (layeredNodes : List (List Nat)) (pre : Bool)
    (r : Mergable) (hr : getNextMergableVirtualNodeGroup h layeredNodes pre = some r) :
    r.group ≠ [] := by
  unfold getNextMergableVirtualNodeGroup at hr
  simp only at hr
  obtain ⟨i, _, hsome⟩ := List.exists_of_findSome?_eq_some hr
  exact layerSearch_group _ _ _ _ hsome

theorem layerAt_some {α : Type} {a : List (List α)} {i : Option Int} {layer : List α}
    (h : layerAt a i = .ok layer) :
    ∃ k : Int, i = some k ∧ 0 ≤ k ∧ k.toNat < a.length ∧ layer = a.getD k.toNat [] := by
  unfold layerAt at h
  cases i with
  | none => cases h
  | some k =>
    simp only at h
    split_ifs at h with hc
    simp only [Res.ok.injEq] at h
    exact ⟨k, rfl, hc.1, hc.2, h.symm⟩

/-- What one run of the body of the merge loop does to `layeredNodes` and to
the shape of the heap. -/
theorem mergeReplaced_nodes {node : Nat} {flow : Option Int} {pre : Bool} {s s' : Heap × Layers}
    {replacedNode : Nat} (hr : mergeReplaced node flow pre s replacedNode = .ok s') :
    SameShape s.1 s'.1 ∧ s'.1.flow = s.1.flow ∧
      ∃ k : Int, flow = some k ∧ 0 ≤ k ∧ k.toNat < s.2.layeredNodes.length ∧
        s'.2.layeredNodes = s.2.layeredNodes.set k.toNat
          ((s.2.layeredNodes.getD k.toNat []).filter (fun item => decide (item ≠ replacedNode))) := by
  unfold mergeReplaced at hr
  simp only at hr
  obtain ⟨nodeLayer, h1, h2⟩ := Res.bind_eq_ok hr
  obtain ⟨k, hk, h0, hlen, hlayer⟩ := layerAt_some h1
  obtain ⟨newEdges, _, h3⟩ := Res.bind_eq_ok h2
  obtain ⟨edgesIn, _, h4⟩ := Res.bind_eq_ok h3
  obtain ⟨edgesOut, _, h5⟩ := Res.bind_eq_ok h4
  subst hk
  subst hlayer
  split_ifs at h5 with hpre
  · obtain ⟨e, _, h6⟩ := Res.bind_eq_ok h5
    simp only [Res.ok.injEq] at h6
    subst h6
    exact ⟨⟨rfl, rfl, rfl, rfl⟩, rfl, k, rfl, h0, hlen, rfl⟩
  · obtain ⟨e, _, h6⟩ := Res.bind_eq_ok h5
    simp only [Res.ok.injEq] at h6
    subst h6
    exact ⟨⟨rfl, rfl, rfl, rfl⟩, rfl, k, rfl, h0, hlen, rfl⟩

theorem mergeReplaced_size {node : Nat} {flow : Option Int} {pre : Bool} {s s' : Heap × Layers}
    {replacedNode : Nat} (hr : mergeReplaced node flow pre s replacedNode = .ok s') :
    layersSize s'.2.layeredNodes ≤ layersSize s.2.layeredNodes ∧
      ∀ k : Int, flow = some k → replacedNode ∈ s.2.layeredNodes.getD k.toNat [] →
        layersSize s'.2.layeredNodes < layersSize s.2.layeredNodes := by
  obtain ⟨_, _, k, hk, h0, hlen, hnodes⟩ := mergeReplaced_nodes hr
  have hsz := layersSize_set
    ((s.2.layeredNodes.getD k.toNat []).filter (fun item => decide (item ≠ replacedNode)))
    s.2.layeredNodes k.toNat hlen
  rw [← hnodes] at hsz
  have hle := List.length_filter_le (fun item => decide (item ≠ replacedNode))
    (s.2.layeredNodes.getD k.toNat [])
  refine ⟨by omega, fun k' hk' hmem => ?_⟩
  rw [hk] at hk'
  simp only [Option.some.injEq] at hk'
  subst hk'
  have hlt : ((s.2.layeredNodes.getD k.toNat []).filter
      (fun item => decide (item ≠ replacedNode))).length
      < (s.2.layeredNodes.getD k.toNat []).length := by
    apply List.length_filter_lt_length_iff_exists.mpr
    exact ⟨replacedNode, hmem, by simp⟩
  omega

theorem mergeFold_size (node : Nat) (flow : Option Int) (pre : Bool) :
    ∀ (group : List Nat) (s s' : Heap × Layers),
      Res.foldl (mergeReplaced node flow pre) s group = .ok s' →
      SameShape s.1 s'.1 ∧ layersSize s'.2.layeredNodes ≤ layersSize s.2.layeredNodes
  | [], s, s', hr => by
    simp only [Res.foldl, Res.ok.injEq] at hr
    subst hr
    exact ⟨SameShape.reflShape _, le_refl _⟩
  | y :: rest, s, s', hr => by
    rw [Res.foldl] at hr
    obtain ⟨s1, h1, h2⟩ := Res.bind_eq_ok hr
    obtain ⟨hs, hle⟩ := mergeFold_size node flow pre rest s1 s' h2
    exact ⟨SameShape.transShape (mergeReplaced_nodes h1).1 hs,
      le_trans hle (mergeReplaced_size h1).1⟩

/-- A call of `mergeNextVirtualNodeGroup` that returns keeps the shape of the
heap, and when it does not return `false`, `layeredNodes` has lost a node. -/
theorem mergeNext_size (l : Nat) (h : Heap) (ls : Layers) (mergeVirtualNodes : String)
    (hrk : Ranked l h ls) (h' : Heap) (ls' : Layers) (r : Option String)
    (hr : mergeNextVirtualNodeGroup h ls mergeVirtualNodes = .ok (h', ls', r)) :
    SameShape h h' ∧
      (r = none ∨ layersSize ls'.layeredNodes < layersSize ls.layeredNodes) := by
  have key : ∀ (pre : Bool) (m : Mergable),
      getNextMergableVirtualNodeGroup h ls.layeredNodes pre = some m →
      ((Res.foldl (mergeReplaced m.node (h.flow m.node) m.pre) (h, ls) m.group).bind fun s =>
        Res.ok (s.1, s.2, some mergeVirtualNodes)) = .ok (h', ls', r) →
      SameShape h h' ∧
        (r = none ∨ layersSize ls'.layeredNodes < layersSize ls.layeredNodes) := by
    intro pre m hm hrun
    obtain ⟨s, hs, hres⟩ := Res.bind_eq_ok hrun
    simp only [Res.ok.injEq, Prod.mk.injEq] at hres
    obtain ⟨rfl, rfl, _⟩ := hres
    obtain ⟨i, _, _, hnode, _, hgroup, _⟩ := getNextMergable_some _ _ _ _ hm
    have hne := getNextMergable_group _ _ _ _ hm
    obtain ⟨y, rest, hyr⟩ := List.exists_cons_of_ne_nil hne
    rw [hyr, Res.foldl] at hs
    obtain ⟨s1, h1, h2⟩ := Res.bind_eq_ok hs
    obtain ⟨hsh, hle⟩ := mergeFold_size _ _ _ rest s1 s h2
    have hflow := (hrk.nodes _ _ hnode).1
    have hy := (hgroup y (by rw [hyr]; exact List.mem_cons_self _ _)).1
    have hlt := (mergeReplaced_size h1).2
      ((if pre then i else ls.layeredNodes.length - i - 1 : Nat) : Int) hflow
      (by rw [Int.toNat_ofNat]; exact hy)
    exact ⟨SameShape.transShape (mergeReplaced_nodes h1).1 hsh, Or.inr (by
      have : layersSize s1.2.layeredNodes < layersSize ls.layeredNodes := hlt
      omega)⟩
  unfold mergeNextVirtualNodeGroup at hr
  cases h1 : getNextMergableVirtualNodeGroup h ls.layeredNodes
      (decide ("start" = mergeVirtualNodes)) with
  | some m =>
    rw [h1] at hr
    exact key _ m h1 hr
  | none =>
    rw [h1] at hr
    cases h2 : getNextMergableVirtualNodeGroup h ls.layeredNodes
        (decide ("end" = mergeVirtualNodes)) with
    | some m =>
      rw [h2] at hr
      exact key _ m h2 hr
    | none =>
      rw [h2] at hr
      simp only [Res.ok.injEq, Prod.mk.injEq] at hr
      obtain ⟨rfl, rfl, rfl⟩ := hr
      exact ⟨SameShape.reflShape _, Or.inl rfl⟩

theorem mergeLoop_ok (l : Nat) :
    ∀ (n : Nat) (h : Heap) (ls : Layers) (mergeVirtualNodes : Option String),
      layersSize ls.layeredNodes ≤ n → Ranked l h ls → VirtualInside l h ls →
      ∃ res, (∀ fuel, n + 2 ≤ fuel → mergeLoop fuel h ls mergeVirtualNodes = .ok res) ∧
        SameShape h res.1 := by
  intro n
  induction n with
  | zero =>
    intro h ls mv hsz hrk hvi
    cases mv with
    | none =>
      refine ⟨(h, ls, none), fun fuel hfuel => ?_, SameShape.reflShape _⟩
      obtain ⟨k, rfl⟩ : ∃ k, fuel = k + 1 := ⟨fuel - 1, by omega⟩
      rfl
    | some m =>
      by_cases ht : truthy (some m) = true
      · obtain ⟨h', ls', r, hrun, hrk', hvi'⟩ := mergeNext_ranked l h ls m hrk hvi
        obtain ⟨hsh, hcase⟩ := mergeNext_size l h ls m hrk h' ls' r hrun
        rcases hcase with rfl | hlt
        · refine ⟨(h', ls', none), fun fuel hfuel => ?_, hsh⟩
          obtain ⟨k, rfl⟩ : ∃ k, fuel = k + 2 := ⟨fuel - 2, by omega⟩
          rw [mergeLoop]
          simp only [ht, if_true, hrun, Res.ok_bind]
          rfl
        · omega
      · refine ⟨(h, ls, some m), fun fuel hfuel => ?_, SameShape.reflShape _⟩
        obtain ⟨k, rfl⟩ : ∃ k, fuel = k + 1 := ⟨fuel - 1, by omega⟩
        rw [mergeLoop]
        simp only [ht]
        rfl
  | succ n ih =>
    intro h ls mv hsz hrk hvi
    cases mv with
    | none =>
      refine ⟨(h, ls, none), fun fuel hfuel => ?_, SameShape.reflShape _⟩
      obtain ⟨k, rfl⟩ : ∃ k, fuel = k + 1 := ⟨fuel - 1, by omega⟩
      rfl
    | some m =>
      by_cases ht : truthy (some m) = true
      · obtain ⟨h', ls', r, hrun, hrk', hvi'⟩ := mergeNext_ranked l h ls m hrk hvi
        obtain ⟨hsh, hcase⟩ := mergeNext_size l h ls m hrk h' ls' r hrun
        rcases hcase with rfl | hlt
        · refine ⟨(h', ls', none), fun fuel hfuel => ?_, hsh⟩
          obtain ⟨k, rfl⟩ : ∃ k, fuel = k + 2 := ⟨fuel - 2, by omega⟩
          rw [mergeLoop]
          simp only [ht, if_true, hrun, Res.ok_bind]
          rfl
        · obtain ⟨res, hres, hsh2⟩ := ih h' ls' r (by omega) hrk' hvi'
          refine ⟨res, fun fuel hfuel => ?_, SameShape.transShape hsh hsh2⟩
          obtain ⟨k, rfl⟩ : ∃ k, fuel = k + 1 := ⟨fuel - 1, by omega⟩
          rw [mergeLoop]
          simp only [ht, if_true, hrun, Res.ok_bind]
          exact hres k (by omega)
      · refine ⟨(h, ls, some m), fun fuel hfuel => ?_, SameShape.reflShape _⟩
        obtain ⟨k, rfl⟩ : ∃ k, fuel = k + 1 := ⟨fuel - 1, by omega⟩
        rw [mergeLoop]
        simp only [ht]
        rfl

/-- On ranked layers whose virtual nodes lie inside, the merge loop returns
once the fuel exceeds the number of nodes of the layers, and it keeps the
shape of the heap. -/
theorem mergeLoop_settles (l : Nat) (h : Heap) (ls : Layers) (mergeVirtualNodes : Option String)
    (hrk : Ranked l h ls) (hvi : VirtualInside l h ls) :
    SettlesWith (fun fuel => mergeLoop fuel h ls mergeVirtualNodes)
      (fun r => SameShape h r.1) := by
  obtain ⟨res, hres, hsh⟩ := mergeLoop_ok l _ h ls mergeVirtualNodes (le_refl _) hrk hvi
  exact SettlesWith.settlesOfOk _ res hres hsh

/-! ## The stages of a group keep the adjacency of the real nodes -/

theorem Res.foldl_inv {σ α : Type} (f : σ → α → Res σ) (I : σ → Prop)
    (hstep : ∀ s a s', I s → f s a = .ok s' → I s') :
    ∀ (l : List α) (s s' : σ), I s → Res.foldl f s l = .ok s' → I s'
  | [], s, s', hs, hr => by
    simp only [Res.foldl, Res.ok.injEq] at hr
    exact hr ▸ hs
  | a :: rest, s, s', hs, hr => by
    rw [Res.foldl] at hr
    obtain ⟨s1, h1, h2⟩ := Res.bind_eq_ok hr
    exact Res.foldl_inv f I hstep rest s1 s' (hstep s a s1 hs h1) h2

theorem allocIntermediate_frame {h0 h : Heap}
    (hE : ∀ x, h0.size ≤ x → h0.successors x = [] ∧ h0.predecessors x = [])
    (hf : LayoutFrame h0 h) (i : Int) (node successor : Nat) :
    LayoutFrame h0 (allocIntermediate h i node successor).1 where
  size := by
    show h0.size ≤ h.size + 1
    have := hf.size
    omega
  virtual := fun x hx => by
    show upd h.virtual h.size _ x = _
    rw [upd_ne _ _ (by have := hf.size; omega)]
    exact hf.virtual x hx
  predecessors := by
    show upd h.predecessors h.size [] = _
    rw [← hf.predecessors]
    funext x
    by_cases hx : x = h.size
    · subst hx
      rw [upd_same, hf.predecessors, (hE _ hf.size).2]
    · rw [upd_ne _ _ hx]
  successors := by
    show upd h.successors h.size [] = _
    rw [← hf.successors]
    funext x
    by_cases hx : x = h.size
    · subst hx
      rw [upd_same, hf.successors, (hE _ hf.size).1]
    · rw [upd_ne _ _ hx]

theorem addVirtualChain_frame {h0 : Heap}
    (hE : ∀ x, h0.size ≤ x → h0.successors x = [] ∧ h0.predecessors x = []) :
    ∀ (count : Nat) (i : Int) (node successor predecessor : Nat) (h : Heap) (ls : Layers)
      (r : Heap × Layers × Nat), LayoutFrame h0 h →
      addVirtualChain count i node successor predecessor h ls = .ok r → LayoutFrame h0 r.1
  | 0, i, node, successor, predecessor, h, ls, r, hf, hr => by
    simp only [addVirtualChain, Res.ok.injEq] at hr
    subst hr
    exact hf
  | count + 1, i, node, successor, predecessor, h, ls, r, hf, hr => by
    rw [addVirtualChain] at hr
    obtain ⟨ln, _, h2⟩ := Res.bind_eq_ok hr
    obtain ⟨le, _, h3⟩ := Res.bind_eq_ok h2
    exact addVirtualChain_frame hE count (i + 1) node successor _ _ _ r
      (allocIntermediate_frame hE hf i node successor) h3

theorem addVirtualEdge_frame {h0 : Heap}
    (hE : ∀ x, h0.size ≤ x → h0.successors x = [] ∧ h0.predecessors x = [])
    (node : Nat) (nodeFlow : Int) (s s' : Heap × Layers) (successor : Nat)
    (hf : LayoutFrame h0 s.1) (hr : addVirtualEdge node nodeFlow s successor = .ok s') :
    LayoutFrame h0 s'.1 := by
  unfold addVirtualEdge at hr
  obtain ⟨r, h1, h2⟩ := Res.bind_eq_ok hr
  obtain ⟨le, _, h3⟩ := Res.bind_eq_ok h2
  simp only [Res.ok.injEq] at h3
  subst h3
  exact addVirtualChain_frame hE _ _ _ _ _ _ _ r hf h1

theorem addVirtualNode_frame {h0 : Heap}
    (hE : ∀ x, h0.size ≤ x → h0.successors x = [] ∧ h0.predecessors x = [])
    (s s' : Heap × Layers) (node : Nat)
    (hf : LayoutFrame h0 s.1) (hr : addVirtualNode s node = .ok s') :
    LayoutFrame h0 s'.1 := by
  unfold addVirtualNode at hr
  obtain ⟨ln, _, h2⟩ := Res.bind_eq_ok hr
  split at h2
  · cases h2
  · exact Res.foldl_inv _ (fun t => LayoutFrame h0 t.1)
      (fun t a t' ht hta => addVirtualEdge_frame hE _ _ t t' a ht hta) _ _ _ hf h2

/-- The call `addVirtualNodes(nodes, maxLength)` keeps the adjacency lists:
the new objects have none. -/
theorem addVirtualNodes_frame {h0 : Heap}
    (hE : ∀ x, h0.size ≤ x → h0.successors x = [] ∧ h0.predecessors x = [])
    (h : Heap) (nodes : List Nat) (maxLength : Nat) (r : Heap × Layers)
    (hf : LayoutFrame h0 h) (hr : addVirtualNodes h nodes maxLength = .ok r) :
    LayoutFrame h0 r.1 := by
  unfold addVirtualNodes at hr
  split_ifs at hr with h0'
  exact Res.foldl_inv _ (fun t => LayoutFrame h0 t.1)
    (fun t a t' ht hta => addVirtualNode_frame hE t t' a ht hta) _ _ _ hf hr

theorem LayoutFrame.ofFlowFrame {h0 h h' : Heap} (hf : LayoutFrame h0 h) (hff : FlowFrame h h') :
    LayoutFrame h0 h' :=
  hf.ofShape ⟨hff.size, hff.virtual, hff.predecessors, hff.successors⟩

/-! ## The loop of `layout` over the groups settles -/

theorem AcyclicGroup.ofAdjacency {h0 h : Heap} {group : List Nat} (hg : AcyclicGroup h0 group)
    (hs : h.successors = h0.successors) (hp : h.predecessors = h0.predecessors) :
    AcyclicGroup h group where
  nodup := hg.nodup
  sym := by
    intro a b
    rw [hs, hp]
    exact hg.sym a b
  acyclic := by
    have he : h.edge = h0.edge := by
      funext a b
      unfold Heap.edge
      rw [hs]
    intro n
    rw [he]
    exact hg.acyclic n
  closedPred := by
    intro n hn p hpn
    rw [hp] at hpn
    exact hg.closedPred n hn p hpn
  closedSucc := by
    intro n hn s hsn
    rw [hs] at hsn
    exact hg.closedSucc n hn s hsn

theorem permsLayer_pos (widths : List Nat) (thresholdLayer : Int) (htl : 1 ≤ thresholdLayer)
    (l : Nat) (hl : l < widths.length) :
    1 ≤ (widths.map (fun width => (factorialLimited width thresholdLayer.toNat).1)).getD l 0 := by
  rw [List.getD_eq_getElem?_getD, List.getElem?_map, List.getElem?_eq_getElem hl]
  exact (factorialLimited_fst_bounds _ _ (by omega)).1

/-- The body of the loop of `layout` over the groups settles on an acyclic group
of real nodes, and keeps the adjacency of the real nodes. -/
theorem layoutGroup_settles (h0 : Heap)
    (hE : ∀ x, h0.size ≤ x → h0.successors x = [] ∧ h0.predecessors x = [])
    (alignNodes metrics : String) (thresholdEvaluate thresholdLayer : Int)
    (hal : alignNodes ∈ alignNodeValues) (hte : 1 ≤ thresholdEvaluate) (htl : 1 ≤ thresholdLayer)
    (s : GroupState) (gn : Nat × List Nat) (hf : LayoutFrame h0 s.h)
    (hg : AcyclicGroup h0 gn.2) (hne : gn.2 ≠ []) (hb : ∀ n ∈ gn.2, n < h0.size)
    (hreal : ∀ n ∈ gn.2, h0.virtual n = false) :
    SettlesWith (fun fuel => layoutGroup fuel alignNodes metrics thresholdEvaluate thresholdLayer
      s gn) (fun s' => LayoutFrame h0 s'.h) := by
  have hg' : AcyclicGroup s.h gn.2 := hg.ofAdjacency hf.successors hf.predecessors
  obtain ⟨l, h1, hrun1, hrg⟩ := calculateFlow_rankedGroup hg' hne alignNodes hal
    (fun n hn => lt_of_lt_of_le (hb n hn) hf.size)
    (fun n hn => by rw [hf.virtual n (hb n hn)]; exact hreal n hn)
  obtain ⟨l', h1', _, _, hrun1', _, _, hframe, _⟩ := calculateFlow_ranks hg' hne alignNodes hal
  have heq := (hrun1 _ (Nat.lt_succ_self _)).symm.trans (hrun1' _ (Nat.lt_succ_self _))
  simp only [Res.ok.injEq, Prod.mk.injEq] at heq
  obtain ⟨rfl, rfl⟩ := heq
  have hf1 : LayoutFrame h0 h1 := hf.ofFlowFrame hframe
  obtain ⟨h2, ls, hrun2, hrk, hvi⟩ := addVirtualNodes_inside h1 gn.2 l hrg hne
  have hf2 : LayoutFrame h0 h2 := addVirtualNodes_frame hE h1 gn.2 l (h2, ls) hf1 hrun2
  unfold layoutGroup
  simp only []
  refine SettlesWith.settlesBind (P := fun a => a = (h1, l))
    (SettlesWith.settlesOfOk (gn.2.length + 1) (h1, l) (fun fuel hfuel => hrun1 fuel (by omega)) rfl)
    (fun a ha => ?_)
  subst ha
  simp only [hrun2, Res.ok_bind]
  refine SettlesWith.settlesBind (mergeLoop_settles l h2 ls _ hrk hvi) (fun a ha => ?_)
  obtain ⟨h3, ls3, mv⟩ := a
  simp only []
  have hf3 : LayoutFrame h0 h3 := hf2.ofShape ha
  refine SettlesWith.settlesBind (layoutSweep_settles _ _ _ l thresholdEvaluate metrics _ hte
    (fun i hi => permsLayer_pos _ thresholdLayer htl i (by simpa using hi))) (fun sw hsw => ?_)
  exact SettlesWith.settlesConst _ _ (by simp) (fun a ha => by
    simp only [Res.ok.injEq] at ha
    subst ha
    exact hf3.ofShape hsw)

theorem mem_indexed {α : Type} (l : List α) (gn : Nat × α) (h : gn ∈ indexed l) : gn.2 ∈ l := by
  unfold indexed at h
  exact (List.of_mem_zip h).2

/-- After `removeCycles` and `groupNodes` on a graph built by `addNode`,
`addEdge` and `removeEdge`, the rest of `layout` settles: the part of `layout`
after the call of `validate` returns or throws the same for every budget from
some bound on, and when it returns, `groupCount` is the number of groups that
`groupNodes` has returned. -/
theorem Graph.layoutCompute_settles (ops : List Op) (d : Derived) (alignNodes metrics : String)
    (thresholdEvaluate thresholdLayer : Int) (mergeVirtualNodes : Option String)
    (hal : alignNodes ∈ alignNodeValues) (hte : 1 ≤ thresholdEvaluate) (htl : 1 ≤ thresholdLayer)
    (h1 : Heap) (cyclicEdges : List (Nat × Nat)) (bound1 : Nat)
    (hrun1 : ∀ fuel, bound1 ≤ fuel →
      removeCycles fuel (Graph.build ops).heap (Graph.build ops).values = .ok (h1, cyclicEdges))
    (inv1 : RemoveCyclesInv (Graph.build ops).heap (Graph.build ops).values h1 [] cyclicEdges)
    (h2 : Heap) (groups : List (List Nat)) (gi : Nat → Option Nat) (bound2 : Nat)
    (hh2 : h2 = { h1 with groupIndex := gi })
    (hrun2 : ∀ fuel, bound2 ≤ fuel → groupNodes fuel h1 (Graph.build ops).values = .ok (h2, groups))
    (ginv : GroupInv h1 (Graph.build ops).values gi [] groups.length groups) :
    SettlesWith (fun fuel => (Graph.build ops).layoutCompute fuel d alignNodes metrics
      thresholdEvaluate thresholdLayer mergeVirtualNodes)
      (fun r => r.2.groupCount = groups.length) := by
  have hf := Fresh.build ops
  have hsize : h2.size = (Graph.build ops).heap.size := by rw [hh2]; exact inv1.frame.size
  have hE : ∀ x, h2.size ≤ x → h2.successors x = [] ∧ h2.predecessors x = [] := by
    intro x hx
    rw [hsize] at hx
    subst hh2
    constructor
    · apply List.eq_nil_iff_forall_not_mem.mpr
      intro b hb
      have := hf.bound x (inv1.closed x b hb).1
      omega
    · apply List.eq_nil_iff_forall_not_mem.mpr
      intro a ha
      have hs : x ∈ h1.successors a := (inv1.sym a x).mpr ha
      have := hf.bound x (inv1.closed a x hs).2
      omega
  unfold Graph.layoutCompute
  simp only []
  refine SettlesWith.settlesBind (P := fun a => a = (h1, cyclicEdges))
    (SettlesWith.settlesOfOk bound1 _ hrun1 rfl) (fun a ha => ?_)
  subst ha
  simp only []
  refine SettlesWith.settlesBind (P := fun a => a = (h2, groups))
    (SettlesWith.settlesOfOk bound2 _ hrun2 rfl) (fun a ha => ?_)
  subst ha
  simp only []
  refine SettlesWith.settlesBind (P := fun _ => True) ?_ (fun s _ =>
    SettlesWith.settlesConst _ _ (by simp) (fun a ha => by
      simp only [Res.ok.injEq] at ha
      subst ha
      rfl))
  refine (SettlesWith.settlesFoldl (fun s : GroupState => LayoutFrame h2 s.h) _ _ _
    ⟨le_refl _, fun _ _ => rfl, rfl, rfl⟩ (fun s gn hs hgn => ?_)).settlesWeaken (fun _ _ => trivial)
  have hgroup := mem_indexed _ gn hgn
  have hag : AcyclicGroup h2 gn.2 := by
    rw [hh2]
    exact ginv.acyclicGroup inv1.sym inv1.closed inv1.acyclic hgroup
  refine layoutGroup_settles h2 hE alignNodes metrics thresholdEvaluate thresholdLayer hal hte htl
    s gn hs hag (ginv.nonempty _ hgroup) (fun n hn => ?_) (fun n hn => ?_)
  · rw [hsize]
    exact hf.bound n (ginv.sub _ hgroup n hn)
  · rw [hh2]
    show h1.virtual n = false
    rw [inv1.frame.virtual]
    exact hf.virtual n

/-- The call `layout(options)` without `previous` on a graph built by
`addNode`, `addEdge` and `removeEdge` settles: it returns or throws the same
for every budget from some bound on, and when it returns, `groupCount` is
the number of groups that `groupNodes` has returned. -/
theorem Graph.layout_settles (ops : List Op) (d : Derived) (o : Options)
    (h1 : Heap) (cyclicEdges : List (Nat × Nat)) (bound1 : Nat)
    (hrun1 : ∀ fuel, bound1 ≤ fuel →
      removeCycles fuel (Graph.build ops).heap (Graph.build ops).values = .ok (h1, cyclicEdges))
    (inv1 : RemoveCyclesInv (Graph.build ops).heap (Graph.build ops).values h1 [] cyclicEdges)
    (h2 : Heap) (groups : List (List Nat)) (gi : Nat → Option Nat) (bound2 : Nat)
    (hh2 : h2 = { h1 with groupIndex := gi })
    (hrun2 : ∀ fuel, bound2 ≤ fuel → groupNodes fuel h1 (Graph.build ops).values = .ok (h2, groups))
    (ginv : GroupInv h1 (Graph.build ops).values gi [] groups.length groups) :
    SettlesWith (fun fuel => (Graph.build ops).layout fuel d none o)
      (fun r => r.1.2.groupCount = groups.length) := by
  cases hv : validate o.thresholdEvaluate o.thresholdLayer o.alignNodes o.metrics with
  | timeout => exact absurd hv (validate_ne_timeout _ _ _ _)
  | throw msg =>
    refine (SettlesWith.settlesConst (.throw msg) _ (by simp) (fun a ha => by cases ha)).settlesCongr
      (fun fuel => ?_)
    unfold Graph.layout
    simp only [Option.map_none', Graph.equals, hv]
    rfl
  | ok u =>
    obtain ⟨te, tl, hte, htl, h1te, h1tl, _, _, hal, _⟩ := (validate_ok_iff _ _ _ _).mp hv
    have hc := Graph.layoutCompute_settles ops d o.alignNodes o.metrics te tl o.mergeVirtualNodes
      hal h1te h1tl h1 cyclicEdges bound1 hrun1 inv1 h2 groups gi bound2 hh2 hrun2 ginv
    have hb := SettlesWith.settlesBind (Q := fun r : (Graph × Derived) × Option (Graph × Derived) =>
        r.1.2.groupCount = groups.length) hc
      (fun t ht => SettlesWith.settlesConst (.ok (t, none)) _ (by simp) (fun a ha => by
        simp only [Res.ok.injEq] at ha
        subst ha
        exact ht))
    refine hb.settlesCongr (fun fuel => ?_)
    unfold Graph.layout
    rw [hte, htl] at hv
    simp only [Option.map_none', Graph.equals, hte, htl, hv, Res.ok_bind]

/-! ## With `thresholdLayer = 1` the call of `layout` returns -/

theorem ReturnsWith.returnsCongr {α : Type} {f g : Nat → Res α} {P : α → Prop}
    (hf : ReturnsWith f P) (hfg : ∀ fuel, g fuel = f fuel) : ReturnsWith g P := by
  obtain ⟨bound, a, hrun, hp⟩ := hf
  exact ⟨bound, a, fun fuel hfuel => (hfg fuel).trans (hrun fuel hfuel), hp⟩

theorem ReturnsWith.returnsWeaken {α : Type} {f : Nat → Res α} {P Q : α → Prop}
    (hf : ReturnsWith f P) (hpq : ∀ a, P a → Q a) : ReturnsWith f Q := by
  obtain ⟨bound, a, hrun, hp⟩ := hf
  exact ⟨bound, a, hrun, hpq a hp⟩

theorem ReturnsWith.returnsBind {α β : Type} {f : Nat → Res α} {g : α → Nat → Res β}
    {P : α → Prop} {Q : β → Prop} (hf : ReturnsWith f P)
    (hg : ∀ a, P a → ReturnsWith (g a) Q) :
    ReturnsWith (fun fuel => (f fuel).bind fun a => g a fuel) Q := by
  obtain ⟨bound, a, hrun, hp⟩ := hf
  obtain ⟨bound2, b, hrun2, hq⟩ := hg a hp
  refine ⟨max bound bound2, b, fun fuel hfuel => ?_, hq⟩
  simp only [hrun fuel (le_trans (le_max_left _ _) hfuel), Res.ok_bind]
  exact hrun2 fuel (le_trans (le_max_right _ _) hfuel)

theorem ReturnsWith.returnsFoldl {σ α : Type} (I : σ → Prop) (step : Nat → σ → α → Res σ) :
    ∀ (l : List α) (s : σ), I s →
      (∀ s a, I s → a ∈ l → ReturnsWith (fun fuel => step fuel s a) I) →
      ReturnsWith (fun fuel => Res.foldl (step fuel) s l) I
  | [], s, hs, _ => ⟨0, s, fun _ _ => rfl, hs⟩
  | a :: rest, s, hs, hstep => by
    have h1 := hstep s a hs (List.mem_cons_self _ _)
    have h2 := ReturnsWith.returnsBind h1 (fun s' hs' =>
      ReturnsWith.returnsFoldl I step rest s' hs'
        (fun t b ht hb => hstep t b ht (List.mem_cons_of_mem _ hb)))
    exact h2.returnsCongr (fun fuel => rfl)

/-- A computation that settles and returns settles with a return. -/
theorem SettlesWith.settlesReturns {α : Type} {f : Nat → Res α} {Q : α → Prop}
    {bound : Nat} {r : Res α} (hrun : ∀ fuel, bound ≤ fuel → f fuel = r)
    (hret : ReturnsWith f Q) : ∃ a, r = .ok a := by
  obtain ⟨bound2, a, hrun2, _⟩ := hret
  exact ⟨a, (hrun _ (le_max_left bound bound2)).symm.trans (hrun2 _ (le_max_right bound bound2))⟩

theorem permsLayer_one (widths : List Nat) (l : Nat) (hl : l < widths.length) :
    (widths.map (fun width => (factorialLimited width (1 : Int).toNat).1)).getD l 0 = 1 := by
  rw [List.getD_eq_getElem?_getD, List.getElem?_map, List.getElem?_eq_getElem hl]
  have h := factorialLimited_fst_bounds widths[l] 1 (le_refl _)
  have h2 := (le_min_iff.mp h.2).2
  show (factorialLimited widths[l] 1).1 = 1
  omega

theorem layoutLayer_one (layeredEdges : List (List (Nat × Nat)))
    (permsLayer permWidthsLayer : List Nat) (maxLength : Nat) (thresholdEvaluate : Int)
    (metrics : String) (s : Sweep) (i : Nat) (hp : permsLayer.getD i 0 = 1) :
    ∃ s', (∀ fuel, layoutLayer fuel layeredEdges permsLayer permWidthsLayer maxLength
      thresholdEvaluate metrics s i = .ok s') ∧ SameShape s.h s'.h := by
  refine ⟨{ s with
      h := assignOrth (sortBy (predecessorAverageSort s.h) (s.layeredNodes.getD i [])).length
        (sortBy (predecessorAverageSort s.h) (s.layeredNodes.getD i [])) 0 s.h
      layeredNodes := s.layeredNodes.set i
        (sortBy (predecessorAverageSort s.h) (s.layeredNodes.getD i []))
      start := i + 1, symmetry := true, permutations := 1 / 2 }, fun fuel => ?_,
    assignOrth_shape
      (sortBy (predecessorAverageSort s.h) (s.layeredNodes.getD i [])).length
      (sortBy (predecessorAverageSort s.h) (s.layeredNodes.getD i [])) 0 s.h⟩
  unfold layoutLayer
  simp only []
  rw [if_pos hp]

theorem layoutSweep_one (layeredEdges : List (List (Nat × Nat)))
    (permsLayer permWidthsLayer : List Nat) (maxLength : Nat) (thresholdEvaluate : Int)
    (metrics : String) :
    ∀ (is : List Nat) (s : Sweep), (∀ i ∈ is, permsLayer.getD i 0 = 1) →
      ∃ s', (∀ fuel, Res.foldl (layoutLayer fuel layeredEdges permsLayer permWidthsLayer
        maxLength thresholdEvaluate metrics) s is = .ok s') ∧ SameShape s.h s'.h
  | [], s, _ => ⟨s, fun _ => rfl, SameShape.reflShape _⟩
  | i :: rest, s, hp => by
    obtain ⟨s1, h1, hs1⟩ := layoutLayer_one layeredEdges permsLayer permWidthsLayer maxLength
      thresholdEvaluate metrics s i (hp i (List.mem_cons_self _ _))
    obtain ⟨s2, h2, hs2⟩ := layoutSweep_one layeredEdges permsLayer permWidthsLayer maxLength
      thresholdEvaluate metrics rest s1 (fun j hj => hp j (List.mem_cons_of_mem _ hj))
    refine ⟨s2, fun fuel => ?_, SameShape.transShape hs1 hs2⟩
    rw [Res.foldl, h1 fuel]
    exact h2 fuel

/-- With `thresholdLayer = 1` the body of the loop of `layout` over the groups
returns on an acyclic group of real nodes. -/
theorem layoutGroup_returns (h0 : Heap)
    (hE : ∀ x, h0.size ≤ x → h0.successors x = [] ∧ h0.predecessors x = [])
    (alignNodes metrics : String) (thresholdEvaluate : Int)
    (hal : alignNodes ∈ alignNodeValues)
    (s : GroupState) (gn : Nat × List Nat) (hf : LayoutFrame h0 s.h)
    (hg : AcyclicGroup h0 gn.2) (hne : gn.2 ≠ []) (hb : ∀ n ∈ gn.2, n < h0.size)
    (hreal : ∀ n ∈ gn.2, h0.virtual n = false) :
    ReturnsWith (fun fuel => layoutGroup fuel alignNodes metrics thresholdEvaluate 1 s gn)
      (fun s' => LayoutFrame h0 s'.h) := by
  have hg' : AcyclicGroup s.h gn.2 := hg.ofAdjacency hf.successors hf.predecessors
  obtain ⟨l, h1, hrun1, hrg⟩ := calculateFlow_rankedGroup hg' hne alignNodes hal
    (fun n hn => lt_of_lt_of_le (hb n hn) hf.size)
    (fun n hn => by rw [hf.virtual n (hb n hn)]; exact hreal n hn)
  obtain ⟨l', h1', _, _, hrun1', _, _, hframe, _⟩ := calculateFlow_ranks hg' hne alignNodes hal
  have heq := (hrun1 _ (Nat.lt_succ_self _)).symm.trans (hrun1' _ (Nat.lt_succ_self _))
  simp only [Res.ok.injEq, Prod.mk.injEq] at heq
  obtain ⟨rfl, rfl⟩ := heq
  have hf1 : LayoutFrame h0 h1 := hf.ofFlowFrame hframe
  obtain ⟨h2, ls, hrun2, hrk, hvi⟩ := addVirtualNodes_inside h1 gn.2 l hrg hne
  have hf2 : LayoutFrame h0 h2 := addVirtualNodes_frame hE h1 gn.2 l (h2, ls) hf1 hrun2
  obtain ⟨res, hrun3, hsh3⟩ := mergeLoop_ok l _ h2 ls s.mergeVirtualNodes (le_refl _) hrk hvi
  unfold layoutGroup
  simp only []
  refine ReturnsWith.returnsBind (P := fun a => a = (h1, l))
    ⟨gn.2.length + 1, (h1, l), fun fuel hfuel => hrun1 fuel (by omega), rfl⟩ (fun a ha => ?_)
  subst ha
  simp only [hrun2, Res.ok_bind]
  refine ReturnsWith.returnsBind (P := fun a => a = res) ⟨_, res, hrun3, rfl⟩ (fun a ha => ?_)
  subst ha
  obtain ⟨h3, ls3, mv⟩ := a
  simp only []
  have hf3 : LayoutFrame h0 h3 := hf2.ofShape hsh3
  obtain ⟨sw, hrun4, hsh4⟩ := layoutSweep_one ls3.layeredEdges
    (((List.range l).map (fun i => (ls3.layeredNodes.getD i []).length)).map
      (fun width => (factorialLimited width (1 : Int).toNat).1))
    (((List.range l).map (fun i => (ls3.layeredNodes.getD i []).length)).map
      (fun width => (factorialLimited width (1 : Int).toNat).2))
    l thresholdEvaluate metrics (List.range l)
    { h := h3, layeredNodes := ls3.layeredNodes, layeredMetrics := List.replicate l 0,
      start := 0, symmetry := true, permutations := 1 / 2 }
    (fun i hi => permsLayer_one _ i (by simpa using hi))
  refine ReturnsWith.returnsBind (P := fun a => a = sw) ⟨0, sw, fun fuel _ => hrun4 fuel, rfl⟩
    (fun a ha => ?_)
  subst ha
  exact ⟨0, _, fun _ _ => rfl, hf3.ofShape hsh4⟩

/-- With `thresholdLayer = 1` the part of `layout` after the call of
`validate` returns. -/
theorem Graph.layoutCompute_returns (ops : List Op) (d : Derived) (alignNodes metrics : String)
    (thresholdEvaluate : Int) (mergeVirtualNodes : Option String)
    (hal : alignNodes ∈ alignNodeValues)
    (h1 : Heap) (cyclicEdges : List (Nat × Nat)) (bound1 : Nat)
    (hrun1 : ∀ fuel, bound1 ≤ fuel →
      removeCycles fuel (Graph.build ops).heap (Graph.build ops).values = .ok (h1, cyclicEdges))
    (inv1 : RemoveCyclesInv (Graph.build ops).heap (Graph.build ops).values h1 [] cyclicEdges)
    (h2 : Heap) (groups : List (List Nat)) (gi : Nat → Option Nat) (bound2 : Nat)
    (hh2 : h2 = { h1 with groupIndex := gi })
    (hrun2 : ∀ fuel, bound2 ≤ fuel → groupNodes fuel h1 (Graph.build ops).values = .ok (h2, groups))
    (ginv : GroupInv h1 (Graph.build ops).values gi [] groups.length groups) :
    ReturnsWith (fun fuel => (Graph.build ops).layoutCompute fuel d alignNodes metrics
      thresholdEvaluate 1 mergeVirtualNodes) (fun _ => True) := by
  have hf := Fresh.build ops
  have hsize : h2.size = (Graph.build ops).heap.size := by rw [hh2]; exact inv1.frame.size
  have hE : ∀ x, h2.size ≤ x → h2.successors x = [] ∧ h2.predecessors x = [] := by
    intro x hx
    rw [hsize] at hx
    subst hh2
    constructor
    · apply List.eq_nil_iff_forall_not_mem.mpr
      intro b hb
      have := hf.bound x (inv1.closed x b hb).1
      omega
    · apply List.eq_nil_iff_forall_not_mem.mpr
      intro a ha
      have hs : x ∈ h1.successors a := (inv1.sym a x).mpr ha
      have := hf.bound x (inv1.closed a x hs).2
      omega
  unfold Graph.layoutCompute
  simp only []
  refine ReturnsWith.returnsBind (P := fun a => a = (h1, cyclicEdges))
    ⟨bound1, _, hrun1, rfl⟩ (fun a ha => ?_)
  subst ha
  simp only []
  refine ReturnsWith.returnsBind (P := fun a => a = (h2, groups))
    ⟨bound2, _, hrun2, rfl⟩ (fun a ha => ?_)
  subst ha
  simp only []
  refine ReturnsWith.returnsBind (P := fun _ => True) ?_ (fun s _ => ⟨0, _, fun _ _ => rfl, trivial⟩)
  refine (ReturnsWith.returnsFoldl (fun s : GroupState => LayoutFrame h2 s.h) _ _ _
    ⟨le_refl _, fun _ _ => rfl, rfl, rfl⟩ (fun s gn hs hgn => ?_)).returnsWeaken (fun _ _ => trivial)
  have hgroup := mem_indexed _ gn hgn
  have hag : AcyclicGroup h2 gn.2 := by
    rw [hh2]
    exact ginv.acyclicGroup inv1.sym inv1.closed inv1.acyclic hgroup
  refine layoutGroup_returns h2 hE alignNodes metrics thresholdEvaluate hal
    s gn hs hag (ginv.nonempty _ hgroup) (fun n hn => ?_) (fun n hn => ?_)
  · rw [hsize]
    exact hf.bound n (ginv.sub _ hgroup n hn)
  · rw [hh2]
    show h1.virtual n = false
    rw [inv1.frame.virtual]
    exact hf.virtual n

/-- With options that `validate` accepts and `thresholdLayer = 1`, the call
`layout(options)` without `previous` on a graph built by `addNode`, `addEdge`
and `removeEdge` returns. -/
theorem Graph.layout_returns (ops : List Op) (d : Derived) (o : Options)
    (hv : validate o.thresholdEvaluate o.thresholdLayer o.alignNodes o.metrics = .ok ())
    (htl : o.thresholdLayer = some 1)
    (h1 : Heap) (cyclicEdges : List (Nat × Nat)) (bound1 : Nat)
    (hrun1 : ∀ fuel, bound1 ≤ fuel →
      removeCycles fuel (Graph.build ops).heap (Graph.build ops).values = .ok (h1, cyclicEdges))
    (inv1 : RemoveCyclesInv (Graph.build ops).heap (Graph.build ops).values h1 [] cyclicEdges)
    (h2 : Heap) (groups : List (List Nat)) (gi : Nat → Option Nat) (bound2 : Nat)
    (hh2 : h2 = { h1 with groupIndex := gi })
    (hrun2 : ∀ fuel, bound2 ≤ fuel → groupNodes fuel h1 (Graph.build ops).values = .ok (h2, groups))
    (ginv : GroupInv h1 (Graph.build ops).values gi [] groups.length groups) :
    ReturnsWith (fun fuel => (Graph.build ops).layout fuel d none o) (fun _ => True) := by
  obtain ⟨te, tl, hte, htl', _, _, _, _, hal, _⟩ := (validate_ok_iff _ _ _ _).mp hv
  rw [htl] at htl'
  simp only [Option.some.injEq] at htl'
  subst htl'
  have hc := Graph.layoutCompute_returns ops d o.alignNodes o.metrics te o.mergeVirtualNodes
    hal h1 cyclicEdges bound1 hrun1 inv1 h2 groups gi bound2 hh2 hrun2 ginv
  have hb := ReturnsWith.returnsBind (Q := fun _ : (Graph × Derived) × Option (Graph × Derived) => True)
    hc (fun t _ => ⟨0, (t, none), fun _ _ => rfl, trivial⟩)
  refine hb.returnsCongr (fun fuel => ?_)
  unfold Graph.layout
  rw [hte, htl] at hv
  simp only [Option.map_none', Graph.equals, hte, htl, hv, Res.ok_bind]

/-- C3, amended: for a graph built by `addNode`, `addEdge` and `removeEdge`
and every options object, with enough fuel `removeCycles` returns a heap `h1`
whose successor lists are the original ones without the returned cyclic
edges, and the call `layout(options)` without `previous` ends: from the bound
on it gives one outcome `res`, which is a return or an exception, never an
exhausted budget. When it is a return, `groupCount` is the number of
weakly-connected components of the graph with the adjacency of `h1`, the
graph after cycle removal. It is the exception of `validate` when `validate`
rejects the options, and it is a return when `validate` accepts them and
`thresholdLayer` is 1, for which no layer is permuted. -/
theorem groupCount_components (ops : List Op) (o : Options) :
    ∃ (bound : Nat) (h1 : Heap) (cyclicEdges : List (Nat × Nat)) (count : Nat),
      (∀ fuel, bound ≤ fuel →
        removeCycles fuel (Graph.build ops).heap (Graph.build ops).values =
          .ok (h1, cyclicEdges)) ∧
      (∀ a, h1.successors a = ((Graph.build ops).heap.successors a).filter
        (fun b => decide ((a, b) ∉ cyclicEdges))) ∧
      ComponentCount h1 (Graph.build ops).values count ∧
      ∃ res : Res ((Graph × Derived) × Option (Graph × Derived)),
        res ≠ .timeout ∧
        (∀ fuel, bound ≤ fuel →
          (Graph.build ops).layout fuel Derived.empty none o = res) ∧
        (∀ r, res = .ok r → r.1.2.groupCount = count) ∧
        (∀ msg, validate o.thresholdEvaluate o.thresholdLayer o.alignNodes o.metrics =
          .throw msg → res = .throw msg) ∧
        (validate o.thresholdEvaluate o.thresholdLayer o.alignNodes o.metrics = .ok () →
          o.thresholdLayer = some 1 → ∃ r, res = .ok r) := by
  have hf := Fresh.build ops
  obtain ⟨h1, ce, hrun1, inv1⟩ := removeCycles_ok hf.nodup hf.sym hf.closed
  have hgi : ∀ n ∈ (Graph.build ops).values, h1.groupIndex n = none := by
    intro n _
    rw [inv1.frame.groupIndex]
    exact hf.groupIndex n
  obtain ⟨bound2, gi', groups, hrun2, ginv⟩ := groupNodes_ok inv1.sym inv1.closed hgi
  have hrep := ginv.representatives inv1.sym inv1.closed
  obtain ⟨bound3, res, hres, hrun3, hpost⟩ := Graph.layout_settles ops Derived.empty o h1 ce
    ((Graph.build ops).values.length +
      edgeCount (Graph.build ops).heap (Graph.build ops).values + 1)
    (fun fuel hfuel => hrun1 fuel (by omega)) inv1 _ groups gi' bound2 rfl hrun2 ginv
  refine ⟨max ((Graph.build ops).values.length +
      edgeCount (Graph.build ops).heap (Graph.build ops).values + 1) bound3, h1, ce,
    groups.length, ?_, inv1.succ_eq, ⟨⟨_, hrep, by simp⟩, ?_⟩, res, hres, ?_, hpost, ?_, ?_⟩
  · intro fuel hfuel
    exact hrun1 fuel (by omega)
  · intro reps hreps
    have h1' := Representatives.length_le inv1.sym hreps hrep
    have h2' := Representatives.length_le inv1.sym hrep hreps
    simp only [List.length_map] at h1' h2'
    omega
  · intro fuel hfuel
    exact hrun3 fuel (le_trans (le_max_right _ _) hfuel)
  · intro msg hv
    rw [← hrun3 bound3 (le_refl _)]
    unfold Graph.layout
    simp only [Option.map_none', Graph.equals, hv]
    rfl
  · intro hv htl
    exact SettlesWith.settlesReturns hrun3
      (Graph.layout_returns ops Derived.empty o hv htl h1 ce
        ((Graph.build ops).values.length +
          edgeCount (Graph.build ops).heap (Graph.build ops).values + 1)
        (fun fuel hfuel => hrun1 fuel (by omega)) inv1 _ groups gi' bound2 rfl hrun2 ginv)

end DagLayout
